import Mathlib

/-!
# BTC Chart Terminal: trade lifecycle and SMC zone detection

A shallow embedding of `src/lib/logic/smc.js` (and of the trade helpers of
`legacy/js/helpers.js`).

Modelling conventions.

* JavaScript numbers that carry prices, volumes and R-multiples are exact
  rationals `ℚ`; bar times are integers (seconds); bar indices are naturals.
  Rounding of binary floating point is not modelled.  Where the source can
  divide by zero and the quotient steers control flow, the non-finite result is
  represented explicitly (`AbsQuot`).
* A JavaScript array of bars is a `List Bar`; `nth candles i` reads `candles[i]`.
* Objects mutated in place (`trade`, `zone`) become values that are returned.
* A thrown `TypeError` is `Except.error`; a `null` result is `none`.
* Template-string identifiers such as `fvg-l-${i}` are kept as the pair of
  their fixed text and the interpolated index (`ZoneId`).
-/

namespace BtcTerminal

/-! ## Data model -/

deriving instance DecidableEq for Except

/-- One OHLCV price bar, as read by `smc.js` (`open_` is the field `open`;
a missing or zero `volume` is `0`, both being falsy in the source). -/
structure Bar where
  time : Int
  open_ : ℚ
  high : ℚ
  low : ℚ
  close : ℚ
  volume : ℚ
deriving DecidableEq

instance : Inhabited Bar := ⟨⟨0, 0, 0, 0, 0, 0⟩⟩

/-- The element `candles[i]` (every read of the source is in range, see
`analyzeSMC`; out of range the default bar stands in). -/
def nth (candles : List Bar) (i : Nat) : Bar := candles.getD i default

/-- The `type` of a zone: `'BULL'` or `'BEAR'`. -/
inductive ZoneType where
  | BULL
  | BEAR
deriving DecidableEq

/-- The `label` of a zone: `'FVG'` or `'OB'`. -/
inductive ZoneLabel where
  | FVG
  | OB
deriving DecidableEq

/-- The `status` of a zone. -/
inductive ZoneStatus where
  | ACTIVE
  | MITIGATED
deriving DecidableEq

/-- The fixed text of a zone identifier: `fvg-l`, `fvg-s`, `ob-l`, `ob-s`. -/
inductive ZoneTag where
  | fvgL
  | fvgS
  | obL
  | obS
deriving DecidableEq

/-- A zone identifier, the template string `${tag}-${index}` of the source. -/
structure ZoneId where
  tag : ZoneTag
  index : Nat
deriving DecidableEq

/-- The JavaScript value of `Math.abs(a / b)`: a finite rational when
`b` is not zero, `Infinity` for a non-zero numerator over zero, `NaN` for
`0 / 0`. -/
inductive AbsQuot where
  | fin (q : ℚ)
  | inf
  | nan
deriving DecidableEq

/-- A zone record built by `analyzeSMC`.  `quality` always equals `score` in
the source and `color` is a constant per label; `gapSize` and `impulsePercent`
exist on FVG zones only, `volume`, `hasBOS` and `size` on OB zones only. -/
structure Zone where
  id : ZoneId
  label : ZoneLabel
  type : ZoneType
  top : ℚ
  bottom : ℚ
  time : Int
  endTime : Option Int
  status : ZoneStatus
  score : Nat
  gapSize : Option ℚ
  impulsePercent : Option AbsQuot
  volume : Option ℚ
  hasBOS : Option Bool
  size : Option ℚ
deriving DecidableEq

/-- The `type` of a trade: `'LONG'`, anything else is treated as a short. -/
inductive TradeType where
  | LONG
  | SHORT
deriving DecidableEq

/-- The `status` of a trade. -/
inductive TradeStatus where
  | PENDING
  | OPEN
  | WIN
  | LOSS
  | BE
  | CANCELLED
deriving DecidableEq

/-- A trade record.  `id` is the index `idx` of `smc-${idx}` (the legacy
helper stores the bare index); `time` is absent (`none`) on legacy trades;
`entryTime`, `exitTime`, `savedFVG` and `savedOB` are properties that are
absent until assigned. -/
structure Trade where
  id : Nat
  type : TradeType
  status : TradeStatus
  entry : ℚ
  sl : ℚ
  tp : ℚ
  signalTime : Int
  time : Option Int
  pnlValue : ℚ
  pnlPercent : ℚ
  pnl : ℚ
  entryTime : Option Int
  exitTime : Option Int
  savedFVG : Option Zone
  savedOB : Option Zone
deriving DecidableEq

/-! ## Trade lifecycle (`processTradeLifecycle`, `createTrade`) -/

/-- The body of the `PENDING` branch of the scan for one bar
(smc.js lines 39-54). -/
def pendingStep (trade : Trade) (bar : Bar) : Trade :=
  match trade.type with
  | .LONG =>
    if bar.low ≤ trade.entry then
      { trade with status := .OPEN, entryTime := some bar.time }
    else if bar.low ≤ trade.sl then
      { trade with status := .CANCELLED }
    else trade
  | .SHORT =>
    if bar.high ≥ trade.entry then
      { trade with status := .OPEN, entryTime := some bar.time }
    else if bar.high ≥ trade.sl then
      { trade with status := .CANCELLED }
    else trade

/-- The body of the `OPEN` branch of the scan for one bar (smc.js lines
55-87); the flag is `true` when the branch executes `break`. -/
def openStep (trade : Trade) (bar : Bar) (riskReward : ℚ) : Trade × Bool :=
  match trade.type with
  | .LONG =>
    if bar.low ≤ trade.sl then
      ({ trade with status := .LOSS, exitTime := some bar.time, pnl := -1, pnlPercent := -1 }, true)
    else if bar.high ≥ trade.tp then
      ({ trade with status := .WIN, exitTime := some bar.time, pnl := riskReward,
                    pnlPercent := riskReward }, true)
    else (trade, false)
  | .SHORT =>
    if bar.high ≥ trade.sl then
      ({ trade with status := .LOSS, exitTime := some bar.time, pnl := -1, pnlPercent := -1 }, true)
    else if bar.low ≤ trade.tp then
      ({ trade with status := .WIN, exitTime := some bar.time, pnl := riskReward,
                    pnlPercent := riskReward }, true)
    else (trade, false)

/-- One iteration of the `for` loop of `processTradeLifecycle`: the trade
after the bar, and whether the loop breaks. -/
def lifecycleStep (trade : Trade) (bar : Bar) (riskReward : ℚ) : Trade × Bool :=
  if trade.status = .PENDING then (pendingStep trade bar, false)
  else if trade.status = .OPEN then openStep trade bar riskReward
  else (trade, false)

/-- The `for` loop of `processTradeLifecycle` over the bars it visits, in
order, stopping at the first `break`. -/
def lifecycleLoop (riskReward : ℚ) : Trade → List Bar → Trade
  | trade, [] => trade
  | trade, bar :: rest =>
    match lifecycleStep trade bar riskReward with
    | (t, true) => t
    | (t, false) => lifecycleLoop riskReward t rest

/-- The unrealized R-multiple of smc.js lines 92-97, as an exact rational
quotient (for `entry = sl` the JavaScript quotient is not a finite number and
lies outside this model). -/
def rMultiple (trade : Trade) (lastPrice : ℚ) : ℚ :=
  match trade.type with
  | .LONG => (lastPrice - trade.entry) / (trade.entry - trade.sl)
  | .SHORT => (trade.entry - lastPrice) / (trade.sl - trade.entry)

/-- The function `processTradeLifecycle(trade, idx, candles, riskReward)` of
smc.js: the scan of bars `idx+1 .. length-1`, then the mark-to-market of a
trade that is still `OPEN`.  Reading `.close` of the last element of an empty
array throws. -/
def processTradeLifecycle (trade : Trade) (idx : Nat) (candles : List Bar) (riskReward : ℚ) :
    Except String Trade :=
  let t := lifecycleLoop riskReward trade (candles.drop (idx + 1))
  if t.status = .OPEN then
    match candles.getLast? with
    | none => .error "TypeError"
    | some last =>
      let r := rMultiple t last.close
      .ok { t with pnl := r, pnlPercent := r }
  else .ok t

/-- The record literal at the top of `createTrade` (smc.js lines 11-24) with
the take-profit assignment of lines 26-30 applied. -/
def newTrade (idx : Nat) (type : TradeType) (entry sl : ℚ) (time : Int) (riskReward : ℚ) :
    Trade :=
  { id := idx, type := type, status := .PENDING, entry := entry, sl := sl,
    tp := (match type with
      | .LONG => entry + ((entry - sl) * riskReward)
      | .SHORT => entry - ((entry - sl) * riskReward)),
    signalTime := time, time := some time, pnlValue := 0, pnlPercent := 0, pnl := 0,
    entryTime := none, exitTime := none, savedFVG := none, savedOB := none }

/-- The function `createTrade(idx, type, entry, sl, time, candles, riskReward)`
of smc.js (the default `riskReward = 2` is supplied by the caller here):
`none` is the `null` returned for a cancelled trade. -/
def createTrade (idx : Nat) (type : TradeType) (entry sl : ℚ) (time : Int)
    (candles : List Bar) (riskReward : ℚ) : Except String (Option Trade) :=
  match processTradeLifecycle (newTrade idx type entry sl time riskReward) idx candles
      riskReward with
  | .error e => .error e
  | .ok trade => .ok (if trade.status ≠ .CANCELLED then some trade else none)

/-! ### The legacy helpers (`legacy/js/helpers.js`) -/

namespace Legacy

/-- The legacy `processTradeLifecycle(trade, idx, candles)`: statement for
statement the loop and mark-to-market of the refactored function, with the
global `APP.riskReward` where the refactored one has its parameter. -/
def processTradeLifecycle (appRiskReward : ℚ) (trade : Trade) (idx : Nat)
    (candles : List Bar) : Except String Trade :=
  let t := lifecycleLoop appRiskReward trade (candles.drop (idx + 1))
  if t.status = .OPEN then
    match candles.getLast? with
    | none => .error "TypeError"
    | some last =>
      let r := rMultiple t last.close
      .ok { t with pnl := r, pnlPercent := r }
  else .ok t

/-- The record literal and take-profit assignment of the legacy `createTrade`
(helpers.js lines 20-34). -/
def newTrade (appRiskReward : ℚ) (idx : Nat) (type : TradeType) (entry sl : ℚ) (time : Int) :
    Trade :=
  { id := idx, type := type, status := .PENDING, entry := entry, sl := sl,
    tp := (match type with
      | .LONG => entry + ((entry - sl) * appRiskReward)
      | .SHORT => entry - ((sl - entry) * appRiskReward)),
    signalTime := time, time := none, pnlValue := 0, pnlPercent := 0, pnl := 0,
    entryTime := none, exitTime := none, savedFVG := none, savedOB := none }

/-- The legacy `createTrade(idx, type, entry, sl, time, candles)`. -/
def createTrade (appRiskReward : ℚ) (idx : Nat) (type : TradeType) (entry sl : ℚ) (time : Int)
    (candles : List Bar) : Except String (Option Trade) :=
  match processTradeLifecycle appRiskReward (newTrade appRiskReward idx type entry sl time) idx
      candles with
  | .error e => .error e
  | .ok trade => .ok (if trade.status ≠ .CANCELLED then some trade else none)

end Legacy

/-! ## Zone detection (`analyzeSMC`) -/

/-- The value of `Math.abs(a / b)`. -/
def absQuot (a b : ℚ) : AbsQuot :=
  if b ≠ 0 then .fin |a / b| else if a ≠ 0 then .inf else .nan

/-- The comparison `x < c` on a JavaScript quotient (false on `NaN`). -/
def AbsQuot.lt (x : AbsQuot) (c : ℚ) : Bool :=
  match x with
  | .fin q => decide (q < c)
  | .inf => false
  | .nan => false

/-- The comparison `x > c` on a JavaScript quotient (false on `NaN`). -/
def AbsQuot.gt (x : AbsQuot) (c : ℚ) : Bool :=
  match x with
  | .fin q => decide (q > c)
  | .inf => true
  | .nan => false

/-- The `config` argument of `analyzeSMC`; an absent property is `none`. -/
structure Config where
  sensitivity : Option ℚ
  historyTarget : Option Nat
  riskReward : Option ℚ
  keepTrades : Bool

/-- The JavaScript `x || d` on an optional number: `d` when `x` is absent
or zero. -/
def orElse (x : Option ℚ) (d : ℚ) : ℚ :=
  match x with
  | some v => if v = 0 then d else v
  | none => d

/-- The local `sens = config.sensitivity || 0.0001`. -/
def sensOf (config : Config) : ℚ := orElse config.sensitivity 0.0001

/-- The local `historyTarget = config.historyTarget || 30000`. -/
def historyTargetOf (config : Config) : Nat :=
  match config.historyTarget with
  | some v => if v = 0 then 30000 else v
  | none => 30000

/-- The local `riskReward = config.riskReward || 2`. -/
def riskRewardOf (config : Config) : ℚ := orElse config.riskReward 2

/-- The local `startIndex = Math.max(20, candles.length - historyTarget)`. -/
def startIndexOf (candles : List Bar) (config : Config) : Nat :=
  max 20 (candles.length - historyTargetOf config)

/-- The true range `tr` of bar `idx` (smc.js lines 121-124). -/
def trueRange (candles : List Bar) (idx : Nat) : ℚ :=
  let high := (nth candles idx).high
  let low := (nth candles idx).low
  let prevClose := (nth candles (idx - 1)).close
  max (high - low) (max |high - prevClose| |low - prevClose|)

/-- The 14-bar average true range ending at bar `i`: `trSum / atrPeriod`. -/
def atr14 (candles : List Bar) (i : Nat) : ℚ :=
  ((List.range 14).foldl (fun trSum j => trSum + trueRange candles (i - j)) 0) / 14

/-- The entry `atrValues[i]` of the zero-initialised array filled by the loop
of smc.js lines 116-128. -/
def atrValues (candles : List Bar) (startIndex i : Nat) : ℚ :=
  if startIndex ≤ i ∧ 14 ≤ i ∧ i < candles.length then atr14 candles i else 0

/-- The entry `avgVolumes[i]` of the zero-initialised array filled by the loop
of smc.js lines 133-139. -/
def avgVolumes (candles : List Bar) (i : Nat) : ℚ :=
  if 20 ≤ i ∧ i < candles.length then
    ((List.range 20).foldl (fun volSum j => volSum + (nth candles (i - j)).volume) 0) / 20
  else 0

/-- A swing point `{ index, price }`. -/
structure Swing where
  index : Nat
  price : ℚ
deriving DecidableEq

/-- The flag `isSwingHigh` after the inner loop of smc.js lines 148-151. -/
def isSwingHigh (candles : List Bar) (i : Nat) : Bool :=
  (List.range' 1 10).all fun j =>
    !(decide ((nth candles (i - j)).high > (nth candles i).high) ||
      decide ((nth candles (i + j)).high > (nth candles i).high))

/-- The flag `isSwingLow` after the inner loop of smc.js lines 148-151. -/
def isSwingLow (candles : List Bar) (i : Nat) : Bool :=
  (List.range' 1 10).all fun j =>
    !(decide ((nth candles (i - j)).low < (nth candles i).low) ||
      decide ((nth candles (i + j)).low < (nth candles i).low))

/-- The array `swingHighs` (indices `10 .. length - 11`). -/
def swingHighs (candles : List Bar) : List Swing :=
  ((List.range' 10 (candles.length - 10 - 10)).filter (isSwingHigh candles)).map
    fun i => ⟨i, (nth candles i).high⟩

/-- The array `swingLows` (indices `10 .. length - 11`). -/
def swingLows (candles : List Bar) : List Swing :=
  ((List.range' 10 (candles.length - 10 - 10)).filter (isSwingLow candles)).map
    fun i => ⟨i, (nth candles i).low⟩

/-- The closure `getLastSwingHigh(idx)`: the last swing high before `idx`. -/
def getLastSwingHigh (candles : List Bar) (idx : Nat) : Option Swing :=
  (swingHighs candles).reverse.find? fun s => decide (s.index < idx)

/-- The closure `getLastSwingLow(idx)`: the last swing low before `idx`. -/
def getLastSwingLow (candles : List Bar) (idx : Nat) : Option Swing :=
  (swingLows candles).reverse.find? fun s => decide (s.index < idx)

/-- The closure `barTouchesZone(bar, top, bottom)`. -/
def barTouchesZone (bar : Bar) (top bottom : ℚ) : Bool :=
  let zTop := max top bottom
  let zBottom := min top bottom
  decide (bar.low ≤ zTop) && decide (bar.high ≥ zBottom)

/-- The break-of-structure bonus of `calculateOBScore` (smc.js lines 190-204):
35 when one of the bars `idx+1 .. min(idx+20, length)-1` exceeds the last
swing extreme before `idx`. -/
def bosBonus (candles : List Bar) (idx : Nat) (isBullish : Bool) : Nat :=
  let ks := List.range' (idx + 1) (min (idx + 20) candles.length - (idx + 1))
  if isBullish then
    match getLastSwingHigh candles idx with
    | some lastSwingHigh =>
      if ks.any (fun k => decide ((nth candles k).high > lastSwingHigh.price)) then 35 else 0
    | none => 0
  else
    match getLastSwingLow candles idx with
    | some lastSwingLow =>
      if ks.any (fun k => decide ((nth candles k).low < lastSwingLow.price)) then 35 else 0
    | none => 0

/-- The closure `calculateOBScore(obCandle, idx, isBullish, atr, avgVol)`.
`Math.round(x)` is `⌊x + 1/2⌋`; for `midPrice = 0` the distance to the round
level is `0 / 0 = NaN`, which earns no bonus. -/
def calculateOBScore (candles : List Bar) (obCandle : Bar) (idx : Nat) (isBullish : Bool)
    (atr avgVol : ℚ) : Nat :=
  let vol := obCandle.volume
  let volRatio := if avgVol > 0 then vol / avgVol else 1
  let sVol := if volRatio > 2.0 then 30 else if volRatio > 1.5 then 20
    else if volRatio > 1.2 then 10 else 0
  let obSize := obCandle.high - obCandle.low
  let sizeRatio := if atr > 0 then obSize / atr else 1
  let sSize := if sizeRatio > 1.5 then 25 else if sizeRatio > 1.0 then 15
    else if sizeRatio > 0.7 then 8 else 0
  let sBos := bosBonus candles idx isBullish
  let sEngulf :=
    if idx > 0 then
      let prev := nth candles (idx - 1)
      if obCandle.high > prev.high ∧ obCandle.low < prev.low then 15 else 0
    else 0
  let midPrice := (obCandle.high + obCandle.low) / 2
  let roundLevel : ℚ := (⌊midPrice / 1000 + 1 / 2⌋ : ℤ) * 1000
  let distToRound := |midPrice - roundLevel| / midPrice
  let sRound := if midPrice = 0 then 0 else if distToRound < 0.005 then 20
    else if distToRound < 0.01 then 10 else 0
  sVol + sSize + sBos + sEngulf + sRound

/-- The closure `calculateFVGScore(gap, impulsePercent, atr, avgVol, velas)`. -/
def calculateFVGScore (gap : ℚ) (impulsePercent : AbsQuot) (atr avgVol : ℚ)
    (velas : List Bar) : Nat :=
  let gapRatio := if atr > 0 then gap / atr else 0
  let sGap := if gapRatio > 1.0 then 30 else if gapRatio > 0.7 then 20
    else if gapRatio > 0.5 then 12 else if gapRatio > 0.3 then 5 else 0
  let sImp := if impulsePercent.gt 0.015 then 25 else if impulsePercent.gt 0.01 then 18
    else if impulsePercent.gt 0.005 then 10 else 0
  let totalVol := velas.foldl (fun sum v => sum + v.volume) 0
  let avgImpulseVol := totalVol / 3
  let volRatio := if avgVol > 0 then avgImpulseVol / avgVol else 1
  let sVol := if volRatio > 2.0 then 25 else if volRatio > 1.5 then 15
    else if volRatio > 1.2 then 8 else 0
  sGap + sImp + sVol

/-- The locals of `analyzeSMC` that its main loop reads. -/
structure Env where
  candles : List Bar
  sens : ℚ
  riskReward : ℚ
  startIndex : Nat
  keepTrades : Bool

/-- The locals of `analyzeSMC` for a bar array and a configuration. -/
def envOf (candles : List Bar) (config : Config) : Env :=
  { candles := candles, sens := sensOf config, riskReward := riskRewardOf config,
    startIndex := startIndexOf candles config, keepTrades := config.keepTrades }

/-- The local `atr = atrValues[i] || (curr.high - curr.low)`. -/
def atrAt (env : Env) (i : Nat) : ℚ :=
  if atrValues env.candles env.startIndex i = 0 then
    (nth env.candles i).high - (nth env.candles i).low
  else atrValues env.candles env.startIndex i

/-- The local `avgVol = avgVolumes[i] || 1`. -/
def avgVolAt (env : Env) (i : Nat) : ℚ :=
  if avgVolumes env.candles i = 0 then 1 else avgVolumes env.candles i

/-- The volume filter of smc.js lines 266-269: the three volumes are truthy
and the current one is below half the mean of the two before it. -/
def volumeTooLow (curr prev1 prev2 : Bar) : Bool :=
  decide (curr.volume ≠ 0 ∧ prev1.volume ≠ 0 ∧ prev2.volume ≠ 0) &&
    decide (curr.volume < (prev1.volume + prev2.volume) / 2 * 0.5)

/-- The flag `validFVG` after the four filters (smc.js lines 256-269, and
the same statements at lines 350-363). -/
def validFVG (gap : ℚ) (impulsePercent : AbsQuot) (atr sens : ℚ) (curr prev1 prev2 : Bar) :
    Bool :=
  !(decide (gap < curr.close * sens)) && !(decide (gap < atr * 0.2)) &&
    !(impulsePercent.lt 0.003) && !(volumeTooLow curr prev1 prev2)

/-- The forward scan `for (j = i + 1; j < candles.length; j++)` that marks a
zone `MITIGATED` at the first bar touching it. -/
def mitigate (candles : List Bar) (i : Nat) (zone : Zone) : Zone :=
  match (List.range' (i + 1) (candles.length - (i + 1))).find?
      (fun j => barTouchesZone (nth candles j) zone.top zone.bottom) with
  | some j => { zone with status := .MITIGATED, endTime := some (nth candles j).time }
  | none => zone

/-- The backward search for the order-block candle, `k = i-1 .. max(0, i-10)`:
the nearest bearish candle for a bullish gap, the nearest bullish candle for a
bearish one; `none` is `obCandleIdx = -1`. -/
def findOBCandle (candles : List Bar) (i : Nat) (isBullish : Bool) : Option Nat :=
  (List.range' (i - 10) (i - (i - 10))).reverse.find? fun k =>
    if isBullish then decide ((nth candles k).close < (nth candles k).open_)
    else decide ((nth candles k).close > (nth candles k).open_)

/-- The bullish FVG zone of bar `i` after its mitigation scan, when the gap
test and the filters pass (smc.js lines 254-295). -/
def bullFVG (env : Env) (i : Nat) : Option Zone :=
  let curr := nth env.candles i
  let prev1 := nth env.candles (i - 1)
  let prev2 := nth env.candles (i - 2)
  let atr := atrAt env i
  let avgVol := avgVolAt env i
  if curr.low > prev2.high then
    let gap := curr.low - prev2.high
    let impulse := curr.close - prev2.close
    let impulsePercent := absQuot impulse prev2.close
    if validFVG gap impulsePercent atr env.sens curr prev1 prev2 then
      let fvgScore := calculateFVGScore gap impulsePercent atr avgVol [prev2, prev1, curr]
      some (mitigate env.candles i
        { id := ⟨.fvgL, i⟩, label := .FVG, type := .BULL, top := curr.low, bottom := prev2.high,
          time := prev1.time, endTime := none, status := .ACTIVE, score := fvgScore,
          gapSize := some gap, impulsePercent := some impulsePercent, volume := none,
          hasBOS := none, size := none })
    else none
  else none

/-- The bearish FVG zone of bar `i` after its mitigation scan, when the gap
test and the filters pass (smc.js lines 348-389). -/
def bearFVG (env : Env) (i : Nat) : Option Zone :=
  let curr := nth env.candles i
  let prev1 := nth env.candles (i - 1)
  let prev2 := nth env.candles (i - 2)
  let atr := atrAt env i
  let avgVol := avgVolAt env i
  if curr.high < prev2.low then
    let gap := prev2.low - curr.high
    let impulse := prev2.close - curr.close
    let impulsePercent := absQuot impulse prev2.close
    if validFVG gap impulsePercent atr env.sens curr prev1 prev2 then
      let fvgScore := calculateFVGScore gap impulsePercent atr avgVol [prev2, prev1, curr]
      some (mitigate env.candles i
        { id := ⟨.fvgS, i⟩, label := .FVG, type := .BEAR, top := prev2.low, bottom := curr.high,
          time := prev1.time, endTime := none, status := .ACTIVE, score := fvgScore,
          gapSize := some gap, impulsePercent := some impulsePercent, volume := none,
          hasBOS := none, size := none })
    else none
  else none

/-- The order-block zone built for candle `obCandleIdx` by the gap of bar `i`
(smc.js lines 305-331 for a bullish gap, 399-425 for a bearish one), after its
mitigation scan, which starts at `i + 1`. -/
def obZone (env : Env) (i obCandleIdx : Nat) (isBullish : Bool) : Zone :=
  let obCandle := nth env.candles obCandleIdx
  let obAtr := if atrValues env.candles env.startIndex obCandleIdx = 0 then atrAt env i
    else atrValues env.candles env.startIndex obCandleIdx
  let obAvgVol := if avgVolumes env.candles obCandleIdx = 0 then avgVolAt env i
    else avgVolumes env.candles obCandleIdx
  let obScore := calculateOBScore env.candles obCandle obCandleIdx isBullish obAtr obAvgVol
  mitigate env.candles i
    { id := ⟨if isBullish then .obL else .obS, obCandleIdx⟩, label := .OB,
      type := if isBullish then .BULL else .BEAR, top := obCandle.high, bottom := obCandle.low,
      time := obCandle.time, endTime := none, status := .ACTIVE, score := obScore,
      gapSize := none, impulsePercent := none, volume := some obCandle.volume,
      hasBOS := some (decide (obScore ≥ 35)), size := some (obCandle.high - obCandle.low) }

/-- The local `associatedOB` of an accepted gap at bar `i`, with the index of
its candle: built when a candle is found (`obCandleIdx !== -1`) that is not
yet in `processedOBs`. -/
def associatedOB (env : Env) (processedOBs : List Nat) (i : Nat) (isBullish : Bool) :
    Option (Nat × Zone) :=
  match findOBCandle env.candles i isBullish with
  | some obCandleIdx =>
    if obCandleIdx ∈ processedOBs then none
    else some (obCandleIdx, obZone env i obCandleIdx isBullish)
  | none => none

/-- The accumulators of the main loop: the arrays `zones` and `trades` (in
push order) and the set `processedOBs`. -/
structure LoopState where
  zones : List Zone
  trades : List Trade
  processedOBs : List Nat

/-- The pushes that follow an accepted gap: the FVG zone, then the order block
when one is built (its index is added to `processedOBs`), then the trade
unless `keepTrades` is set or `createTrade` returns `null`. -/
def pushGap (env : Env) (st : LoopState) (zone : Zone) (ob : Option (Nat × Zone))
    (trade : Except String (Option Trade)) : Except String LoopState :=
  let zones := match ob with
    | some (_, z) => st.zones ++ [zone] ++ [z]
    | none => st.zones ++ [zone]
  let processedOBs := match ob with
    | some (k, _) => k :: st.processedOBs
    | none => st.processedOBs
  if env.keepTrades then .ok { zones := zones, trades := st.trades, processedOBs := processedOBs }
  else
    match trade with
    | .error e => .error e
    | .ok none => .ok { zones := zones, trades := st.trades, processedOBs := processedOBs }
    | .ok (some t) =>
      .ok { zones := zones,
            trades := st.trades ++ [{ t with savedFVG := some zone, savedOB := ob.map Prod.snd }],
            processedOBs := processedOBs }

/-- The block `// --- FVG Bullish ---` of one iteration of the main loop. -/
def bullStep (env : Env) (st : LoopState) (i : Nat) : Except String LoopState :=
  match bullFVG env i with
  | none => .ok st
  | some zone =>
    pushGap env st zone (associatedOB env st.processedOBs i true)
      (createTrade i .LONG (nth env.candles i).low
        (min (nth env.candles (i - 1)).low (nth env.candles (i - 2)).low)
        (nth env.candles i).time env.candles env.riskReward)

/-- The block `// --- FVG Bearish ---` of one iteration of the main loop. -/
def bearStep (env : Env) (st : LoopState) (i : Nat) : Except String LoopState :=
  match bearFVG env i with
  | none => .ok st
  | some zone =>
    pushGap env st zone (associatedOB env st.processedOBs i false)
      (createTrade i .SHORT (nth env.candles i).high
        (max (nth env.candles (i - 1)).high (nth env.candles (i - 2)).high)
        (nth env.candles i).time env.candles env.riskReward)

/-- One iteration of the main loop: the bullish block, then the bearish. -/
def smcStep (env : Env) (st : LoopState) (i : Nat) : Except String LoopState :=
  match bullStep env st i with
  | .error e => .error e
  | .ok st1 => bearStep env st1 i

/-- The main loop over the given indices, in order. -/
def smcLoop (env : Env) : LoopState → List Nat → Except String LoopState
  | st, [] => .ok st
  | st, i :: rest =>
    match smcStep env st i with
    | .error e => .error e
    | .ok st1 => smcLoop env st1 rest

/-- The indices `Math.max(startIndex, 2) .. candles.length - 1` of the main loop. -/
def loopIndices (env : Env) : List Nat :=
  List.range' (max env.startIndex 2) (env.candles.length - max env.startIndex 2)

/-- The object `{ zones, trades }` returned by `analyzeSMC`. -/
structure SMCResult where
  zones : List Zone
  trades : List Trade

/-- The function `analyzeSMC(candles, config)`.  `zones.sort` with the
comparator `a.time - b.time` is the stable ascending sort by `time`. -/
def analyzeSMC (candles : List Bar) (config : Config) : Except String SMCResult :=
  if candles.length < 50 then .ok { zones := [], trades := [] }
  else
    match smcLoop (envOf candles config) { zones := [], trades := [], processedOBs := [] }
        (loopIndices (envOf candles config)) with
    | .error e => .error e
    | .ok st =>
      .ok { zones := st.zones.insertionSort (fun a b => a.time ≤ b.time), trades := st.trades }

/-- Whether the bar reaches the stop of the trade (LONG: `low <= sl`;
SHORT: `high >= sl`). -/
def reachesStop (trade : Trade) (bar : Bar) : Prop :=
  match trade.type with
  | .LONG => bar.low ≤ trade.sl
  | .SHORT => bar.high ≥ trade.sl

/-- Whether the bar reaches the take-profit of the trade (LONG: `high >= tp`;
SHORT: `low <= tp`). -/
def reachesTakeProfit (trade : Trade) (bar : Bar) : Prop :=
  match trade.type with
  | .LONG => bar.high ≥ trade.tp
  | .SHORT => bar.low ≤ trade.tp

/-- Whether the bar reaches the entry of the trade (LONG: `low <= entry`;
SHORT: `high >= entry`). -/
def reachesEntry (trade : Trade) (bar : Bar) : Prop :=
  match trade.type with
  | .LONG => bar.low ≤ trade.entry
  | .SHORT => bar.high ≥ trade.entry

instance (trade : Trade) (bar : Bar) : Decidable (reachesStop trade bar) := by
  unfold reachesStop; split <;> infer_instance

instance (trade : Trade) (bar : Bar) : Decidable (reachesTakeProfit trade bar) := by
  unfold reachesTakeProfit; split <;> infer_instance

instance (trade : Trade) (bar : Bar) : Decidable (reachesEntry trade bar) := by
  unfold reachesEntry; split <;> infer_instance

/-- The trade as it stands when bar `j` is about to be examined by the scan
that starts after `idx`: the loop run over bars `idx+1 .. j-1`. -/
def tradeBefore (riskReward : ℚ) (trade : Trade) (idx : Nat) (candles : List Bar) (j : Nat) :
    Trade :=
  lifecycleLoop riskReward trade ((candles.drop (idx + 1)).take (j - (idx + 1)))

/-! ## The zones pushed by the main loop, as a function of `processedOBs` -/

/-- The zones pushed for one gap block: the FVG zone when the gap is accepted,
followed by its order block when one is built. -/
def gapZones (zone : Option Zone) (ob : Option (Nat × Zone)) : List Zone :=
  match zone with
  | none => []
  | some z =>
    match ob with
    | some (_, o) => [z, o]
    | none => [z]

/-- The set `processedOBs` after one gap block. -/
def gapProcessed (zone : Option Zone) (ob : Option (Nat × Zone)) (processedOBs : List Nat) :
    List Nat :=
  match zone with
  | none => processedOBs
  | some _ =>
    match ob with
    | some (k, _) => k :: processedOBs
    | none => processedOBs

/-- The set `processedOBs` after the bullish block of iteration `i`. -/
def bullProcessed (env : Env) (processedOBs : List Nat) (i : Nat) : List Nat :=
  gapProcessed (bullFVG env i) (associatedOB env processedOBs i true) processedOBs

/-- The zones pushed by iteration `i` of the main loop when it starts with the
given `processedOBs`. -/
def stepZones (env : Env) (processedOBs : List Nat) (i : Nat) : List Zone :=
  gapZones (bullFVG env i) (associatedOB env processedOBs i true) ++
    gapZones (bearFVG env i) (associatedOB env (bullProcessed env processedOBs i) i false)

/-- The set `processedOBs` after iteration `i` of the main loop. -/
def stepProcessed (env : Env) (processedOBs : List Nat) (i : Nat) : List Nat :=
  gapProcessed (bearFVG env i) (associatedOB env (bullProcessed env processedOBs i) i false)
    (bullProcessed env processedOBs i)

/-- The zones pushed by the main loop over the given indices. -/
def loopZones (env : Env) : List Nat → List Nat → List Zone
  | _, [] => []
  | processedOBs, i :: rest =>
    stepZones env processedOBs i ++ loopZones env (stepProcessed env processedOBs i) rest

/-- The bar `candles[j]` overlaps the zone: `low <= max(top, bottom)` and
`high >= min(top, bottom)`. -/
def touches (candles : List Bar) (j : Nat) (zone : Zone) : Prop :=
  (nth candles j).low ≤ max zone.top zone.bottom ∧
    (nth candles j).high ≥ min zone.top zone.bottom

instance (candles : List Bar) (j : Nat) (zone : Zone) : Decidable (touches candles j zone) := by
  unfold touches; infer_instance

/-! ## The acceptance conditions of a gap, in the words of the specification -/

/-- A well-formed bar: `0 < low <= open <= high` and `low <= close <= high`. -/
def WellFormed (b : Bar) : Prop :=
  0 < b.low ∧ b.low ≤ b.open_ ∧ b.open_ ≤ b.high ∧ b.low ≤ b.close ∧ b.close ≤ b.high

instance (b : Bar) : Decidable (WellFormed b) := by
  unfold WellFormed; infer_instance

/-- The specification's condition for a bullish gap at bar `i`:
`bar[i].low > bar[i-2].high`, and with `gap = bar[i].low - bar[i-2].high`,
`gap >= close * sensitivity`, `gap >= 0.2 * ATR14(i)`, an upward two-bar
impulse of at least 0.3 %, and, when the three volumes are non-zero, a current
volume of at least half the mean volume of the two bars before. -/
def bullGapAccepted (candles : List Bar) (sensitivity : ℚ) (i : Nat) : Prop :=
  (nth candles i).low > (nth candles (i - 2)).high ∧
  (nth candles i).low - (nth candles (i - 2)).high ≥ (nth candles i).close * sensitivity ∧
  (nth candles i).low - (nth candles (i - 2)).high ≥ 0.2 * atr14 candles i ∧
  ((nth candles i).close - (nth candles (i - 2)).close) / (nth candles (i - 2)).close
    ≥ 0.003 ∧
  ((nth candles i).volume ≠ 0 ∧ (nth candles (i - 1)).volume ≠ 0 ∧
      (nth candles (i - 2)).volume ≠ 0 →
    (nth candles i).volume ≥
      ((nth candles (i - 1)).volume + (nth candles (i - 2)).volume) / 2 / 2)

/-- The symmetric condition for a bearish gap at bar `i`:
`bar[i].high < bar[i-2].low`, `gap = bar[i-2].low - bar[i].high`, and a
downward two-bar impulse of at least 0.3 %. -/
def bearGapAccepted (candles : List Bar) (sensitivity : ℚ) (i : Nat) : Prop :=
  (nth candles i).high < (nth candles (i - 2)).low ∧
  (nth candles (i - 2)).low - (nth candles i).high ≥ (nth candles i).close * sensitivity ∧
  (nth candles (i - 2)).low - (nth candles i).high ≥ 0.2 * atr14 candles i ∧
  ((nth candles (i - 2)).close - (nth candles i).close) / (nth candles (i - 2)).close
    ≥ 0.003 ∧
  ((nth candles i).volume ≠ 0 ∧ (nth candles (i - 1)).volume ≠ 0 ∧
      (nth candles (i - 2)).volume ≠ 0 →
    (nth candles i).volume ≥
      ((nth candles (i - 1)).volume + (nth candles (i - 2)).volume) / 2 / 2)

instance (candles : List Bar) (sensitivity : ℚ) (i : Nat) :
    Decidable (bullGapAccepted candles sensitivity i) := by
  unfold bullGapAccepted; infer_instance

instance (candles : List Bar) (sensitivity : ℚ) (i : Nat) :
    Decidable (bearGapAccepted candles sensitivity i) := by
  unfold bearGapAccepted; infer_instance

/-- Two zones are told apart: their identifiers differ, and two order blocks
do not stem from the same candle index. -/
def distinctZones (a b : Zone) : Prop :=
  a.id ≠ b.id ∧ (a.label = .OB → b.label = .OB → a.id.index ≠ b.id.index)

/-! ## Concrete series -/

/-- A run of `n` flat bars at the given price for the indices `first`,
`first + 1`, ..., one minute apart, without volume. -/
def flatBars (price : ℚ) (first n : Nat) : List Bar :=
  (List.range n).map fun k => ⟨60 * (first + k), price, price, price, price, 0⟩

/-- Fifty bars: 46 flat bars at 105, a bar reaching up to 115, and then the
three bars `{low 100, high 110}`, `{low 111, high 120}`, `{low 121, high 130}`
of the specification's scenario at indices 47, 48, 49. -/
def gapSeries : List Bar :=
  flatBars 105 0 46 ++
    [⟨2760, 105, 115, 105, 105, 0⟩, ⟨2820, 105, 110, 100, 108, 0⟩,
     ⟨2880, 112, 120, 111, 119, 0⟩, ⟨2940, 122, 130, 121, 129, 0⟩]

/-- Fifty bars with one bullish gap at bar 20 (bar 18 tops at 105, bar 20
bottoms at 113) that bar 21 (low 112) mitigates. -/
def windowSeries : List Bar :=
  flatBars 105 0 19 ++
    [⟨1140, 105, 112, 105, 112, 0⟩, ⟨1200, 113, 120, 113, 120, 0⟩,
     ⟨1260, 120, 120, 112, 118, 0⟩] ++ flatBars 118 22 28

/-- The series `windowSeries` extended by one more flat bar. -/
def windowSeriesExtended : List Bar := windowSeries ++ flatBars 118 50 1

/-- A configuration whose history window holds 30 bars. -/
def windowConfig : Config :=
  { sensitivity := none, historyTarget := some 30, riskReward := none, keepTrades := false }

/-- The locals of `analyzeSMC` with further bars appended to the series and
the same scan start. -/
def extend (env : Env) (ext : List Bar) : Env :=
  { env with candles := env.candles ++ ext }

/-- The zone `zQ` reports the zone `z` again: same identifier, and if `z` is
`MITIGATED` then so is `zQ`, with the same `endTime`. -/
def reportedAgain (z zQ : Zone) : Prop :=
  zQ.id = z.id ∧ (z.status = .MITIGATED → zQ.status = .MITIGATED ∧ zQ.endTime = z.endTime)

/-- Fifty-one bars with one bearish gap at bar 48 (bar 46 bottoms at 1000,
bar 48 tops at 990), after which the price rises: bar 49 reaches 992 and bar 50
trades between 990 and 995. -/
def shortSeries : List Bar :=
  flatBars 1000 0 47 ++
    [⟨2820, 1000, 1000, 990, 990, 0⟩, ⟨2880, 990, 990, 970, 970, 0⟩,
     ⟨2940, 985, 992, 984, 991, 0⟩, ⟨3000, 991, 995, 990, 994, 0⟩]

/-- A configuration with every property absent. -/
def defaultConfig : Config :=
  { sensitivity := none, historyTarget := none, riskReward := none, keepTrades := false }

/-! ## Mitigation, in the words of the specification -/

/-- The zone was built by the gap detected at bar `i`: it is the FVG zone of
that gap, or the order block that the gap creates for the candle found by its
backward search. -/
def builtFromGap (env : Env) (i : Nat) (z : Zone) : Prop :=
  bullFVG env i = some z ∨ bearFVG env i = some z ∨
  ((bullFVG env i).isSome = true ∧
    ∃ k, findOBCandle env.candles i true = some k ∧ z = obZone env i k true) ∨
  ((bearFVG env i).isSome = true ∧
    ∃ k, findOBCandle env.candles i false = some k ∧ z = obZone env i k false)

/-- The mitigation rule for a zone built at bar `i`: it is `MITIGATED` exactly
when some later bar overlaps it, its `endTime` is then the time of the first
such bar, and otherwise it is `ACTIVE` with `endTime` null. -/
def mitigatedAtFirstTouch (candles : List Bar) (i : Nat) (z : Zone) : Prop :=
  (z.status = .MITIGATED ↔ ∃ j, i < j ∧ j < candles.length ∧ touches candles j z) ∧
  (∀ j, i < j → j < candles.length → touches candles j z →
    (∀ j1, i < j1 → j1 < j → ¬ touches candles j1 z) →
    z.endTime = some (nth candles j).time) ∧
  ((¬ ∃ j, i < j ∧ j < candles.length ∧ touches candles j z) →
    z.status = .ACTIVE ∧ z.endTime = none)

/-! ## Regime indicators (`calculateHurst`, `calculateRegLin` of `indicators.js`)

`Math.log` and `Math.sqrt` are parameters of the model (`mathLog`, `mathSqrt`);
intermediate values that are not finite numbers lie outside it. -/

/-- The object `{ hurst, type }` returned by `calculateHurst`. -/
structure HurstResult where
  hurst : ℚ
  type : String
deriving DecidableEq

/-- The running state `cumDev, maxCum, minCum` of the loop of indicators.js
lines 19-24; `none` is the initial `-Infinity` resp. `Infinity`. -/
structure CumState where
  cumDev : ℚ
  maxCum : Option ℚ
  minCum : Option ℚ

/-- One iteration of the loop of indicators.js lines 20-24. -/
def cumStep (st : CumState) (v : ℚ) : CumState :=
  let cumDev := st.cumDev + v
  { cumDev := cumDev,
    maxCum := (match st.maxCum with
      | none => some cumDev
      | some m => if cumDev > m then some cumDev else some m),
    minCum := (match st.minCum with
      | none => some cumDev
      | some m => if cumDev < m then some cumDev else some m) }

/-- The function `calculateHurst(candles)`. -/
def calculateHurst (mathLog mathSqrt : ℚ → ℚ) (candles : List Bar) : HurstResult :=
  if candles.length < 200 then { hurst := 0, type := "---" }
  else
    let slice := (candles.drop (candles.length - 200)).map fun x => x.close
    let logs := (List.range' 1 (slice.length - 1)).map fun i =>
      mathLog (slice.getD i 0 / slice.getD (i - 1) 0)
    let mean : ℚ := logs.foldl (fun (a b : ℚ) => a + b) 0 / (logs.length : ℚ)
    let std := mathSqrt (logs.foldl (fun (a b : ℚ) => a + (b - mean) ^ 2) 0 / (logs.length : ℚ))
    let deviation := logs.map fun x => x - mean
    let st := deviation.foldl cumStep { cumDev := 0, maxCum := none, minCum := none }
    let R := st.maxCum.getD 0 - st.minCum.getD 0
    let S := std
    let RS := R / S
    let hurst0 := mathLog RS / mathLog (logs.length : ℚ)
    let hurst1 := if hurst0 > 1 then 0.99 else hurst0
    let hurst := if hurst1 < 0 then 0.01 else hurst1
    let type := if hurst > 0.55 then "TENDENCIA (TRENDING)"
      else if hurst < 0.45 then "RANGO (MEAN REVERTING)" else "RUIDO (RANDOM WALK)"
    { hurst := hurst, type := type }

/-- The `config` argument of `calculateRegLin`; an absent property is `none`. -/
structure RegLinConfig where
  period : Option Nat
  stdMult : Option ℚ
  interval : Option String

/-- The object returned by `calculateRegLin`. -/
structure RegLin where
  t1 : Int
  t2 : Int
  mid1 : ℚ
  mid2 : ℚ
  up1 : ℚ
  up2 : ℚ
  low1 : ℚ
  low2 : ℚ
  slope : ℚ
deriving DecidableEq

/-- The local `period = config.period || 100`. -/
def periodOf (config : RegLinConfig) : Nat :=
  match config.period with
  | some v => if v = 0 then 100 else v
  | none => 100

/-- The table lookup `intervalMult` of indicators.js lines 72-79. -/
def intervalMult (interval : String) : Int :=
  if interval = "1m" then 60 else if interval = "5m" then 300
  else if interval = "15m" then 900 else if interval = "1h" then 3600
  else if interval = "4h" then 14400 else if interval = "1d" then 86400 else 900

/-- The function `calculateRegLin(candles, config)`; `none` is `null`. -/
def calculateRegLin (mathSqrt : ℚ → ℚ) (candles : List Bar) (config : RegLinConfig) :
    Option RegLin :=
  let period := periodOf config
  let stdMult := orElse config.stdMult 2
  let interval := match config.interval with
    | some s => if s = "" then "15m" else s
    | none => "15m"
  if candles.length < period then none
  else
    let slice := candles.drop (candles.length - period)
    let n : ℚ := slice.length
    let idx := List.range slice.length
    let sumX := idx.foldl (fun (s : ℚ) (i : Nat) => s + (i : ℚ)) 0
    let sumY := idx.foldl (fun (s : ℚ) (i : Nat) => s + (nth slice i).close) 0
    let sumXY := idx.foldl (fun (s : ℚ) (i : Nat) => s + (i : ℚ) * (nth slice i).close) 0
    let sumXX := idx.foldl (fun (s : ℚ) (i : Nat) => s + (i : ℚ) * (i : ℚ)) 0
    let m := (n * sumXY - sumX * sumY) / (n * sumXX - sumX * sumX)
    let b := (sumY - m * sumX) / n
    let sumSqErr := idx.foldl
      (fun (s : ℚ) (i : Nat) => s + ((nth slice i).close - (m * (i : ℚ) + b)) ^ 2) 0
    let stdDev := mathSqrt (sumSqErr / n)
    let futureBars : ℚ := 20
    let t1 := (nth slice 0).time
    let t2 := (nth candles (candles.length - 1)).time + 20 * intervalMult interval
    let pStart := b
    let pEnd := b + m * (n - 1 + futureBars)
    some { t1 := t1, t2 := t2, mid1 := pStart, mid2 := pEnd,
           up1 := pStart + stdDev * stdMult, up2 := pEnd + stdDev * stdMult,
           low1 := pStart - stdDev * stdMult, low2 := pEnd - stdDev * stdMult, slope := m }

/-! ## Trend lines (`calculateTrendLines` of `indicators.js`) -/

/-- The `type` of a trend line: `'DOWN'` (through swing highs) or `'UP'`. -/
inductive LineType where
  | DOWN
  | UP
deriving DecidableEq

/-- The `status` of a trend line. -/
inductive LineStatus where
  | ACTIVE
  | BROKEN
deriving DecidableEq

/-- A pivot record `{ index, time, price, volume, strength }`. -/
structure Pivot where
  index : Nat
  time : Int
  price : ℚ
  volume : ℚ
  strength : Nat
deriving DecidableEq

instance : Inhabited Pivot := ⟨⟨0, 0, 0, 0, 0⟩⟩

/-- The value of `Math.abs(a / b) * c` for a positive constant `c`. -/
def AbsQuot.scale (x : AbsQuot) (c : ℚ) : AbsQuot :=
  match x with
  | .fin q => .fin (q * c)
  | .inf => .inf
  | .nan => .nan

/-- The record `lineObj` of `processCandidates` (`color` and `width` are
constants of the type; `duration` holds `durationHours`; `breakIndex` is absent
on an `ACTIVE` line). -/
structure TrendLine where
  t1 : Int
  p1 : ℚ
  score : ℚ
  type : LineType
  slope : ℚ
  startIdx : Nat
  endPivotIdx : Nat
  touches : Nat
  touchIndices : List Nat
  duration : ℚ
  slopeNorm : AbsQuot
  status : LineStatus
  t2 : Int
  p2 : ℚ
  breakIndex : Option Nat
  endIdx : Nat
deriving DecidableEq

/-- The `config` argument of `calculateTrendLines`; an absent (`undefined`)
property is `none`. -/
structure TrendConfig where
  fractalStrength : Option Nat
  strictMode : Option Bool
  showHistory : Option Bool
  useAngleFilter : Option Bool
  angleMax : Option ℚ
  tolerance : Option ℚ

/-- The local `fractalStrength = config.fractalStrength || 5`. -/
def fractalStrengthOf (config : TrendConfig) : Nat :=
  match config.fractalStrength with
  | some v => if v = 0 then 5 else v
  | none => 5

/-- The local `strictMode` (default `true`). -/
def strictModeOf (config : TrendConfig) : Bool := config.strictMode.getD true

/-- The local `showHistory` (default `true`). -/
def showHistoryOf (config : TrendConfig) : Bool := config.showHistory.getD true

/-- The local `useAngleFilter` (default `true`). -/
def useAngleFilterOf (config : TrendConfig) : Bool := config.useAngleFilter.getD true

/-- The local `angleMax` (default 20). -/
def angleMaxOf (config : TrendConfig) : ℚ := config.angleMax.getD 20

/-- The local `tolerance = (config.tolerance ?? 1) * 0.0005`. -/
def toleranceOf (config : TrendConfig) : ℚ := config.tolerance.getD 1 * 0.0005

/-- The array `strengths` of indicators.js line 109. -/
def strengthsOf (config : TrendConfig) : List Nat :=
  [fractalStrengthOf config, max 2 (fractalStrengthOf config - 2), fractalStrengthOf config + 3]

/-- The flag `isHigh` after the inner loop of indicators.js lines 115-118. -/
def isPivotHigh (candles : List Bar) (strength i : Nat) : Bool :=
  (List.range' 1 strength).all fun j =>
    !(decide ((nth candles (i - j)).high > (nth candles i).high) ||
      decide ((nth candles (i + j)).high > (nth candles i).high))

/-- The flag `isLow` after the inner loop of indicators.js lines 115-118. -/
def isPivotLow (candles : List Bar) (strength i : Nat) : Bool :=
  (List.range' 1 strength).all fun j =>
    !(decide ((nth candles (i - j)).low < (nth candles i).low) ||
      decide ((nth candles (i + j)).low < (nth candles i).low))

/-- The pushes to `highs` of one pass `strength` of the `forEach` of
indicators.js lines 111-126 (`i = strength .. length - strength - 1`). -/
def pushHighs (candles : List Bar) (highs : List Pivot) (strength : Nat) : List Pivot :=
  (List.range' strength (candles.length - strength - strength)).foldl (fun highs i =>
    if isPivotHigh candles strength i && !(highs.any fun h => decide (h.index = i)) then
      highs ++ [{ index := i, time := (nth candles i).time, price := (nth candles i).high,
                  volume := (nth candles i).volume, strength := strength }]
    else highs) highs

/-- The pushes to `lows` of one pass `strength` of the `forEach`. -/
def pushLows (candles : List Bar) (lows : List Pivot) (strength : Nat) : List Pivot :=
  (List.range' strength (candles.length - strength - strength)).foldl (fun lows i =>
    if isPivotLow candles strength i && !(lows.any fun l => decide (l.index = i)) then
      lows ++ [{ index := i, time := (nth candles i).time, price := (nth candles i).low,
                 volume := (nth candles i).volume, strength := strength }]
    else lows) lows

/-- The array `highs` after `highs.sort((a, b) => a.index - b.index)`. -/
def pivotHighs (candles : List Bar) (config : TrendConfig) : List Pivot :=
  ((strengthsOf config).foldl (pushHighs candles) []).insertionSort
    (fun a b => a.index ≤ b.index)

/-- The array `lows` after `lows.sort((a, b) => a.index - b.index)`. -/
def pivotLows (candles : List Bar) (config : TrendConfig) : List Pivot :=
  ((strengthsOf config).foldl (pushLows candles) []).insertionSort
    (fun a b => a.index ≤ b.index)

/-- The pairs `(pivotB, pivotA)` in the order of the nested loops of
`processCandidates`, given the pivots in reverse: the first element is
`pivotA = pivots[i]`, the pivots after it are `pivotB = pivots[j]` for
`j = i-1 .. 0`, and then `i` decreases. -/
def pairsDesc : List Pivot → List (Pivot × Pivot)
  | [] => []
  | pivotA :: rest => rest.map (fun pivotB => (pivotB, pivotA)) ++ pairsDesc rest

/-- The local `theoPrice = pivotB.price + slope * (k - pivotB.index)`. -/
def theoPrice (pivotB : Pivot) (slope : ℚ) (k : Nat) : ℚ :=
  pivotB.price + slope * ((k : ℚ) - (pivotB.index : ℚ))

/-- The test of the strict-validity loop (indicators.js lines 149-150). -/
def violatesStrict (candles : List Bar) (type : LineType) (pivotB : Pivot)
    (slope tolerance : ℚ) (k : Nat) : Bool :=
  match type with
  | .DOWN => decide ((nth candles k).high > theoPrice pivotB slope k * (1 + tolerance))
  | .UP => decide ((nth candles k).low < theoPrice pivotB slope k * (1 - tolerance))

/-- The test of the touch loop (indicators.js lines 159-163), with
`touchTolerance = 0.002`; for `theoPrice = 0` the quotient `diff` is not a
finite number and the comparison fails. -/
def touchesLine (candles : List Bar) (type : LineType) (pivotB : Pivot) (slope : ℚ)
    (k : Nat) : Bool :=
  let touchPrice := match type with
    | .DOWN => (nth candles k).high
    | .UP => (nth candles k).low
  decide (theoPrice pivotB slope k ≠ 0) &&
    decide (|touchPrice - theoPrice pivotB slope k| / theoPrice pivotB slope k ≤ 0.002)

/-- The test of the break loop (indicators.js lines 171-173). -/
def breaksLine (candles : List Bar) (type : LineType) (pivotB : Pivot)
    (slope tolerance : ℚ) (k : Nat) : Bool :=
  match type with
  | .DOWN => decide ((nth candles k).high > theoPrice pivotB slope k * (1 + tolerance * 0.5))
  | .UP => decide ((nth candles k).low < theoPrice pivotB slope k * (1 - tolerance * 0.5))

/-- The local `slope` of a pair of pivots. -/
def slopeOf (pivotB pivotA : Pivot) : ℚ :=
  (pivotA.price - pivotB.price) / ((pivotA.index : ℚ) - (pivotB.index : ℚ))

/-- The local `breakIndex` after the loop of indicators.js lines 169-174;
`none` is `-1`. -/
def breakIndexOf (candles : List Bar) (tolerance : ℚ) (type : LineType)
    (pivotB pivotA : Pivot) : Option Nat :=
  (List.range' (pivotA.index + 1) (candles.length - (pivotA.index + 1))).find?
    (breaksLine candles type pivotB (slopeOf pivotB pivotA) tolerance)

/-- The indices `k` pushed to `touchIndices` by the loop of indicators.js
lines 158-167. -/
def touchedBetween (candles : List Bar) (type : LineType) (pivotB pivotA : Pivot) : List Nat :=
  (List.range' (pivotB.index + 1) (pivotA.index - (pivotB.index + 1))).filter
    (touchesLine candles type pivotB (slopeOf pivotB pivotA))

/-- The body of the inner loop of `processCandidates` for one pair of pivots:
the line pushed to `candidates`, or `none` when the pair is skipped. -/
def buildLine (candles : List Bar) (config : TrendConfig) (type : LineType)
    (pivotB pivotA : Pivot) : Option TrendLine :=
  let isDirectionValid := match type with
    | .DOWN => decide (pivotB.price > pivotA.price)
    | .UP => decide (pivotB.price < pivotA.price)
  if !isDirectionValid then none
  else
    let slope := slopeOf pivotB pivotA
    let slopeNorm := (absQuot slope pivotB.price).scale 10000
    if useAngleFilterOf config && slopeNorm.gt (angleMaxOf config * 2) then none
    else
      let validStrict :=
        (List.range' (pivotB.index + 1) (pivotA.index - (pivotB.index + 1))).all fun k =>
          !(violatesStrict candles type pivotB slope (toleranceOf config) k)
      if !validStrict && strictModeOf config then none
      else
        let touched := touchedBetween candles type pivotB pivotA
        let touches := 2 + touched.length
        let touchIndices := [pivotB.index, pivotA.index] ++ touched
        let breakIndex := breakIndexOf candles (toleranceOf config) type pivotB pivotA
        let endIdx := match breakIndex with
          | some k => k
          | none => candles.length - 1
        let duration : ℚ := ((nth candles endIdx).time - (nth candles pivotB.index).time : Int)
        let durationHours := duration / 3600
        let score := max 0 ((touches : ℚ) - 2) * 15 + durationHours * 2
        match breakIndex with
        | some k =>
          if showHistoryOf config then
            some { t1 := pivotB.time, p1 := pivotB.price, score := score, type := type,
                   slope := slope, startIdx := pivotB.index, endPivotIdx := pivotA.index,
                   touches := touches, touchIndices := touchIndices, duration := durationHours,
                   slopeNorm := slopeNorm, status := .BROKEN, t2 := (nth candles k).time,
                   p2 := theoPrice pivotB slope k, breakIndex := some k, endIdx := k }
          else none
        | none =>
          some { t1 := pivotB.time, p1 := pivotB.price, score := score, type := type,
                 slope := slope, startIdx := pivotB.index, endPivotIdx := pivotA.index,
                 touches := touches, touchIndices := touchIndices, duration := durationHours,
                 slopeNorm := slopeNorm, status := .ACTIVE,
                 t2 := (nth candles (candles.length - 1)).time,
                 p2 := theoPrice pivotB slope (candles.length - 1), breakIndex := none,
                 endIdx := candles.length - 1 }

/-- The pushes of `processCandidates(pivots, type)`, in order. -/
def processCandidates (candles : List Bar) (config : TrendConfig) (pivots : List Pivot)
    (type : LineType) : List TrendLine :=
  (pairsDesc pivots.reverse).filterMap fun pair => buildLine candles config type pair.1 pair.2

/-- The array `candidates` after both calls of `processCandidates`. -/
def candidatesOf (candles : List Bar) (config : TrendConfig) : List TrendLine :=
  processCandidates candles config (pivotHighs candles config) .DOWN ++
    processCandidates candles config (pivotLows candles config) .UP

/-- The array `candidates` after `candidates.sort((a, b) => b.duration -
a.duration)`: the stable sort by descending duration. -/
def sortedCandidates (candles : List Bar) (config : TrendConfig) : List TrendLine :=
  (candidatesOf candles config).insertionSort (fun a b => a.duration ≥ b.duration)

/-- The price of a line projected to the last bar,
`l.p1 + l.slope * (candles.length - 1 - l.startIdx)`. -/
def projectedPrice (length : Nat) (l : TrendLine) : ℚ :=
  l.p1 + l.slope * ((length : ℚ) - 1 - (l.startIdx : ℚ))

/-- The test of indicators.js lines 230-233: the kept line `k` dominates the
line `l` (same type, projected prices less than 1 % apart relative to `k`); a
zero `priceK` gives a quotient that is not finite, and no domination. -/
def dominatesActive (length : Nat) (l k : TrendLine) : Bool :=
  decide (l.type = k.type) && decide (projectedPrice length k ≠ 0) &&
    decide (|projectedPrice length l - projectedPrice length k| / projectedPrice length k
      < 0.01)

/-- The loop of indicators.js lines 227-237 from the state `filteredActive`
over the remaining active lines, with its cap of 20 kept lines. -/
def filterActiveLoop (length : Nat) : List TrendLine → List TrendLine → List TrendLine
  | filteredActive, [] => filteredActive
  | filteredActive, l :: rest =>
    let kept := if filteredActive.any (dominatesActive length l) then filteredActive
      else filteredActive ++ [l]
    if kept.length ≥ 20 then kept else filterActiveLoop length kept rest

/-- The test of indicators.js lines 243-245 for broken lines. -/
def dominatesBroken (l k : TrendLine) : Bool :=
  decide (l.type = k.type) && decide (|l.t2 - k.t2| < 3600) && decide (k.p2 ≠ 0) &&
    decide (|l.p2 - k.p2| / k.p2 < 0.01)

/-- The loop of indicators.js lines 240-248. -/
def filterBroken (brokenLines : List TrendLine) : List TrendLine :=
  brokenLines.foldl (fun filteredBroken l =>
    if filteredBroken.any (dominatesBroken l) then filteredBroken
    else filteredBroken ++ [l]) []

/-- The function `calculateTrendLines(candles, config)`. -/
def calculateTrendLines (candles : List Bar) (config : TrendConfig) : List TrendLine :=
  if candles.length < 100 then []
  else
    let candidates := sortedCandidates candles config
    let activeLines := candidates.filter fun l => decide (l.status = .ACTIVE)
    let brokenLines := candidates.filter fun l => decide (l.status = .BROKEN)
    filterActiveLoop candles.length [] activeLines ++ filterBroken brokenLines

/-! ## Liquidity-trap strategy (`runLiquidityStrategy` of `liquidity.js`) -/

namespace Liquidity

/-- The `mode` argument: one of the six strategy modes (any other string
behaves as `standard`). -/
inductive Mode where
  | standard
  | agro
  | atr
  | atr_agro
  | atr_partial_1
  | atr_partial_2
deriving DecidableEq

/-- The `options` argument.  `options.config` is one object: the properties
that `analyzeSMC` reads are in `config` (its `keepTrades` is overridden with
`true`), those that `calculateTrendLines` reads are in `trendConfig`. -/
structure Options where
  collectOnly : Bool
  useVolumeAnalysis : Bool
  config : Config
  trendConfig : TrendConfig

/-- The local `rrMultiplier` after indicators of the mode (liquidity.js
lines 137-146). -/
def rrMultiplier (mode : Mode) : ℚ :=
  match mode with
  | .agro => 3
  | .atr_agro => 3
  | _ => 2

/-- The local `isATRMode`. -/
def isATRMode (mode : Mode) : Bool :=
  match mode with
  | .standard => false
  | .agro => false
  | _ => true

/-- The local `isPartialMode`. -/
def isPartialMode (mode : Mode) : Bool :=
  match mode with
  | .atr_partial_1 => true
  | .atr_partial_2 => true
  | _ => false

/-- The local `tp1RR`. -/
def tp1RR (mode : Mode) : ℚ :=
  match mode with
  | .atr_partial_1 => 3
  | .atr_partial_2 => 2
  | _ => 0

/-- The local `tp2RR`. -/
def tp2RR (mode : Mode) : ℚ :=
  match mode with
  | .atr_partial_1 => 5
  | .atr_partial_2 => 4
  | _ => 0

/-- The entry `atrValues[i]` of the array filled by liquidity.js lines 21-34
(all indices from 14 on). -/
def atrValues (candles : List Bar) (i : Nat) : ℚ :=
  if 14 ≤ i ∧ i < candles.length then atr14 candles i else 0

/-- The expression `atrValues[i] || (candles[i].high - candles[i].low)`. -/
def atrOr (candles : List Bar) (i : Nat) : ℚ :=
  if atrValues candles i = 0 then (nth candles i).high - (nth candles i).low
  else atrValues candles i

/-- The entry `avgVolumes[i]` of the array filled by liquidity.js lines 39-47:
the mean volume of the 20 bars before bar `i`. -/
def avgVolumes (candles : List Bar) (i : Nat) : ℚ :=
  if 20 ≤ i ∧ i < candles.length then
    ((List.range' 1 20).foldl (fun volSum j => volSum + (nth candles (i - j)).volume) 0) / 20
  else 0

/-- The object `signals` of `analyzeEntryCandle`. -/
structure EntrySignals where
  absorption : Bool
  rejection : Bool
  highVolume : Bool
  score : Nat
deriving DecidableEq

/-- The closure `analyzeEntryCandle(bar, avgVol, isShortTrap)`. -/
def analyzeEntryCandle (useVolumeAnalysis : Bool) (bar : Bar) (avgVol : ℚ)
    (isShortTrap : Bool) : EntrySignals :=
  if !useVolumeAnalysis then
    { absorption := false, rejection := false, highVolume := false, score := 0 }
  else
    let body := |bar.close - bar.open_|
    let range := bar.high - bar.low
    let volume := bar.volume
    let bodyRatio := if range > 0 then body / range else 0
    let volRatio := if avgVol > 0 then volume / avgVol else 1
    let upperWick := bar.high - max bar.open_ bar.close
    let lowerWick := min bar.open_ bar.close - bar.low
    let wickRatio := if range > 0 then (if isShortTrap then upperWick else lowerWick) / range
      else 0
    let absorption := decide (volRatio > 1.2 ∧ bodyRatio < 0.4)
    let rejection := decide (wickRatio > 0.5)
    let highVolume := decide (volRatio > 1.5)
    { absorption := absorption, rejection := rejection, highVolume := highVolume,
      score := (if absorption then 2 else 0) + (if rejection then 2 else 0) +
        (if highVolume then 1 else 0) + (if absorption && rejection then 2 else 0) }

/-- The index parsed from a zone id, `parseInt(parts[parts.length - 1])`. -/
def zoneIdx (z : Zone) : Nat := z.id.index

/-- The closure `findOBsAtTLTouches(line, obs, toleranceBars)`. -/
def findOBsAtTLTouches (line : TrendLine) (obs : List Zone) (toleranceBars : Nat) : List Zone :=
  obs.filter fun ob =>
    line.touchIndices.any fun touchIdx =>
      decide (Int.natAbs ((zoneIdx ob : Int) - (touchIdx : Int)) ≤ toleranceBars)

/-- The midpoint `(top + bottom) / 2` of a zone. -/
def mid (z : Zone) : ℚ := (z.top + z.bottom) / 2

/-- The test `diff <= proximityPct` of liquidity.js lines 95-97 against the
midpoint of the first zone of the group; a zero `currentMid` gives a quotient
that is not finite and ends the group. -/
def nearMid (currentMid proximityPct : ℚ) (z : Zone) : Bool :=
  decide (currentMid ≠ 0) && decide (|mid z - currentMid| / currentMid ≤ proximityPct)

/-- The local `best` after the loop of liquidity.js lines 104-111 over a
group that starts with `first`. -/
def pickBest (isShortTrap : Bool) (first : Zone) (group : List Zone) : Zone :=
  group.foldl (fun best ob =>
    if isShortTrap then (if ob.top > best.top then ob else best)
    else (if ob.bottom < best.bottom then ob else best)) first

/-- The outer `while` loop of `filterNearbyOBs` over the zones still to be
grouped (`sorted.slice(i)`); the first argument bounds the number of
iterations and is never exhausted when it is at least the length of the
list. -/
def clusterLoop (isShortTrap : Bool) (proximityPct : ℚ) : Nat → List Zone → List Zone
  | 0, _ => []
  | _ + 1, [] => []
  | fuel + 1, current :: rest =>
    let group := current :: rest.takeWhile (nearMid (mid current) proximityPct)
    pickBest isShortTrap current group ::
      clusterLoop isShortTrap proximityPct fuel
        (rest.dropWhile (nearMid (mid current) proximityPct))

/-- The closure `filterNearbyOBs(obs, isShortTrap, proximityPct)`. -/
def filterNearbyOBs (obs : List Zone) (isShortTrap : Bool) (proximityPct : ℚ) : List Zone :=
  if obs.length ≤ 1 then obs
  else
    clusterLoop isShortTrap proximityPct obs.length
      (obs.insertionSort (fun a b => mid a ≤ mid b))

/-- The test `z.endTime && z.endTime < breakTime`: `endTime` is truthy (not
`null`, not `0`) and earlier than the break. -/
def mitigatedBefore (z : Zone) (breakTime : Int) : Bool :=
  match z.endTime with
  | some t => decide (t ≠ 0) && decide (t < breakTime)
  | none => false

/-- The distance `Math.abs(fvgIdx - obIdx)`. -/
def idxDist (a b : Nat) : Nat := Int.natAbs ((a : Int) - (b : Int))

/-- The local `associatedFvg` after the loop of liquidity.js lines 191-201;
`none` is `null`. -/
def findAssociatedFvg (fvgs : List Zone) (obIdx breakIdx : Nat) (breakTime : Int) :
    Option Zone :=
  fvgs.foldl (fun associatedFvg fvg =>
    if zoneIdx fvg ≥ breakIdx then associatedFvg
    else if idxDist (zoneIdx fvg) obIdx > 10 then associatedFvg
    else if mitigatedBefore fvg breakTime then associatedFvg
    else
      match associatedFvg with
      | none => some fvg
      | some a =>
        if idxDist (zoneIdx fvg) obIdx < idxDist (zoneIdx a) obIdx then some fvg else some a)
    none

/-- An accepted entry: the locals `entryIdx`, `entryPrice`, `slPrice`. -/
structure Entry where
  entryIdx : Nat
  entryPrice : ℚ
  slPrice : ℚ
deriving DecidableEq

/-- The indices `breakIdx + 1 .. min(length, breakIdx + lookaheadBars) - 1`
of the entry search, with `lookaheadBars = 100`. -/
def lookahead (candles : List Bar) (breakIdx : Nat) : List Nat :=
  List.range' (breakIdx + 1) (min candles.length (breakIdx + 100) - (breakIdx + 1))

/-- The entry search of liquidity.js lines 209-244; `none` is
`entryIdx === -1`. -/
def findEntry (candles : List Bar) (mode : Mode) (isShortTrap : Bool) (ob : Zone)
    (breakIdx : Nat) : Option Entry :=
  let obTop := max ob.top ob.bottom
  let obBottom := min ob.top ob.bottom
  if isATRMode mode then
    let atrAtBreak := atrOr candles breakIdx
    let limitOrderPrice := if isShortTrap then obTop + atrAtBreak else obBottom - atrAtBreak
    match (lookahead candles breakIdx).find? (fun k =>
        (isShortTrap && decide ((nth candles k).high ≥ limitOrderPrice)) ||
        (!isShortTrap && decide ((nth candles k).low ≤ limitOrderPrice))) with
    | none => none
    | some entryIdx =>
      let entryPrice := limitOrderPrice
      let atrAtEntry := atrOr candles entryIdx
      some { entryIdx := entryIdx, entryPrice := entryPrice,
             slPrice := if isShortTrap then entryPrice + atrAtEntry * 1.1
               else entryPrice - atrAtEntry * 1.1 }
  else
    match (lookahead candles breakIdx).find? (fun k =>
        barTouchesZone (nth candles k) ob.top ob.bottom) with
    | none => none
    | some entryIdx =>
      let entryBar := nth candles entryIdx
      let validClose := if isShortTrap then decide (entryBar.close ≤ obTop)
        else decide (entryBar.close ≥ obBottom)
      if !validClose then none
      else
        let atrAtEntry := atrOr candles entryIdx
        some { entryIdx := entryIdx, entryPrice := entryBar.close,
               slPrice := if isShortTrap then obTop + atrAtEntry * 1.0
                 else obBottom - atrAtEntry * 1.0 }

/-- The locals `outcome`, `exitTime`, `pnlR` after an exit simulation. -/
structure ExitResult where
  outcome : TradeStatus
  exitTime : Option Int
  pnlR : ℚ
deriving DecidableEq

/-- The test `isShortTrap ? bar.high >= level : bar.low <= level` of a stop
level (`hitSL`). -/
def hitStop (isShortTrap : Bool) (bar : Bar) (level : ℚ) : Bool :=
  if isShortTrap then decide (bar.high ≥ level) else decide (bar.low ≤ level)

/-- The test `isShortTrap ? bar.low <= target : bar.high >= target` of a
target level (`hitTP`, `hitTP1`, `hitTP2`). -/
def hitTarget (isShortTrap : Bool) (bar : Bar) (target : ℚ) : Bool :=
  if isShortTrap then decide (bar.low ≤ target) else decide (bar.high ≥ target)

/-- The price `isShortTrap ? entryPrice - k * risk : entryPrice + k * risk` of
a target at `k` times the risk. -/
def targetPrice (isShortTrap : Bool) (entryPrice risk k : ℚ) : ℚ :=
  if isShortTrap then entryPrice - k * risk else entryPrice + k * risk

/-- The single-target exit loop of liquidity.js lines 283-289 over the bars
after the entry bar. -/
def simpleExit (isShortTrap : Bool) (slPrice tpPrice rr : ℚ) : List Bar → ExitResult
  | [] => { outcome := .OPEN, exitTime := none, pnlR := 0 }
  | bar :: rest =>
    if hitStop isShortTrap bar slPrice then
      { outcome := .LOSS, exitTime := some bar.time, pnlR := -1 }
    else if hitTarget isShortTrap bar tpPrice then
      { outcome := .WIN, exitTime := some bar.time, pnlR := rr }
    else simpleExit isShortTrap slPrice tpPrice rr rest

/-- The locals `currentSL`, `tp1Hit`, `movedToBE`, `partialPnL` of the
partial-exit loop. -/
structure PartialState where
  currentSL : ℚ
  tp1Hit : Bool
  movedToBE : Bool
  partialPnL : ℚ
deriving DecidableEq

/-- The test `currentRR >= 1` of liquidity.js lines 265-267, with
`currentRR = maxFavorable / risk`. -/
def reachedOneR (isShortTrap : Bool) (entryPrice risk : ℚ) (bar : Bar) : Bool :=
  decide ((if isShortTrap then entryPrice - bar.low else bar.high - entryPrice) / risk ≥ 1)

/-- The statement `if (!movedToBE && currentRR >= 1) { currentSL = bePrice;
movedToBE = true; }`. -/
def beStep (isShortTrap : Bool) (entryPrice risk : ℚ) (st : PartialState) (bar : Bar) :
    PartialState :=
  if !st.movedToBE && reachedOneR isShortTrap entryPrice risk bar then
    { st with currentSL := entryPrice, movedToBE := true }
  else st

/-- The statement `if (!tp1Hit && hitTP1) { tp1Hit = true; partialPnL += 0.5 *
tp1RR; currentSL = bePrice; }`. -/
def tp1Step (isShortTrap : Bool) (entryPrice risk t1 : ℚ) (st : PartialState) (bar : Bar) :
    PartialState :=
  if !st.tp1Hit && hitTarget isShortTrap bar (targetPrice isShortTrap entryPrice risk t1) then
    { st with tp1Hit := true, partialPnL := st.partialPnL + 0.5 * t1, currentSL := entryPrice }
  else st

/-- One iteration of the partial-exit loop of liquidity.js lines 263-280: the
state after the bar, and the result when the iteration breaks.  `hitSL` is
evaluated after the break-even statement and before the first-target
statement. -/
def partialStep (isShortTrap : Bool) (entryPrice risk t1 t2 : ℚ) (st : PartialState)
    (bar : Bar) : PartialState × Option ExitResult :=
  let st1 := beStep isShortTrap entryPrice risk st bar
  let hitSL := hitStop isShortTrap bar st1.currentSL
  let st2 := tp1Step isShortTrap entryPrice risk t1 st1 bar
  if st2.tp1Hit && hitTarget isShortTrap bar (targetPrice isShortTrap entryPrice risk t2) then
    ({ st2 with partialPnL := st2.partialPnL + 0.5 * t2 },
      some { outcome := .WIN, exitTime := some bar.time, pnlR := st2.partialPnL + 0.5 * t2 })
  else if hitSL then
    (st2, some
      (if st2.tp1Hit then { outcome := .WIN, exitTime := some bar.time, pnlR := st2.partialPnL }
       else if st2.movedToBE then { outcome := .BE, exitTime := some bar.time, pnlR := 0 }
       else { outcome := .LOSS, exitTime := some bar.time, pnlR := -1 }))
  else (st2, none)

/-- The partial-exit loop over the bars after the entry bar. -/
def partialExit (isShortTrap : Bool) (entryPrice risk t1 t2 : ℚ) :
    PartialState → List Bar → ExitResult
  | _, [] => { outcome := .OPEN, exitTime := none, pnlR := 0 }
  | st, bar :: rest =>
    match partialStep isShortTrap entryPrice risk t1 t2 st bar with
    | (_, some r) => r
    | (st1, none) => partialExit isShortTrap entryPrice risk t1 t2 st1 rest

/-- The trade identifier, the template string
`trap-${mode}-${line.type}-${ob.id}`. -/
structure TradeId where
  mode : Mode
  lineType : LineType
  obId : ZoneId
deriving DecidableEq

/-- The trade record pushed to `strategyTrades` (`desc` is display text and
is left out). -/
structure StrategyTrade where
  id : TradeId
  time : Int
  type : TradeType
  entry : ℚ
  sl : ℚ
  tp : ℚ
  status : TradeStatus
  pnl : ℚ
  pnlPercent : ℚ
  signalTime : Int
  entryTime : Int
  exitTime : Option Int
  setupScore : ℚ
  savedOB : Zone
  savedFVG : Zone
  savedLine : TrendLine
  outcome : TradeStatus
deriving DecidableEq

/-- The exit simulation of liquidity.js lines 254-294 for an accepted entry
with positive risk. -/
def simulateExit (candles : List Bar) (mode : Mode) (isShortTrap : Bool) (e : Entry) :
    ExitResult :=
  let risk := |e.entryPrice - e.slPrice|
  let tpPrice := targetPrice isShortTrap e.entryPrice risk (rrMultiplier mode)
  if isPartialMode mode then
    partialExit isShortTrap e.entryPrice risk (tp1RR mode) (tp2RR mode)
      { currentSL := e.slPrice, tp1Hit := false, movedToBE := false, partialPnL := 0 }
      (candles.drop (e.entryIdx + 1))
  else
    simpleExit isShortTrap e.slPrice tpPrice (rrMultiplier mode) (candles.drop (e.entryIdx + 1))

/-- The local `tpPriceForDisplay`. -/
def tpForDisplay (mode : Mode) (isShortTrap : Bool) (e : Entry) : ℚ :=
  let risk := |e.entryPrice - e.slPrice|
  targetPrice isShortTrap e.entryPrice risk
    (if isPartialMode mode then tp2RR mode else rrMultiplier mode)

/-- The record pushed by liquidity.js lines 303-322. -/
def makeTrade (candles : List Bar) (mode : Mode) (line : TrendLine) (isShortTrap : Bool)
    (breakTime : Int) (ob associatedFvg : Zone) (e : Entry) (entrySignals : Option EntrySignals)
    (r : ExitResult) : StrategyTrade :=
  { id := { mode := mode, lineType := line.type, obId := ob.id },
    time := (nth candles e.entryIdx).time,
    type := if isShortTrap then .SHORT else .LONG,
    entry := e.entryPrice, sl := e.slPrice, tp := tpForDisplay mode isShortTrap e,
    status := if r.outcome = .BE then .WIN else r.outcome,
    pnl := r.pnlR, pnlPercent := r.pnlR,
    signalTime := breakTime, entryTime := (nth candles e.entryIdx).time,
    exitTime := r.exitTime,
    setupScore := line.duration + (match entrySignals with
      | some s => (s.score : ℚ) * 10
      | none => 0),
    savedOB := ob, savedFVG := associatedFvg, savedLine := line, outcome := r.outcome }

/-- The accumulators of the main loop: `strategyTrades` (in push order) and
the set `processedOBs`. -/
structure StratState where
  strategyTrades : List StrategyTrade
  processedOBs : List ZoneId

/-- The values that the main loop reads: the bars, the mode, the volume
switch and the four zone lists. -/
structure Ctx where
  candles : List Bar
  mode : Mode
  useVolumeAnalysis : Bool
  bullishOBs : List Zone
  bearishOBs : List Zone
  bullishFVGs : List Zone
  bearishFVGs : List Zone

/-- The local `entrySignals` after liquidity.js lines 247-250: the result of
`analyzeEntryCandle(candles[entryIdx], avgVolumes?.[entryIdx] || 1,
isShortTrap)` with volume analysis, `null` without. -/
def entrySignalsOf (ctx : Ctx) (isShortTrap : Bool) (e : Entry) : Option EntrySignals :=
  if ctx.useVolumeAnalysis then
    some (analyzeEntryCandle ctx.useVolumeAnalysis (nth ctx.candles e.entryIdx)
      (if avgVolumes ctx.candles e.entryIdx = 0 then 1
       else avgVolumes ctx.candles e.entryIdx) isShortTrap)
  else none

/-- The test `entrySignals.score < 2` of the volume filter (not made without
volume analysis). -/
def lowScore (entrySignals : Option EntrySignals) : Bool :=
  match entrySignals with
  | some s => decide (s.score < 2)
  | none => false

/-- The body of the loop `for (const ob of filteredOBs)` (liquidity.js lines
181-323). -/
def processOB (ctx : Ctx) (line : TrendLine) (breakIdx : Nat) (st : StratState) (ob : Zone) :
    StratState :=
  let isShortTrap := decide (line.type = .DOWN)
  let fvgs := if isShortTrap then ctx.bearishFVGs else ctx.bullishFVGs
  let breakTime := (nth ctx.candles breakIdx).time
  if ob.id ∈ st.processedOBs then st
  else
    match findAssociatedFvg fvgs (zoneIdx ob) breakIdx breakTime with
    | none => st
    | some associatedFvg =>
      match findEntry ctx.candles ctx.mode isShortTrap ob breakIdx with
      | none => st
      | some e =>
        if lowScore (entrySignalsOf ctx isShortTrap e) then st
        else
          let processedOBs := ob.id :: st.processedOBs
          let risk := |e.entryPrice - e.slPrice|
          if risk ≤ 0 then { st with processedOBs := processedOBs }
          else
            { strategyTrades := st.strategyTrades ++
                [makeTrade ctx.candles ctx.mode line isShortTrap breakTime ob associatedFvg e
                  (entrySignalsOf ctx isShortTrap e)
                  (simulateExit ctx.candles ctx.mode isShortTrap e)],
              processedOBs := processedOBs }

/-- The local `validOBs` of liquidity.js lines 168-176. -/
def validOBs (matchedOBs : List Zone) (breakIdx : Nat) (breakTime : Int) : List Zone :=
  matchedOBs.filter fun ob =>
    !(decide (zoneIdx ob ≥ breakIdx)) && !(mitigatedBefore ob breakTime)

/-- The body of the loop `for (const line of brokenLines)` (liquidity.js
lines 156-324). -/
def processLine (ctx : Ctx) (st : StratState) (line : TrendLine) : StratState :=
  match line.breakIndex with
  | none => st
  | some breakIdx =>
    if breakIdx ≤ 0 ∨ breakIdx ≥ ctx.candles.length then st
    else
      let isShortTrap := decide (line.type = .DOWN)
      let obs := if isShortTrap then ctx.bearishOBs else ctx.bullishOBs
      let breakTime := (nth ctx.candles breakIdx).time
      let matchedOBs := findOBsAtTLTouches line obs 5
      if matchedOBs.length = 0 then st
      else
        let valid := validOBs matchedOBs breakIdx breakTime
        if valid.length = 0 then st
        else (filterNearbyOBs valid isShortTrap 0.01).foldl (processOB ctx line breakIdx) st

/-- The object `{ trades, brokenLines }` returned with `collectOnly`; without
it the function returns the `trades` alone. -/
structure StrategyResult where
  trades : List StrategyTrade
  brokenLines : List TrendLine

/-- The values read by the main loop for a bar array, a mode and the zones
returned by `analyzeSMC`. -/
def ctxOf (candles : List Bar) (mode : Mode) (options : Options) (zones : List Zone) : Ctx :=
  { candles := candles, mode := mode, useVolumeAnalysis := options.useVolumeAnalysis,
    bullishOBs := zones.filter fun z => decide (z.label = .OB ∧ z.type = .BULL),
    bearishOBs := zones.filter fun z => decide (z.label = .OB ∧ z.type = .BEAR),
    bullishFVGs := zones.filter fun z => decide (z.label = .FVG ∧ z.type = .BULL),
    bearishFVGs := zones.filter fun z => decide (z.label = .FVG ∧ z.type = .BEAR) }

/-- The local `brokenLines` of liquidity.js line 50. -/
def brokenLinesOf (candles : List Bar) (options : Options) : List TrendLine :=
  (calculateTrendLines candles options.trendConfig).filter fun l => decide (l.status = .BROKEN)

/-- The function `runLiquidityStrategy(candles, mode, options)`.  The final
`strategyTrades.sort((a, b) => b.time - a.time)` is the stable sort by
descending time. -/
def runLiquidityStrategy (candles : List Bar) (mode : Mode) (options : Options) :
    Except String StrategyResult :=
  if candles.length = 0 then .ok { trades := [], brokenLines := [] }
  else
    match analyzeSMC candles { options.config with keepTrades := true } with
    | .error e => .error e
    | .ok smc =>
      let st := (brokenLinesOf candles options).foldl
        (processLine (ctxOf candles mode options smc.zones))
        { strategyTrades := [], processedOBs := [] }
      .ok { trades := st.strategyTrades.insertionSort (fun a b => a.time ≥ b.time),
            brokenLines := brokenLinesOf candles options }

/-- The zone `z` is at least as favorable as the zone `y`: its top is at
least as high (short trap) resp. its bottom at least as low (long trap). -/
def atLeastAsFavorable (isShortTrap : Bool) (z y : Zone) : Prop :=
  if isShortTrap then y.top ≤ z.top else z.bottom ≤ y.bottom

/-! ### The pushed trades, in the words of the specification -/

/-- The trade `t` is the record pushed for the order block `ob` of the broken
line `line`: an associated gap zone and an entry with positive risk are
found, the volume filter passes, and `t` is built from them and from the
exit simulation. -/
def PushedFor (ctx : Ctx) (line : TrendLine) (breakIdx : Nat) (ob : Zone) (e : Entry)
    (t : StrategyTrade) : Prop :=
  ∃ associatedFvg,
    findAssociatedFvg
      (if decide (line.type = .DOWN) then ctx.bearishFVGs else ctx.bullishFVGs)
      (zoneIdx ob) breakIdx (nth ctx.candles breakIdx).time = some associatedFvg ∧
    findEntry ctx.candles ctx.mode (decide (line.type = .DOWN)) ob breakIdx = some e ∧
    lowScore (entrySignalsOf ctx (decide (line.type = .DOWN)) e) = false ∧
    0 < |e.entryPrice - e.slPrice| ∧
    t = makeTrade ctx.candles ctx.mode line (decide (line.type = .DOWN))
      (nth ctx.candles breakIdx).time ob associatedFvg e
      (entrySignalsOf ctx (decide (line.type = .DOWN)) e)
      (simulateExit ctx.candles ctx.mode (decide (line.type = .DOWN)) e)

/-- The origin of a pushed trade: a line with a break index inside the series,
an order block that passes the filter `validOBs` for it, and the entry from
which the record is built. -/
def Provenance (ctx : Ctx) (t : StrategyTrade) : Prop :=
  ∃ line breakIdx ob e, line.status = .BROKEN ∧ line.breakIndex = some breakIdx ∧
    0 < breakIdx ∧ breakIdx < ctx.candles.length ∧
    ob ∈ (if decide (line.type = .DOWN) then ctx.bearishOBs else ctx.bullishOBs) ∧
    zoneIdx ob < breakIdx ∧ mitigatedBefore ob (nth ctx.candles breakIdx).time = false ∧
    PushedFor ctx line breakIdx ob e t

/-- The invariant of the main loop: the order blocks of the pushed trades are
pairwise different and all in `processedOBs`, and every pushed trade has an
origin. -/
def LoopInv (ctx : Ctx) (st : StratState) : Prop :=
  (st.strategyTrades.map fun t => t.savedOB.id).Nodup ∧
  (∀ t ∈ st.strategyTrades, t.savedOB.id ∈ st.processedOBs) ∧
  (∀ t ∈ st.strategyTrades, Provenance ctx t)

/-- The trade of the lifecycle of `smc.js` that is already `OPEN` at the entry
bar, with the entry, stop and take-profit of the strategy trade. -/
def asOpenTrade (t : StrategyTrade) : Trade :=
  { id := 0, type := t.type, status := .OPEN, entry := t.entry, sl := t.sl, tp := t.tp,
    signalTime := t.signalTime, time := some t.time, pnlValue := 0, pnlPercent := 0, pnl := 0,
    entryTime := some t.entryTime, exitTime := none, savedFVG := none, savedOB := none }

/-- The returned trades as a plain list (empty when `analyzeSMC` throws, which
it never does with `keepTrades`). -/
def tradesOf (candles : List Bar) (mode : Mode) (options : Options) : List StrategyTrade :=
  match runLiquidityStrategy candles mode options with
  | .ok r => r.trades
  | .error _ => []

end Liquidity

/-! ## Trend lines, in the words of the specification -/

/-- The pivot `p` is a swing point of the series for the given line type (a
swing high for `DOWN`, a swing low for `UP`): it carries the time and the
high resp. low of its bar, and no bar within `strength` bars on either side
has a higher high resp. a lower low. -/
def IsSwing (candles : List Bar) (config : TrendConfig) (type : LineType) (p : Pivot) : Prop :=
  p.time = (nth candles p.index).time ∧ p.strength ∈ strengthsOf config ∧
  p.strength ≤ p.index ∧ p.index + p.strength < candles.length ∧
  match type with
  | .DOWN => p.price = (nth candles p.index).high ∧
      ∀ j, 1 ≤ j → j ≤ p.strength →
        (nth candles (p.index - j)).high ≤ (nth candles p.index).high ∧
        (nth candles (p.index + j)).high ≤ (nth candles p.index).high
  | .UP => p.price = (nth candles p.index).low ∧
      ∀ j, 1 ≤ j → j ≤ p.strength →
        (nth candles p.index).low ≤ (nth candles (p.index - j)).low ∧
        (nth candles p.index).low ≤ (nth candles (p.index + j)).low

/-- The price of the line at bar `k`: `p1 + slope * (k - startIdx)`. -/
def TrendLine.priceAt (l : TrendLine) (k : Nat) : ℚ :=
  l.p1 + l.slope * ((k : ℚ) - (l.startIdx : ℚ))

/-- The bar `k` breaks the line by more than half the tolerance (`DOWN`: its
high is above the line price times `1 + tolerance / 2`; `UP`: its low is below
the line price times `1 - tolerance / 2`). -/
def TrendLine.brokenAt (l : TrendLine) (candles : List Bar) (tolerance : ℚ) (k : Nat) : Prop :=
  match l.type with
  | .DOWN => (nth candles k).high > l.priceAt k * (1 + tolerance / 2)
  | .UP => (nth candles k).low < l.priceAt k * (1 - tolerance / 2)

/-- The bar `k` touches the line: its high (`DOWN`) resp. low (`UP`) is within
0.2 % of the line price, relative to the line price. -/
def TrendLine.touchedAt (l : TrendLine) (candles : List Bar) (k : Nat) : Prop :=
  l.priceAt k ≠ 0 ∧
  |(match l.type with
    | .DOWN => (nth candles k).high
    | .UP => (nth candles k).low) - l.priceAt k| / l.priceAt k ≤ 0.002

instance (l : TrendLine) (candles : List Bar) (tolerance : ℚ) (k : Nat) :
    Decidable (l.brokenAt candles tolerance k) := by
  unfold TrendLine.brokenAt; split <;> infer_instance

instance (l : TrendLine) (candles : List Bar) (k : Nat) : Decidable (l.touchedAt candles k) := by
  unfold TrendLine.touchedAt; infer_instance

/-- The active candidates in descending-duration order (the local
`activeLines`). -/
def activeCandidates (candles : List Bar) (config : TrendConfig) : List TrendLine :=
  (sortedCandidates candles config).filter fun l => decide (l.status = .ACTIVE)

/-- The invariant of the arrays `highs` and `lows`: indices are not repeated
and every entry is a swing point. -/
def PivotsOk (candles : List Bar) (config : TrendConfig) (type : LineType) (l : List Pivot) :
    Prop :=
  (l.map fun p => p.index).Nodup ∧ ∀ p ∈ l, IsSwing candles config type p

instance : IsTotal Pivot (fun a b => a.index ≤ b.index) := ⟨fun a b => Nat.le_total _ _⟩

instance : IsTrans Pivot (fun a b => a.index ≤ b.index) :=
  ⟨fun _ _ _ h1 h2 => Nat.le_trans h1 h2⟩

/-- The pivots of a line type. -/
def pivotsOf (candles : List Bar) (config : TrendConfig) (type : LineType) : List Pivot :=
  match type with
  | .DOWN => pivotHighs candles config
  | .UP => pivotLows candles config

/-- The kept lines after the line `l` has been examined. -/
def keptAfter (n : Nat) (acc : List TrendLine) (l : TrendLine) : List TrendLine :=
  if acc.any (dominatesActive n l) then acc else acc ++ [l]

/-! ## Concrete series for the trend lines and the strategy -/

/-- A run of `n` rising bars for the indices `first`, `first + 1`, ..., one
minute apart from the time `t0` of index 0, without volume: bar `k` has low
`lo + k`, high `lo + 9 + k` and opens and closes at `lo + 5 + k`. -/
def riseBars (t0 : Int) (lo : ℚ) (first n : Nat) : List Bar :=
  (List.range n).map fun j =>
    ⟨t0 + 60 * ((first + j : Nat) : Int), lo + 5 + ((first + j : Nat) : ℚ),
     lo + 9 + ((first + j : Nat) : ℚ), lo + ((first + j : Nat) : ℚ),
     lo + 5 + ((first + j : Nat) : ℚ), 0⟩

/-- The bar of index `k` with the given open, high, low and close, without
volume. -/
def barAt (t0 : Int) (k : Nat) (o h l c : ℚ) : Bar := ⟨t0 + 60 * (k : Int), o, h, l, c, 0⟩

/-- A configuration of `calculateTrendLines` with every property absent. -/
def defaultTrendConfig : TrendConfig := ⟨none, none, none, none, none, none⟩

/-- One hundred rising bars (lows from 2000, highs from 2009) with three dips
on one straight line: lows 900, 950 and 1000 at the bars 10, 30 and 50. -/
def clusterSeries : List Bar :=
  riseBars 0 2000 0 10 ++ [barAt 0 10 2015 2019 900 2015] ++ riseBars 0 2000 11 19 ++
    [barAt 0 30 2035 2039 950 2035] ++ riseBars 0 2000 31 19 ++
    [barAt 0 50 2055 2059 1000 2055] ++ riseBars 0 2000 51 49

/-- The first 73 bars of the trap scenario.  Bar 23 is a bearish candle
(high 1024, low 1000) and a swing low; bar 25 opens a bullish gap above it
(from 1024 to 1041); the swing lows at bar 40 (1045) and bar 60 (1060) give
two rising lines from bar 23, broken at bar 47 and at bar 70; bars 71 and 72
fall back, bar 72 into the range of bar 23 (low 1020, close 1022). -/
def trapPrefix (t0 : Int) : List Bar :=
  riseBars t0 991 0 23 ++
    [barAt t0 23 1023 1024 1000 1010, barAt t0 24 1010 1045 1010 1045,
     barAt t0 25 1046 1050 1041 1050] ++
    riseBars t0 1016 26 14 ++ [barAt t0 40 1061 1065 1045 1061] ++ riseBars t0 1016 41 19 ++
    [barAt t0 60 1080 1085 1060 1080] ++ riseBars t0 1016 61 9 ++
    [barAt t0 70 1090 1095 1070 1075, barAt t0 71 1075 1076 1040 1045,
     barAt t0 72 1045 1046 1020 1022]

/-- The trap scenario followed by 27 quietly rising bars (lows from 1030 to
1056, last close 1061). -/
def trapSeries : List Bar := trapPrefix 0 ++ riseBars 0 957 73 27

/-- The trap scenario followed by a fall to 970 at bar 73, a bar 74 between
985 and 1015, and 25 rising bars. -/
def breakEvenSeries : List Bar :=
  trapPrefix 0 ++ [barAt 0 73 1022 1023 970 975, barAt 0 74 990 1015 985 1000] ++
    riseBars 0 930 75 25

/-- A bearish order-block zone with the given candle index, top and bottom. -/
def sampleZone (i : Nat) (top bottom : ℚ) : Zone :=
  { id := ⟨.obS, i⟩, label := .OB, type := .BEAR, top := top, bottom := bottom, time := 0,
    endTime := none, status := .ACTIVE, score := 0, gapSize := none, impulsePercent := none,
    volume := none, hasBOS := none, size := none }

/-- Three zones with the midpoints 100, 100.8 and 101.5; the second has the
highest top. -/
def nearZones : List Zone :=
  [sampleZone 1 100.5 99.5, sampleZone 2 102.6 99, sampleZone 3 102 101]

/-- Options with every property absent (no volume analysis). -/
def Liquidity.defaultOptions : Liquidity.Options :=
  { collectOnly := false, useVolumeAnalysis := false, config := defaultConfig,
    trendConfig := defaultTrendConfig }

/-! ## Streaming update of the bar series (`startWebSocket` of `binance.js`) -/

/-- The array after `candles.push(candle)` and the trim `if (candles.length >
APP.historyTarget + 1000) candles.shift()`. -/
def pushCandle (historyTarget : Nat) (candles : List Bar) (candle : Bar) : List Bar :=
  if (candles ++ [candle]).length > historyTarget + 1000 then (candles ++ [candle]).drop 1
  else candles ++ [candle]

/-- The array `candles` of the state returned by the reducer of `ws.onmessage`
(binance.js lines 54-75; the legacy handler of api.js makes the same three-way
decision in place) for the stored bars and the parsed `candle`.  An update
older than the last bar returns the state unchanged.  The properties
`buyVolume`, `sellVolume` and `delta` of a streamed bar are not read by the
reducer. -/
def updateCandles (historyTarget : Nat) (candles : List Bar) (candle : Bar) : List Bar :=
  match candles.getLast? with
  | some last =>
    if candle.time < last.time then candles
    else if candle.time = last.time then candles.dropLast ++ [candle]
    else pushCandle historyTarget candles candle
  | none => pushCandle historyTarget candles candle

/-! ## Optimizer (`runOptimizer` of `liquidity.js`) -/

namespace Liquidity

/-- One entry of the array returned by `runOptimizer` (the constants `label`,
`rr`, `be` of the mode are display text and are left out). -/
structure OptimizerResult where
  key : Mode
  trades : List StrategyTrade
  total : Nat
  wins : Nat
  losses : Nat
  winRate : ℚ
  totalPnL : ℚ
  profitFactor : ℚ

/-- The keys of the array `configs`, in order. -/
def optimizerModes : List Mode :=
  [.standard, .agro, .atr, .atr_agro, .atr_partial_1, .atr_partial_2]

/-- The local `grossProfit` of `runOptimizer`. -/
def optGrossProfit (trades : List StrategyTrade) : ℚ :=
  (trades.filter fun t => decide (t.pnl > 0)).foldl (fun s t => s + t.pnl) 0

/-- The local `grossLoss` of `runOptimizer`. -/
def optGrossLoss (trades : List StrategyTrade) : ℚ :=
  (trades.filter fun t => decide (t.pnl < 0)).foldl (fun s t => s + |t.pnl|) 0

/-- The object pushed to `results` for one mode (liquidity.js lines 345-363). -/
def optimizerResult (key : Mode) (trades : List StrategyTrade) : OptimizerResult :=
  let wins := (trades.filter fun t => decide (t.status = .WIN)).length
  let losses := (trades.filter fun t => decide (t.status = .LOSS)).length
  let totalPnL := trades.foldl (fun s t => s + t.pnl) 0
  let wr : ℚ := if wins + losses > 0 then (wins : ℚ) / ((wins + losses : Nat) : ℚ) * 100 else 0
  let grossProfit := optGrossProfit trades
  let grossLoss := optGrossLoss trades
  let pf := if grossLoss > 0 then grossProfit / grossLoss
    else (if grossProfit > 0 then 999 else 0)
  { key := key, trades := trades, total := trades.length, wins := wins, losses := losses,
    winRate := wr, totalPnL := totalPnL, profitFactor := pf }

/-- The loop `for (const cfg of configs)` over the given keys. -/
def optimizerLoop (candles : List Bar) (options : Options) :
    List Mode → Except String (List OptimizerResult)
  | [] => .ok []
  | key :: rest =>
    match runLiquidityStrategy candles key { options with collectOnly := true } with
    | .error e => .error e
    | .ok res =>
      match optimizerLoop candles options rest with
      | .error e => .error e
      | .ok results => .ok (optimizerResult key res.trades :: results)

/-- The function `runOptimizer(candles, options)`. -/
def runOptimizer (candles : List Bar) (options : Options) :
    Except String (List OptimizerResult) :=
  if candles.length = 0 then .ok []
  else optimizerLoop candles options optimizerModes

end Liquidity

/-! ## Account metrics (`calculatePnLMetrics` of `pnl.js`)

`Math.sqrt` is a parameter of the model (`mathSqrt`).  The drawdown quotient
`(maxPeak - currentEquity) / maxPeak` is an exact rational; for `maxPeak = 0`
the JavaScript quotient is not a finite number and lies outside the model. -/

namespace PnL

/-- The properties of a trade that `calculatePnLMetrics` reads; an absent
`entryTime` or `exitTime` is `none`. -/
structure PnLTrade where
  status : TradeStatus
  entryTime : Option Int
  exitTime : Option Int
  pnl : ℚ
  pnlPercent : ℚ
  entry : ℚ
  sl : ℚ
  tp : ℚ
deriving DecidableEq

/-- The `config` argument of `calculatePnLMetrics`; an absent property is
`none` (`includeFees` absent is `false`). -/
structure PnLConfig where
  initialBalance : Option ℚ
  feeMaker : Option ℚ
  feeTaker : Option ℚ
  includeFees : Bool

/-- A point `{ time, value }` of the equity curve (`time` is `null` when the
trade has no `exitTime`). -/
structure EquityPoint where
  time : Option Int
  value : ℚ
deriving DecidableEq

/-- The local `initialBalance = config.initialBalance || 10000`. -/
def initialBalanceOf (config : PnLConfig) : ℚ := orElse config.initialBalance 10000

/-- The local `makerFeePct = (config.feeMaker || 0.1) / 100`. -/
def makerFeePct (config : PnLConfig) : ℚ := orElse config.feeMaker 0.1 / 100

/-- The local `takerFeePct = (config.feeTaker || 0.1) / 100`. -/
def takerFeePct (config : PnLConfig) : ℚ := orElse config.feeTaker 0.1 / 100

/-- The local `riskPerTrade = initialBalance * 0.01`. -/
def riskPerTrade (config : PnLConfig) : ℚ := initialBalanceOf config * 0.01

/-- The test `t.status === 'WIN' || t.status === 'LOSS'` of the filter that
builds `closedTrades`. -/
def isClosed (t : PnLTrade) : Bool := decide (t.status = .WIN) || decide (t.status = .LOSS)

/-- The sort key `a.exitTime || 0`. -/
def exitKey (t : PnLTrade) : Int := t.exitTime.getD 0

/-- The local `closedTrades`: the `WIN` and `LOSS` trades in the stable
ascending order of `exitTime || 0`. -/
def closedTrades (trades : List PnLTrade) : List PnLTrade :=
  (trades.filter isClosed).insertionSort (fun a b => exitKey a ≤ exitKey b)

/-- The local `exitPrice = (t.status === 'WIN' && t.tp) ? t.tp : (t.sl ||
entryPrice)`. -/
def exitPrice (t : PnLTrade) : ℚ :=
  if t.status = .WIN ∧ t.tp ≠ 0 then t.tp else (if t.sl ≠ 0 then t.sl else t.entry)

/-- The fees `feeEntry + feeExit` of pnl.js lines 53-60 for a trade with
`distSL > 0`. -/
def feesOf (config : PnLConfig) (t : PnLTrade) : ℚ :=
  let positionSizeUnits := riskPerTrade config / |t.entry - t.sl|
  let notionalEntry := positionSizeUnits * t.entry
  let notionalExit := positionSizeUnits * exitPrice t
  let feeEntry := notionalEntry * takerFeePct config
  let feeExit := if t.status = .WIN then notionalExit * makerFeePct config
    else notionalExit * takerFeePct config
  feeEntry + feeExit

/-- The local `pnlVal` of a closed trade after the fee block (pnl.js lines
45-62): the fee-adjusted profit of the trade. -/
def pnlValOf (config : PnLConfig) (t : PnLTrade) : ℚ :=
  if config.includeFees then
    if |t.entry - t.sl| > 0 then t.pnl * riskPerTrade config - feesOf config t
    else t.pnl * riskPerTrade config
  else t.pnl * riskPerTrade config

/-- The statements of pnl.js lines 75-80: the last point is overwritten when it
has the time `t.exitTime`, otherwise a point is pushed. -/
def pushPoint (curve : List EquityPoint) (time : Option Int) (value : ℚ) : List EquityPoint :=
  match curve.getLast? with
  | some lastPoint =>
    if lastPoint.time = time then curve.dropLast ++ [{ lastPoint with value := value }]
    else curve ++ [{ time := time, value := value }]
  | none => curve ++ [{ time := time, value := value }]

/-- The accumulators of the loop over `closedTrades`. -/
structure ClosedState where
  realizedPnL : ℚ
  currentEquity : ℚ
  returns : List ℚ
  wins : Nat
  losses : Nat
  grossProfit : ℚ
  grossLoss : ℚ
  maxPeak : ℚ
  maxDrawdown : ℚ
  equityCurve : List EquityPoint

/-- One iteration of `closedTrades.forEach` (pnl.js lines 44-81). -/
def closedStep (config : PnLConfig) (st : ClosedState) (t : PnLTrade) : ClosedState :=
  let pnlVal := pnlValOf config t
  let currentEquity := st.currentEquity + pnlVal
  let maxPeak := if currentEquity > st.maxPeak then currentEquity else st.maxPeak
  let dd := (maxPeak - currentEquity) / maxPeak
  { realizedPnL := st.realizedPnL + pnlVal,
    currentEquity := currentEquity,
    returns := st.returns ++ [pnlVal],
    wins := if pnlVal > 0 then st.wins + 1 else st.wins,
    losses := if pnlVal > 0 then st.losses else st.losses + 1,
    grossProfit := if pnlVal > 0 then st.grossProfit + pnlVal else st.grossProfit,
    grossLoss := if pnlVal > 0 then st.grossLoss else st.grossLoss + |pnlVal|,
    maxPeak := maxPeak,
    maxDrawdown := if dd > st.maxDrawdown then dd else st.maxDrawdown,
    equityCurve := pushPoint st.equityCurve t.exitTime currentEquity }

/-- The accumulators before the loop over `closedTrades`: the equity curve
holds the point of the first bar when there is one. -/
def closedInit (candles : List Bar) (config : PnLConfig) : ClosedState :=
  { realizedPnL := 0, currentEquity := initialBalanceOf config, returns := [], wins := 0,
    losses := 0, grossProfit := 0, grossLoss := 0, maxPeak := initialBalanceOf config,
    maxDrawdown := 0,
    equityCurve := if candles.length > 0 then
        [{ time := some (nth candles 0).time, value := initialBalanceOf config }]
      else [] }

/-- The accumulators after the loop over `closedTrades`. -/
def closedFinal (trades : List PnLTrade) (candles : List Bar) (config : PnLConfig) :
    ClosedState :=
  (closedTrades trades).foldl (closedStep config) (closedInit candles config)

/-- The accumulators of the loop `trades.forEach` of pnl.js lines 27-42. -/
structure OpenState where
  unrealizedPnL : ℚ
  firstTradeTime : Option Int
  lastTradeTime : Option Int
  totalDuration : Int
  maxDuration : Int
  durationCount : Nat
deriving DecidableEq

/-- Whether an optional time is truthy: present and not `0`. -/
def truthy (x : Option Int) : Bool :=
  match x with
  | some v => decide (v ≠ 0)
  | none => false

/-- The local `tradeEnd = t.exitTime || (candles.length > 0 ?
candles[candles.length - 1].time : 0)`. -/
def tradeEnd (candles : List Bar) (t : PnLTrade) : Int :=
  if truthy t.exitTime then t.exitTime.getD 0
  else if candles.length > 0 then (nth candles (candles.length - 1)).time else 0

/-- The block `if (t.entryTime) { ... }` of pnl.js lines 29-37. -/
def durationStep (candles : List Bar) (st : OpenState) (t : PnLTrade) : OpenState :=
  if truthy t.entryTime then
    let entryTime := t.entryTime.getD 0
    let dur := tradeEnd candles t - entryTime
    { st with
      firstTradeTime :=
        if !(truthy st.firstTradeTime) || decide (entryTime < st.firstTradeTime.getD 0) then
          some entryTime
        else st.firstTradeTime,
      lastTradeTime :=
        if !(truthy st.lastTradeTime) ||
            decide (tradeEnd candles t > st.lastTradeTime.getD 0) then
          some (tradeEnd candles t)
        else st.lastTradeTime,
      totalDuration := st.totalDuration + dur,
      maxDuration := if dur > st.maxDuration then dur else st.maxDuration,
      durationCount := st.durationCount + 1 }
  else st

/-- One iteration of `trades.forEach` (pnl.js lines 27-42). -/
def openStep (candles : List Bar) (config : PnLConfig) (st : OpenState) (t : PnLTrade) :
    OpenState :=
  if t.status = .WIN ∨ t.status = .LOSS ∨ t.status = .OPEN then
    let st1 := durationStep candles st t
    if t.status = .OPEN then
      { st1 with unrealizedPnL := st1.unrealizedPnL + t.pnlPercent * riskPerTrade config }
    else st1
  else st

/-- The accumulators after `trades.forEach`. -/
def openFinal (trades : List PnLTrade) (candles : List Bar) (config : PnLConfig) : OpenState :=
  trades.foldl (openStep candles config)
    { unrealizedPnL := 0, firstTradeTime := none, lastTradeTime := none, totalDuration := 0,
      maxDuration := 0, durationCount := 0 }

/-- The object `metrics` returned by `calculatePnLMetrics`. -/
structure Metrics where
  totalTrades : Nat
  winRate : ℚ
  profitFactor : ℚ
  sharpe : ℚ
  sortino : ℚ
  maxDrawdown : ℚ
  totalPnL : ℚ
  currentEquity : ℚ
  realizedPnL : ℚ
  unrealizedPnL : ℚ
  avgDuration : ℚ
  maxDuration : Int
  firstTradeTime : Option Int
  lastTradeTime : Option Int
deriving DecidableEq

/-- The object `{ metrics, equityCurve }` returned by `calculatePnLMetrics`. -/
structure PnLResult where
  metrics : Metrics
  equityCurve : List EquityPoint
deriving DecidableEq

/-- The local `meanReturn`. -/
def meanReturn (returns : List ℚ) : ℚ :=
  if returns.length > 0 then returns.foldl (fun a b => a + b) 0 / (returns.length : ℚ) else 0

/-- The local `stdDev`. -/
def stdDev (mathSqrt : ℚ → ℚ) (returns : List ℚ) : ℚ :=
  if returns.length > 1 then
    mathSqrt ((returns.map fun x => (x - meanReturn returns) ^ 2).foldl (fun a b => a + b) 0 /
      (returns.length : ℚ))
  else 0

/-- The local `stdDevDown`. -/
def stdDevDown (mathSqrt : ℚ → ℚ) (returns : List ℚ) : ℚ :=
  let downsideReturns := returns.filter fun x => decide (x < 0)
  if downsideReturns.length > 0 then
    mathSqrt ((downsideReturns.map fun x => x ^ 2).foldl (fun a b => a + b) 0 /
      (downsideReturns.length : ℚ))
  else 0

/-- The function `calculatePnLMetrics(trades, candles, config)`. -/
def calculatePnLMetrics (mathSqrt : ℚ → ℚ) (trades : List PnLTrade) (candles : List Bar)
    (config : PnLConfig) : PnLResult :=
  let cs := closedFinal trades candles config
  let os := openFinal trades candles config
  let totalTrades := (closedTrades trades).length
  let winRate : ℚ := if totalTrades > 0 then (cs.wins : ℚ) / (totalTrades : ℚ) * 100 else 0
  let profitFactor := if cs.grossLoss > 0 then cs.grossProfit / cs.grossLoss
    else (if cs.grossProfit > 0 then 999 else 0)
  let sharpe := if stdDev mathSqrt cs.returns > 0 then
      meanReturn cs.returns / stdDev mathSqrt cs.returns
    else 0
  let sortino := if stdDevDown mathSqrt cs.returns > 0 then
      meanReturn cs.returns / stdDevDown mathSqrt cs.returns
    else 0
  { metrics :=
      { totalTrades := totalTrades, winRate := winRate, profitFactor := profitFactor,
        sharpe := sharpe, sortino := sortino, maxDrawdown := cs.maxDrawdown * 100,
        totalPnL := cs.realizedPnL, currentEquity := cs.currentEquity + os.unrealizedPnL,
        realizedPnL := cs.realizedPnL, unrealizedPnL := os.unrealizedPnL,
        avgDuration := if os.durationCount > 0 then
            (os.totalDuration : ℚ) / (os.durationCount : ℚ)
          else 0,
        maxDuration := os.maxDuration, firstTradeTime := os.firstTradeTime,
        lastTradeTime := os.lastTradeTime },
    equityCurve := cs.equityCurve }

/-! ### The equity curve and the drawdown, in the words of the specification -/

/-- The drawdowns `(P_k - E_k) / P_k` after each trade, where `E_k` is the
equity after the trade and `P_k` the running peak, from the equity and the
peak before the first trade. -/
def drawdowns (config : PnLConfig) : ℚ → ℚ → List PnLTrade → List ℚ
  | _, _, [] => []
  | equity, peak, t :: rest =>
    (max peak (equity + pnlValOf config t) - (equity + pnlValOf config t)) /
        max peak (equity + pnlValOf config t) ::
      drawdowns config (equity + pnlValOf config t) (max peak (equity + pnlValOf config t)) rest

/-- The time `a` is earlier than the time `b`, both being present. -/
def timeBefore (a b : Option Int) : Prop := ∃ x y, a = some x ∧ b = some y ∧ x < y

/-! ### Concrete trades -/

/-- A closed trade with entry 100, stop 95 and target 110, entered at time 60. -/
def sampleTrade (status : TradeStatus) (exitTime : Int) (pnl : ℚ) : PnLTrade :=
  { status := status, entryTime := some 60, exitTime := some exitTime, pnl := pnl,
    pnlPercent := pnl, entry := 100, sl := 95, tp := 110 }

/-- A trade that is still open, with the given unrealized profit in R. -/
def openTrade (pnl : ℚ) : PnLTrade :=
  { status := .OPEN, entryTime := some 60, exitTime := none, pnl := pnl, pnlPercent := pnl,
    entry := 100, sl := 95, tp := 110 }

/-- A configuration with every property absent: balance 10000, no fees. -/
def defaultPnLConfig : PnLConfig :=
  { initialBalance := none, feeMaker := none, feeTaker := none, includeFees := false }

/-- A configuration with fees enabled and both percentages given as 0. -/
def zeroFeeConfig : PnLConfig :=
  { initialBalance := some 10000, feeMaker := some 0, feeTaker := some 0, includeFees := true }

/-- A configuration with fees enabled, maker 0.02 % and taker 0.05 %. -/
def feeConfig : PnLConfig :=
  { initialBalance := some 10000, feeMaker := some 0.02, feeTaker := some 0.05,
    includeFees := true }

end PnL

/-! ## The regime indicators, in the words of the specification -/

/-- The local `hurst` of `calculateHurst` before the two clamping statements:
`Math.log(RS) / Math.log(logs.length)` (indicators.js lines 9-29). -/
def rawHurst (mathLog mathSqrt : ℚ → ℚ) (candles : List Bar) : ℚ :=
  let slice := (candles.drop (candles.length - 200)).map fun x => x.close
  let logs := (List.range' 1 (slice.length - 1)).map fun i =>
    mathLog (slice.getD i 0 / slice.getD (i - 1) 0)
  let mean : ℚ := logs.foldl (fun (a b : ℚ) => a + b) 0 / (logs.length : ℚ)
  let std := mathSqrt (logs.foldl (fun (a b : ℚ) => a + (b - mean) ^ 2) 0 / (logs.length : ℚ))
  let deviation := logs.map fun x => x - mean
  let st := deviation.foldl cumStep { cumDev := 0, maxCum := none, minCum := none }
  let R := st.maxCum.getD 0 - st.minCum.getD 0
  mathLog (R / std) / mathLog (logs.length : ℚ)

/-- The closes of the last `n` bars. -/
def lastCloses (candles : List Bar) (n : Nat) : List ℚ :=
  (candles.drop (candles.length - n)).map fun x => x.close

/-- The sum over `i` of `(close_i - (m * i + b))^2`. -/
def squaredError (closes : List ℚ) (m b : ℚ) : ℚ :=
  ((List.range closes.length).map fun i => (closes.getD i 0 - (m * (i : ℚ) + b)) ^ 2).sum

/-! ### Concrete inputs for the regime indicators -/

/-- Two hundred one-minute bars whose closes are 100, 100, 200, 100, 200, ...:
after the first bar the close alternates between 100 and 200. -/
def zigzagSeries : List Bar :=
  (List.range 200).map fun (k : Nat) =>
    if k = 0 ∨ k % 2 = 1 then ⟨60 * (k : Int), 100, 100, 100, 100, 0⟩
    else ⟨60 * (k : Int), 200, 200, 200, 200, 0⟩

/-- A stand-in for `Math.log` on the arguments that occur for `zigzagSeries`:
the natural logarithm of 2, 1/2 and 199 rounded to six decimals, and the
first-order value `x - 1` near 1 (exact at 1, too large by less than
`(x - 1)^2` above it). -/
def sampleLog (x : ℚ) : ℚ :=
  if x = 2 then 0.693147 else if x = 1 / 2 then -0.693147
  else if x = 199 then 5.293305 else x - 1

/-- A stand-in for `Math.sqrt`: five steps of Heron's iteration `y ↦ (y + x /
y) / 2` from 1, which for `x` between 1/4 and 4 is within `10^-9` of the square
root. -/
def sampleSqrt (x : ℚ) : ℚ :=
  (List.range 5).foldl (fun y _ => (y + x / y) / 2) 1

/-- Three bars with closes 1, 2 and 4. -/
def threeBars : List Bar :=
  [⟨0, 1, 1, 1, 1, 0⟩, ⟨60, 2, 2, 2, 2, 0⟩, ⟨120, 4, 4, 4, 4, 0⟩]

namespace Liquidity

/-! ### Outcomes and levels of the trades, in the words of the specification -/

/-- The finite set of `pnl` values of a closed trade of each mode. -/
def pnlOutcomes : Mode → List ℚ
  | .standard => [-1, 2]
  | .atr => [-1, 2]
  | .agro => [-1, 3]
  | .atr_agro => [-1, 3]
  | .atr_partial_1 => [-1, 0, 1.5, 4]
  | .atr_partial_2 => [-1, 0, 1, 3]

/-- The multiple of the risk at which the displayed take-profit lies: the
risk-reward of the mode or, in the partial modes, the second target. -/
def targetMultiple : Mode → ℚ
  | .standard => 2
  | .atr => 2
  | .agro => 3
  | .atr_agro => 3
  | .atr_partial_1 => 5
  | .atr_partial_2 => 4

/-- The state of the partial-exit loop after the given bars when none of them
ends the loop, `none` when one of them does. -/
def partialStateAfter (isShortTrap : Bool) (entryPrice risk t1 t2 : ℚ) :
    PartialState → List Bar → Option PartialState
  | st, [] => some st
  | st, bar :: rest =>
    match partialStep isShortTrap entryPrice risk t1 t2 st bar with
    | (_, some _) => none
    | (st1, none) => partialStateAfter isShortTrap entryPrice risk t1 t2 st1 rest

/-- The profit booked so far in the partial-exit loop: nothing before the
first target, half of `t1` after it. -/
def BookedOk (t1 : ℚ) (st : PartialState) : Prop :=
  (st.tp1Hit = false → st.partialPnL = 0) ∧ (st.tp1Hit = true → st.partialPnL = 0.5 * t1)

/-- An entry bar at 100, a quiet bar, and a bar from 84 to 106. -/
def tieBars : List Bar :=
  [⟨0, 100, 101, 99, 100, 0⟩, ⟨60, 100, 101, 99, 100, 0⟩, ⟨120, 100, 106, 84, 95, 0⟩,
    ⟨180, 95, 96, 94, 95, 0⟩]

/-- A short entry at bar 0 at the price 100 with the stop at 105. -/
def tieEntry : Entry := { entryIdx := 0, entryPrice := 100, slPrice := 105 }

end Liquidity

/-! ## The trades of `analyzeSMC`, in the words of the specification -/

/-- The trades of a loop state are live: none is cancelled, and the stop of
each lies strictly on the loss side of its entry. -/
def TradesLive (trades : List Trade) : Prop :=
  ∀ t ∈ trades, t.status ≠ .CANCELLED ∧ (t.type = .LONG → t.sl < t.entry) ∧
    (t.type = .SHORT → t.entry < t.sl)

/-- The FVG zones pushed by the loop over the given indices, in push order. -/
def loopFVGs (env : Env) (l : List Nat) : List Zone :=
  l.flatMap fun i => (bullFVG env i).toList ++ (bearFVG env i).toList

/-! ## Pivot detection at a single strength -/

/-- The common shape of `pushHighs` and `pushLows`: one pass `strength` of the
`forEach` of indicators.js lines 111-126 for a pivot test and the price that
the pivot record takes from its bar. -/
def pushPivots (candles : List Bar) (test : Nat → Nat → Bool) (priceOf : Bar → ℚ)
    (acc : List Pivot) (strength : Nat) : List Pivot :=
  (List.range' strength (candles.length - strength - strength)).foldl (fun acc i =>
    if test strength i && !(acc.any fun h => decide (h.index = i)) then
      acc ++ [{ index := i, time := (nth candles i).time, price := priceOf (nth candles i),
                volume := (nth candles i).volume, strength := strength }]
    else acc) acc

/-- The pivot record pushed for bar `i` in the pass `strength`. -/
def pivotAt (candles : List Bar) (priceOf : Bar → ℚ) (i strength : Nat) : Pivot :=
  { index := i, time := (nth candles i).time, price := priceOf (nth candles i),
    volume := (nth candles i).volume, strength := strength }

/-- The index `i` is found as a pivot by one of the given strengths: it lies in
the range of the pass and passes the pivot test of that strength. -/
def foundAt (candles : List Bar) (test : Nat → Nat → Bool) (strengths : List Nat) (i : Nat) :
    Prop :=
  ∃ k ∈ strengths, k ≤ i ∧ i + k < candles.length ∧ test k i = true

/-- The smallest of the three strengths, `min(s, max(2, s - 2))`. -/
def smallestStrength (config : TrendConfig) : Nat :=
  min (fractalStrengthOf config) (max 2 (fractalStrengthOf config - 2))

/-- The sorted array `highs` when the detection runs at the single strength
`m`. -/
def singleHighs (candles : List Bar) (m : Nat) : List Pivot :=
  (pushHighs candles [] m).insertionSort (fun a b => a.index ≤ b.index)

/-- The sorted array `lows` when the detection runs at the single strength
`m`. -/
def singleLows (candles : List Bar) (m : Nat) : List Pivot :=
  (pushLows candles [] m).insertionSort (fun a b => a.index ≤ b.index)

/-- The pivot record without its `strength`. -/
def withoutStrength (p : Pivot) : Pivot := { p with strength := 0 }

/-- The statements of `calculateTrendLines` after the pivot detection
(indicators.js lines 131-250), for given sorted arrays `highs` and `lows`. -/
def linesFromPivots (candles : List Bar) (config : TrendConfig) (highs lows : List Pivot) :
    List TrendLine :=
  if candles.length < 100 then []
  else
    let candidates := (processCandidates candles config highs .DOWN ++
      processCandidates candles config lows .UP).insertionSort
        (fun a b => a.duration ≥ b.duration)
    let activeLines := candidates.filter fun l => decide (l.status = .ACTIVE)
    let brokenLines := candidates.filter fun l => decide (l.status = .BROKEN)
    filterActiveLoop candles.length [] activeLines ++ filterBroken brokenLines

/-! ## Double-precision rounding

JavaScript numbers are IEEE-754 binary64 values and every arithmetic
operation returns the exact result rounded to the nearest such value, ties to
the even significand.  The functions below compute that rounding on the
rationals, for values in the normal range (no overflow to `Infinity`, no
subnormal results); the models that use it take the rounding function as a
parameter `fl`, the identity giving exact arithmetic. -/

/-- The power `2^e` for an integer exponent. -/
def pow2 (e : Int) : ℚ :=
  if 0 ≤ e then ((2 ^ e.toNat : Nat) : ℚ) else 1 / ((2 ^ (-e).toNat : Nat) : ℚ)

/-- The number of halvings that bring `a ≥ 1` below 2 (at most `fuel`). -/
def expUp : Nat → ℚ → Int
  | 0, _ => 0
  | fuel + 1, a => if a < 2 then 0 else expUp fuel (a / 2) + 1

/-- Minus the number of doublings that bring `0 < a < 1` to at least 1 (at
most `fuel`). -/
def expDown : Nat → ℚ → Int
  | 0, _ => 0
  | fuel + 1, a => if 1 ≤ a then 0 else expDown fuel (a * 2) - 1

/-- The binary exponent of `a > 0`: the integer `e` with `2^e ≤ a < 2^(e+1)`,
for `a` in the range of the normal doubles. -/
def binaryExponent (a : ℚ) : Int :=
  if 1 ≤ a then expUp 1100 a else expDown 1100 a

/-- The integer nearest to `m ≥ 0`, the even one of the two when `m` lies
half-way. -/
def roundHalfEven (m : ℚ) : Int :=
  let n := ⌊m⌋
  if m - n < 1 / 2 then n
  else if m - n > 1 / 2 then n + 1
  else if n % 2 = 0 then n else n + 1

/-- The double nearest to `x`: `x` rounded to 53 significant bits, ties to
even. -/
def roundDouble (x : ℚ) : ℚ :=
  if x = 0 then 0
  else
    let ulp := pow2 (binaryExponent |x| - 52)
    let m := (roundHalfEven (|x| / ulp) : ℚ) * ulp
    if x < 0 then -m else m

/-- The value is 0 or its magnitude lies in `[2^-1100, 2^1100)`, the range
covered by the exponent search of `roundDouble` (the normal doubles have
magnitudes in `[2^-1022, 2^1024)`). -/
def inRoundingRange (x : ℚ) : Prop :=
  (x = 0 ∨ 1 / 2 ^ 1100 ≤ |x|) ∧ |x| < 2 ^ 1100

namespace PnL

/-! ### The loop over the closed trades in double arithmetic

The definitions below repeat `pnlValOf` and `closedStep` with the result of
every addition, subtraction, multiplication and division passed through a
rounding function `fl`, as JavaScript does with `fl = roundDouble`; the
literals `0.1` and `0.01` are the rounded values `fl 0.1`, `fl 0.01`, and the
inputs (prices, `pnl`, the configured balance and fees) are taken as they are.
With `fl = id` they are `pnlValOf` and `closedStep`. -/

/-- The local `makerFeePct = (config.feeMaker || 0.1) / 100`, rounded. -/
def makerFeePctRounded (fl : ℚ → ℚ) (config : PnLConfig) : ℚ :=
  fl (orElse config.feeMaker (fl 0.1) / 100)

/-- The local `takerFeePct = (config.feeTaker || 0.1) / 100`, rounded. -/
def takerFeePctRounded (fl : ℚ → ℚ) (config : PnLConfig) : ℚ :=
  fl (orElse config.feeTaker (fl 0.1) / 100)

/-- The local `riskPerTrade = initialBalance * 0.01`, rounded. -/
def riskPerTradeRounded (fl : ℚ → ℚ) (config : PnLConfig) : ℚ :=
  fl (initialBalanceOf config * fl 0.01)

/-- The fees `feeEntry + feeExit` of pnl.js lines 53-60, every operation
rounded. -/
def feesRounded (fl : ℚ → ℚ) (config : PnLConfig) (t : PnLTrade) : ℚ :=
  let positionSizeUnits := fl (riskPerTradeRounded fl config / |fl (t.entry - t.sl)|)
  let notionalEntry := fl (positionSizeUnits * t.entry)
  let notionalExit := fl (positionSizeUnits * exitPrice t)
  let feeEntry := fl (notionalEntry * takerFeePctRounded fl config)
  let feeExit := if t.status = .WIN then fl (notionalExit * makerFeePctRounded fl config)
    else fl (notionalExit * takerFeePctRounded fl config)
  fl (feeEntry + feeExit)

/-- The local `pnlVal` of a closed trade after the fee block (pnl.js lines
45-62), every operation rounded. -/
def pnlValRounded (fl : ℚ → ℚ) (config : PnLConfig) (t : PnLTrade) : ℚ :=
  if config.includeFees then
    if |fl (t.entry - t.sl)| > 0 then
      fl (fl (t.pnl * riskPerTradeRounded fl config) - feesRounded fl config t)
    else fl (t.pnl * riskPerTradeRounded fl config)
  else fl (t.pnl * riskPerTradeRounded fl config)

/-- One iteration of `closedTrades.forEach` (pnl.js lines 44-81), every
operation rounded. -/
def closedStepRounded (fl : ℚ → ℚ) (config : PnLConfig) (st : ClosedState) (t : PnLTrade) :
    ClosedState :=
  let pnlVal := pnlValRounded fl config t
  let currentEquity := fl (st.currentEquity + pnlVal)
  let maxPeak := if currentEquity > st.maxPeak then currentEquity else st.maxPeak
  let dd := fl (fl (maxPeak - currentEquity) / maxPeak)
  { realizedPnL := fl (st.realizedPnL + pnlVal),
    currentEquity := currentEquity,
    returns := st.returns ++ [pnlVal],
    wins := if pnlVal > 0 then st.wins + 1 else st.wins,
    losses := if pnlVal > 0 then st.losses else st.losses + 1,
    grossProfit := if pnlVal > 0 then fl (st.grossProfit + pnlVal) else st.grossProfit,
    grossLoss := if pnlVal > 0 then st.grossLoss else fl (st.grossLoss + |pnlVal|),
    maxPeak := maxPeak,
    maxDrawdown := if dd > st.maxDrawdown then dd else st.maxDrawdown,
    equityCurve := pushPoint st.equityCurve t.exitTime currentEquity }

/-- The accumulators after the loop over `closedTrades`, every operation
rounded; `realizedPnL` and `equityCurve` are returned as they stand. -/
def closedFinalRounded (fl : ℚ → ℚ) (trades : List PnLTrade) (candles : List Bar)
    (config : PnLConfig) : ClosedState :=
  (closedTrades trades).foldl (closedStepRounded fl config) (closedInit candles config)

/-- The running sum of the fee-adjusted profits of the trades from `start`,
rounded after each addition. -/
def roundedSum (fl : ℚ → ℚ) (config : PnLConfig) (start : ℚ) (l : List PnLTrade) : ℚ :=
  l.foldl (fun acc t => fl (acc + pnlValRounded fl config t)) start

/-- One point per trade, in order: the time is the trade's `exitTime` and the
value is the rounded sum of the value of the preceding point and the trade's
fee-adjusted profit. -/
def equityPointsRounded (fl : ℚ → ℚ) (config : PnLConfig) :
    ℚ → List PnLTrade → List EquityPoint
  | _, [] => []
  | equity, t :: rest =>
    { time := t.exitTime, value := fl (equity + pnlValRounded fl config t) } ::
      equityPointsRounded fl config (fl (equity + pnlValRounded fl config t)) rest

/-- Whether no addition of the loop rounds: from the running values
`realized` of `realizedPnL` and `equity` of `currentEquity`, each trade's
profit is added to both without rounding. -/
def additionsExact (fl : ℚ → ℚ) (config : PnLConfig) : ℚ → ℚ → List PnLTrade → Bool
  | _, _, [] => true
  | realized, equity, t :: rest =>
    decide (fl (realized + pnlValRounded fl config t) = realized + pnlValRounded fl config t) &&
    decide (fl (equity + pnlValRounded fl config t) = equity + pnlValRounded fl config t) &&
    additionsExact fl config (realized + pnlValRounded fl config t)
      (equity + pnlValRounded fl config t) rest

/-- Whether the trade passes through the duration block of `trades.forEach`:
its status is `WIN`, `LOSS` or `OPEN` and its `entryTime` is truthy. -/
def countedForDuration (t : PnLTrade) : Bool :=
  (decide (t.status = .WIN) || decide (t.status = .LOSS) || decide (t.status = .OPEN)) &&
    truthy t.entryTime

/-- The local `dur = tradeEnd - t.entryTime` of a trade with an `entryTime`. -/
def durationOf (candles : List Bar) (t : PnLTrade) : Int :=
  tradeEnd candles t - t.entryTime.getD 0

/-- A configuration with fees enabled and every other property absent:
balance 10000, maker and taker fee 0.1 %. -/
def defaultFeeConfig : PnLConfig :=
  { initialBalance := none, feeMaker := none, feeTaker := none, includeFees := true }

end PnL

namespace Liquidity

/-- The statements `risk = Math.abs(entryPrice - slPrice)` and `isShortTrap ?
entryPrice - k * risk : entryPrice + k * risk` of liquidity.js lines 249-259
with the result of every operation passed through the rounding function `fl`;
with `fl = id` this is `targetPrice` at the exact risk. -/
def targetPriceRounded (fl : ℚ → ℚ) (isShortTrap : Bool) (entryPrice slPrice k : ℚ) : ℚ :=
  let risk := |fl (entryPrice - slPrice)|
  if isShortTrap then fl (entryPrice - fl (k * risk)) else fl (entryPrice + fl (k * risk))

/-- The three operations of `targetPriceRounded` each return their exact
result with a relative error of at most `u`: the subtraction `entryPrice -
slPrice`, the product `k * risk` and the final sum or difference.  For `u = 0`
no operation rounds. -/
def RoundsWithin (fl : ℚ → ℚ) (u : ℚ) (isShortTrap : Bool) (entryPrice slPrice k : ℚ) : Prop :=
  abs (fl (entryPrice - slPrice) - (entryPrice - slPrice)) ≤ u * abs (entryPrice - slPrice) ∧
  abs (fl (k * abs (fl (entryPrice - slPrice))) - k * abs (fl (entryPrice - slPrice))) ≤
    u * abs (k * abs (fl (entryPrice - slPrice))) ∧
  if isShortTrap then
    abs (fl (entryPrice - fl (k * abs (fl (entryPrice - slPrice)))) -
        (entryPrice - fl (k * abs (fl (entryPrice - slPrice))))) ≤
      u * abs (entryPrice - fl (k * abs (fl (entryPrice - slPrice))))
  else
    abs (fl (entryPrice + fl (k * abs (fl (entryPrice - slPrice)))) -
        (entryPrice + fl (k * abs (fl (entryPrice - slPrice))))) ≤
      u * abs (entryPrice + fl (k * abs (fl (entryPrice - slPrice))))

instance (fl : ℚ → ℚ) (u : ℚ) (isShortTrap : Bool) (entryPrice slPrice k : ℚ) :
    Decidable (RoundsWithin fl u isShortTrap entryPrice slPrice k) := by
  unfold RoundsWithin; infer_instance

end Liquidity

end BtcTerminal

namespace BtcTerminal

/-! ## Evaluation of the concrete series

Each of the three facts below evaluates the functions once on a concrete
series; the witnesses and counterexamples further down read their part off
it. -/

/-- The lines of `clusterSeries`. -/
lemma clusterSeries_facts :
    (∃ l ∈ calculateTrendLines clusterSeries defaultTrendConfig, l.touches = 3) ∧
    (∃ l1 ∈ activeCandidates clusterSeries defaultTrendConfig,
    ∃ l2 ∈ activeCandidates clusterSeries defaultTrendConfig,
      (l1.startIdx = 10 ∧ l1.endPivotIdx = 30) ∧ (l2.startIdx = 30 ∧ l2.endPivotIdx = 50) ∧
      (l1.type = l2.type ∧
        |projectedPrice clusterSeries.length l1 - projectedPrice clusterSeries.length l2| <
          0.01 * projectedPrice clusterSeries.length l1) ∧
      l1 ∉ calculateTrendLines clusterSeries defaultTrendConfig ∧
      l2 ∉ calculateTrendLines clusterSeries defaultTrendConfig) := by
  decide!

namespace Liquidity

/-- The broken lines of `trapSeries` and the trade returned for it in mode
`standard`. -/
lemma trapSeries_facts :
    (∃ l ∈ brokenLinesOf trapSeries defaultOptions,
      l.startIdx = 23 ∧ l.endPivotIdx = 60 ∧ l.breakIndex = some 70) ∧
    ((brokenLinesOf trapSeries defaultOptions).map
        (fun l => (l.touchIndices, l.breakIndex)) =
      [([23, 60], some 70), ([23, 40], some 47)] ∧
    (tradesOf trapSeries .standard defaultOptions).map
        (fun t => (t.savedOB.id, t.savedLine.touchIndices, t.entryTime)) =
      [(⟨.obL, 23⟩, [23, 60], 4320)]) ∧
    ((tradesOf trapSeries .standard defaultOptions).map
        (fun t => (t.entryTime, t.entry, t.sl)) = [((nth trapSeries 72).time, 1022, 6899 / 7)] ∧
    (tradesOf trapSeries .standard defaultOptions).map
        (fun t => (t.status, t.exitTime, t.pnl)) = [(.OPEN, none, 0)] ∧
    (tradesOf trapSeries .standard defaultOptions).map
        (fun t => (processTradeLifecycle (asOpenTrade t) 72 trapSeries 2).toOption.map
          fun T => (T.status, T.exitTime, T.pnl)) = [some (.OPEN, none, 91 / 85)]) ∧
    (∃ t ∈ tradesOf trapSeries .standard defaultOptions,
      RoundsWithin roundDouble (1 / 2 ^ 53) (decide (t.type = .SHORT)) t.entry t.sl
        (targetMultiple .standard)) := by
  decide!

/-- The trades returned for `breakEvenSeries` in the six modes. -/
lemma breakEvenSeries_facts :
    tradesOf breakEvenSeries .standard defaultOptions ≠ [] ∧
    (tradesOf breakEvenSeries .atr defaultOptions).filter
      (fun t => decide (t.exitTime ≠ none)) ≠ [] ∧
    (∃ t ∈ tradesOf breakEvenSeries .atr_partial_1 defaultOptions,
      (t.entryTime = (nth breakEvenSeries 73).time ∧
        t.exitTime = some (nth breakEvenSeries 74).time) ∧
      (reachedOneR false t.entry |t.entry - t.sl| (nth breakEvenSeries 74) = true ∧
        hitStop false (nth breakEvenSeries 74) t.entry = true ∧
        hitTarget false (nth breakEvenSeries 74)
          (targetPrice false t.entry |t.entry - t.sl| 3) = false) ∧
      (t.outcome = .BE ∧ t.pnl = 0 ∧ t.status = .WIN) ∧ t.type = .LONG) ∧
    optimizerModes.map (fun m =>
        (tradesOf breakEvenSeries m defaultOptions).foldl (fun s t => s + t.pnl) 0) =
      [-1, -1, 2, 0, 0, 0] := by
  decide!

/-- The flag `collectOnly` is not read by `runLiquidityStrategy`. -/
lemma tradesOf_collectOnly (candles : List Bar) (mode : Mode) (options : Options) (b : Bool) :
    tradesOf candles mode { options with collectOnly := b } = tradesOf candles mode options :=
  rfl

end Liquidity

/-! ## Lemmas on the trade lifecycle -/

lemma pendingStep_fields (t : Trade) (bar : Bar) :
    (pendingStep t bar).type = t.type ∧ (pendingStep t bar).entry = t.entry ∧
    (pendingStep t bar).sl = t.sl ∧ (pendingStep t bar).tp = t.tp ∧
    (pendingStep t bar).exitTime = t.exitTime ∧ (pendingStep t bar).pnl = t.pnl := by
  unfold pendingStep
  split <;> split_ifs <;> simp

lemma openStep_fields (t : Trade) (bar : Bar) (rr : ℚ) :
    (openStep t bar rr).1.type = t.type ∧ (openStep t bar rr).1.entry = t.entry ∧
    (openStep t bar rr).1.sl = t.sl ∧ (openStep t bar rr).1.tp = t.tp := by
  unfold openStep
  split <;> split_ifs <;> simp

lemma lifecycleStep_fields (t : Trade) (bar : Bar) (rr : ℚ) :
    (lifecycleStep t bar rr).1.type = t.type ∧ (lifecycleStep t bar rr).1.entry = t.entry ∧
    (lifecycleStep t bar rr).1.sl = t.sl ∧ (lifecycleStep t bar rr).1.tp = t.tp := by
  unfold lifecycleStep
  split_ifs
  · obtain ⟨h1, h2, h3, h4, -, -⟩ := pendingStep_fields t bar
    exact ⟨h1, h2, h3, h4⟩
  · exact openStep_fields t bar rr
  · simp

lemma lifecycleLoop_nil (rr : ℚ) (t : Trade) : lifecycleLoop rr t [] = t := rfl

lemma lifecycleLoop_cons (rr : ℚ) (t : Trade) (bar : Bar) (rest : List Bar) :
    lifecycleLoop rr t (bar :: rest) =
      if (lifecycleStep t bar rr).2 = true then (lifecycleStep t bar rr).1
      else lifecycleLoop rr (lifecycleStep t bar rr).1 rest := by
  rw [lifecycleLoop.eq_def]
  simp only
  rcases lifecycleStep t bar rr with ⟨t1, b⟩
  cases b <;> simp

lemma lifecycleLoop_fields (rr : ℚ) (l : List Bar) :
    ∀ t : Trade, (lifecycleLoop rr t l).type = t.type ∧ (lifecycleLoop rr t l).entry = t.entry ∧
      (lifecycleLoop rr t l).sl = t.sl ∧ (lifecycleLoop rr t l).tp = t.tp := by
  induction l with
  | nil => intro t; simp [lifecycleLoop_nil]
  | cons bar rest ih =>
    intro t
    have hs := lifecycleStep_fields t bar rr
    rw [lifecycleLoop_cons]
    split_ifs
    · exact hs
    · obtain ⟨i1, i2, i3, i4⟩ := ih (lifecycleStep t bar rr).1
      exact ⟨i1.trans hs.1, i2.trans hs.2.1, i3.trans hs.2.2.1, i4.trans hs.2.2.2⟩

/-- A step that breaks leaves the trade closed as a win or a loss. -/
lemma lifecycleStep_break (t : Trade) (bar : Bar) (rr : ℚ)
    (h : (lifecycleStep t bar rr).2 = true) :
    (lifecycleStep t bar rr).1.status = .WIN ∨ (lifecycleStep t bar rr).1.status = .LOSS := by
  by_cases h1 : t.status = .PENDING
  · simp [lifecycleStep, h1] at h
  · by_cases h2 : t.status = .OPEN
    · simp only [lifecycleStep, h1, h2, if_true, if_false] at h ⊢
      unfold openStep at h ⊢
      cases ht : t.type <;> simp only [ht] at h ⊢ <;> split_ifs at h ⊢ <;> simp at h ⊢
    · simp [lifecycleStep, h1, h2] at h

/-- Once the status is neither `PENDING` nor `OPEN` the loop changes nothing. -/
lemma lifecycleLoop_settled (rr : ℚ) (l : List Bar) (t : Trade)
    (hp : t.status ≠ .PENDING) (ho : t.status ≠ .OPEN) : lifecycleLoop rr t l = t := by
  induction l with
  | nil => rfl
  | cons bar rest ih =>
    rw [lifecycleLoop_cons]
    have : lifecycleStep t bar rr = (t, false) := by simp [lifecycleStep, hp, ho]
    rw [this]
    simpa using ih

/-- The loop over a concatenation is the loop over the second part started
from the result of the first. -/
lemma lifecycleLoop_append (rr : ℚ) (pre post : List Bar) :
    ∀ t : Trade, lifecycleLoop rr t (pre ++ post) =
      lifecycleLoop rr (lifecycleLoop rr t pre) post := by
  induction pre with
  | nil => intro t; rfl
  | cons bar rest ih =>
    intro t
    simp only [List.cons_append]
    rw [lifecycleLoop_cons, lifecycleLoop_cons]
    split_ifs with hb
    · rcases lifecycleStep_break t bar rr hb with hw | hl
      · exact (lifecycleLoop_settled rr post _ (by simp [hw]) (by simp [hw])).symm
      · exact (lifecycleLoop_settled rr post _ (by simp [hl]) (by simp [hl])).symm
    · exact ih _

/-- The bars visited by the scan split at bar `j`. -/
lemma drop_split (candles : List Bar) (idx j : Nat) (bar : Bar) (hj : idx < j)
    (hbar : candles[j]? = some bar) :
    candles.drop (idx + 1) =
      (candles.drop (idx + 1)).take (j - (idx + 1)) ++ bar :: candles.drop (j + 1) := by
  have hlen : j < candles.length := by
    rcases List.getElem?_eq_some_iff.mp hbar with ⟨h, -⟩
    exact h
  have h1 : (candles.drop (idx + 1)).drop (j - (idx + 1)) = bar :: candles.drop (j + 1) := by
    rw [List.drop_drop]
    have : idx + 1 + (j - (idx + 1)) = j := by omega
    rw [this]
    rcases List.getElem?_eq_some_iff.mp hbar with ⟨h, hb⟩
    rw [← hb]
    exact List.drop_eq_getElem_cons h
  conv_lhs => rw [← List.take_append_drop (j - (idx + 1)) (candles.drop (idx + 1))]
  rw [h1]

lemma Legacy.processTradeLifecycle_eq (rr : ℚ) (trade : Trade) (idx : Nat)
    (candles : List Bar) :
    Legacy.processTradeLifecycle rr trade idx candles =
      BtcTerminal.processTradeLifecycle trade idx candles rr := rfl

/-- An `OPEN` trade examined at a bar that reaches its stop is closed as a
loss there, whatever follows. -/
lemma lifecycleLoop_open_stop (rr : ℚ) (t : Trade) (bar : Bar) (post : List Bar)
    (ho : t.status = .OPEN) (hs : reachesStop t bar) :
    lifecycleLoop rr t (bar :: post) =
      { t with status := .LOSS, exitTime := some bar.time, pnl := -1, pnlPercent := -1 } := by
  rw [lifecycleLoop_cons]
  have hstep : lifecycleStep t bar rr =
      ({ t with status := .LOSS, exitTime := some bar.time, pnl := -1, pnlPercent := -1 },
        true) := by
    simp only [lifecycleStep, ho, if_true]
    simp only [reduceCtorEq, if_false]
    unfold openStep
    unfold reachesStop at hs
    cases ht : t.type <;> simp only [ht] at hs ⊢ <;> simp [hs]
  rw [hstep]
  simp

/-- The scan of `processTradeLifecycle` written with the state reached just
before bar `j`. -/
lemma scan_split (rr : ℚ) (trade : Trade) (idx j : Nat) (candles : List Bar) (bar : Bar)
    (hj : idx < j) (hbar : candles[j]? = some bar) :
    lifecycleLoop rr trade (candles.drop (idx + 1)) =
      lifecycleLoop rr (tradeBefore rr trade idx candles j) (bar :: candles.drop (j + 1)) := by
  conv_lhs => rw [drop_split candles idx j bar hj hbar]
  rw [lifecycleLoop_append]
  rfl

/-- When the scan does not end `OPEN`, `processTradeLifecycle` returns the
trade as the scan left it. -/
lemma processTradeLifecycle_closed (rr : ℚ) (trade : Trade) (idx : Nat) (candles : List Bar)
    (h : (lifecycleLoop rr trade (candles.drop (idx + 1))).status ≠ .OPEN) :
    processTradeLifecycle trade idx candles rr =
      .ok (lifecycleLoop rr trade (candles.drop (idx + 1))) := by
  unfold processTradeLifecycle
  simp only [h, if_false]

/-! ## The claims on the trade lifecycle -/

/-- C1: in `processTradeLifecycle` (refactored and legacy alike), a trade
that is `OPEN` when bar `j` is examined and whose stop and take-profit are both
reached by that bar ends with status `LOSS`, `pnl = -1` and `exitTime` equal
to the time of that bar: the stop takes priority over the take-profit. -/
theorem stop_priority_same_bar (rr : ℚ) (trade : Trade) (idx j : Nat) (candles : List Bar)
    (bar : Bar) (hj : idx < j) (hbar : candles[j]? = some bar)
    (hopen : (tradeBefore rr trade idx candles j).status = .OPEN)
    (hstop : reachesStop trade bar) (_htp : reachesTakeProfit trade bar) :
    (∃ t, processTradeLifecycle trade idx candles rr = .ok t ∧ t.status = .LOSS ∧
      t.pnl = -1 ∧ t.exitTime = some bar.time) ∧
    (∃ t, Legacy.processTradeLifecycle rr trade idx candles = .ok t ∧ t.status = .LOSS ∧
      t.pnl = -1 ∧ t.exitTime = some bar.time) := by
  have hf := lifecycleLoop_fields rr ((candles.drop (idx + 1)).take (j - (idx + 1))) trade
  have hstop1 : reachesStop (tradeBefore rr trade idx candles j) bar := by
    unfold reachesStop at hstop ⊢
    unfold tradeBefore
    rw [hf.1, hf.2.2.1]
    exact hstop
  have hloop := scan_split rr trade idx j candles bar hj hbar
  rw [lifecycleLoop_open_stop rr _ bar _ hopen hstop1] at hloop
  have key : ∃ t, processTradeLifecycle trade idx candles rr = .ok t ∧ t.status = .LOSS ∧
      t.pnl = -1 ∧ t.exitTime = some bar.time := by
    refine ⟨_, processTradeLifecycle_closed rr trade idx candles ?_, ?_, ?_, ?_⟩ <;>
      simp [hloop]
  exact ⟨key, by rw [Legacy.processTradeLifecycle_eq]; exact key⟩

/-- A witness for C1: a long trade entered at bar 1, whose bar 2 spans both
the stop 95 and the take-profit 110. -/
theorem stop_priority_same_bar_witness :
    (∃ t, processTradeLifecycle (newTrade 0 .LONG 100 95 0 2) 0
        [⟨0, 101, 102, 101, 102, 1⟩, ⟨60, 101, 102, 99, 100, 1⟩, ⟨120, 100, 111, 94, 96, 1⟩] 2
        = .ok t ∧ t.status = .LOSS ∧ t.pnl = -1 ∧
        t.exitTime = some (⟨120, 100, 111, 94, 96, 1⟩ : Bar).time) ∧
    (∃ t, Legacy.processTradeLifecycle 2 (newTrade 0 .LONG 100 95 0 2) 0
        [⟨0, 101, 102, 101, 102, 1⟩, ⟨60, 101, 102, 99, 100, 1⟩, ⟨120, 100, 111, 94, 96, 1⟩]
        = .ok t ∧ t.status = .LOSS ∧ t.pnl = -1 ∧
        t.exitTime = some (⟨120, 100, 111, 94, 96, 1⟩ : Bar).time) :=
  stop_priority_same_bar 2 (newTrade 0 .LONG 100 95 0 2) 0 2
    [⟨0, 101, 102, 101, 102, 1⟩, ⟨60, 101, 102, 99, 100, 1⟩, ⟨120, 100, 111, 94, 96, 1⟩]
    ⟨120, 100, 111, 94, 96, 1⟩ (by decide) rfl (by decide!) (by decide!) (by decide!)

/-- C2 (defect of the refactored `createTrade`): for a SHORT with entry 100,
stop 110 and risk-reward 2 the refactored helper computes
`tp = 100 - (100 - 110) * 2 = 120`, on the loss side of the entry and beyond the
stop, where the legacy helper, whose parity the module header announces,
computes `tp = 100 - (110 - 100) * 2 = 80`.  Through `analyzeSMC`: the bearish
gap of `shortSeries` yields a SHORT with entry 990, stop 1000 and `tp = 1010`
instead of 970, which is recorded as a `WIN` of 2R at bar 50 although the price
never fell below the entry after the fill. -/
theorem createTrade_short_takeProfit_defect :
    createTrade 20 .SHORT 100 110 0 [] 2 =
      .ok (some { newTrade 20 .SHORT 100 110 0 2 with tp := 120 }) ∧
    (Legacy.createTrade 2 20 .SHORT 100 110 0 []).map (Option.map Trade.tp) =
      .ok (some 80) ∧
    (newTrade 20 .SHORT 100 110 0 2).tp ≠ 100 - 2 * (110 - 100) ∧
    (analyzeSMC shortSeries defaultConfig).map
      (fun r => r.trades.map (fun t => (t.type, t.entry, t.sl))) = .ok [(.SHORT, 990, 1000)] ∧
    (analyzeSMC shortSeries defaultConfig).map
      (fun r => r.trades.map (fun t => (t.tp, t.status, t.pnl))) = .ok [(1010, .WIN, 2)] := by
  decide!

/-- A scan in which no bar reaches the entry keeps a trade that is `PENDING`
or `CANCELLED` in one of these two states. -/
lemma lifecycleLoop_no_entry (rr : ℚ) (l : List Bar) :
    ∀ t : Trade, (t.status = .PENDING ∨ t.status = .CANCELLED) →
      (∀ b ∈ l, ¬ reachesEntry t b) →
      (lifecycleLoop rr t l).status = .PENDING ∨ (lifecycleLoop rr t l).status = .CANCELLED := by
  induction l with
  | nil => intro t h _; exact h
  | cons bar rest ih =>
    intro t h hno
    rcases h with hp | hc
    · rw [lifecycleLoop_cons]
      have hbar := hno bar (List.mem_cons_self _ _)
      have hstep : lifecycleStep t bar rr = (pendingStep t bar, false) := by
        simp [lifecycleStep, hp]
      rw [hstep]
      simp only [Bool.false_eq_true, if_false]
      have hf := pendingStep_fields t bar
      apply ih
      · unfold pendingStep
        unfold reachesEntry at hbar
        cases ht : t.type <;> simp only [ht] at hbar ⊢ <;> simp only [hbar, if_false] <;>
          split_ifs <;> simp [hp]
      · intro b hb
        have := hno b (List.mem_cons_of_mem _ hb)
        unfold reachesEntry at this ⊢
        rw [hf.1, hf.2.1]
        exact this
    · rw [lifecycleLoop_settled rr _ t (by simp [hc]) (by simp [hc])]
      exact Or.inr hc

/-- C3 as stated fails: a long with entry 100 and stop 95 is `PENDING` when
bar 1 is examined, no earlier bar has reached the entry, and bar 1 (low 90)
reaches the stop; yet the bar also reaches the entry, which is tested first, so
the trade becomes `OPEN` and `createTrade` returns it. -/
theorem pending_stop_counterexample :
    (tradeBefore 2 (newTrade 0 .LONG 100 95 0 2) 0
      [⟨0, 101, 102, 101, 102, 1⟩, ⟨60, 101, 102, 90, 98, 1⟩] 1).status = .PENDING ∧
    reachesStop (newTrade 0 .LONG 100 95 0 2) ⟨60, 101, 102, 90, 98, 1⟩ ∧
    (∀ b ∈ (([⟨0, 101, 102, 101, 102, 1⟩, ⟨60, 101, 102, 90, 98, 1⟩] : List Bar).drop
        (0 + 1)).take (1 - (0 + 1)), ¬ reachesEntry (newTrade 0 .LONG 100 95 0 2) b) ∧
    (tradeBefore 2 (newTrade 0 .LONG 100 95 0 2) 0
      [⟨0, 101, 102, 101, 102, 1⟩, ⟨60, 101, 102, 90, 98, 1⟩] 2).status = .OPEN ∧
    createTrade 0 .LONG 100 95 0 [⟨0, 101, 102, 101, 102, 1⟩, ⟨60, 101, 102, 90, 98, 1⟩] 2 ≠
      .ok none := by
  decide!

/-- When no bar examined before bar `j` has reached the entry price and bar
`j` reaches the stop price without reaching the entry price (LONG: `entry <
low <= sl`; SHORT: `sl <= high < entry`), the trade is `CANCELLED` once bar `j`
has been examined and `createTrade` returns no trade. -/
lemma pending_stop_without_entry_cancels (rr : ℚ) (idx j : Nat) (type : TradeType)
    (entry sl : ℚ) (time : Int) (candles : List Bar) (bar : Bar)
    (hj : idx < j) (hbar : candles[j]? = some bar)
    (hearlier : ∀ b ∈ (candles.drop (idx + 1)).take (j - (idx + 1)),
      ¬ reachesEntry (newTrade idx type entry sl time rr) b)
    (hstop : reachesStop (newTrade idx type entry sl time rr) bar)
    (hnoentry : ¬ reachesEntry (newTrade idx type entry sl time rr) bar) :
    (tradeBefore rr (newTrade idx type entry sl time rr) idx candles (j + 1)).status
      = .CANCELLED ∧
    createTrade idx type entry sl time candles rr = .ok none := by
  set t0 := newTrade idx type entry sl time rr with ht0
  have hpre := lifecycleLoop_no_entry rr _ t0 (Or.inl rfl) hearlier
  have hf := lifecycleLoop_fields rr ((candles.drop (idx + 1)).take (j - (idx + 1))) t0
  -- the state after bar `j`
  have hafter : ∀ post : List Bar,
      (lifecycleLoop rr (tradeBefore rr t0 idx candles j) (bar :: post)).status
        = .CANCELLED := by
    intro post
    rcases hpre with hp | hc
    · rw [lifecycleLoop_cons]
      have hstep : lifecycleStep (tradeBefore rr t0 idx candles j) bar rr =
          (pendingStep (tradeBefore rr t0 idx candles j) bar, false) := by
        unfold tradeBefore
        simp [lifecycleStep, hp]
      rw [hstep]
      simp only [Bool.false_eq_true, if_false]
      have hcan : (pendingStep (tradeBefore rr t0 idx candles j) bar).status = .CANCELLED := by
        unfold pendingStep tradeBefore
        unfold reachesEntry at hnoentry
        unfold reachesStop at hstop
        rw [hf.1, hf.2.1, hf.2.2.1]
        cases ht : t0.type <;> simp only [ht] at hnoentry hstop ⊢ <;>
          simp only [hnoentry, hstop, if_false, if_true]
      rw [lifecycleLoop_settled rr post _ (by simp [hcan]) (by simp [hcan])]
      exact hcan
    · have hc1 : (tradeBefore rr t0 idx candles j).status = .CANCELLED := hc
      rw [lifecycleLoop_settled rr _ _ (by simp [hc1]) (by simp [hc1])]
      exact hc1
  constructor
  · -- bars `idx+1 .. j` are the bars before `j` followed by bar `j`
    have hlen : j < candles.length := (List.getElem?_eq_some_iff.mp hbar).1
    have hsplit := drop_split candles idx j bar hj hbar
    have hl : ((candles.drop (idx + 1)).take (j - (idx + 1))).length = j - (idx + 1) := by
      rw [List.length_take, List.length_drop]; omega
    have htake : (candles.drop (idx + 1)).take (j + 1 - (idx + 1)) =
        (candles.drop (idx + 1)).take (j - (idx + 1)) ++ [bar] := by
      conv_lhs => rw [hsplit]
      rw [List.take_append_eq_append_take, hl]
      have h1 : j + 1 - (idx + 1) - (j - (idx + 1)) = 1 := by omega
      rw [h1]
      rw [List.take_of_length_le (by rw [hl]; omega)]
      simp
    unfold tradeBefore
    rw [htake, lifecycleLoop_append]
    exact hafter []
  · have hfinal := hafter (candles.drop (j + 1))
    rw [← scan_split rr t0 idx j candles bar hj hbar] at hfinal
    unfold createTrade
    rw [processTradeLifecycle_closed rr t0 idx candles (by simp [hfinal])]
    simp [hfinal]

/-- A scan in which no bar reaches the entry or the stop leaves a `PENDING`
trade untouched. -/
lemma lifecycleLoop_untouched (rr : ℚ) (t : Trade) (hp : t.status = .PENDING) (l : List Bar)
    (hno : ∀ b ∈ l, ¬ reachesEntry t b ∧ ¬ reachesStop t b) : lifecycleLoop rr t l = t := by
  induction l with
  | nil => rfl
  | cons bar rest ih =>
    rw [lifecycleLoop_cons]
    obtain ⟨hne, hns⟩ := hno bar (List.mem_cons_self _ _)
    have hstep : lifecycleStep t bar rr = (t, false) := by
      simp only [lifecycleStep, hp, if_true]
      unfold pendingStep
      unfold reachesEntry at hne
      unfold reachesStop at hns
      cases ht : t.type <;> simp only [ht] at hne hns ⊢ <;> simp only [hne, hns, if_false]
    rw [hstep]
    simp only [Bool.false_eq_true, if_false]
    exact ih (fun b hb => hno b (List.mem_cons_of_mem _ hb))

/-- C4: for every bar series, origin index and `PENDING` trade (which, as
`createTrade` builds it, carries `pnl = 0` and neither `entryTime` nor
`exitTime`), if no bar after the origin index reaches the entry price and none
reaches the stop price, `processTradeLifecycle` returns the trade unchanged:
still `PENDING`, with `pnl = 0` and no `entryTime` or `exitTime`. -/
theorem pending_never_reached_stays_pending (rr : ℚ) (trade : Trade) (idx : Nat)
    (candles : List Bar) (hp : trade.status = .PENDING)
    (hfresh : trade.pnl = 0 ∧ trade.entryTime = none ∧ trade.exitTime = none)
    (hno : ∀ b ∈ candles.drop (idx + 1), ¬ reachesEntry trade b ∧ ¬ reachesStop trade b) :
    ∃ t, processTradeLifecycle trade idx candles rr = .ok t ∧ t = trade ∧
      t.status = .PENDING ∧ t.pnl = 0 ∧ t.entryTime = none ∧ t.exitTime = none := by
  have hloop := lifecycleLoop_untouched rr trade hp (candles.drop (idx + 1)) hno
  refine ⟨trade, ?_, rfl, hp, hfresh.1, hfresh.2.1, hfresh.2.2⟩
  rw [processTradeLifecycle_closed rr trade idx candles (by simp [hloop, hp]), hloop]

/-- A witness for C4: a long with entry 100 and stop 95 over two later bars
that stay above 100. -/
theorem pending_never_reached_stays_pending_witness :
    ∃ t, processTradeLifecycle (newTrade 0 .LONG 100 95 0 2) 0
        [⟨0, 101, 102, 101, 102, 1⟩, ⟨60, 102, 104, 101, 103, 1⟩, ⟨120, 103, 109, 102, 108, 1⟩]
        2 = .ok t ∧ t = newTrade 0 .LONG 100 95 0 2 ∧
      t.status = .PENDING ∧ t.pnl = 0 ∧ t.entryTime = none ∧ t.exitTime = none :=
  pending_never_reached_stays_pending 2 (newTrade 0 .LONG 100 95 0 2) 0
    [⟨0, 101, 102, 101, 102, 1⟩, ⟨60, 102, 104, 101, 103, 1⟩, ⟨120, 103, 109, 102, 108, 1⟩]
    rfl ⟨rfl, rfl, rfl⟩ (by decide!)

/-- A step that does not break leaves `exitTime` as it was. -/
lemma lifecycleStep_exitTime (t : Trade) (bar : Bar) (rr : ℚ)
    (h : (lifecycleStep t bar rr).2 = false) :
    (lifecycleStep t bar rr).1.exitTime = t.exitTime := by
  by_cases h1 : t.status = .PENDING
  · simp only [lifecycleStep, h1, if_true]
    exact (pendingStep_fields t bar).2.2.2.2.1
  · by_cases h2 : t.status = .OPEN
    · have hs : lifecycleStep t bar rr = openStep t bar rr := by
        unfold lifecycleStep; rw [if_neg h1, if_pos h2]
      rw [hs] at h ⊢
      unfold openStep at h ⊢
      cases ht : t.type <;> simp only [ht] at h ⊢ <;> split_ifs at h ⊢ <;> simp at h ⊢
    · simp [lifecycleStep, h1, h2]

/-- A scan that ends `OPEN` has not assigned `exitTime`. -/
lemma lifecycleLoop_open_exitTime (rr : ℚ) (l : List Bar) :
    ∀ t : Trade, (lifecycleLoop rr t l).status = .OPEN →
      (lifecycleLoop rr t l).exitTime = t.exitTime := by
  induction l with
  | nil => intro t _; rfl
  | cons bar rest ih =>
    intro t
    rw [lifecycleLoop_cons]
    split_ifs with hb
    · intro ho
      rcases lifecycleStep_break t bar rr hb with hw | hl
      · rw [hw] at ho; cases ho
      · rw [hl] at ho; cases ho
    · intro ho
      rw [ih _ ho]
      exact lifecycleStep_exitTime t bar rr (by simpa using hb)

/-- C5: when the scan of `processTradeLifecycle` exhausts the bar series with
the trade `OPEN`, the returned trade is still `OPEN`, its `exitTime` has not
been assigned, and its `pnl` is the unrealized R-multiple against the close of
the last bar: `(lastClose - entry) / (entry - sl)` for a LONG and
`(entry - lastClose) / (sl - entry)` for a SHORT (exact rational quotient). -/
theorem open_at_series_end_marked_to_market (rr : ℚ) (trade : Trade) (idx : Nat)
    (candles : List Bar) (last : Bar) (hlast : candles.getLast? = some last)
    (hopen : (lifecycleLoop rr trade (candles.drop (idx + 1))).status = .OPEN) :
    ∃ t, processTradeLifecycle trade idx candles rr = .ok t ∧ t.status = .OPEN ∧
      t.exitTime = trade.exitTime ∧
      t.pnl = (match trade.type with
        | .LONG => (last.close - trade.entry) / (trade.entry - trade.sl)
        | .SHORT => (trade.entry - last.close) / (trade.sl - trade.entry)) := by
  have hf := lifecycleLoop_fields rr (candles.drop (idx + 1)) trade
  have hx := lifecycleLoop_open_exitTime rr (candles.drop (idx + 1)) trade hopen
  refine ⟨{ lifecycleLoop rr trade (candles.drop (idx + 1)) with
      pnl := rMultiple (lifecycleLoop rr trade (candles.drop (idx + 1))) last.close,
      pnlPercent := rMultiple (lifecycleLoop rr trade (candles.drop (idx + 1))) last.close },
    ?_, ?_, ?_, ?_⟩
  · unfold processTradeLifecycle
    simp only [hopen, if_true, hlast]
  · exact hopen
  · exact hx
  · simp only [rMultiple, hf.1, hf.2.1, hf.2.2.1]

/-- A witness for C5: a long entered at bar 1 and still open at the last bar,
whose close 104 gives `(104 - 100) / (100 - 95) = 4/5`. -/
theorem open_at_series_end_marked_to_market_witness :
    ∃ t, processTradeLifecycle (newTrade 0 .LONG 100 95 0 2) 0
        [⟨0, 101, 102, 101, 102, 1⟩, ⟨60, 101, 102, 99, 100, 1⟩, ⟨120, 100, 105, 98, 104, 1⟩] 2
        = .ok t ∧ t.status = .OPEN ∧
      t.exitTime = (newTrade 0 .LONG 100 95 0 2).exitTime ∧
      t.pnl = (match (newTrade 0 .LONG 100 95 0 2).type with
        | .LONG => ((⟨120, 100, 105, 98, 104, 1⟩ : Bar).close - (newTrade 0 .LONG 100 95 0 2).entry)
            / ((newTrade 0 .LONG 100 95 0 2).entry - (newTrade 0 .LONG 100 95 0 2).sl)
        | .SHORT => ((newTrade 0 .LONG 100 95 0 2).entry - (⟨120, 100, 105, 98, 104, 1⟩ : Bar).close)
            / ((newTrade 0 .LONG 100 95 0 2).sl - (newTrade 0 .LONG 100 95 0 2).entry)) :=
  open_at_series_end_marked_to_market 2 (newTrade 0 .LONG 100 95 0 2) 0
    [⟨0, 101, 102, 101, 102, 1⟩, ⟨60, 101, 102, 99, 100, 1⟩, ⟨120, 100, 105, 98, 104, 1⟩]
    ⟨120, 100, 105, 98, 104, 1⟩ rfl (by decide!)

/-! ## The main loop of `analyzeSMC` never throws and pushes `loopZones` -/

lemma processTradeLifecycle_ok (trade : Trade) (idx : Nat) (candles : List Bar) (rr : ℚ)
    (hne : candles ≠ []) : ∃ t, processTradeLifecycle trade idx candles rr = .ok t := by
  unfold processTradeLifecycle
  simp only
  split_ifs
  · cases h : candles.getLast? with
    | none => exact absurd (List.getLast?_eq_none_iff.mp h) hne
    | some last => exact ⟨_, rfl⟩
  · exact ⟨_, rfl⟩

lemma createTrade_ok (idx : Nat) (type : TradeType) (entry sl : ℚ) (time : Int)
    (candles : List Bar) (rr : ℚ) (hne : candles ≠ []) :
    ∃ x, createTrade idx type entry sl time candles rr = .ok x := by
  obtain ⟨t, ht⟩ := processTradeLifecycle_ok (newTrade idx type entry sl time rr) idx candles rr hne
  unfold createTrade
  rw [ht]
  exact ⟨_, rfl⟩

lemma pushGap_ok (env : Env) (st : LoopState) (zone : Zone) (ob : Option (Nat × Zone))
    (trade : Except String (Option Trade)) (ht : ∃ x, trade = .ok x) :
    ∃ st1, pushGap env st zone ob trade = .ok st1 ∧
      st1.zones = st.zones ++ gapZones (some zone) ob ∧
      st1.processedOBs = gapProcessed (some zone) ob st.processedOBs := by
  obtain ⟨x, rfl⟩ := ht
  unfold pushGap gapZones gapProcessed
  rcases ob with _ | ⟨k, o⟩ <;> by_cases hk : env.keepTrades = true <;>
    rcases x with _ | t <;> simp [hk]

lemma bullStep_ok (env : Env) (st : LoopState) (i : Nat) (hne : env.candles ≠ []) :
    ∃ st1, bullStep env st i = .ok st1 ∧
      st1.zones = st.zones ++
        gapZones (bullFVG env i) (associatedOB env st.processedOBs i true) ∧
      st1.processedOBs = bullProcessed env st.processedOBs i := by
  unfold bullStep bullProcessed
  cases h : bullFVG env i with
  | none => exact ⟨st, rfl, by simp [gapZones], by simp [gapProcessed]⟩
  | some zone => exact pushGap_ok env st zone _ _ (createTrade_ok _ _ _ _ _ _ _ hne)

lemma bearStep_ok (env : Env) (st : LoopState) (i : Nat) (hne : env.candles ≠ []) :
    ∃ st1, bearStep env st i = .ok st1 ∧
      st1.zones = st.zones ++
        gapZones (bearFVG env i) (associatedOB env st.processedOBs i false) ∧
      st1.processedOBs =
        gapProcessed (bearFVG env i) (associatedOB env st.processedOBs i false)
          st.processedOBs := by
  unfold bearStep
  cases h : bearFVG env i with
  | none => exact ⟨st, rfl, by simp [gapZones], by simp [gapProcessed]⟩
  | some zone => exact pushGap_ok env st zone _ _ (createTrade_ok _ _ _ _ _ _ _ hne)

lemma smcStep_ok (env : Env) (st : LoopState) (i : Nat) (hne : env.candles ≠ []) :
    ∃ st1, smcStep env st i = .ok st1 ∧
      st1.zones = st.zones ++ stepZones env st.processedOBs i ∧
      st1.processedOBs = stepProcessed env st.processedOBs i := by
  obtain ⟨s1, h1, hz1, hp1⟩ := bullStep_ok env st i hne
  obtain ⟨s2, h2, hz2, hp2⟩ := bearStep_ok env s1 i hne
  refine ⟨s2, ?_, ?_, ?_⟩
  · unfold smcStep; rw [h1]; exact h2
  · rw [hz2, hz1, hp1, List.append_assoc]; rfl
  · rw [hp2, hp1]; rfl

lemma smcLoop_ok (env : Env) (hne : env.candles ≠ []) (l : List Nat) :
    ∀ st : LoopState, ∃ st1, smcLoop env st l = .ok st1 ∧
      st1.zones = st.zones ++ loopZones env st.processedOBs l := by
  induction l with
  | nil => intro st; exact ⟨st, rfl, by simp [loopZones]⟩
  | cons i rest ih =>
    intro st
    obtain ⟨s1, h1, hz1, hp1⟩ := smcStep_ok env st i hne
    obtain ⟨s2, h2, hz2⟩ := ih s1
    refine ⟨s2, ?_, ?_⟩
    · rw [smcLoop.eq_def]; simp only; rw [h1]; exact h2
    · rw [hz2, hz1, hp1, List.append_assoc]; rfl

/-- The zones returned by `analyzeSMC` on at least 50 bars: the zones pushed by
the main loop, sorted by time. -/
lemma analyzeSMC_zones (candles : List Bar) (config : Config) (h50 : 50 ≤ candles.length) :
    ∃ r, analyzeSMC candles config = .ok r ∧
      r.zones = (loopZones (envOf candles config) []
        (loopIndices (envOf candles config))).insertionSort (fun a b => a.time ≤ b.time) := by
  have hne : (envOf candles config).candles ≠ [] := by
    intro h
    have : candles = [] := h
    rw [this] at h50
    simp at h50
  obtain ⟨st, hst, hz⟩ := smcLoop_ok (envOf candles config) hne
    (loopIndices (envOf candles config)) { zones := [], trades := [], processedOBs := [] }
  refine ⟨{ zones := st.zones.insertionSort (fun a b => a.time ≤ b.time),
            trades := st.trades }, ?_, ?_⟩
  · unfold analyzeSMC
    rw [if_neg (by omega), hst]
  · simp only [hz, List.nil_append]

/-! ## Which zones the loop pushes -/

lemma mitigate_fields (candles : List Bar) (i : Nat) (z : Zone) :
    (mitigate candles i z).id = z.id ∧ (mitigate candles i z).label = z.label ∧
    (mitigate candles i z).type = z.type ∧ (mitigate candles i z).top = z.top ∧
    (mitigate candles i z).bottom = z.bottom ∧ (mitigate candles i z).time = z.time := by
  unfold mitigate
  split <;> simp

/-- The gap test and the filters of the bullish block. -/
lemma bullFVG_isSome_iff (env : Env) (i : Nat) :
    (bullFVG env i).isSome = true ↔
      (nth env.candles i).low > (nth env.candles (i - 2)).high ∧
      validFVG ((nth env.candles i).low - (nth env.candles (i - 2)).high)
        (absQuot ((nth env.candles i).close - (nth env.candles (i - 2)).close)
          (nth env.candles (i - 2)).close)
        (atrAt env i) env.sens (nth env.candles i) (nth env.candles (i - 1))
        (nth env.candles (i - 2)) = true := by
  unfold bullFVG
  simp only
  split_ifs <;> simp_all

/-- The gap test and the filters of the bearish block. -/
lemma bearFVG_isSome_iff (env : Env) (i : Nat) :
    (bearFVG env i).isSome = true ↔
      (nth env.candles i).high < (nth env.candles (i - 2)).low ∧
      validFVG ((nth env.candles (i - 2)).low - (nth env.candles i).high)
        (absQuot ((nth env.candles (i - 2)).close - (nth env.candles i).close)
          (nth env.candles (i - 2)).close)
        (atrAt env i) env.sens (nth env.candles i) (nth env.candles (i - 1))
        (nth env.candles (i - 2)) = true := by
  unfold bearFVG
  simp only
  split_ifs <;> simp_all

lemma bullFVG_some (env : Env) (i : Nat) (z : Zone) (h : bullFVG env i = some z) :
    z.id = ⟨.fvgL, i⟩ ∧ z.label = .FVG ∧ z.type = .BULL ∧ z.top = (nth env.candles i).low ∧
      z.bottom = (nth env.candles (i - 2)).high ∧
      ∃ z0 : Zone, z = mitigate env.candles i z0 ∧ z0.status = .ACTIVE ∧ z0.endTime = none := by
  unfold bullFVG at h
  simp only at h
  split_ifs at h with h1 h2
  simp only [Option.some.injEq] at h
  obtain ⟨m1, m2, m3, m4, m5, -⟩ := mitigate_fields env.candles i
    { id := ⟨.fvgL, i⟩, label := .FVG, type := .BULL, top := (nth env.candles i).low,
      bottom := (nth env.candles (i - 2)).high, time := (nth env.candles (i - 1)).time,
      endTime := none, status := .ACTIVE,
      score := calculateFVGScore ((nth env.candles i).low - (nth env.candles (i - 2)).high)
        (absQuot ((nth env.candles i).close - (nth env.candles (i - 2)).close)
          (nth env.candles (i - 2)).close) (atrAt env i) (avgVolAt env i)
        [nth env.candles (i - 2), nth env.candles (i - 1), nth env.candles i],
      gapSize := some ((nth env.candles i).low - (nth env.candles (i - 2)).high),
      impulsePercent := some (absQuot ((nth env.candles i).close - (nth env.candles (i - 2)).close)
          (nth env.candles (i - 2)).close),
      volume := none, hasBOS := none, size := none }
  rw [h] at m1 m2 m3 m4 m5
  exact ⟨m1, m2, m3, m4, m5, _, h.symm, rfl, rfl⟩

lemma bearFVG_some (env : Env) (i : Nat) (z : Zone) (h : bearFVG env i = some z) :
    z.id = ⟨.fvgS, i⟩ ∧ z.label = .FVG ∧ z.type = .BEAR ∧
      z.top = (nth env.candles (i - 2)).low ∧ z.bottom = (nth env.candles i).high ∧
      ∃ z0 : Zone, z = mitigate env.candles i z0 ∧ z0.status = .ACTIVE ∧ z0.endTime = none := by
  unfold bearFVG at h
  simp only at h
  split_ifs at h with h1 h2
  simp only [Option.some.injEq] at h
  obtain ⟨m1, m2, m3, m4, m5, -⟩ := mitigate_fields env.candles i
    { id := ⟨.fvgS, i⟩, label := .FVG, type := .BEAR, top := (nth env.candles (i - 2)).low,
      bottom := (nth env.candles i).high, time := (nth env.candles (i - 1)).time,
      endTime := none, status := .ACTIVE,
      score := calculateFVGScore ((nth env.candles (i - 2)).low - (nth env.candles i).high)
        (absQuot ((nth env.candles (i - 2)).close - (nth env.candles i).close)
          (nth env.candles (i - 2)).close) (atrAt env i) (avgVolAt env i)
        [nth env.candles (i - 2), nth env.candles (i - 1), nth env.candles i],
      gapSize := some ((nth env.candles (i - 2)).low - (nth env.candles i).high),
      impulsePercent := some (absQuot ((nth env.candles (i - 2)).close - (nth env.candles i).close)
          (nth env.candles (i - 2)).close),
      volume := none, hasBOS := none, size := none }
  rw [h] at m1 m2 m3 m4 m5
  exact ⟨m1, m2, m3, m4, m5, _, h.symm, rfl, rfl⟩

lemma obZone_fields (env : Env) (i k : Nat) (b : Bool) :
    (obZone env i k b).id = ⟨if b then .obL else .obS, k⟩ ∧ (obZone env i k b).label = .OB ∧
      (obZone env i k b).top = (nth env.candles k).high ∧
      (obZone env i k b).bottom = (nth env.candles k).low ∧
      ∃ z0 : Zone, obZone env i k b = mitigate env.candles i z0 ∧ z0.status = .ACTIVE ∧
        z0.endTime = none := by
  unfold obZone
  simp only
  refine ⟨?_, ?_, ?_, ?_, _, rfl, rfl, rfl⟩
  · rw [(mitigate_fields _ _ _).1]
  · rw [(mitigate_fields _ _ _).2.1]
  · rw [(mitigate_fields _ _ _).2.2.2.1]
  · rw [(mitigate_fields _ _ _).2.2.2.2.1]

lemma associatedOB_some (env : Env) (p : List Nat) (i k : Nat) (b : Bool) (z : Zone)
    (h : associatedOB env p i b = some (k, z)) :
    findOBCandle env.candles i b = some k ∧ k ∉ p ∧ z = obZone env i k b := by
  unfold associatedOB at h
  cases hf : findOBCandle env.candles i b with
  | none => rw [hf] at h; simp at h
  | some k1 =>
    rw [hf] at h
    simp only at h
    split_ifs at h with hk
    simp only [Option.some.injEq, Prod.mk.injEq] at h
    obtain ⟨rfl, rfl⟩ := h
    exact ⟨rfl, hk, rfl⟩

lemma mem_gapZones (zone : Option Zone) (ob : Option (Nat × Zone)) (z : Zone) :
    z ∈ gapZones zone ob ↔ zone = some z ∨ (zone.isSome = true ∧ ∃ k, ob = some (k, z)) := by
  unfold gapZones
  rcases zone with _ | z1 <;> rcases ob with _ | ⟨k, o⟩ <;> simp [eq_comm]

lemma gapProcessed_subset (zone : Option Zone) (ob : Option (Nat × Zone)) (p : List Nat) :
    ∀ k ∈ p, k ∈ gapProcessed zone ob p := by
  intro k hk
  unfold gapProcessed
  rcases zone with _ | z1 <;> rcases ob with _ | ⟨k1, o⟩ <;> simp [hk]

lemma stepProcessed_subset (env : Env) (p : List Nat) (i : Nat) :
    ∀ k ∈ p, k ∈ stepProcessed env p i := by
  intro k hk
  unfold stepProcessed
  exact gapProcessed_subset _ _ _ k (gapProcessed_subset _ _ _ k hk)

/-- Every zone pushed by the loop is pushed by the step of one of its
indices, started from some state of `processedOBs` that contains the initial
one. -/
lemma mem_loopZones (env : Env) (l : List Nat) :
    ∀ (p : List Nat) (z : Zone), z ∈ loopZones env p l →
      ∃ i ∈ l, ∃ p1 : List Nat, (∀ k ∈ p, k ∈ p1) ∧ z ∈ stepZones env p1 i := by
  induction l with
  | nil => intro p z h; simp [loopZones] at h
  | cons i rest ih =>
    intro p z h
    rw [loopZones.eq_def] at h
    simp only [List.mem_append] at h
    rcases h with h | h
    · exact ⟨i, List.mem_cons_self _ _, p, fun k hk => hk, h⟩
    · obtain ⟨i1, hi1, p1, hp1, hz⟩ := ih _ z h
      exact ⟨i1, List.mem_cons_of_mem _ hi1, p1,
        fun k hk => hp1 k (stepProcessed_subset env p i k hk), hz⟩

/-- An accepted bullish gap at an index of the loop is among the pushed zones. -/
lemma bullFVG_mem_loopZones (env : Env) (l : List Nat) (i : Nat) (z : Zone) (hi : i ∈ l)
    (h : bullFVG env i = some z) : ∀ p : List Nat, z ∈ loopZones env p l := by
  induction l with
  | nil => simp at hi
  | cons i1 rest ih =>
    intro p
    rw [loopZones.eq_def]
    simp only [List.mem_append]
    rcases List.mem_cons.mp hi with rfl | hr
    · left
      unfold stepZones
      exact List.mem_append_left _ ((mem_gapZones _ _ z).mpr (Or.inl h))
    · exact Or.inr (ih hr _)

/-- An accepted bearish gap at an index of the loop is among the pushed zones. -/
lemma bearFVG_mem_loopZones (env : Env) (l : List Nat) (i : Nat) (z : Zone) (hi : i ∈ l)
    (h : bearFVG env i = some z) : ∀ p : List Nat, z ∈ loopZones env p l := by
  induction l with
  | nil => simp at hi
  | cons i1 rest ih =>
    intro p
    rw [loopZones.eq_def]
    simp only [List.mem_append]
    rcases List.mem_cons.mp hi with rfl | hr
    · left
      unfold stepZones
      exact List.mem_append_right _ ((mem_gapZones _ _ z).mpr (Or.inl h))
    · exact Or.inr (ih hr _)

/-- The four ways a zone can be pushed by the step of index `i`. -/
lemma mem_stepZones (env : Env) (p : List Nat) (i : Nat) (z : Zone)
    (h : z ∈ stepZones env p i) :
    bullFVG env i = some z ∨
    ((bullFVG env i).isSome = true ∧ ∃ k, associatedOB env p i true = some (k, z)) ∨
    bearFVG env i = some z ∨
    ((bearFVG env i).isSome = true ∧
      ∃ k, associatedOB env (bullProcessed env p i) i false = some (k, z)) := by
  unfold stepZones at h
  rcases List.mem_append.mp h with h | h
  · rcases (mem_gapZones _ _ z).mp h with h | h
    · exact Or.inl h
    · exact Or.inr (Or.inl h)
  · rcases (mem_gapZones _ _ z).mp h with h | h
    · exact Or.inr (Or.inr (Or.inl h))
    · exact Or.inr (Or.inr (Or.inr h))

/-! ## The filters of a gap against the specification's conditions -/

lemma nth_mem (candles : List Bar) (i : Nat) (h : i < candles.length) :
    nth candles i ∈ candles := by
  unfold nth
  rw [List.getD_eq_getElem candles default h]
  exact List.getElem_mem h

lemma trueRange_nonneg (candles : List Bar) (idx : Nat) : 0 ≤ trueRange candles idx := by
  unfold trueRange
  simp only
  exact le_max_of_le_right (le_max_of_le_left (abs_nonneg _))

lemma le_trueRange (candles : List Bar) (idx : Nat) :
    (nth candles idx).high - (nth candles idx).low ≤ trueRange candles idx := by
  unfold trueRange
  simp only
  exact le_max_left _ _

lemma foldl_add_ge (f : Nat → ℚ) (hf : ∀ j, 0 ≤ f j) (l : List Nat) :
    ∀ a : ℚ, a ≤ l.foldl (fun s j => s + f j) a := by
  induction l with
  | nil => intro a; simp
  | cons j rest ih =>
    intro a
    simp only [List.foldl_cons]
    exact le_trans (by linarith [hf j]) (ih (a + f j))

lemma foldl_add_ge_mem (f : Nat → ℚ) (hf : ∀ j, 0 ≤ f j) (l : List Nat) (j0 : Nat)
    (hj : j0 ∈ l) : ∀ a : ℚ, a + f j0 ≤ l.foldl (fun s j => s + f j) a := by
  induction l with
  | nil => simp at hj
  | cons j rest ih =>
    intro a
    simp only [List.foldl_cons]
    rcases List.mem_cons.mp hj with rfl | hr
    · exact foldl_add_ge f hf rest _
    · exact le_trans (by linarith [hf j]) (ih hr (a + f j))

/-- A vanishing 14-bar average true range forces a degenerate current bar. -/
lemma atr14_zero (candles : List Bar) (i : Nat) (h : atr14 candles i = 0) :
    (nth candles i).high - (nth candles i).low ≤ 0 := by
  unfold atr14 at h
  have hsum : (List.range 14).foldl (fun trSum j => trSum + trueRange candles (i - j)) 0 = 0 := by
    rcases div_eq_zero_iff.mp h with h0 | h0
    · exact h0
    · norm_num at h0
  have hge := foldl_add_ge_mem (fun j => trueRange candles (i - j))
    (fun j => trueRange_nonneg candles (i - j)) (List.range 14) 0 (by simp) 0
  simp only [Nat.sub_zero, zero_add] at hge
  rw [hsum] at hge
  exact le_trans (le_trueRange candles i) hge

lemma validFVG_iff (gap : ℚ) (ip : AbsQuot) (atr sens : ℚ) (curr prev1 prev2 : Bar) :
    validFVG gap ip atr sens curr prev1 prev2 = true ↔
      curr.close * sens ≤ gap ∧ atr * 0.2 ≤ gap ∧ ip.lt 0.003 = false ∧
        volumeTooLow curr prev1 prev2 = false := by
  unfold validFVG
  simp [and_assoc]

lemma volumeTooLow_false_iff (curr prev1 prev2 : Bar) :
    volumeTooLow curr prev1 prev2 = false ↔
      (curr.volume ≠ 0 ∧ prev1.volume ≠ 0 ∧ prev2.volume ≠ 0 →
        curr.volume ≥ (prev1.volume + prev2.volume) / 2 / 2) := by
  unfold volumeTooLow
  have e : (prev1.volume + prev2.volume) / 2 * 0.5 = (prev1.volume + prev2.volume) / 2 / 2 := by
    norm_num
    ring
  rw [e]
  simp only [Bool.and_eq_false_imp, decide_eq_true_eq, decide_eq_false_iff_not, not_lt, ge_iff_le]

lemma absQuot_lt_false_iff (a b : ℚ) (ha : 0 ≤ a) (hb : 0 < b) :
    (absQuot a b).lt 0.003 = false ↔ a / b ≥ 0.003 := by
  unfold absQuot
  rw [if_pos (ne_of_gt hb)]
  simp only [AbsQuot.lt, decide_eq_false_iff_not, not_lt, ge_iff_le]
  rw [abs_of_nonneg (div_nonneg ha (le_of_lt hb))]

/-- The local `atr` of an iteration inside the scanned window bounds the gap
exactly when the 14-bar average true range does. -/
lemma atrAt_le_iff (candles : List Bar) (config : Config) (i : Nat) (gap : ℚ) (hgap : 0 < gap)
    (hs : startIndexOf candles config ≤ i) (hlen : i < candles.length) :
    atrAt (envOf candles config) i * 0.2 ≤ gap ↔ gap ≥ 0.2 * atr14 candles i := by
  have h20 : 20 ≤ i := le_trans (le_max_left _ _) hs
  have hv : atrValues candles (startIndexOf candles config) i = atr14 candles i := by
    unfold atrValues
    rw [if_pos ⟨hs, by omega, hlen⟩]
  unfold atrAt
  simp only [envOf, hv]
  split_ifs with h0
  · have hz := atr14_zero candles i h0
    rw [h0]
    constructor
    · intro _; linarith
    · intro _
      have : ((nth candles i).high - (nth candles i).low) * 0.2 ≤ 0 := by
        have h02 : (0 : ℚ) ≤ 0.2 := by norm_num
        nlinarith
      linarith
  · rw [mul_comm]

lemma startIndexOf_ge (candles : List Bar) (config : Config) :
    20 ≤ startIndexOf candles config := le_max_left _ _

lemma mem_loopIndices (candles : List Bar) (config : Config) (i : Nat) :
    i ∈ loopIndices (envOf candles config) ↔
      startIndexOf candles config ≤ i ∧ i < candles.length := by
  have h20 := startIndexOf_ge candles config
  unfold loopIndices
  simp only [envOf, List.mem_range'_1]
  rw [max_eq_left (by omega)]
  omega

/-- On well-formed bars inside the scanned window the bullish block accepts a
gap exactly under the specification's condition. -/
lemma bullFVG_isSome_iff_accepted (candles : List Bar) (config : Config) (i : Nat)
    (hwf : ∀ b ∈ candles, WellFormed b) (hs : startIndexOf candles config ≤ i)
    (hlen : i < candles.length) :
    (bullFVG (envOf candles config) i).isSome = true ↔
      bullGapAccepted candles (sensOf config) i := by
  have h20 := startIndexOf_ge candles config
  have w0 := hwf _ (nth_mem candles i hlen)
  have w2 := hwf _ (nth_mem candles (i - 2) (by omega))
  unfold WellFormed at w0 w2
  rw [bullFVG_isSome_iff, validFVG_iff]
  unfold bullGapAccepted
  simp only [envOf]
  constructor
  · rintro ⟨hgap, h1, h2, h3, h4⟩
    have hg : 0 < (nth candles i).low - (nth candles (i - 2)).high := by linarith
    refine ⟨hgap, h1, (atrAt_le_iff candles config i _ hg hs hlen).mp h2,
      (absQuot_lt_false_iff _ _ (by linarith) (by linarith)).mp h3,
      (volumeTooLow_false_iff _ _ _).mp h4⟩
  · rintro ⟨hgap, h1, h2, h3, h4⟩
    have hg : 0 < (nth candles i).low - (nth candles (i - 2)).high := by linarith
    refine ⟨hgap, h1, (atrAt_le_iff candles config i _ hg hs hlen).mpr h2,
      (absQuot_lt_false_iff _ _ (by linarith) (by linarith)).mpr h3,
      (volumeTooLow_false_iff _ _ _).mpr h4⟩

/-- On well-formed bars inside the scanned window the bearish block accepts a
gap exactly under the specification's condition. -/
lemma bearFVG_isSome_iff_accepted (candles : List Bar) (config : Config) (i : Nat)
    (hwf : ∀ b ∈ candles, WellFormed b) (hs : startIndexOf candles config ≤ i)
    (hlen : i < candles.length) :
    (bearFVG (envOf candles config) i).isSome = true ↔
      bearGapAccepted candles (sensOf config) i := by
  have h20 := startIndexOf_ge candles config
  have w0 := hwf _ (nth_mem candles i hlen)
  have w2 := hwf _ (nth_mem candles (i - 2) (by omega))
  unfold WellFormed at w0 w2
  rw [bearFVG_isSome_iff, validFVG_iff]
  unfold bearGapAccepted
  simp only [envOf]
  constructor
  · rintro ⟨hgap, h1, h2, h3, h4⟩
    have hg : 0 < (nth candles (i - 2)).low - (nth candles i).high := by linarith
    refine ⟨hgap, h1, (atrAt_le_iff candles config i _ hg hs hlen).mp h2,
      (absQuot_lt_false_iff _ _ (by linarith) (by linarith)).mp h3,
      (volumeTooLow_false_iff _ _ _).mp h4⟩
  · rintro ⟨hgap, h1, h2, h3, h4⟩
    have hg : 0 < (nth candles (i - 2)).low - (nth candles i).high := by linarith
    refine ⟨hgap, h1, (atrAt_le_iff candles config i _ hg hs hlen).mpr h2,
      (absQuot_lt_false_iff _ _ (by linarith) (by linarith)).mpr h3,
      (volumeTooLow_false_iff _ _ _).mpr h4⟩

/-- A pushed zone whose identifier is `fvg-l-i` is the bullish FVG zone of an
iteration `i` of the loop. -/
lemma fvgL_of_mem_loopZones (env : Env) (l p : List Nat) (z : Zone) (i : Nat)
    (hz : z ∈ loopZones env p l) (hid : z.id = ⟨.fvgL, i⟩) :
    i ∈ l ∧ bullFVG env i = some z := by
  obtain ⟨i1, hi1, p1, -, hstep⟩ := mem_loopZones env l p z hz
  rcases mem_stepZones env p1 i1 z hstep with h | ⟨-, k, h⟩ | h | ⟨-, k, h⟩
  · have := (bullFVG_some env i1 z h).1
    rw [hid] at this
    simp only [ZoneId.mk.injEq, true_and] at this
    subst this
    exact ⟨hi1, h⟩
  · have h1 := (associatedOB_some env _ _ _ _ _ h).2.2
    have h2 := (obZone_fields env i1 k true).1
    rw [← h1, hid] at h2
    simp at h2
  · have := (bearFVG_some env i1 z h).1
    rw [hid] at this
    simp at this
  · have h1 := (associatedOB_some env _ _ _ _ _ h).2.2
    have h2 := (obZone_fields env i1 k false).1
    rw [← h1, hid] at h2
    simp at h2

/-- A pushed zone whose identifier is `fvg-s-i` is the bearish FVG zone of an
iteration `i` of the loop. -/
lemma fvgS_of_mem_loopZones (env : Env) (l p : List Nat) (z : Zone) (i : Nat)
    (hz : z ∈ loopZones env p l) (hid : z.id = ⟨.fvgS, i⟩) :
    i ∈ l ∧ bearFVG env i = some z := by
  obtain ⟨i1, hi1, p1, -, hstep⟩ := mem_loopZones env l p z hz
  rcases mem_stepZones env p1 i1 z hstep with h | ⟨-, k, h⟩ | h | ⟨-, k, h⟩
  · have := (bullFVG_some env i1 z h).1
    rw [hid] at this
    simp at this
  · have h1 := (associatedOB_some env _ _ _ _ _ h).2.2
    have h2 := (obZone_fields env i1 k true).1
    rw [← h1, hid] at h2
    simp at h2
  · have := (bearFVG_some env i1 z h).1
    rw [hid] at this
    simp only [ZoneId.mk.injEq, true_and] at this
    subst this
    exact ⟨hi1, h⟩
  · have h1 := (associatedOB_some env _ _ _ _ _ h).2.2
    have h2 := (obZone_fields env i1 k false).1
    rw [← h1, hid] at h2
    simp at h2

/-! ## The claims on gap detection -/

/-- C6: for every series of at least 50 well-formed bars and every index `i`
of the scanned window (`max(20, length - historyTarget) <= i < length`),
`analyzeSMC` returns a BULL FVG zone for bar `i` (identifier `fvg-l-i`) if and
only if `bar[i].low > bar[i-2].high` and the gap passes the sensitivity, ATR,
impulse and volume conditions (`bullGapAccepted`); such a zone has
`top = bar[i].low` and `bottom = bar[i-2].high`.  The bearish case is
symmetric, with `top = bar[i-2].low` and `bottom = bar[i].high`.  Here
`sensitivity` and `historyTarget` are the locals of `analyzeSMC`: the
configured value, or the default when it is absent or zero. -/
theorem fvg_zone_iff_gap_accepted (candles : List Bar) (config : Config) (i : Nat)
    (h50 : 50 ≤ candles.length) (hwf : ∀ b ∈ candles, WellFormed b)
    (hs : max 20 (candles.length - historyTargetOf config) ≤ i) (hlen : i < candles.length) :
    ∃ r, analyzeSMC candles config = .ok r ∧
      ((∃ z ∈ r.zones, z.label = .FVG ∧ z.type = .BULL ∧ z.id = ⟨.fvgL, i⟩) ↔
        bullGapAccepted candles (sensOf config) i) ∧
      (∀ z ∈ r.zones, z.id = ⟨.fvgL, i⟩ → z.label = .FVG ∧ z.type = .BULL ∧
        z.top = (nth candles i).low ∧ z.bottom = (nth candles (i - 2)).high) ∧
      ((∃ z ∈ r.zones, z.label = .FVG ∧ z.type = .BEAR ∧ z.id = ⟨.fvgS, i⟩) ↔
        bearGapAccepted candles (sensOf config) i) ∧
      (∀ z ∈ r.zones, z.id = ⟨.fvgS, i⟩ → z.label = .FVG ∧ z.type = .BEAR ∧
        z.top = (nth candles (i - 2)).low ∧ z.bottom = (nth candles i).high) := by
  obtain ⟨r, hr, hz⟩ := analyzeSMC_zones candles config h50
  have hs1 : startIndexOf candles config ≤ i := hs
  have hmem : ∀ z, z ∈ r.zones ↔
      z ∈ loopZones (envOf candles config) [] (loopIndices (envOf candles config)) := by
    intro z; rw [hz]; exact List.mem_insertionSort _
  have hil : i ∈ loopIndices (envOf candles config) :=
    (mem_loopIndices candles config i).mpr ⟨hs1, hlen⟩
  refine ⟨r, hr, ?_, ?_, ?_, ?_⟩
  · rw [← bullFVG_isSome_iff_accepted candles config i hwf hs1 hlen]
    constructor
    · rintro ⟨z, hzm, -, -, hid⟩
      have := (fvgL_of_mem_loopZones _ _ _ z i ((hmem z).mp hzm) hid).2
      rw [this]; rfl
    · intro hsome
      obtain ⟨z, hzb⟩ := Option.isSome_iff_exists.mp hsome
      have hf := bullFVG_some _ i z hzb
      exact ⟨z, (hmem z).mpr (bullFVG_mem_loopZones _ _ i z hil hzb []), hf.2.1, hf.2.2.1,
        hf.1⟩
  · intro z hzm hid
    have hb := (fvgL_of_mem_loopZones _ _ _ z i ((hmem z).mp hzm) hid).2
    have hf := bullFVG_some _ i z hb
    exact ⟨hf.2.1, hf.2.2.1, hf.2.2.2.1, hf.2.2.2.2.1⟩
  · rw [← bearFVG_isSome_iff_accepted candles config i hwf hs1 hlen]
    constructor
    · rintro ⟨z, hzm, -, -, hid⟩
      have := (fvgS_of_mem_loopZones _ _ _ z i ((hmem z).mp hzm) hid).2
      rw [this]; rfl
    · intro hsome
      obtain ⟨z, hzb⟩ := Option.isSome_iff_exists.mp hsome
      have hf := bearFVG_some _ i z hzb
      exact ⟨z, (hmem z).mpr (bearFVG_mem_loopZones _ _ i z hil hzb []), hf.2.1, hf.2.2.1,
        hf.1⟩
  · intro z hzm hid
    have hb := (fvgS_of_mem_loopZones _ _ _ z i ((hmem z).mp hzm) hid).2
    have hf := bearFVG_some _ i z hb
    exact ⟨hf.2.1, hf.2.2.1, hf.2.2.2.1, hf.2.2.2.2.1⟩

/-! ## Identifiers of the pushed zones -/

lemma id_ne_of_tag (a b : Zone) (h : a.id.tag ≠ b.id.tag) : a.id ≠ b.id :=
  fun e => h (by rw [e])

lemma id_ne_of_index (a b : Zone) (h : a.id.index ≠ b.id.index) : a.id ≠ b.id :=
  fun e => h (by rw [e])

lemma distinctZones_symm {a b : Zone} (h : distinctZones a b) : distinctZones b a :=
  ⟨fun e => h.1 e.symm, fun hb ha e => h.2 ha hb e.symm⟩

lemma mem_gapProcessed_of_some (zone : Option Zone) (k : Nat) (o : Zone) (p : List Nat)
    (hz : zone.isSome = true) : k ∈ gapProcessed zone (some (k, o)) p := by
  unfold gapProcessed
  rcases zone with _ | z
  · simp at hz
  · simp

/-- The zones of a bullish block: the FVG zone of the bar, or an order block
whose candle index is new to `processedOBs` and is recorded in it. -/
lemma bullGap_kinds (env : Env) (p : List Nat) (i : Nat) (z : Zone)
    (h : z ∈ gapZones (bullFVG env i) (associatedOB env p i true)) :
    (bullFVG env i = some z ∧ z.id = ⟨.fvgL, i⟩ ∧ z.label = .FVG ∧ z.type = .BULL) ∨
    (z.label = .OB ∧ z.id.tag = .obL ∧ z.id.index ∉ p ∧
      z.id.index ∈ bullProcessed env p i) := by
  rcases (mem_gapZones _ _ z).mp h with h | ⟨hsome, k, h⟩
  · have hf := bullFVG_some env i z h
    exact Or.inl ⟨h, hf.1, hf.2.1, hf.2.2.1⟩
  · obtain ⟨-, hk, rfl⟩ := associatedOB_some env p i k true _ h
    have hf := obZone_fields env i k true
    refine Or.inr ⟨hf.2.1, by rw [hf.1]; rfl, by rw [hf.1]; exact hk, ?_⟩
    rw [hf.1]
    unfold bullProcessed
    rw [h]
    exact mem_gapProcessed_of_some _ k _ p hsome

/-- The zones of a bearish block: the FVG zone of the bar, or an order block
whose candle index is new to `processedOBs` and is recorded in it. -/
lemma bearGap_kinds (env : Env) (q : List Nat) (i : Nat) (z : Zone)
    (h : z ∈ gapZones (bearFVG env i) (associatedOB env q i false)) :
    (bearFVG env i = some z ∧ z.id = ⟨.fvgS, i⟩ ∧ z.label = .FVG ∧ z.type = .BEAR) ∨
    (z.label = .OB ∧ z.id.tag = .obS ∧ z.id.index ∉ q ∧
      z.id.index ∈ gapProcessed (bearFVG env i) (associatedOB env q i false) q) := by
  rcases (mem_gapZones _ _ z).mp h with h | ⟨hsome, k, h⟩
  · have hf := bearFVG_some env i z h
    exact Or.inl ⟨h, hf.1, hf.2.1, hf.2.2.1⟩
  · obtain ⟨-, hk, rfl⟩ := associatedOB_some env q i k false _ h
    have hf := obZone_fields env i k false
    refine Or.inr ⟨hf.2.1, by rw [hf.1]; rfl, by rw [hf.1]; exact hk, ?_⟩
    rw [hf.1, h]
    exact mem_gapProcessed_of_some _ k _ q hsome

/-- The zones of one iteration: FVG zones carry the index of the bar; order
blocks carry a candle index that was not in `processedOBs` before the
iteration and is in it afterwards. -/
lemma step_kinds (env : Env) (p : List Nat) (i : Nat) (z : Zone)
    (h : z ∈ stepZones env p i) :
    (z.label = .FVG ∧ z.id.index = i ∧ (z.id.tag = .fvgL ∨ z.id.tag = .fvgS)) ∨
    (z.label = .OB ∧ (z.id.tag = .obL ∨ z.id.tag = .obS) ∧ z.id.index ∉ p ∧
      z.id.index ∈ stepProcessed env p i) := by
  unfold stepZones at h
  rcases List.mem_append.mp h with h | h
  · rcases bullGap_kinds env p i z h with ⟨-, hid, hl, -⟩ | ⟨hl, ht, hn, hm⟩
    · exact Or.inl ⟨hl, by rw [hid], Or.inl (by rw [hid])⟩
    · exact Or.inr ⟨hl, Or.inl ht, hn, gapProcessed_subset _ _ _ _ hm⟩
  · rcases bearGap_kinds env _ i z h with ⟨-, hid, hl, -⟩ | ⟨hl, ht, hn, hm⟩
    · exact Or.inl ⟨hl, by rw [hid], Or.inr (by rw [hid])⟩
    · exact Or.inr ⟨hl, Or.inr ht, fun hp => hn (gapProcessed_subset _ _ _ _ hp), hm⟩

lemma gapZones_pairwise (zone : Option Zone) (ob : Option (Nat × Zone))
    (hz : ∀ z, zone = some z → z.label = .FVG ∧ (z.id.tag = .fvgL ∨ z.id.tag = .fvgS))
    (ho : ∀ k o, ob = some (k, o) → o.id.tag = .obL ∨ o.id.tag = .obS) :
    (gapZones zone ob).Pairwise distinctZones := by
  unfold gapZones
  rcases zone with _ | z
  · simp
  · rcases ob with _ | ⟨k, o⟩
    · simp
    · obtain ⟨h1, h3⟩ := hz z rfl
      have h2 := ho k o rfl
      simp only [List.pairwise_pair]
      refine ⟨id_ne_of_tag z o ?_, fun h _ => ?_⟩
      · rcases h3 with h3 | h3 <;> rcases h2 with h2 | h2 <;> rw [h3, h2] <;> simp
      · rw [h1] at h; cases h

/-- The zones of one iteration are told apart from one another. -/
lemma stepZones_pairwise (env : Env) (p : List Nat) (i : Nat) :
    (stepZones env p i).Pairwise distinctZones := by
  unfold stepZones
  rw [List.pairwise_append]
  refine ⟨?_, ?_, ?_⟩
  · apply gapZones_pairwise
    · intro z hz
      have hf := bullFVG_some env i z hz
      exact ⟨hf.2.1, Or.inl (by rw [hf.1])⟩
    · intro k o ho
      obtain ⟨-, -, rfl⟩ := associatedOB_some env p i k true _ ho
      exact Or.inl (by rw [(obZone_fields env i k true).1]; rfl)
  · apply gapZones_pairwise
    · intro z hz
      have hf := bearFVG_some env i z hz
      exact ⟨hf.2.1, Or.inr (by rw [hf.1])⟩
    · intro k o ho
      obtain ⟨-, -, rfl⟩ := associatedOB_some env _ i k false _ ho
      exact Or.inr (by rw [(obZone_fields env i k false).1]; rfl)
  · intro a ha b hb
    rcases bullGap_kinds env p i a ha with ⟨-, ida, la, -⟩ | ⟨la, ta, -, ma⟩ <;>
      rcases bearGap_kinds env _ i b hb with ⟨-, idb, lb, -⟩ | ⟨lb, tb, nb, -⟩
    · exact ⟨id_ne_of_tag a b (by rw [ida, idb]; simp), fun h _ => by rw [la] at h; cases h⟩
    · exact ⟨id_ne_of_tag a b (by rw [ida, tb]; simp), fun h _ => by rw [la] at h; cases h⟩
    · exact ⟨id_ne_of_tag a b (by rw [ta, idb]; simp), fun _ h => by rw [lb] at h; cases h⟩
    · have hne : a.id.index ≠ b.id.index := fun e => nb (e ▸ ma)
      exact ⟨id_ne_of_index a b hne, fun _ _ => hne⟩

/-- Over pairwise different indices, all the zones pushed by the loop are told
apart from one another. -/
lemma loopZones_pairwise (env : Env) (l : List Nat) (hl : l.Nodup) :
    ∀ p : List Nat, (loopZones env p l).Pairwise distinctZones := by
  induction l with
  | nil => intro p; simp [loopZones]
  | cons i rest ih =>
    intro p
    rw [loopZones.eq_def]
    simp only
    rw [List.pairwise_append]
    have hn := List.nodup_cons.mp hl
    refine ⟨stepZones_pairwise env p i, ih hn.2 _, ?_⟩
    intro a ha b hb
    obtain ⟨i2, hi2, p2, hp2, hb2⟩ := mem_loopZones env rest _ b hb
    have hii : i ≠ i2 := fun e => hn.1 (e ▸ hi2)
    rcases step_kinds env p i a ha with ⟨la, ia, ta⟩ | ⟨la, ta, -, ma⟩ <;>
      rcases step_kinds env p2 i2 b hb2 with ⟨lb, ib, tb⟩ | ⟨lb, tb, nb, -⟩
    · exact ⟨id_ne_of_index a b (by rw [ia, ib]; exact hii),
        fun h _ => by rw [la] at h; cases h⟩
    · refine ⟨id_ne_of_tag a b ?_, fun h _ => by rw [la] at h; cases h⟩
      rcases ta with ta | ta <;> rcases tb with tb | tb <;> rw [ta, tb] <;> simp
    · refine ⟨id_ne_of_tag a b ?_, fun _ h => by rw [lb] at h; cases h⟩
      rcases ta with ta | ta <;> rcases tb with tb | tb <;> rw [ta, tb] <;> simp
    · have hne : a.id.index ≠ b.id.index := fun e => nb (hp2 _ (e ▸ ma))
      exact ⟨id_ne_of_index a b hne, fun _ _ => hne⟩

/-- The result of `analyzeSMC` on any series: no zones below 50 bars, the
sorted pushes of the main loop otherwise. -/
lemma analyzeSMC_total (candles : List Bar) (config : Config) :
    ∃ r, analyzeSMC candles config = .ok r ∧
      ((candles.length < 50 ∧ r.zones = [] ∧ r.trades = []) ∨
       (50 ≤ candles.length ∧ r.zones = (loopZones (envOf candles config) []
          (loopIndices (envOf candles config))).insertionSort (fun a b => a.time ≤ b.time))) := by
  by_cases h : candles.length < 50
  · refine ⟨{ zones := [], trades := [] }, ?_, Or.inl ⟨h, rfl, rfl⟩⟩
    unfold analyzeSMC
    rw [if_pos h]
  · obtain ⟨r, hr, hz⟩ := analyzeSMC_zones candles config (by omega)
    exact ⟨r, hr, Or.inr ⟨by omega, hz⟩⟩

/-- All the zones returned by `analyzeSMC` are told apart from one another. -/
lemma analyzeSMC_pairwise (candles : List Bar) (config : Config) (r : SMCResult)
    (hr : analyzeSMC candles config = .ok r) : r.zones.Pairwise distinctZones := by
  obtain ⟨r1, hr1, h⟩ := analyzeSMC_total candles config
  rw [hr] at hr1
  cases hr1
  rcases h with ⟨-, hz, -⟩ | ⟨-, hz⟩
  · rw [hz]; exact List.Pairwise.nil
  · rw [hz]
    rw [List.Perm.pairwise_iff (fun h => distinctZones_symm h) (List.perm_insertionSort _ _)]
    apply loopZones_pairwise
    unfold loopIndices
    exact List.nodup_range' _ _

/-- A pushed FVG zone is the bullish or the bearish FVG zone of the iteration
named by its identifier. -/
lemma fvg_of_mem_loopZones (env : Env) (l p : List Nat) (z : Zone)
    (hz : z ∈ loopZones env p l) (hl : z.label = .FVG) :
    z.id.index ∈ l ∧ ((bullFVG env z.id.index = some z ∧ z.type = .BULL) ∨
      (bearFVG env z.id.index = some z ∧ z.type = .BEAR)) := by
  obtain ⟨i1, hi1, p1, -, hstep⟩ := mem_loopZones env l p z hz
  rcases mem_stepZones env p1 i1 z hstep with h | ⟨-, k, h⟩ | h | ⟨-, k, h⟩
  · have hf := bullFVG_some env i1 z h
    have hi : z.id.index = i1 := by rw [hf.1]
    rw [hi]
    exact ⟨hi1, Or.inl ⟨h, hf.2.2.1⟩⟩
  · obtain ⟨-, -, rfl⟩ := associatedOB_some env _ _ _ _ _ h
    rw [(obZone_fields env i1 k true).2.1] at hl
    cases hl
  · have hf := bearFVG_some env i1 z h
    have hi : z.id.index = i1 := by rw [hf.1]
    rw [hi]
    exact ⟨hi1, Or.inr ⟨h, hf.2.2.1⟩⟩
  · obtain ⟨-, -, rfl⟩ := associatedOB_some env _ _ _ _ _ h
    rw [(obZone_fields env i1 k false).2.1] at hl
    cases hl

/-- C10: for every series of well-formed bars (`low <= high`) the zone
identifiers returned by `analyzeSMC` are pairwise distinct; no candle index
carries more than one order-block zone; and no bar index carries both a bullish
and a bearish FVG zone. -/
theorem zone_ids_pairwise_distinct (candles : List Bar) (config : Config)
    (hwf : ∀ b ∈ candles, b.low ≤ b.high) :
    ∃ r, analyzeSMC candles config = .ok r ∧
      (r.zones.map (fun z => z.id)).Nodup ∧
      ((r.zones.filter (fun z => decide (z.label = .OB))).map (fun z => z.id.index)).Nodup ∧
      (∀ z1 ∈ r.zones, ∀ z2 ∈ r.zones, z1.label = .FVG → z1.type = .BULL →
        z2.label = .FVG → z2.type = .BEAR → z1.id.index ≠ z2.id.index) := by
  obtain ⟨r, hr, h⟩ := analyzeSMC_total candles config
  have hpw := analyzeSMC_pairwise candles config r hr
  refine ⟨r, hr, ?_, ?_, ?_⟩
  · unfold List.Nodup
    rw [List.pairwise_map]
    exact hpw.imp (fun h => h.1)
  · unfold List.Nodup
    rw [List.pairwise_map]
    refine List.Pairwise.imp_of_mem ?_ (hpw.filter _)
    intro a b ha hb hab
    have la := (List.mem_filter.mp ha).2
    have lb := (List.mem_filter.mp hb).2
    simp only [decide_eq_true_eq] at la lb
    exact hab.2 la lb
  · rcases h with ⟨-, hz, -⟩ | ⟨h50, hz⟩
    · rw [hz]; simp
    · intro z1 hz1 z2 hz2 l1 t1 l2 t2 e
      have hm : ∀ z, z ∈ r.zones →
          z ∈ loopZones (envOf candles config) [] (loopIndices (envOf candles config)) := by
        intro z hzm; rw [hz] at hzm; exact (List.mem_insertionSort _).mp hzm
      obtain ⟨hi1, k1⟩ := fvg_of_mem_loopZones _ _ _ z1 (hm z1 hz1) l1
      obtain ⟨-, k2⟩ := fvg_of_mem_loopZones _ _ _ z2 (hm z2 hz2) l2
      have hb : bullFVG (envOf candles config) z1.id.index = some z1 := by
        rcases k1 with k1 | k1
        · exact k1.1
        · rw [k1.2] at t1; cases t1
      have hs : bearFVG (envOf candles config) z1.id.index = some z2 := by
        rcases k2 with k2 | k2
        · rw [k2.2] at t2; cases t2
        · rw [e]; exact k2.1
      have g1 := ((bullFVG_isSome_iff _ _).mp (by rw [hb]; rfl)).1
      have g2 := ((bearFVG_isSome_iff _ _).mp (by rw [hs]; rfl)).1
      obtain ⟨hlo, hhi⟩ := (mem_loopIndices candles config _).mp hi1
      have h20 := startIndexOf_ge candles config
      have w0 := hwf _ (nth_mem candles z1.id.index hhi)
      have w2 := hwf _ (nth_mem candles (z1.id.index - 2) (by omega))
      simp only [envOf] at g1 g2
      linarith

/-- A witness for C10: the fifty-bar series `gapSeries`. -/
theorem zone_ids_pairwise_distinct_witness :
    ∃ r, analyzeSMC gapSeries defaultConfig = .ok r ∧
      (r.zones.map (fun z => z.id)).Nodup ∧
      ((r.zones.filter (fun z => decide (z.label = .OB))).map (fun z => z.id.index)).Nodup ∧
      (∀ z1 ∈ r.zones, ∀ z2 ∈ r.zones, z1.label = .FVG → z1.type = .BULL →
        z2.label = .FVG → z2.type = .BEAR → z1.id.index ≠ z2.id.index) :=
  zone_ids_pairwise_distinct gapSeries defaultConfig (by decide!)

/-- A witness for C6: bar 49 of `gapSeries`. -/
theorem fvg_zone_iff_gap_accepted_witness :
    ∃ r, analyzeSMC gapSeries defaultConfig = .ok r ∧
      ((∃ z ∈ r.zones, z.label = .FVG ∧ z.type = .BULL ∧ z.id = ⟨.fvgL, 49⟩) ↔
        bullGapAccepted gapSeries (sensOf defaultConfig) 49) ∧
      (∀ z ∈ r.zones, z.id = ⟨.fvgL, 49⟩ → z.label = .FVG ∧ z.type = .BULL ∧
        z.top = (nth gapSeries 49).low ∧ z.bottom = (nth gapSeries (49 - 2)).high) ∧
      ((∃ z ∈ r.zones, z.label = .FVG ∧ z.type = .BEAR ∧ z.id = ⟨.fvgS, 49⟩) ↔
        bearGapAccepted gapSeries (sensOf defaultConfig) 49) ∧
      (∀ z ∈ r.zones, z.id = ⟨.fvgS, 49⟩ → z.label = .FVG ∧ z.type = .BEAR ∧
        z.top = (nth gapSeries (49 - 2)).low ∧ z.bottom = (nth gapSeries 49).high) :=
  fvg_zone_iff_gap_accepted gapSeries defaultConfig 49 (by decide!) (by decide!) (by decide!)
    (by decide!)

lemma eq_singleton_of_nodup {α : Type} (l : List α) (z : α) (hn : l.Nodup)
    (hall : ∀ x ∈ l, x = z) (hz : z ∈ l) : l = [z] := by
  rcases l with _ | ⟨a, t⟩
  · simp at hz
  · have ha : a = z := hall a (List.mem_cons_self _ _)
    subst ha
    rcases t with _ | ⟨b, t1⟩
    · rfl
    · have hb : b = a := hall b (List.mem_cons_of_mem _ (List.mem_cons_self _ _))
      subst hb
      simp at hn

/-- C7 as stated fails: whatever opens, closes, volumes, times and
configuration complete the three bars `{low 100, high 110}`,
`{low 111, high 120}`, `{low 121, high 130}`, `analyzeSMC` returns no zone
for the three-bar series, which is shorter than 50 bars. -/
theorem three_bar_series_counterexample :
    ¬ ∃ (t0 t1 t2 : Int) (o0 c0 v0 o1 c1 v1 o2 c2 v2 : ℚ) (config : Config) (r : SMCResult),
      analyzeSMC [⟨t0, o0, 110, 100, c0, v0⟩, ⟨t1, o1, 120, 111, c1, v1⟩,
        ⟨t2, o2, 130, 121, c2, v2⟩] config = .ok r ∧ r.zones ≠ [] := by
  rintro ⟨t0, t1, t2, o0, c0, v0, o1, c1, v1, o2, c2, v2, config, r, hr, hne⟩
  unfold analyzeSMC at hr
  simp only [List.length_cons, List.length_nil] at hr
  rw [if_pos (by norm_num)] at hr
  cases hr
  exact hne rfl

/-- C7 (amended): when the three bars `{low 100, high 110}`,
`{low 111, high 120}`, `{low 121, high 130}` are the bars `i-2`, `i-1`, `i` of
a series of at least 50 bars, with `i` in the scanned window, and the
sensitivity, ATR, impulse and volume filters pass at `i`, `analyzeSMC` returns
exactly one FVG zone for bar `i`; it is bullish, with `top = 121` and
`bottom = 110`. -/
theorem three_bar_gap_in_series (candles : List Bar) (config : Config) (i : Nat)
    (h50 : 50 ≤ candles.length)
    (hs : max 20 (candles.length - historyTargetOf config) ≤ i) (hlen : i < candles.length)
    (hb2 : (nth candles (i - 2)).low = 100 ∧ (nth candles (i - 2)).high = 110)
    (_hb1 : (nth candles (i - 1)).low = 111 ∧ (nth candles (i - 1)).high = 120)
    (hb0 : (nth candles i).low = 121 ∧ (nth candles i).high = 130)
    (hfilters : validFVG (121 - 110)
      (absQuot ((nth candles i).close - (nth candles (i - 2)).close)
        (nth candles (i - 2)).close)
      (atrAt (envOf candles config) i) (sensOf config) (nth candles i) (nth candles (i - 1))
      (nth candles (i - 2)) = true) :
    ∃ r z, analyzeSMC candles config = .ok r ∧
      r.zones.filter (fun x => decide (x.label = .FVG ∧ x.id.index = i)) = [z] ∧
      z.type = .BULL ∧ z.top = 121 ∧ z.bottom = 110 := by
  obtain ⟨r, hr, hz⟩ := analyzeSMC_zones candles config h50
  have hpw := analyzeSMC_pairwise candles config r hr
  have hmem : ∀ z, z ∈ r.zones ↔
      z ∈ loopZones (envOf candles config) [] (loopIndices (envOf candles config)) := by
    intro z; rw [hz]; exact List.mem_insertionSort _
  have hil : i ∈ loopIndices (envOf candles config) :=
    (mem_loopIndices candles config i).mpr ⟨hs, hlen⟩
  have hsome : (bullFVG (envOf candles config) i).isSome = true := by
    rw [bullFVG_isSome_iff]
    simp only [envOf] at hfilters ⊢
    rw [hb0.1, hb2.2]
    exact ⟨by norm_num, hfilters⟩
  obtain ⟨z, hzb⟩ := Option.isSome_iff_exists.mp hsome
  have hf := bullFVG_some _ i z hzb
  have hzm : z ∈ r.zones := (hmem z).mpr (bullFVG_mem_loopZones _ _ i z hil hzb [])
  refine ⟨r, z, hr, ?_, hf.2.2.1, ?_, ?_⟩
  · apply eq_singleton_of_nodup
    · apply List.Nodup.filter
      exact hpw.imp (fun h e => h.1 (by rw [e]))
    · intro x hx
      obtain ⟨hxm, hxp⟩ := List.mem_filter.mp hx
      simp only [decide_eq_true_eq] at hxp
      obtain ⟨-, k⟩ := fvg_of_mem_loopZones _ _ _ x ((hmem x).mp hxm) hxp.1
      rw [hxp.2] at k
      rcases k with k | k
      · rw [hzb] at k
        exact (Option.some.inj k.1).symm
      · have g := ((bearFVG_isSome_iff _ _).mp (by rw [k.1]; rfl)).1
        simp only [envOf] at g
        rw [hb0.2, hb2.1] at g
        norm_num at g
    · refine List.mem_filter.mpr ⟨hzm, ?_⟩
      simp only [decide_eq_true_eq]
      exact ⟨hf.2.1, by rw [hf.1]⟩
  · rw [hf.2.2.2.1]; simp only [envOf]; exact hb0.1
  · rw [hf.2.2.2.2.1]; simp only [envOf]; exact hb2.2

/-- A witness for C7 (amended): the three bars as bars 47, 48, 49 of
`gapSeries`. -/
theorem three_bar_gap_in_series_witness :
    ∃ r z, analyzeSMC gapSeries defaultConfig = .ok r ∧
      r.zones.filter (fun x => decide (x.label = .FVG ∧ x.id.index = 49)) = [z] ∧
      z.type = .BULL ∧ z.top = 121 ∧ z.bottom = 110 :=
  three_bar_gap_in_series gapSeries defaultConfig 49 (by decide!) (by decide!) (by decide!)
    (by decide!) (by decide!) (by decide!) (by decide!)

/-! ## Mitigation -/

/-- The first hit of a search over `s, s+1, .., s+n-1`. -/
lemma find_range'_some (p : Nat → Bool) (n : Nat) :
    ∀ (s j : Nat), (List.range' s n).find? p = some j ↔
      s ≤ j ∧ j < s + n ∧ p j = true ∧ ∀ j1, s ≤ j1 → j1 < j → p j1 = false := by
  induction n with
  | zero => intro s j; simp; intro h1 h2; omega
  | succ n ih =>
    intro s j
    rw [List.range'_succ, List.find?_cons]
    cases hp : p s with
    | true =>
      simp only [Option.some.injEq]
      constructor
      · rintro rfl
        exact ⟨le_refl _, by omega, hp, fun j1 h1 h2 => by omega⟩
      · rintro ⟨h1, -, -, h4⟩
        by_contra hne
        have := h4 s (le_refl _) (by omega)
        rw [hp] at this
        cases this
    | false =>
      simp only
      rw [ih (s + 1) j]
      constructor
      · rintro ⟨h1, h2, h3, h4⟩
        refine ⟨by omega, by omega, h3, fun j1 h5 h6 => ?_⟩
        by_cases e : j1 = s
        · rw [e]; exact hp
        · exact h4 j1 (by omega) h6
      · rintro ⟨h1, h2, h3, h4⟩
        have hne : j ≠ s := fun e => by rw [e, hp] at h3; cases h3
        exact ⟨by omega, by omega, h3, fun j1 h5 h6 => h4 j1 (by omega) h6⟩

lemma find_range'_none (p : Nat → Bool) (s n : Nat) :
    (List.range' s n).find? p = none ↔ ∀ j, s ≤ j → j < s + n → p j = false := by
  rw [List.find?_eq_none]
  simp only [List.mem_range'_1, Bool.not_eq_true]
  exact ⟨fun h j h1 h2 => h j ⟨h1, h2⟩, fun h j hj => h j hj.1 hj.2⟩

lemma barTouchesZone_iff (candles : List Bar) (j : Nat) (z : Zone) :
    barTouchesZone (nth candles j) z.top z.bottom = true ↔ touches candles j z := by
  unfold barTouchesZone touches
  simp

/-- The forward scan of a fresh zone implements the mitigation rule. -/
lemma mitigate_spec (candles : List Bar) (i : Nat) (z0 : Zone) (h0 : z0.status = .ACTIVE)
    (he : z0.endTime = none) : mitigatedAtFirstTouch candles i (mitigate candles i z0) := by
  have htz : ∀ j, touches candles j (mitigate candles i z0) ↔
      barTouchesZone (nth candles j) z0.top z0.bottom = true := by
    intro j
    rw [barTouchesZone_iff]
    unfold touches
    rw [(mitigate_fields candles i z0).2.2.2.1, (mitigate_fields candles i z0).2.2.2.2.1]
  unfold mitigatedAtFirstTouch
  simp only [htz]
  unfold mitigate
  cases hfind : (List.range' (i + 1) (candles.length - (i + 1))).find?
      (fun j => barTouchesZone (nth candles j) z0.top z0.bottom) with
  | none =>
    rw [find_range'_none] at hfind
    dsimp only
    have hno : ¬ ∃ j, i < j ∧ j < candles.length ∧
        barTouchesZone (nth candles j) z0.top z0.bottom = true := by
      rintro ⟨j, h1, h2, h3⟩
      have := hfind j (by omega) (by omega)
      rw [h3] at this
      cases this
    refine ⟨⟨fun h => (by rw [h0] at h; cases h), fun h => absurd h hno⟩, ?_,
      fun _ => ⟨h0, he⟩⟩
    intro j h1 h2 h3 _
    exact absurd ⟨j, h1, h2, h3⟩ hno
  | some j0 =>
    rw [find_range'_some] at hfind
    obtain ⟨f1, f2, f3, f4⟩ := hfind
    dsimp only
    refine ⟨⟨fun _ => ⟨j0, by omega, by omega, f3⟩, fun _ => rfl⟩, ?_, ?_⟩
    · intro j h1 h2 h3 h4
      have hj : j = j0 := by
        rcases Nat.lt_trichotomy j j0 with hlt | heq | hgt
        · have := f4 j (by omega) hlt
          rw [h3] at this
          cases this
        · exact heq
        · exact absurd f3 (h4 j0 (by omega) hgt)
      rw [hj]
    · intro hno
      exact absurd ⟨j0, by omega, by omega, f3⟩ hno

/-- Every zone built from the gap at bar `i` follows the mitigation rule. -/
lemma builtFromGap_spec (env : Env) (i : Nat) (z : Zone) (h : builtFromGap env i z) :
    mitigatedAtFirstTouch env.candles i z := by
  rcases h with h | h | ⟨-, k, -, rfl⟩ | ⟨-, k, -, rfl⟩
  · obtain ⟨-, -, -, -, -, z0, rfl, h0, he⟩ := bullFVG_some env i z h
    exact mitigate_spec env.candles i z0 h0 he
  · obtain ⟨-, -, -, -, -, z0, rfl, h0, he⟩ := bearFVG_some env i z h
    exact mitigate_spec env.candles i z0 h0 he
  · obtain ⟨-, -, -, -, z0, hz, h0, he⟩ := obZone_fields env i k true
    rw [hz]
    exact mitigate_spec env.candles i z0 h0 he
  · obtain ⟨-, -, -, -, z0, hz, h0, he⟩ := obZone_fields env i k false
    rw [hz]
    exact mitigate_spec env.candles i z0 h0 he

/-- Every zone pushed by the loop was built from the gap of one of its
indices. -/
lemma builtFromGap_of_mem (env : Env) (l p : List Nat) (z : Zone)
    (hz : z ∈ loopZones env p l) : ∃ i ∈ l, builtFromGap env i z := by
  obtain ⟨i, hi, p1, -, hstep⟩ := mem_loopZones env l p z hz
  refine ⟨i, hi, ?_⟩
  rcases mem_stepZones env p1 i z hstep with h | ⟨hs, k, h⟩ | h | ⟨hs, k, h⟩
  · exact Or.inl h
  · obtain ⟨hf, -, rfl⟩ := associatedOB_some env _ _ _ _ _ h
    exact Or.inr (Or.inr (Or.inl ⟨hs, k, hf, rfl⟩))
  · exact Or.inr (Or.inl h)
  · obtain ⟨hf, -, rfl⟩ := associatedOB_some env _ _ _ _ _ h
    exact Or.inr (Or.inr (Or.inr ⟨hs, k, hf, rfl⟩))

/-- C8: every zone returned by `analyzeSMC` was built from the gap detected
at some bar `i` of the scanned window (as its FVG zone, or as the order block
that gap creates), and for the bar `i` it was built from: the zone is
`MITIGATED` if and only if some bar `j > i` has `low <= max(top, bottom)` and
`high >= min(top, bottom)`, its `endTime` is the time of the least such `j`,
and otherwise it is `ACTIVE` with `endTime` null. -/
theorem zone_mitigated_at_first_touch (candles : List Bar) (config : Config) :
    ∃ r, analyzeSMC candles config = .ok r ∧ ∀ z ∈ r.zones,
      (∃ i, max 20 (candles.length - historyTargetOf config) ≤ i ∧ i < candles.length ∧
        builtFromGap (envOf candles config) i z) ∧
      (∀ i, builtFromGap (envOf candles config) i z → mitigatedAtFirstTouch candles i z) := by
  obtain ⟨r, hr, h⟩ := analyzeSMC_total candles config
  refine ⟨r, hr, ?_⟩
  rcases h with ⟨-, hz, -⟩ | ⟨-, hz⟩
  · rw [hz]; simp
  · intro z hzm
    rw [hz] at hzm
    have hzl := (List.mem_insertionSort _).mp hzm
    obtain ⟨i, hi, hb⟩ := builtFromGap_of_mem _ _ _ z hzl
    obtain ⟨h1, h2⟩ := (mem_loopIndices candles config i).mp hi
    exact ⟨⟨i, h1, h2, hb⟩, fun i1 hb1 => builtFromGap_spec (envOf candles config) i1 z hb1⟩

/-! ## Extension of the series -/

/-- C9 as stated fails: with a history window of 30 bars, the fifty-bar
series `windowSeries` reports the zone `fvg-l-20` as `MITIGATED` (at the time
of bar 21), while its extension by one bar, whose scan starts at bar 21,
reports no zone at all. -/
theorem mitigation_extension_counterexample :
    windowSeries <+: windowSeriesExtended ∧
    (analyzeSMC windowSeries windowConfig).map
      (fun r => r.zones.map (fun z => (z.id, z.status, z.endTime)))
      = .ok [(⟨.fvgL, 20⟩, .MITIGATED, some 1260)] ∧
    (analyzeSMC windowSeriesExtended windowConfig).map
      (fun r => r.zones.map (fun z => (z.id, z.status, z.endTime))) = .ok [] := by
  refine ⟨List.prefix_append _ _, ?_, ?_⟩ <;> decide!

lemma nth_append (P ext : List Bar) (j : Nat) (h : j < P.length) :
    nth (P ++ ext) j = nth P j := by
  unfold nth
  exact List.getD_append P ext default j h

lemma find?_congr_mem {α : Type} (p q : α → Bool) (l : List α) (h : ∀ x ∈ l, p x = q x) :
    l.find? p = l.find? q := by
  induction l with
  | nil => rfl
  | cons a t ih =>
    rw [List.find?_cons, List.find?_cons, h a (List.mem_cons_self _ _),
      ih (fun x hx => h x (List.mem_cons_of_mem _ hx))]

lemma trueRange_append (P ext : List Bar) (idx : Nat) (h : idx < P.length) :
    trueRange (P ++ ext) idx = trueRange P idx := by
  unfold trueRange
  rw [nth_append P ext idx h, nth_append P ext (idx - 1) (by omega)]

lemma atr14_append (P ext : List Bar) (i : Nat) (h : i < P.length) :
    atr14 (P ++ ext) i = atr14 P i := by
  unfold atr14
  congr 1
  apply List.foldl_ext
  intro a j _
  rw [trueRange_append P ext (i - j) (by omega)]

lemma atrValues_append (P ext : List Bar) (s i : Nat) (h : i < P.length) :
    atrValues (P ++ ext) s i = atrValues P s i := by
  unfold atrValues
  rw [atr14_append P ext i h]
  have hl : i < (P ++ ext).length := by rw [List.length_append]; omega
  by_cases hc : s ≤ i ∧ 14 ≤ i
  · rw [if_pos ⟨hc.1, hc.2, hl⟩, if_pos ⟨hc.1, hc.2, h⟩]
  · rw [if_neg (fun hh => hc ⟨hh.1, hh.2.1⟩), if_neg (fun hh => hc ⟨hh.1, hh.2.1⟩)]

lemma avgVolumes_append (P ext : List Bar) (i : Nat) (h : i < P.length) :
    avgVolumes (P ++ ext) i = avgVolumes P i := by
  unfold avgVolumes
  have hl : i < (P ++ ext).length := by rw [List.length_append]; omega
  have hf : (List.range 20).foldl (fun volSum j => volSum + (nth (P ++ ext) (i - j)).volume) 0 =
      (List.range 20).foldl (fun volSum j => volSum + (nth P (i - j)).volume) 0 := by
    apply List.foldl_ext
    intro a j _
    rw [nth_append P ext (i - j) (by omega)]
  rw [hf]
  by_cases hc : 20 ≤ i
  · rw [if_pos ⟨hc, hl⟩, if_pos ⟨hc, h⟩]
  · rw [if_neg (fun hh => hc hh.1), if_neg (fun hh => hc hh.1)]

lemma atrAt_extend (env : Env) (ext : List Bar) (i : Nat) (h : i < env.candles.length) :
    atrAt (extend env ext) i = atrAt env i := by
  unfold atrAt extend
  simp only
  rw [atrValues_append _ ext _ i h, nth_append _ ext i h]

lemma avgVolAt_extend (env : Env) (ext : List Bar) (i : Nat) (h : i < env.candles.length) :
    avgVolAt (extend env ext) i = avgVolAt env i := by
  unfold avgVolAt extend
  simp only
  rw [avgVolumes_append _ ext i h]

lemma findOBCandle_lt (candles : List Bar) (i k : Nat) (b : Bool)
    (h : findOBCandle candles i b = some k) : k < i := by
  unfold findOBCandle at h
  have hm := List.mem_of_find?_eq_some h
  rw [List.mem_reverse, List.mem_range'_1] at hm
  omega

lemma findOBCandle_append (P ext : List Bar) (i : Nat) (b : Bool) (h : i < P.length) :
    findOBCandle (P ++ ext) i b = findOBCandle P i b := by
  unfold findOBCandle
  apply find?_congr_mem
  intro k hk
  rw [List.mem_reverse, List.mem_range'_1] at hk
  rw [nth_append P ext k (by omega)]

/-- The mitigation scan over the extended series reports again what the scan
over the original series found, for zones with the same bounds. -/
lemma mitigate_extend (P ext : List Bar) (i : Nat) (z0 z1 : Zone) (h0 : z0.status = .ACTIVE)
    (hid : z1.id = z0.id) (htop : z1.top = z0.top) (hbot : z1.bottom = z0.bottom) :
    reportedAgain (mitigate P i z0) (mitigate (P ++ ext) i z1) := by
  refine ⟨by rw [(mitigate_fields _ _ _).1, (mitigate_fields _ _ _).1, hid], ?_⟩
  unfold mitigate
  cases hfind : (List.range' (i + 1) (P.length - (i + 1))).find?
      (fun j => barTouchesZone (nth P j) z0.top z0.bottom) with
  | none =>
    dsimp only
    intro h
    rw [h0] at h
    cases h
  | some j0 =>
    rw [find_range'_some] at hfind
    obtain ⟨f1, f2, f3, f4⟩ := hfind
    have hj0 : j0 < P.length := by omega
    have hq : (List.range' (i + 1) ((P ++ ext).length - (i + 1))).find?
        (fun j => barTouchesZone (nth (P ++ ext) j) z1.top z1.bottom) = some j0 := by
      rw [find_range'_some]
      refine ⟨f1, by rw [List.length_append]; omega, ?_, ?_⟩
      · rw [nth_append P ext j0 hj0, htop, hbot]; exact f3
      · intro j1 h1 h2
        rw [nth_append P ext j1 (by omega), htop, hbot]
        exact f4 j1 h1 h2
    rw [hq]
    dsimp only
    intro _
    exact ⟨rfl, by rw [nth_append P ext j0 hj0]⟩

lemma bullFVG_extend (env : Env) (ext : List Bar) (i : Nat) (h : i < env.candles.length) :
    (bullFVG env i = none ∧ bullFVG (extend env ext) i = none) ∨
    ∃ z zQ, bullFVG env i = some z ∧ bullFVG (extend env ext) i = some zQ ∧
      reportedAgain z zQ := by
  have e0 : nth (extend env ext).candles i = nth env.candles i := nth_append _ ext i h
  have e1 : nth (extend env ext).candles (i - 1) = nth env.candles (i - 1) :=
    nth_append _ ext (i - 1) (by omega)
  have e2 : nth (extend env ext).candles (i - 2) = nth env.candles (i - 2) :=
    nth_append _ ext (i - 2) (by omega)
  have es : (extend env ext).sens = env.sens := rfl
  unfold bullFVG
  simp only [e0, e1, e2, es, atrAt_extend env ext i h, avgVolAt_extend env ext i h]
  split_ifs
  · exact Or.inr ⟨_, _, rfl, rfl, mitigate_extend env.candles ext i _ _ rfl rfl rfl rfl⟩
  · exact Or.inl ⟨rfl, rfl⟩
  · exact Or.inl ⟨rfl, rfl⟩

lemma bearFVG_extend (env : Env) (ext : List Bar) (i : Nat) (h : i < env.candles.length) :
    (bearFVG env i = none ∧ bearFVG (extend env ext) i = none) ∨
    ∃ z zQ, bearFVG env i = some z ∧ bearFVG (extend env ext) i = some zQ ∧
      reportedAgain z zQ := by
  have e0 : nth (extend env ext).candles i = nth env.candles i := nth_append _ ext i h
  have e1 : nth (extend env ext).candles (i - 1) = nth env.candles (i - 1) :=
    nth_append _ ext (i - 1) (by omega)
  have e2 : nth (extend env ext).candles (i - 2) = nth env.candles (i - 2) :=
    nth_append _ ext (i - 2) (by omega)
  have es : (extend env ext).sens = env.sens := rfl
  unfold bearFVG
  simp only [e0, e1, e2, es, atrAt_extend env ext i h, avgVolAt_extend env ext i h]
  split_ifs
  · exact Or.inr ⟨_, _, rfl, rfl, mitigate_extend env.candles ext i _ _ rfl rfl rfl rfl⟩
  · exact Or.inl ⟨rfl, rfl⟩
  · exact Or.inl ⟨rfl, rfl⟩

lemma obZone_extend (env : Env) (ext : List Bar) (i k : Nat) (b : Bool)
    (hk : k < env.candles.length) :
    reportedAgain (obZone env i k b) (obZone (extend env ext) i k b) := by
  obtain ⟨a1, -, a3, a4, z0, hz0, s0, -⟩ := obZone_fields env i k b
  obtain ⟨b1, -, b3, b4, z1, hz1, -, -⟩ := obZone_fields (extend env ext) i k b
  have hn : nth (extend env ext).candles k = nth env.candles k := nth_append _ ext k hk
  rw [hn] at b3 b4
  rw [hz0] at a1 a3 a4
  rw [hz1] at b1 b3 b4
  rw [(mitigate_fields _ _ _).1] at a1 b1
  rw [(mitigate_fields _ _ _).2.2.2.1] at a3 b3
  rw [(mitigate_fields _ _ _).2.2.2.2.1] at a4 b4
  rw [hz0, hz1]
  exact mitigate_extend env.candles ext i z0 z1 s0 (by rw [a1, b1]) (by rw [a3, b3])
    (by rw [a4, b4])

lemma associatedOB_extend (env : Env) (ext : List Bar) (p : List Nat) (i : Nat) (b : Bool)
    (h : i < env.candles.length) :
    (associatedOB env p i b = none ∧ associatedOB (extend env ext) p i b = none) ∨
    ∃ k z zQ, associatedOB env p i b = some (k, z) ∧
      associatedOB (extend env ext) p i b = some (k, zQ) ∧ reportedAgain z zQ := by
  have hf : findOBCandle (extend env ext).candles i b = findOBCandle env.candles i b :=
    findOBCandle_append _ ext i b h
  unfold associatedOB
  rw [hf]
  cases hfind : findOBCandle env.candles i b with
  | none => exact Or.inl ⟨rfl, rfl⟩
  | some k =>
    have hk := findOBCandle_lt _ _ _ _ hfind
    dsimp only
    split_ifs
    · exact Or.inl ⟨rfl, rfl⟩
    · exact Or.inr ⟨k, _, _, rfl, rfl, obZone_extend env ext i k b (by omega)⟩

/-- Related gap blocks push related zones and record the same indices. -/
lemma gap_extend (zone zoneQ : Option Zone) (ob obQ : Option (Nat × Zone)) (p : List Nat)
    (hz : (zone = none ∧ zoneQ = none) ∨
      ∃ z zQ, zone = some z ∧ zoneQ = some zQ ∧ reportedAgain z zQ)
    (ho : (ob = none ∧ obQ = none) ∨
      ∃ k z zQ, ob = some (k, z) ∧ obQ = some (k, zQ) ∧ reportedAgain z zQ) :
    gapProcessed zoneQ obQ p = gapProcessed zone ob p ∧
      ∀ z ∈ gapZones zone ob, ∃ zQ ∈ gapZones zoneQ obQ, reportedAgain z zQ := by
  rcases hz with ⟨rfl, rfl⟩ | ⟨z, zQ, rfl, rfl, hr⟩
  · exact ⟨rfl, by simp [gapZones]⟩
  · rcases ho with ⟨rfl, rfl⟩ | ⟨k, o, oQ, rfl, rfl, hro⟩
    · refine ⟨rfl, ?_⟩
      intro x hx
      simp only [gapZones, List.mem_singleton] at hx
      subst hx
      exact ⟨zQ, by simp [gapZones], hr⟩
    · refine ⟨rfl, ?_⟩
      intro x hx
      simp only [gapZones, List.mem_cons, List.mem_singleton, List.not_mem_nil, or_false] at hx
      rcases hx with rfl | rfl
      · exact ⟨zQ, by simp [gapZones], hr⟩
      · exact ⟨oQ, by simp [gapZones], hro⟩

lemma stepZones_extend (env : Env) (ext : List Bar) (p : List Nat) (i : Nat)
    (h : i < env.candles.length) :
    stepProcessed (extend env ext) p i = stepProcessed env p i ∧
      ∀ z ∈ stepZones env p i, ∃ zQ ∈ stepZones (extend env ext) p i, reportedAgain z zQ := by
  obtain ⟨hp1, hz1⟩ := gap_extend _ _ _ _ p (bullFVG_extend env ext i h)
    (associatedOB_extend env ext p i true h)
  have hbp : bullProcessed (extend env ext) p i = bullProcessed env p i := hp1
  obtain ⟨hp2, hz2⟩ := gap_extend _ _ _ _ (bullProcessed env p i) (bearFVG_extend env ext i h)
    (associatedOB_extend env ext (bullProcessed env p i) i false h)
  constructor
  · unfold stepProcessed
    rw [hbp]
    exact hp2
  · intro z hz
    unfold stepZones at hz ⊢
    rw [hbp]
    rcases List.mem_append.mp hz with hz | hz
    · obtain ⟨zQ, hq, hr⟩ := hz1 z hz
      exact ⟨zQ, List.mem_append_left _ hq, hr⟩
    · obtain ⟨zQ, hq, hr⟩ := hz2 z hz
      exact ⟨zQ, List.mem_append_right _ hq, hr⟩

lemma loopZones_extend (env : Env) (ext : List Bar) (l : List Nat)
    (hl : ∀ i ∈ l, i < env.candles.length) :
    ∀ p : List Nat, ∀ z ∈ loopZones env p l,
      ∃ zQ ∈ loopZones (extend env ext) p l, reportedAgain z zQ := by
  induction l with
  | nil => intro p z hz; simp [loopZones] at hz
  | cons i rest ih =>
    intro p z hz
    obtain ⟨hp, hs⟩ := stepZones_extend env ext p i (hl i (List.mem_cons_self _ _))
    rw [loopZones.eq_def] at hz ⊢
    simp only [List.mem_append] at hz ⊢
    rcases hz with hz | hz
    · obtain ⟨zQ, hq, hr⟩ := hs z hz
      exact ⟨zQ, Or.inl hq, hr⟩
    · obtain ⟨zQ, hq, hr⟩ := ih (fun j hj => hl j (List.mem_cons_of_mem _ hj)) _ z hz
      rw [hp]
      exact ⟨zQ, Or.inr hq, hr⟩

lemma loopZones_mem_append (env : Env) (l1 l2 : List Nat) :
    ∀ (p : List Nat) (z : Zone), z ∈ loopZones env p l1 → z ∈ loopZones env p (l1 ++ l2) := by
  induction l1 with
  | nil => intro p z hz; simp [loopZones] at hz
  | cons i rest ih =>
    intro p z hz
    rw [List.cons_append, loopZones.eq_def]
    rw [loopZones.eq_def] at hz
    simp only [List.mem_append] at hz ⊢
    rcases hz with hz | hz
    · exact Or.inl hz
    · exact Or.inr (ih _ z hz)

lemma envOf_append (P ext : List Bar) (config : Config)
    (hwin : startIndexOf (P ++ ext) config = startIndexOf P config) :
    envOf (P ++ ext) config = extend (envOf P config) ext := by
  unfold envOf extend
  simp only [hwin]

lemma loopIndices_extend (env : Env) (ext : List Bar)
    (hs : max env.startIndex 2 ≤ env.candles.length) :
    loopIndices (extend env ext) = loopIndices env ++
      List.range' (max env.startIndex 2 + (env.candles.length - max env.startIndex 2))
        ext.length := by
  unfold loopIndices extend
  simp only [List.length_append]
  have h := List.range'_append (max env.startIndex 2)
    (env.candles.length - max env.startIndex 2) ext.length 1
  rw [one_mul] at h
  rw [h]
  congr 1
  omega

/-- C9 (amended): zone mitigation is monotonic under an extension of the
series that leaves the start of the scan in place: for every configuration and
every bar series `P` that is a prefix of a bar series `Q` with
`max(20, |Q| - historyTarget) = max(20, |P| - historyTarget)`, each zone that
`analyzeSMC(P)` reports as `MITIGATED` is also reported by `analyzeSMC(Q)`
under the same id, still `MITIGATED` and with the same `endTime`. -/
theorem mitigation_monotone_same_window (P Q : List Bar) (config : Config) (hpre : P <+: Q)
    (hwin : max 20 (Q.length - historyTargetOf config) =
      max 20 (P.length - historyTargetOf config)) :
    ∃ rP rQ, analyzeSMC P config = .ok rP ∧ analyzeSMC Q config = .ok rQ ∧
      ∀ z ∈ rP.zones, z.status = .MITIGATED →
        ∃ zQ ∈ rQ.zones, zQ.id = z.id ∧ zQ.status = .MITIGATED ∧ zQ.endTime = z.endTime := by
  obtain ⟨ext, rfl⟩ := hpre
  obtain ⟨rP, hrP, hP⟩ := analyzeSMC_total P config
  obtain ⟨rQ, hrQ, hQ⟩ := analyzeSMC_total (P ++ ext) config
  refine ⟨rP, rQ, hrP, hrQ, ?_⟩
  rcases hP with ⟨-, hzP, -⟩ | ⟨h50, hzP⟩
  · rw [hzP]; simp
  · rcases hQ with ⟨hlt, -, -⟩ | ⟨-, hzQ⟩
    · rw [List.length_append] at hlt; omega
    · intro z hz hmit
      rw [hzP] at hz
      have hzl := (List.mem_insertionSort _).mp hz
      have henv := envOf_append P ext config hwin
      have hidx : ∀ i ∈ loopIndices (envOf P config), i < (envOf P config).candles.length :=
        fun i hi => ((mem_loopIndices P config i).mp hi).2
      obtain ⟨zQ, hq, hid, hm⟩ := loopZones_extend (envOf P config) ext _ hidx [] z hzl
      have hstart : max (envOf P config).startIndex 2 ≤ (envOf P config).candles.length := by
        have h1 : (envOf P config).startIndex = startIndexOf P config := rfl
        have h2 : (envOf P config).candles = P := rfl
        rw [h1, h2]
        unfold startIndexOf
        omega
      refine ⟨zQ, ?_, hid, hm hmit⟩
      rw [hzQ, List.mem_insertionSort, henv, loopIndices_extend _ ext hstart]
      exact loopZones_mem_append _ _ _ [] zQ hq

/-- A witness for C9 (amended): `windowSeries` and its extension by one bar
under the default history window of 30000 bars. -/
theorem mitigation_monotone_same_window_witness :
    ∃ rP rQ, analyzeSMC windowSeries defaultConfig = .ok rP ∧
      analyzeSMC windowSeriesExtended defaultConfig = .ok rQ ∧
      ∀ z ∈ rP.zones, z.status = .MITIGATED →
        ∃ zQ ∈ rQ.zones, zQ.id = z.id ∧ zQ.status = .MITIGATED ∧ zQ.endTime = z.endTime :=
  mitigation_monotone_same_window windowSeries windowSeriesExtended defaultConfig
    (List.prefix_append _ _) (by decide!)

/-! ## Lemmas on the trend lines -/

lemma foldl_inv {α β : Type} (P : α → Prop) (f : α → β → α) (L : List β)
    (h : ∀ a b, b ∈ L → P a → P (f a b)) (a : α) (ha : P a) : P (L.foldl f a) := by
  induction L generalizing a with
  | nil => exact ha
  | cons b L ih =>
    rw [List.foldl_cons]
    exact ih (fun a1 b1 hb1 => h a1 b1 (List.mem_cons_of_mem _ hb1)) _
      (h a b (List.mem_cons_self _ _) ha)

lemma isPivotHigh_iff (candles : List Bar) (s i : Nat) :
    isPivotHigh candles s i = true ↔ ∀ j, 1 ≤ j → j ≤ s →
      (nth candles (i - j)).high ≤ (nth candles i).high ∧
      (nth candles (i + j)).high ≤ (nth candles i).high := by
  unfold isPivotHigh
  rw [List.all_eq_true]
  simp only [List.mem_range'_1, Bool.not_eq_true', Bool.or_eq_false_iff, decide_eq_false_iff_not,
    not_lt]
  exact ⟨fun h j h1 h2 => h j ⟨h1, by omega⟩, fun h j hj => h j hj.1 (by omega)⟩

lemma isPivotLow_iff (candles : List Bar) (s i : Nat) :
    isPivotLow candles s i = true ↔ ∀ j, 1 ≤ j → j ≤ s →
      (nth candles i).low ≤ (nth candles (i - j)).low ∧
      (nth candles i).low ≤ (nth candles (i + j)).low := by
  unfold isPivotLow
  rw [List.all_eq_true]
  simp only [List.mem_range'_1, Bool.not_eq_true', Bool.or_eq_false_iff, decide_eq_false_iff_not,
    not_lt]
  exact ⟨fun h j h1 h2 => h j ⟨h1, by omega⟩, fun h j hj => h j hj.1 (by omega)⟩

lemma pushHighs_ok (candles : List Bar) (config : TrendConfig) (strength : Nat)
    (hs : strength ∈ strengthsOf config) (highs : List Pivot)
    (h : PivotsOk candles config .DOWN highs) :
    PivotsOk candles config .DOWN (pushHighs candles highs strength) := by
  unfold pushHighs
  apply foldl_inv (PivotsOk candles config .DOWN) _ _ _ _ h
  intro acc i hi hacc
  rw [List.mem_range'_1] at hi
  split
  · rename_i hc
    rw [Bool.and_eq_true, Bool.not_eq_true', List.any_eq_false] at hc
    obtain ⟨hp, hn⟩ := hc
    refine ⟨?_, ?_⟩
    · rw [List.map_append, List.map_singleton]
      apply List.Nodup.append hacc.1 (List.nodup_singleton _)
      intro x hx hx2
      rw [List.mem_singleton] at hx2
      subst hx2
      rw [List.mem_map] at hx
      obtain ⟨p, hp1, hp2⟩ := hx
      have := hn p hp1
      simp only [decide_eq_true_eq] at this
      exact this hp2
    · intro p hp1
      rw [List.mem_append, List.mem_singleton] at hp1
      rcases hp1 with hp1 | rfl
      · exact hacc.2 p hp1
      · exact ⟨rfl, hs, hi.1, by dsimp only; omega, rfl, (isPivotHigh_iff _ _ _).1 hp⟩
  · exact hacc

lemma pushLows_ok (candles : List Bar) (config : TrendConfig) (strength : Nat)
    (hs : strength ∈ strengthsOf config) (lows : List Pivot)
    (h : PivotsOk candles config .UP lows) :
    PivotsOk candles config .UP (pushLows candles lows strength) := by
  unfold pushLows
  apply foldl_inv (PivotsOk candles config .UP) _ _ _ _ h
  intro acc i hi hacc
  rw [List.mem_range'_1] at hi
  split
  · rename_i hc
    rw [Bool.and_eq_true, Bool.not_eq_true', List.any_eq_false] at hc
    obtain ⟨hp, hn⟩ := hc
    refine ⟨?_, ?_⟩
    · rw [List.map_append, List.map_singleton]
      apply List.Nodup.append hacc.1 (List.nodup_singleton _)
      intro x hx hx2
      rw [List.mem_singleton] at hx2
      subst hx2
      rw [List.mem_map] at hx
      obtain ⟨p, hp1, hp2⟩ := hx
      have := hn p hp1
      simp only [decide_eq_true_eq] at this
      exact this hp2
    · intro p hp1
      rw [List.mem_append, List.mem_singleton] at hp1
      rcases hp1 with hp1 | rfl
      · exact hacc.2 p hp1
      · exact ⟨rfl, hs, hi.1, by dsimp only; omega, rfl, (isPivotLow_iff _ _ _).1 hp⟩
  · exact hacc

/-- A sorted array of pivots without repeated indices is strictly increasing
in the index. -/
lemma sorted_strict (l : List Pivot) (hn : (l.map fun p => p.index).Nodup)
    (hs : l.Pairwise (fun a b => a.index ≤ b.index)) :
    l.Pairwise (fun a b => a.index < b.index) := by
  induction l with
  | nil => exact List.Pairwise.nil
  | cons a l ih =>
    rw [List.map_cons, List.nodup_cons] at hn
    rw [List.pairwise_cons] at hs ⊢
    refine ⟨fun b hb => ?_, ih hn.2 hs.2⟩
    have h1 := hs.1 b hb
    have h2 : a.index ≠ b.index := fun e => hn.1 (by rw [e]; exact List.mem_map_of_mem _ hb)
    omega

lemma pivotHighs_ok (candles : List Bar) (config : TrendConfig) :
    (pivotHighs candles config).Pairwise (fun a b => a.index < b.index) ∧
    ∀ p ∈ pivotHighs candles config, IsSwing candles config .DOWN p := by
  have h : PivotsOk candles config .DOWN ((strengthsOf config).foldl (pushHighs candles) []) :=
    foldl_inv (PivotsOk candles config .DOWN) _ _
      (fun a b hb ha => pushHighs_ok candles config b hb a ha) _
      ⟨List.nodup_nil, fun p hp => by cases hp⟩
  have hperm := List.perm_insertionSort (fun a b : Pivot => a.index ≤ b.index)
    ((strengthsOf config).foldl (pushHighs candles) [])
  refine ⟨?_, fun p hp => h.2 p (hperm.mem_iff.1 hp)⟩
  apply sorted_strict
  · exact ((hperm.map _).nodup_iff).2 h.1
  · exact List.sorted_insertionSort _ _

lemma pivotLows_ok (candles : List Bar) (config : TrendConfig) :
    (pivotLows candles config).Pairwise (fun a b => a.index < b.index) ∧
    ∀ p ∈ pivotLows candles config, IsSwing candles config .UP p := by
  have h : PivotsOk candles config .UP ((strengthsOf config).foldl (pushLows candles) []) :=
    foldl_inv (PivotsOk candles config .UP) _ _
      (fun a b hb ha => pushLows_ok candles config b hb a ha) _
      ⟨List.nodup_nil, fun p hp => by cases hp⟩
  have hperm := List.perm_insertionSort (fun a b : Pivot => a.index ≤ b.index)
    ((strengthsOf config).foldl (pushLows candles) [])
  refine ⟨?_, fun p hp => h.2 p (hperm.mem_iff.1 hp)⟩
  apply sorted_strict
  · exact ((hperm.map _).nodup_iff).2 h.1
  · exact List.sorted_insertionSort _ _

/-- The pairs visited by the nested loops: `pivotB` comes before `pivotA` in
the array. -/
lemma mem_pairsDesc (m : List Pivot) (B A : Pivot) (h : (B, A) ∈ pairsDesc m) :
    A ∈ m ∧ B ∈ m ∧ (m.Pairwise (fun a b => b.index < a.index) → B.index < A.index) := by
  induction m with
  | nil => cases h
  | cons a m ih =>
    unfold pairsDesc at h
    rw [List.mem_append, List.mem_map] at h
    rcases h with ⟨b, hb, he⟩ | h
    · cases he
      exact ⟨List.mem_cons_self _ _, List.mem_cons_of_mem _ hb,
        fun hp => (List.pairwise_cons.1 hp).1 B hb⟩
    · obtain ⟨h1, h2, h3⟩ := ih h
      exact ⟨List.mem_cons_of_mem _ h1, List.mem_cons_of_mem _ h2,
        fun hp => h3 (List.pairwise_cons.1 hp).2⟩

lemma pivotsOf_ok (candles : List Bar) (config : TrendConfig) (type : LineType) :
    (pivotsOf candles config type).Pairwise (fun a b => a.index < b.index) ∧
    ∀ p ∈ pivotsOf candles config type, IsSwing candles config type p := by
  cases type
  · exact pivotHighs_ok candles config
  · exact pivotLows_ok candles config

lemma mem_processCandidates (candles : List Bar) (config : TrendConfig) (type : LineType)
    (l : TrendLine)
    (h : l ∈ processCandidates candles config (pivotsOf candles config type) type) :
    ∃ B A, IsSwing candles config type B ∧ IsSwing candles config type A ∧
      B.index < A.index ∧ buildLine candles config type B A = some l := by
  unfold processCandidates at h
  rw [List.mem_filterMap] at h
  obtain ⟨⟨B, A⟩, hp, hb⟩ := h
  obtain ⟨h1, h2, h3⟩ := mem_pairsDesc _ B A hp
  rw [List.mem_reverse] at h1 h2
  have hok := pivotsOf_ok candles config type
  refine ⟨B, A, hok.2 B h2, hok.2 A h1, h3 ?_, hb⟩
  rw [List.pairwise_reverse]
  exact hok.1

lemma filterActiveLoop_cons (n : Nat) (acc : List TrendLine) (l : TrendLine)
    (rest : List TrendLine) :
    filterActiveLoop n acc (l :: rest) =
      if (keptAfter n acc l).length ≥ 20 then keptAfter n acc l
      else filterActiveLoop n (keptAfter n acc l) rest := rfl

lemma mem_keptAfter (n : Nat) (acc : List TrendLine) (l y : TrendLine)
    (hy : y ∈ keptAfter n acc l) : y ∈ acc ∨ y = l := by
  unfold keptAfter at hy
  split at hy
  · exact Or.inl hy
  · rw [List.mem_append, List.mem_singleton] at hy
    exact hy

lemma mem_filterActiveLoop (n : Nat) (x : TrendLine) (rest : List TrendLine) :
    ∀ acc, x ∈ filterActiveLoop n acc rest → x ∈ acc ∨ x ∈ rest := by
  induction rest with
  | nil => intro acc h; exact Or.inl h
  | cons l rest ih =>
    intro acc h
    rw [filterActiveLoop_cons] at h
    split at h
    · rcases mem_keptAfter _ _ _ _ h with h1 | h1
      · exact Or.inl h1
      · exact Or.inr (h1 ▸ List.mem_cons_self _ _)
    · rcases ih _ h with h1 | h1
      · rcases mem_keptAfter _ _ _ _ h1 with h2 | h2
        · exact Or.inl h2
        · exact Or.inr (h2 ▸ List.mem_cons_self _ _)
      · exact Or.inr (List.mem_cons_of_mem _ h1)

lemma mem_filterBroken (x : TrendLine) (l : List TrendLine) (h : x ∈ filterBroken l) :
    x ∈ l := by
  unfold filterBroken at h
  have := foldl_inv (fun acc : List TrendLine => ∀ y ∈ acc, y ∈ l)
    (fun filteredBroken l =>
      if filteredBroken.any (dominatesBroken l) then filteredBroken else filteredBroken ++ [l])
    l (by
      intro a b hb ha y hy
      dsimp only at hy
      split at hy
      · exact ha y hy
      · rw [List.mem_append, List.mem_singleton] at hy
        rcases hy with hy | rfl
        · exact ha y hy
        · exact hb) [] (fun y hy => by cases hy)
  exact this x h

/-- Every returned line was pushed by `processCandidates` for a pair of swing
points of its type, the origin before the end pivot. -/
lemma mem_calculateTrendLines (candles : List Bar) (config : TrendConfig) (l : TrendLine)
    (h : l ∈ calculateTrendLines candles config) :
    100 ≤ candles.length ∧ ∃ type B A, IsSwing candles config type B ∧
      IsSwing candles config type A ∧ B.index < A.index ∧
      buildLine candles config type B A = some l := by
  unfold calculateTrendLines at h
  split at h
  · cases h
  · rename_i hlen
    refine ⟨by omega, ?_⟩
    have hc : l ∈ candidatesOf candles config := by
      dsimp only at h
      rw [List.mem_append] at h
      have hs : l ∈ sortedCandidates candles config := by
        rcases h with h | h
        · rcases mem_filterActiveLoop _ _ _ _ h with h1 | h1
          · cases h1
          · exact (List.mem_filter.1 h1).1
        · exact (List.mem_filter.1 (mem_filterBroken _ _ h)).1
      unfold sortedCandidates at hs
      exact (List.perm_insertionSort _ _).mem_iff.1 hs
    unfold candidatesOf at hc
    rw [List.mem_append] at hc
    rcases hc with hc | hc
    · exact ⟨.DOWN, mem_processCandidates candles config .DOWN l hc⟩
    · exact ⟨.UP, mem_processCandidates candles config .UP l hc⟩

/-- What `processCandidates` stores in the line that it pushes for a pair of
pivots. -/
lemma buildLine_some (candles : List Bar) (config : TrendConfig) (type : LineType)
    (B A : Pivot) (l : TrendLine) (h : buildLine candles config type B A = some l) :
    (l.type = type ∧ l.t1 = B.time ∧ l.p1 = B.price ∧ l.slope = slopeOf B A ∧
      l.startIdx = B.index ∧ l.endPivotIdx = A.index) ∧
    ((type = .DOWN → B.price > A.price) ∧ (type = .UP → B.price < A.price)) ∧
    (l.touches = 2 + (touchedBetween candles type B A).length ∧
      l.touchIndices = [B.index, A.index] ++ touchedBetween candles type B A) ∧
    (l.breakIndex = breakIndexOf candles (toleranceOf config) type B A ∧
      l.endIdx = (match l.breakIndex with
        | some k => k
        | none => candles.length - 1) ∧
      l.status = (match l.breakIndex with
        | some _ => .BROKEN
        | none => .ACTIVE)) ∧
    (l.t2 = (nth candles l.endIdx).time ∧ l.p2 = theoPrice B (slopeOf B A) l.endIdx) ∧
    (l.duration = (((nth candles l.endIdx).time - (nth candles B.index).time : Int) : ℚ) / 3600 ∧
      l.score = max 0 ((l.touches : ℚ) - 2) * 15 + l.duration * 2) := by
  unfold buildLine at h
  dsimp only at h
  split at h
  · cases h
  · rename_i hdir
    have hd : (type = .DOWN → B.price > A.price) ∧ (type = .UP → B.price < A.price) := by
      cases type <;> simpa using hdir
    split at h
    · cases h
    · split at h
      · cases h
      · split at h
        · rename_i k hk
          split at h
          · cases h
            refine ⟨⟨rfl, rfl, rfl, rfl, rfl, rfl⟩, hd, ⟨rfl, rfl⟩, ⟨hk.symm, rfl, rfl⟩,
              ⟨rfl, rfl⟩, ?_, ?_⟩ <;> simp only [hk]
          · cases h
        · rename_i hk
          cases h
          refine ⟨⟨rfl, rfl, rfl, rfl, rfl, rfl⟩, hd, ⟨rfl, rfl⟩, ⟨hk.symm, rfl, rfl⟩,
            ⟨rfl, rfl⟩, ?_, ?_⟩ <;> simp only [hk]

/-! ## The claims on the indicators -/

/-- C11.  Insufficient input yields a neutral result and never a fault:
`analyzeSMC` returns empty zone and trade lists for fewer than 50 bars,
`calculateTrendLines` an empty list for fewer than 100 bars, `calculateHurst`
the object `{hurst: 0, type: '---'}` for fewer than 200 bars, and
`calculateRegLin` returns `null` for fewer than `period` bars. -/
theorem insufficient_input_neutral (mathLog mathSqrt : ℚ → ℚ) (candles : List Bar)
    (config : Config) (trendConfig : TrendConfig) (regConfig : RegLinConfig) :
    (candles.length < 50 → analyzeSMC candles config = .ok { zones := [], trades := [] }) ∧
    (candles.length < 100 → calculateTrendLines candles trendConfig = []) ∧
    (candles.length < 200 →
      calculateHurst mathLog mathSqrt candles = { hurst := 0, type := "---" }) ∧
    (candles.length < periodOf regConfig → calculateRegLin mathSqrt candles regConfig = none) := by
  refine ⟨fun h => ?_, fun h => ?_, fun h => ?_, fun h => ?_⟩
  · unfold analyzeSMC
    rw [if_pos h]
  · unfold calculateTrendLines
    rw [if_pos h]
  · unfold calculateHurst
    rw [if_pos h]
  · unfold calculateRegLin
    dsimp only
    rw [if_pos h]

theorem insufficient_input_neutral_witness :
    analyzeSMC (flatBars 100 0 49) defaultConfig = .ok { zones := [], trades := [] } ∧
    calculateTrendLines (flatBars 100 0 49) defaultTrendConfig = [] ∧
    calculateHurst id id (flatBars 100 0 49) = { hurst := 0, type := "---" } ∧
    calculateRegLin id (flatBars 100 0 49) ⟨none, none, none⟩ = none :=
  ⟨(insufficient_input_neutral id id (flatBars 100 0 49) defaultConfig defaultTrendConfig
      ⟨none, none, none⟩).1 (by decide),
   (insufficient_input_neutral id id (flatBars 100 0 49) defaultConfig defaultTrendConfig
      ⟨none, none, none⟩).2.1 (by decide),
   (insufficient_input_neutral id id (flatBars 100 0 49) defaultConfig defaultTrendConfig
      ⟨none, none, none⟩).2.2.1 (by decide),
   (insufficient_input_neutral id id (flatBars 100 0 49) defaultConfig defaultTrendConfig
      ⟨none, none, none⟩).2.2.2 (by decide)⟩

/-! ## The claims on the trend lines -/

lemma theoPrice_eq_priceAt (B A : Pivot) (l : TrendLine) (h1 : l.p1 = B.price)
    (h2 : l.slope = slopeOf B A) (h3 : l.startIdx = B.index) (k : Nat) :
    theoPrice B (slopeOf B A) k = l.priceAt k := by
  unfold theoPrice TrendLine.priceAt
  rw [h1, h2, h3]

lemma breaksLine_iff (candles : List Bar) (B A : Pivot) (l : TrendLine) (tol : ℚ)
    (h1 : l.p1 = B.price) (h2 : l.slope = slopeOf B A) (h3 : l.startIdx = B.index) (k : Nat) :
    breaksLine candles l.type B (slopeOf B A) tol k = true ↔ l.brokenAt candles tol k := by
  unfold breaksLine TrendLine.brokenAt
  rw [theoPrice_eq_priceAt B A l h1 h2 h3]
  have e : tol * 0.5 = tol / 2 := by ring
  rw [e]
  cases l.type <;> simp only [decide_eq_true_eq]

lemma touchesLine_iff (candles : List Bar) (B A : Pivot) (l : TrendLine)
    (h1 : l.p1 = B.price) (h2 : l.slope = slopeOf B A) (h3 : l.startIdx = B.index) (k : Nat) :
    touchesLine candles l.type B (slopeOf B A) k = decide (l.touchedAt candles k) := by
  unfold touchesLine TrendLine.touchedAt
  rw [theoPrice_eq_priceAt B A l h1 h2 h3]
  simp only [Bool.decide_and]

/-- C13.  For every line returned by `calculateTrendLines`: the line is
`BROKEN` with `breakIndex = k` if and only if `k` is the least index after
the end pivot whose bar breaks the line by more than half the tolerance, and
then `t2`, `p2` are the time and the line price at `k`; if no bar after the
end pivot breaks the line, it is `ACTIVE` and `t2`, `p2` are the time and the
line price at the last bar. -/
theorem line_broken_at_first_break (candles : List Bar) (config : TrendConfig) (l : TrendLine)
    (h : l ∈ calculateTrendLines candles config) :
    (∀ k, (l.status = .BROKEN ∧ l.breakIndex = some k) ↔
      (l.endPivotIdx < k ∧ k < candles.length ∧ l.brokenAt candles (toleranceOf config) k ∧
        ∀ j, l.endPivotIdx < j → j < k → ¬ l.brokenAt candles (toleranceOf config) j)) ∧
    (∀ k, l.breakIndex = some k → l.t2 = (nth candles k).time ∧ l.p2 = l.priceAt k) ∧
    ((∀ k, l.endPivotIdx < k → k < candles.length →
        ¬ l.brokenAt candles (toleranceOf config) k) →
      l.status = .ACTIVE ∧ l.breakIndex = none ∧
      l.t2 = (nth candles (candles.length - 1)).time ∧
      l.p2 = l.priceAt (candles.length - 1)) := by
  obtain ⟨-, type, B, A, -, -, -, hb⟩ := mem_calculateTrendLines candles config l h
  obtain ⟨⟨ht, -, hp1, hsl, hst, hen⟩, -, -, ⟨hbi, hei, hs⟩, ⟨ht2, hp2⟩, -⟩ :=
    buildLine_some candles config type B A l hb
  subst ht
  have hbr := breaksLine_iff candles B A l (toleranceOf config) hp1 hsl hst
  have hpr := theoPrice_eq_priceAt B A l hp1 hsl hst
  unfold breakIndexOf at hbi
  rw [hen]
  have hfalse : ∀ j, breaksLine candles l.type B (slopeOf B A) (toleranceOf config) j = false ↔
      ¬ l.brokenAt candles (toleranceOf config) j := by
    intro j
    rw [← hbr j, Bool.not_eq_true]
  refine ⟨fun k => ⟨?_, ?_⟩, ?_, ?_⟩
  · rintro ⟨-, hk⟩
    rw [hk] at hbi
    obtain ⟨h1, h2, h3, h4⟩ := (find_range'_some _ _ _ _).1 hbi.symm
    exact ⟨by omega, by omega, (hbr k).1 h3,
      fun j hj1 hj2 => (hfalse j).1 (h4 j (by omega) hj2)⟩
  · rintro ⟨h1, h2, h3, h4⟩
    have hf := (find_range'_some
      (breaksLine candles l.type B (slopeOf B A) (toleranceOf config))
      (candles.length - (A.index + 1)) (A.index + 1) k).2
      ⟨by omega, by omega, (hbr k).2 h3, fun j hj1 hj2 => (hfalse j).2 (h4 j (by omega) hj2)⟩
    rw [hf] at hbi
    rw [hbi] at hs
    exact ⟨hs, hbi⟩
  · intro k hk
    rw [hk] at hei
    rw [hei] at ht2 hp2
    exact ⟨ht2, by rw [hp2, hpr]⟩
  · intro hno
    have hn : l.breakIndex = none := by
      rw [hbi, find_range'_none]
      intro j hj1 hj2
      exact (hfalse j).2 (hno j (by omega) (by omega))
    rw [hn] at hei hs
    rw [hei] at ht2 hp2
    exact ⟨hs, hn, ht2, by rw [hp2, hpr]⟩

theorem line_broken_at_first_break_witness :
    ∃ l ∈ calculateTrendLines trapSeries defaultTrendConfig,
      l.breakIndex = some 70 ∧ l.t2 = (nth trapSeries 70).time ∧ l.p2 = l.priceAt 70 := by
  obtain ⟨l, hl0, -, -, hk⟩ := Liquidity.trapSeries_facts.1
  have hl : l ∈ calculateTrendLines trapSeries defaultTrendConfig := (List.mem_filter.1 hl0).1
  exact ⟨l, hl, hk, (line_broken_at_first_break trapSeries defaultTrendConfig l hl).2.1 70 hk⟩

/-- C14.  For every line returned by `calculateTrendLines`, `touches` is the
length of `touchIndices` and at least 2: the two pivots, then every bar
between them whose high (`DOWN`) or low (`UP`) is within 0.2 % of the line
price; and `score = max(0, touches - 2) * 15 + durationHours * 2`, where
`durationHours` (the field `duration`) is the time of the end bar minus the
time of the origin pivot, over 3600. -/
theorem touches_and_score (candles : List Bar) (config : TrendConfig) (l : TrendLine)
    (h : l ∈ calculateTrendLines candles config) :
    l.touches = l.touchIndices.length ∧ 2 ≤ l.touches ∧
    l.touchIndices = l.startIdx :: l.endPivotIdx ::
      (List.range' (l.startIdx + 1) (l.endPivotIdx - (l.startIdx + 1))).filter
        (fun k => decide (l.touchedAt candles k)) ∧
    l.endIdx = (match l.breakIndex with
      | some k => k
      | none => candles.length - 1) ∧
    l.duration =
      (((nth candles l.endIdx).time - (nth candles l.startIdx).time : Int) : ℚ) / 3600 ∧
    l.score = max 0 ((l.touches : ℚ) - 2) * 15 + l.duration * 2 := by
  obtain ⟨-, type, B, A, -, -, -, hb⟩ := mem_calculateTrendLines candles config l h
  obtain ⟨⟨ht, -, hp1, hsl, hst, hen⟩, -, ⟨htc, hti⟩, ⟨-, hei, -⟩, -, ⟨hd, hsc⟩⟩ :=
    buildLine_some candles config type B A l hb
  subst ht
  have hto : touchedBetween candles l.type B A =
      (List.range' (l.startIdx + 1) (l.endPivotIdx - (l.startIdx + 1))).filter
        (fun k => decide (l.touchedAt candles k)) := by
    unfold touchedBetween
    rw [hst, hen]
    apply List.filter_congr
    intro k _
    exact touchesLine_iff candles B A l hp1 hsl hst k
  rw [hto] at htc hti
  refine ⟨?_, by omega, ?_, hei, ?_, hsc⟩
  · rw [hti, htc]
    simp only [List.cons_append, List.nil_append, List.length_cons]
    omega
  · rw [hti, ← hst, ← hen]
    rfl
  · rw [hst]
    exact hd

theorem touches_and_score_witness :
    ∃ l ∈ calculateTrendLines clusterSeries defaultTrendConfig,
      l.touches = 3 ∧ l.touches = l.touchIndices.length ∧
      l.score = max 0 ((l.touches : ℚ) - 2) * 15 + l.duration * 2 := by
  obtain ⟨l, hl, hk⟩ := clusterSeries_facts.1
  exact ⟨l, hl, hk, (touches_and_score clusterSeries defaultTrendConfig l hl).1,
    (touches_and_score clusterSeries defaultTrendConfig l hl).2.2.2.2.2⟩

/-- C15.  For every line returned by `calculateTrendLines`, the origin pivot
precedes the end pivot; an `UP` line starts at a swing low strictly below the
low of the end pivot, so its slope is positive, and a `DOWN` line starts at a
swing high strictly above the high of the end pivot, so its slope is
negative. -/
theorem line_origin_before_end (candles : List Bar) (config : TrendConfig) (l : TrendLine)
    (h : l ∈ calculateTrendLines candles config) :
    l.startIdx < l.endPivotIdx ∧
    (∃ B A, IsSwing candles config l.type B ∧ IsSwing candles config l.type A ∧
      B.index = l.startIdx ∧ A.index = l.endPivotIdx ∧ B.price = l.p1 ∧ B.time = l.t1) ∧
    (l.type = .UP → l.p1 = (nth candles l.startIdx).low ∧
      (nth candles l.startIdx).low < (nth candles l.endPivotIdx).low ∧ 0 < l.slope) ∧
    (l.type = .DOWN → l.p1 = (nth candles l.startIdx).high ∧
      (nth candles l.startIdx).high > (nth candles l.endPivotIdx).high ∧ l.slope < 0) := by
  obtain ⟨-, type, B, A, hB, hA, hlt, hb⟩ := mem_calculateTrendLines candles config l h
  obtain ⟨⟨ht, ht1, hp1, hsl, hst, hen⟩, ⟨hdn, hup⟩, -⟩ :=
    buildLine_some candles config type B A l hb
  subst ht
  have hpos : (0 : ℚ) < (A.index : ℚ) - (B.index : ℚ) := by
    have : (B.index : ℚ) < (A.index : ℚ) := by exact_mod_cast hlt
    linarith
  refine ⟨by omega, ⟨B, A, hB, hA, hst.symm, hen.symm, hp1.symm, ht1.symm⟩, ?_, ?_⟩
  · intro hty
    have hlt2 := hup hty
    obtain ⟨-, -, -, -, hBm⟩ := hB
    obtain ⟨-, -, -, -, hAm⟩ := hA
    rw [hty] at hBm hAm
    rw [hst, hen, hp1, hsl, ← hBm.1, ← hAm.1]
    refine ⟨rfl, hlt2, ?_⟩
    unfold slopeOf
    exact div_pos (by linarith) hpos
  · intro hty
    have hlt2 := hdn hty
    obtain ⟨-, -, -, -, hBm⟩ := hB
    obtain ⟨-, -, -, -, hAm⟩ := hA
    rw [hty] at hBm hAm
    rw [hst, hen, hp1, hsl, ← hBm.1, ← hAm.1]
    refine ⟨rfl, hlt2, ?_⟩
    unfold slopeOf
    exact div_neg_of_neg_of_pos (by linarith) hpos

theorem line_origin_before_end_witness :
    ∃ l ∈ calculateTrendLines trapSeries defaultTrendConfig,
      l.startIdx = 23 ∧ l.endPivotIdx = 60 ∧ l.startIdx < l.endPivotIdx ∧
      (l.type = .UP → l.p1 = (nth trapSeries l.startIdx).low ∧
        (nth trapSeries l.startIdx).low < (nth trapSeries l.endPivotIdx).low ∧ 0 < l.slope) := by
  obtain ⟨l, hl0, hk1, hk2, -⟩ := Liquidity.trapSeries_facts.1
  have hl : l ∈ calculateTrendLines trapSeries defaultTrendConfig := (List.mem_filter.1 hl0).1
  exact ⟨l, hl, hk1, hk2, (line_origin_before_end trapSeries defaultTrendConfig l hl).1,
    (line_origin_before_end trapSeries defaultTrendConfig l hl).2.2.1⟩

/-! ## The greedy filter of the active lines -/

/-- C12, counterexample.  On `clusterSeries` the candidates from bar 10 to
bar 30 and from bar 30 to bar 50 are both `ACTIVE` and `UP` and project to the
same price at the last bar, and neither of them is returned: the longer line
from bar 10 to bar 50, kept first, dominates both. -/
theorem active_dedup_counterexample :
    ∃ l1 ∈ activeCandidates clusterSeries defaultTrendConfig,
    ∃ l2 ∈ activeCandidates clusterSeries defaultTrendConfig,
      (l1.startIdx = 10 ∧ l1.endPivotIdx = 30) ∧ (l2.startIdx = 30 ∧ l2.endPivotIdx = 50) ∧
      (l1.type = l2.type ∧
        |projectedPrice clusterSeries.length l1 - projectedPrice clusterSeries.length l2| <
          0.01 * projectedPrice clusterSeries.length l1) ∧
      l1 ∉ calculateTrendLines clusterSeries defaultTrendConfig ∧
      l2 ∉ calculateTrendLines clusterSeries defaultTrendConfig :=
  clusterSeries_facts.2

lemma dominated_of_any (n : Nat) (acc : List TrendLine) (l : TrendLine)
    (h : acc.any (dominatesActive n l) = true) : ∃ k ∈ acc, dominatesActive n l k = true := by
  rw [List.any_eq_true] at h
  exact h

lemma keptAfter_pos (n : Nat) (acc : List TrendLine) (l : TrendLine)
    (h : acc.any (dominatesActive n l) = true) : keptAfter n acc l = acc := by
  unfold keptAfter
  rw [if_pos h]

lemma keptAfter_neg (n : Nat) (acc : List TrendLine) (l : TrendLine)
    (h : acc.any (dominatesActive n l) = false) : keptAfter n acc l = acc ++ [l] := by
  unfold keptAfter
  rw [if_neg (by rw [h]; exact Bool.false_ne_true)]

/-- The loop over the active lines from a state with fewer than 20 kept
lines: it appends a sublist of the remaining lines, none of them dominated by a
line kept before it, never keeps more than 20, and drops a line only when a
kept line dominates it or when 20 lines are kept. -/
lemma filterActiveLoop_spec (n : Nat) (rest : List TrendLine) :
    ∀ acc : List TrendLine, acc.length < 20 →
      ∃ extra, filterActiveLoop n acc rest = acc ++ extra ∧ extra.Sublist rest ∧
        (acc ++ extra).length ≤ 20 ∧
        extra.Pairwise (fun k l => dominatesActive n l k = false) ∧
        (∀ x ∈ extra, ∀ k ∈ acc, dominatesActive n x k = false) ∧
        (∀ l ∈ rest, l ∉ extra →
          (∃ k ∈ acc ++ extra, dominatesActive n l k = true) ∨ (acc ++ extra).length = 20) := by
  induction rest with
  | nil =>
    intro acc hacc
    refine ⟨[], (by rw [List.append_nil]; rfl), List.Sublist.refl _, ?_, List.Pairwise.nil,
      (fun x hx => by cases hx), (fun l hl => by cases hl)⟩
    rw [List.append_nil]
    omega
  | cons l rest ih =>
    intro acc hacc
    rw [filterActiveLoop_cons]
    cases hd : acc.any (dominatesActive n l) with
    | true =>
      rw [keptAfter_pos n acc l hd, if_neg (by omega)]
      obtain ⟨extra, h1, h2, h3, h4, h5, h6⟩ := ih acc hacc
      refine ⟨extra, h1, List.Sublist.cons _ h2, h3, h4, h5, ?_⟩
      intro l1 hl1 hn
      rcases List.mem_cons.1 hl1 with rfl | hl1
      · obtain ⟨k, hk1, hk2⟩ := dominated_of_any n acc l1 hd
        exact Or.inl ⟨k, List.mem_append_left _ hk1, hk2⟩
      · exact h6 l1 hl1 hn
    | false =>
      rw [keptAfter_neg n acc l hd]
      have hnd : ∀ k ∈ acc, dominatesActive n l k = false := by
        rw [List.any_eq_false] at hd
        intro k hk
        exact Bool.eq_false_iff.2 (hd k hk)
      have hlen : (acc ++ [l]).length = acc.length + 1 := by
        rw [List.length_append, List.length_singleton]
      by_cases hcap : (acc ++ [l]).length ≥ 20
      · rw [if_pos hcap]
        refine ⟨[l], rfl, ?_, by omega, List.pairwise_singleton _ _, ?_, ?_⟩
        · exact List.Sublist.cons₂ _ (List.nil_sublist _)
        · intro x hx k hk
          rw [List.mem_singleton] at hx
          subst hx
          exact hnd k hk
        · intro l1 _ _
          exact Or.inr (by omega)
      · rw [if_neg hcap]
        obtain ⟨extra, h1, h2, h3, h4, h5, h6⟩ := ih (acc ++ [l]) (by omega)
        have hassoc : acc ++ [l] ++ extra = acc ++ l :: extra := by
          rw [List.append_assoc, List.singleton_append]
        rw [hassoc] at h1 h3 h6
        refine ⟨l :: extra, h1, List.Sublist.cons₂ _ h2, h3, ?_, ?_, ?_⟩
        · rw [List.pairwise_cons]
          exact ⟨fun x hx => h5 x hx l (List.mem_append_right _ (List.mem_singleton_self _)), h4⟩
        · intro x hx k hk
          rcases List.mem_cons.1 hx with rfl | hx
          · exact hnd k hk
          · exact h5 x hx k (List.mem_append_left _ hk)
        · intro l1 hl1 hn
          rw [List.mem_cons, not_or] at hn
          rcases List.mem_cons.1 hl1 with e | hl1
          · exact absurd e hn.1
          · exact h6 l1 hl1 hn.2

/-- C12, amended.  The active lines are filtered greedily in
descending-duration order: the returned list is the kept active lines
followed by the kept broken lines; the kept active lines are a sublist of the
active candidates, at most 20, the first active candidate is among them, no
kept line is dominated by (of the same type as, and within 1 % of the
projected price of) a line kept before it, and an active candidate is dropped
only when a kept line dominates it or when 20 lines are kept.  So of two
candidates within 1 % of each other at most the earlier is kept because of
the other, and both are dropped when a third line kept earlier dominates
them. -/
theorem active_dedup_greedy (candles : List Bar) (config : TrendConfig)
    (h : 100 ≤ candles.length) :
    ∃ kept, calculateTrendLines candles config = kept ++
        filterBroken ((sortedCandidates candles config).filter
          fun l => decide (l.status = .BROKEN)) ∧
      kept.Sublist (activeCandidates candles config) ∧ kept.length ≤ 20 ∧
      (∀ first ∈ (activeCandidates candles config).head?, first ∈ kept) ∧
      kept.Pairwise (fun k l => dominatesActive candles.length l k = false) ∧
      (∀ l ∈ activeCandidates candles config, l ∉ kept →
        (∃ k ∈ kept, dominatesActive candles.length l k = true) ∨ kept.length = 20) := by
  obtain ⟨extra, h1, h2, h3, h4, -, h6⟩ :=
    filterActiveLoop_spec candles.length (activeCandidates candles config) [] (by decide)
  rw [List.nil_append] at h1 h3 h6
  refine ⟨extra, ?_, h2, h3, ?_, h4, h6⟩
  · unfold calculateTrendLines
    rw [if_neg (by omega)]
    dsimp only
    unfold activeCandidates at h1
    rw [h1]
  · intro first hf
    cases hc : activeCandidates candles config with
    | nil => rw [hc] at hf; cases hf
    | cons a rest =>
      rw [hc] at hf h1
      simp only [List.head?_cons, Option.mem_def, Option.some.injEq] at hf
      subst hf
      rw [filterActiveLoop_cons, keptAfter_neg _ _ _ (by rfl)] at h1
      rw [← h1]
      split
      · exact List.mem_singleton_self _
      · obtain ⟨e2, he2, -⟩ := filterActiveLoop_spec candles.length rest ([] ++ [a])
          (by simp)
        rw [he2]
        exact List.mem_append_left _ (List.mem_append_right _ (List.mem_singleton_self _))

theorem active_dedup_greedy_witness :
    100 ≤ clusterSeries.length ∧
    ∃ kept, calculateTrendLines clusterSeries defaultTrendConfig = kept ++
        filterBroken ((sortedCandidates clusterSeries defaultTrendConfig).filter
          fun l => decide (l.status = .BROKEN)) ∧
      kept.Sublist (activeCandidates clusterSeries defaultTrendConfig) ∧ kept.length ≤ 20 ∧
      (∀ first ∈ (activeCandidates clusterSeries defaultTrendConfig).head?, first ∈ kept) ∧
      kept.Pairwise (fun k l => dominatesActive clusterSeries.length l k = false) ∧
      (∀ l ∈ activeCandidates clusterSeries defaultTrendConfig, l ∉ kept →
        (∃ k ∈ kept, dominatesActive clusterSeries.length l k = true) ∨ kept.length = 20) :=
  ⟨by decide, active_dedup_greedy clusterSeries defaultTrendConfig (by decide)⟩

namespace Liquidity

/-! ## The clustering of order blocks (`filterNearbyOBs`) -/

lemma atLeastAsFavorable_refl (s : Bool) (z : Zone) : atLeastAsFavorable s z z := by
  unfold atLeastAsFavorable
  split <;> exact le_refl _

lemma atLeastAsFavorable_trans (s : Bool) (a b c : Zone) (h1 : atLeastAsFavorable s a b)
    (h2 : atLeastAsFavorable s b c) : atLeastAsFavorable s a c := by
  unfold atLeastAsFavorable at *
  split at h1
  · rename_i hs
    rw [if_pos hs] at h2 ⊢
    exact le_trans h2 h1
  · rename_i hs
    rw [if_neg hs] at h2 ⊢
    exact le_trans h1 h2

lemma pickBest_cons (s : Bool) (first g : Zone) (group : List Zone) :
    pickBest s first (g :: group) =
      pickBest s (if s then (if g.top > first.top then g else first)
        else (if g.bottom < first.bottom then g else first)) group := rfl

/-- The zone picked from a group is at least as favorable as the starting
zone and as every zone of the group. -/
lemma pickBest_best (s : Bool) (group : List Zone) :
    ∀ first, atLeastAsFavorable s (pickBest s first group) first ∧
      ∀ y ∈ group, atLeastAsFavorable s (pickBest s first group) y := by
  induction group with
  | nil => intro first; exact ⟨atLeastAsFavorable_refl s first, fun y hy => by cases hy⟩
  | cons g group ih =>
    intro first
    rw [pickBest_cons]
    obtain ⟨i1, i2⟩ := ih (if s then (if g.top > first.top then g else first)
      else (if g.bottom < first.bottom then g else first))
    have hstep : atLeastAsFavorable s (if s then (if g.top > first.top then g else first)
          else (if g.bottom < first.bottom then g else first)) first ∧
        atLeastAsFavorable s (if s then (if g.top > first.top then g else first)
          else (if g.bottom < first.bottom then g else first)) g := by
      unfold atLeastAsFavorable
      by_cases hs : s = true
      · simp only [hs, if_true]
        by_cases h1 : g.top > first.top
        · rw [if_pos h1]; exact ⟨le_of_lt h1, le_refl _⟩
        · rw [if_neg h1]; exact ⟨le_refl _, not_lt.1 h1⟩
      · simp only [hs, if_false]
        by_cases h1 : g.bottom < first.bottom
        · rw [if_pos h1]; exact ⟨le_of_lt h1, le_refl _⟩
        · rw [if_neg h1]; exact ⟨le_refl _, not_lt.1 h1⟩
    refine ⟨atLeastAsFavorable_trans s _ _ _ i1 hstep.1, fun y hy => ?_⟩
    rcases List.mem_cons.1 hy with rfl | hy
    · exact atLeastAsFavorable_trans s _ _ _ i1 hstep.2
    · exact i2 y hy

lemma pickBest_mem_group (s : Bool) (group : List Zone) :
    ∀ first, pickBest s first group = first ∨ pickBest s first group ∈ group := by
  induction group with
  | nil => intro first; exact Or.inl rfl
  | cons g group ih =>
    intro first
    rw [pickBest_cons]
    rcases ih (if s then (if g.top > first.top then g else first)
      else (if g.bottom < first.bottom then g else first)) with h | h
    · rw [h]
      by_cases hs : s = true
      · rw [if_pos hs]
        by_cases h1 : g.top > first.top
        · rw [if_pos h1]; exact Or.inr (List.mem_cons_self _ _)
        · rw [if_neg h1]; exact Or.inl rfl
      · rw [if_neg hs]
        by_cases h1 : g.bottom < first.bottom
        · rw [if_pos h1]; exact Or.inr (List.mem_cons_self _ _)
        · rw [if_neg h1]; exact Or.inl rfl
    · exact Or.inr (List.mem_cons_of_mem _ h)

lemma clusterLoop_cons (s : Bool) (p : ℚ) (fuel : Nat) (current : Zone) (rest : List Zone) :
    clusterLoop s p (fuel + 1) (current :: rest) =
      pickBest s current (current :: rest.takeWhile (nearMid (mid current) p)) ::
        clusterLoop s p fuel (rest.dropWhile (nearMid (mid current) p)) := rfl

lemma clusterLoop_nil (s : Bool) (p : ℚ) (fuel : Nat) : clusterLoop s p fuel [] = [] := by
  cases fuel <;> rfl

/-- With enough iterations the loop cuts the sorted zones into consecutive
groups: each group is a first zone followed by the zones within the proximity
of its midpoint, the zone after a group is outside the proximity of the
group's first zone, and the loop returns the pick of each group. -/
lemma clusterLoop_spec (s : Bool) (p : ℚ) :
    ∀ (fuel : Nat) (l : List Zone), l.length ≤ fuel →
      ∃ groups : List (Zone × List Zone),
        (groups.flatMap fun g => g.1 :: g.2) = l ∧
        clusterLoop s p fuel l = groups.map (fun g => pickBest s g.1 (g.1 :: g.2)) ∧
        (∀ g ∈ groups, ∀ y ∈ g.2, nearMid (mid g.1) p y = true) ∧
        groups.Chain' (fun g h => nearMid (mid g.1) p h.1 = false) ∧
        groups.head?.map Prod.fst = l.head? := by
  intro fuel
  induction fuel with
  | zero =>
    intro l hl
    have : l = [] := List.eq_nil_of_length_eq_zero (by omega)
    subst this
    exact ⟨[], rfl, rfl, (fun g hg => by cases hg), List.chain'_nil, rfl⟩
  | succ fuel ih =>
    intro l hl
    cases l with
    | nil => exact ⟨[], rfl, rfl, (fun g hg => by cases hg), List.chain'_nil, rfl⟩
    | cons current rest =>
      have hlen : (rest.dropWhile (nearMid (mid current) p)).length ≤ fuel := by
        have := (List.dropWhile_sublist (nearMid (mid current) p) (l := rest)).length_le
        simp only [List.length_cons] at hl
        omega
      obtain ⟨groups, g1, g2, g3, g4, g5⟩ := ih _ hlen
      refine ⟨(current, rest.takeWhile (nearMid (mid current) p)) :: groups, ?_, ?_, ?_, ?_, rfl⟩
      · rw [List.flatMap_cons, g1]
        simp only [List.cons_append, List.takeWhile_append_dropWhile]
      · rw [clusterLoop_cons, g2]
        rfl
      · intro g hg y hy
        rcases List.mem_cons.1 hg with rfl | hg
        · exact List.mem_takeWhile_imp hy
        · exact g3 g hg y hy
      · rw [List.chain'_cons']
        refine ⟨fun h hh => ?_, g4⟩
        have hd := List.head?_dropWhile_not (nearMid (mid current) p) rest
        rw [← g5] at hd
        rw [Option.mem_def] at hh
        rw [hh] at hd
        simpa using hd

lemma filterNearbyOBs_eq (obs : List Zone) (s : Bool) (p : ℚ) :
    filterNearbyOBs obs s p =
      clusterLoop s p obs.length (obs.insertionSort (fun a b => mid a ≤ mid b)) := by
  unfold filterNearbyOBs
  split
  · rename_i h
    match obs, h with
    | [], _ => rfl
    | [z], _ =>
      show [z] = [pickBest s z [z]]
      have : pickBest s z [z] = z := by
        rw [pickBest_cons]
        by_cases hs : s = true
        · rw [if_pos hs, if_neg (lt_irrefl _)]; rfl
        · rw [if_neg hs, if_neg (lt_irrefl _)]; rfl
      rw [this]
    | _ :: _ :: _, h => simp at h
  · rfl

lemma forall₂_map_self {α β : Type} (R : β → α → Prop) (f : α → β) (l : List α)
    (h : ∀ a ∈ l, R (f a) a) : List.Forall₂ R (l.map f) l := by
  induction l with
  | nil => exact List.Forall₂.nil
  | cons a l ih =>
    exact List.Forall₂.cons (h a (List.mem_cons_self _ _))
      (ih fun b hb => h b (List.mem_cons_of_mem _ hb))

/-- C19, counterexample.  For the zones with midpoints 100, 100.8 and 101.5
(short trap) the first group is anchored at 100 and holds the first two zones,
of which the second (top 102.6) is kept; the third zone forms its own group.
The two surviving zones have midpoints 100.8 and 101.5, within 1 % of each
other. -/
theorem nearby_filter_counterexample :
    filterNearbyOBs nearZones true 0.01 = [sampleZone 2 102.6 99, sampleZone 3 102 101] ∧
    |mid (sampleZone 3 102 101) - mid (sampleZone 2 102.6 99)| / mid (sampleZone 2 102.6 99)
      < 0.01 ∧
    |mid (sampleZone 2 102.6 99) - mid (sampleZone 3 102 101)| / mid (sampleZone 3 102 101)
      < 0.01 := by
  decide!

end Liquidity

namespace Liquidity

/-! ## The main loop of `runLiquidityStrategy` -/

lemma mem_clusterLoop (s : Bool) (p : ℚ) (z : Zone) :
    ∀ (fuel : Nat) (l : List Zone), z ∈ clusterLoop s p fuel l → z ∈ l := by
  intro fuel
  induction fuel with
  | zero => intro l h; unfold clusterLoop at h; cases h
  | succ fuel ih =>
    intro l h
    cases l with
    | nil => unfold clusterLoop at h; cases h
    | cons current rest =>
      unfold clusterLoop at h
      dsimp only at h
      rcases List.mem_cons.1 h with h | h
      · rcases pickBest_mem_group s (current :: rest.takeWhile (nearMid (mid current) p)) current
          with h1 | h1
        · rw [h, h1]; exact List.mem_cons_self _ _
        · rw [h]
          rcases List.mem_cons.1 h1 with h2 | h2
          · rw [h2]; exact List.mem_cons_self _ _
          · exact List.mem_cons_of_mem _ (List.takeWhile_subset _ h2)
      · exact List.mem_cons_of_mem _ (List.dropWhile_subset _ (ih _ h))

lemma mem_filterNearbyOBs (obs : List Zone) (s : Bool) (p : ℚ) (z : Zone)
    (h : z ∈ filterNearbyOBs obs s p) : z ∈ obs := by
  unfold filterNearbyOBs at h
  split at h
  · exact h
  · exact (List.perm_insertionSort _ _).mem_iff.1 (mem_clusterLoop s p z _ _ h)

lemma makeTrade_fields (candles : List Bar) (mode : Mode) (line : TrendLine) (s : Bool)
    (breakTime : Int) (ob fvg : Zone) (e : Entry) (sig : Option EntrySignals) (r : ExitResult) :
    let t := makeTrade candles mode line s breakTime ob fvg e sig r
    t.savedOB = ob ∧ t.savedLine = line ∧ t.savedFVG = fvg ∧ t.id = ⟨mode, line.type, ob.id⟩ ∧
    t.signalTime = breakTime ∧ t.entryTime = (nth candles e.entryIdx).time ∧
    t.time = (nth candles e.entryIdx).time ∧ t.exitTime = r.exitTime ∧ t.outcome = r.outcome ∧
    t.pnl = r.pnlR ∧ t.pnlPercent = r.pnlR ∧ t.entry = e.entryPrice ∧ t.sl = e.slPrice ∧
    t.tp = tpForDisplay mode s e ∧ t.type = (if s then .SHORT else .LONG) ∧
    t.status = (if r.outcome = .BE then .WIN else r.outcome) :=
  ⟨rfl, rfl, rfl, rfl, rfl, rfl, rfl, rfl, rfl, rfl, rfl, rfl, rfl, rfl, rfl, rfl⟩

/-- One order block: either nothing is pushed, or the block was not processed
before and the pushed record is the trade built for it. -/
lemma processOB_spec (ctx : Ctx) (line : TrendLine) (breakIdx : Nat) (st : StratState)
    (ob : Zone) :
    ((processOB ctx line breakIdx st ob).strategyTrades = st.strategyTrades ∨
      (ob.id ∉ st.processedOBs ∧ ∃ e t, PushedFor ctx line breakIdx ob e t ∧
        (processOB ctx line breakIdx st ob).strategyTrades = st.strategyTrades ++ [t] ∧
        ob.id ∈ (processOB ctx line breakIdx st ob).processedOBs)) ∧
    st.processedOBs ⊆ (processOB ctx line breakIdx st ob).processedOBs := by
  unfold processOB
  dsimp only
  split
  · exact ⟨Or.inl rfl, List.Subset.refl _⟩
  · rename_i hnp
    split
    · exact ⟨Or.inl rfl, List.Subset.refl _⟩
    · rename_i fvg hf
      split
      · exact ⟨Or.inl rfl, List.Subset.refl _⟩
      · rename_i e he
        split
        · exact ⟨Or.inl rfl, List.Subset.refl _⟩
        · rename_i hlow
          split
          · exact ⟨Or.inl rfl, List.subset_cons_self _ _⟩
          · rename_i hrisk
            refine ⟨Or.inr ⟨hnp, e, _, ⟨fvg, hf, he, ?_, ?_, rfl⟩, rfl,
              List.mem_cons_self _ _⟩, List.subset_cons_self _ _⟩
            · exact Bool.eq_false_iff.2 hlow
            · exact not_le.1 hrisk

lemma processOB_inv (ctx : Ctx) (line : TrendLine) (breakIdx : Nat) (st : StratState)
    (ob : Zone) (hs : line.status = .BROKEN) (hb : line.breakIndex = some breakIdx)
    (h0 : 0 < breakIdx)
    (hlen : breakIdx < ctx.candles.length)
    (hob : ob ∈ (if decide (line.type = .DOWN) then ctx.bearishOBs else ctx.bullishOBs))
    (hidx : zoneIdx ob < breakIdx)
    (hmit : mitigatedBefore ob (nth ctx.candles breakIdx).time = false)
    (h : LoopInv ctx st) : LoopInv ctx (processOB ctx line breakIdx st ob) := by
  obtain ⟨h1, h2⟩ := processOB_spec ctx line breakIdx st ob
  obtain ⟨i1, i2, i3⟩ := h
  rcases h1 with h1 | ⟨hnp, e, t, hp, h1, hin⟩
  · rw [LoopInv, h1]
    exact ⟨i1, fun t ht => h2 (i2 t ht), i3⟩
  · have hsaved : t.savedOB = ob := by
      obtain ⟨fvg, -, -, -, -, ht⟩ := hp
      rw [ht]
      rfl
    rw [LoopInv, h1]
    refine ⟨?_, ?_, ?_⟩
    · rw [List.map_append, List.map_singleton, hsaved]
      apply List.Nodup.append i1 (List.nodup_singleton _)
      intro x hx hx2
      rw [List.mem_singleton] at hx2
      subst hx2
      rw [List.mem_map] at hx
      obtain ⟨t1, ht1, ht2⟩ := hx
      exact hnp (ht2 ▸ i2 t1 ht1)
    · intro t1 ht1
      rw [List.mem_append, List.mem_singleton] at ht1
      rcases ht1 with ht1 | rfl
      · exact h2 (i2 t1 ht1)
      · rw [hsaved]; exact hin
    · intro t1 ht1
      rw [List.mem_append, List.mem_singleton] at ht1
      rcases ht1 with ht1 | rfl
      · exact i3 t1 ht1
      · exact ⟨line, breakIdx, ob, e, hs, hb, h0, hlen, hob, hidx, hmit, hp⟩

lemma mem_validOBs (matched : List Zone) (breakIdx : Nat) (breakTime : Int) (ob : Zone)
    (h : ob ∈ validOBs matched breakIdx breakTime) :
    ob ∈ matched ∧ zoneIdx ob < breakIdx ∧ mitigatedBefore ob breakTime = false := by
  unfold validOBs at h
  rw [List.mem_filter] at h
  obtain ⟨h1, h2⟩ := h
  rw [Bool.and_eq_true, Bool.not_eq_true', Bool.not_eq_true', decide_eq_false_iff_not] at h2
  exact ⟨h1, by omega, h2.2⟩

lemma processLine_inv (ctx : Ctx) (st : StratState) (line : TrendLine)
    (hs : line.status = .BROKEN) (h : LoopInv ctx st) : LoopInv ctx (processLine ctx st line) := by
  unfold processLine
  split
  · exact h
  · rename_i breakIdx hb
    split
    · exact h
    · rename_i hr
      dsimp only
      generalize hobs : (if decide (line.type = .DOWN) = true then ctx.bearishOBs
        else ctx.bullishOBs) = obs
      split
      · exact h
      · split
        · exact h
        · apply foldl_inv (LoopInv ctx) _ _ _ _ h
          intro a ob hob ha
          obtain ⟨h1, h2, h3⟩ := mem_validOBs _ _ _ _ (mem_filterNearbyOBs _ _ _ _ hob)
          unfold findOBsAtTLTouches at h1
          exact processOB_inv ctx line breakIdx a ob hs hb (by omega) (by omega)
            (by rw [hobs]; exact (List.mem_filter.1 h1).1) h2 h3 ha

/-- The function `runLiquidityStrategy` always returns, and the trades it
returns satisfy the invariant of its main loop. -/
lemma run_spec (candles : List Bar) (mode : Mode) (options : Options) :
    ∃ r zones, runLiquidityStrategy candles mode options = .ok r ∧
      (r.trades.map fun t => t.savedOB.id).Nodup ∧
      (∀ t ∈ r.trades, Provenance (ctxOf candles mode options zones) t) ∧
      r.trades.Pairwise (fun a b => a.time ≥ b.time) := by
  unfold runLiquidityStrategy
  by_cases h0 : candles.length = 0
  · rw [if_pos h0]
    exact ⟨_, [], rfl, List.nodup_nil, (fun t ht => by cases ht), List.Pairwise.nil⟩
  · rw [if_neg h0]
    obtain ⟨smc, hsmc, -⟩ := analyzeSMC_total candles { options.config with keepTrades := true }
    rw [hsmc]
    dsimp only
    have hinv : LoopInv (ctxOf candles mode options smc.zones)
        ((brokenLinesOf candles options).foldl
          (processLine (ctxOf candles mode options smc.zones))
          { strategyTrades := [], processedOBs := [] }) := by
      apply foldl_inv (LoopInv (ctxOf candles mode options smc.zones))
      · intro a line hline ha
        unfold brokenLinesOf at hline
        have := (List.mem_filter.1 hline).2
        exact processLine_inv _ a line (of_decide_eq_true this) ha
      · exact ⟨List.nodup_nil, (fun t ht => by cases ht), (fun t ht => by cases ht)⟩
    obtain ⟨i1, -, i3⟩ := hinv
    have hperm := List.perm_insertionSort (fun a b : StrategyTrade => a.time ≥ b.time)
      ((brokenLinesOf candles options).foldl
        (processLine (ctxOf candles mode options smc.zones))
        { strategyTrades := [], processedOBs := [] }).strategyTrades
    refine ⟨_, smc.zones, rfl, ?_, ?_, ?_⟩
    · exact ((hperm.map _).nodup_iff).2 i1
    · intro t ht
      exact i3 t (hperm.mem_iff.1 ht)
    · haveI : IsTotal StrategyTrade (fun a b => a.time ≥ b.time) :=
        ⟨fun a b => le_total b.time a.time⟩
      haveI : IsTrans StrategyTrade (fun a b => a.time ≥ b.time) :=
        ⟨fun _ _ _ h1 h2 => le_trans h2 h1⟩
      exact List.sorted_insertionSort _ _

lemma tradesOf_eq (candles : List Bar) (mode : Mode) (options : Options) (r : StrategyResult)
    (h : runLiquidityStrategy candles mode options = .ok r) :
    tradesOf candles mode options = r.trades := by
  unfold tradesOf
  rw [h]

end Liquidity

namespace Liquidity

/-! ## Entry and exit bars -/

lemma mem_lookahead (candles : List Bar) (breakIdx k : Nat) (h : k ∈ lookahead candles breakIdx) :
    breakIdx < k ∧ k < candles.length ∧ k < breakIdx + 100 := by
  unfold lookahead at h
  rw [List.mem_range'_1] at h
  omega

/-- An accepted entry lies after the break bar, inside the series and fewer
than 100 bars after the break. -/
lemma findEntry_spec (candles : List Bar) (mode : Mode) (s : Bool) (ob : Zone) (breakIdx : Nat)
    (e : Entry) (h : findEntry candles mode s ob breakIdx = some e) :
    breakIdx < e.entryIdx ∧ e.entryIdx < candles.length ∧ e.entryIdx < breakIdx + 100 := by
  unfold findEntry at h
  dsimp only at h
  by_cases hm : isATRMode mode = true
  · rw [if_pos hm] at h
    split at h
    · cases h
    · rename_i k hk
      cases h
      exact mem_lookahead candles breakIdx k (List.mem_of_find?_eq_some hk)
  · rw [if_neg hm] at h
    split at h
    · cases h
    · rename_i k hk
      by_cases hv : (!(if s = true then decide ((nth candles k).close ≤ max ob.top ob.bottom)
          else decide ((nth candles k).close ≥ min ob.top ob.bottom))) = true
      · rw [if_pos hv] at h
        cases h
      · rw [if_neg hv] at h
        cases h
        exact mem_lookahead candles breakIdx k (List.mem_of_find?_eq_some hk)

lemma mem_drop_succ (candles : List Bar) (n : Nat) (b : Bar) (h : b ∈ candles.drop (n + 1)) :
    ∃ k, n < k ∧ k < candles.length ∧ b = nth candles k := by
  obtain ⟨i, hi, hb⟩ := List.getElem_of_mem h
  rw [List.length_drop] at hi
  refine ⟨n + 1 + i, by omega, by omega, ?_⟩
  rw [← hb, List.getElem_drop]
  unfold nth
  rw [List.getD_eq_getElem _ _ (by omega)]

lemma simpleExit_cons (s : Bool) (sl tp rr : ℚ) (bar : Bar) (rest : List Bar) :
    simpleExit s sl tp rr (bar :: rest) =
      if hitStop s bar sl then { outcome := .LOSS, exitTime := some bar.time, pnlR := -1 }
      else if hitTarget s bar tp then { outcome := .WIN, exitTime := some bar.time, pnlR := rr }
      else simpleExit s sl tp rr rest := rfl

lemma simpleExit_exit (s : Bool) (sl tp rr : ℚ) (bars : List Bar) (x : Int)
    (h : (simpleExit s sl tp rr bars).exitTime = some x) : ∃ b ∈ bars, x = b.time := by
  induction bars with
  | nil => unfold simpleExit at h; cases h
  | cons bar rest ih =>
    rw [simpleExit_cons] at h
    split at h
    · cases h; exact ⟨bar, List.mem_cons_self _ _, rfl⟩
    · split at h
      · cases h; exact ⟨bar, List.mem_cons_self _ _, rfl⟩
      · obtain ⟨b, hb, hx⟩ := ih h
        exact ⟨b, List.mem_cons_of_mem _ hb, hx⟩

lemma partialExit_cons (s : Bool) (e r t1 t2 : ℚ) (st : PartialState) (bar : Bar)
    (rest : List Bar) :
    partialExit s e r t1 t2 st (bar :: rest) =
      match (partialStep s e r t1 t2 st bar).2 with
      | some x => x
      | none => partialExit s e r t1 t2 (partialStep s e r t1 t2 st bar).1 rest := by
  rw [partialExit.eq_def]
  dsimp only
  rcases partialStep s e r t1 t2 st bar with ⟨st1, _ | x⟩ <;> rfl

/-- The three ways in which an iteration of the partial-exit loop ends. -/
lemma partialStep_cases (s : Bool) (e r t1 t2 : ℚ) (st : PartialState) (bar : Bar) :
    let st1 := beStep s e r st bar
    let st2 := tp1Step s e r t1 st1 bar
    (st2.tp1Hit = true ∧ hitTarget s bar (targetPrice s e r t2) = true ∧
      (partialStep s e r t1 t2 st bar).2 =
        some { outcome := .WIN, exitTime := some bar.time, pnlR := st2.partialPnL + 0.5 * t2 }) ∨
    ((st2.tp1Hit && hitTarget s bar (targetPrice s e r t2)) = false ∧
      hitStop s bar st1.currentSL = true ∧
      (partialStep s e r t1 t2 st bar).2 = some
        (if st2.tp1Hit then { outcome := .WIN, exitTime := some bar.time, pnlR := st2.partialPnL }
         else if st2.movedToBE then { outcome := .BE, exitTime := some bar.time, pnlR := 0 }
         else { outcome := .LOSS, exitTime := some bar.time, pnlR := -1 })) ∨
    ((st2.tp1Hit && hitTarget s bar (targetPrice s e r t2)) = false ∧
      hitStop s bar st1.currentSL = false ∧
      partialStep s e r t1 t2 st bar = (st2, none)) := by
  intro st1 st2
  unfold partialStep
  dsimp only
  by_cases h1 : (st2.tp1Hit && hitTarget s bar (targetPrice s e r t2)) = true
  · rw [if_pos h1]
    rw [Bool.and_eq_true] at h1
    exact Or.inl ⟨h1.1, h1.2, rfl⟩
  · rw [if_neg h1]
    rw [Bool.not_eq_true] at h1
    by_cases h2 : hitStop s bar st1.currentSL = true
    · rw [if_pos h2]
      exact Or.inr (Or.inl ⟨h1, h2, rfl⟩)
    · rw [if_neg h2]
      rw [Bool.not_eq_true] at h2
      exact Or.inr (Or.inr ⟨h1, h2, rfl⟩)

lemma partialStep_exit (s : Bool) (e r t1 t2 : ℚ) (st : PartialState) (bar : Bar)
    (x : ExitResult) (h : (partialStep s e r t1 t2 st bar).2 = some x) :
    x.exitTime = some bar.time := by
  rcases partialStep_cases s e r t1 t2 st bar with ⟨-, -, h1⟩ | ⟨-, -, h1⟩ | ⟨-, -, h1⟩
  · rw [h1] at h; cases h; rfl
  · rw [h1] at h
    cases h
    split
    · rfl
    · split <;> rfl
  · rw [h1] at h; cases h

lemma partialExit_exit (s : Bool) (e r t1 t2 : ℚ) (bars : List Bar) (x : Int) :
    ∀ st, (partialExit s e r t1 t2 st bars).exitTime = some x → ∃ b ∈ bars, x = b.time := by
  induction bars with
  | nil => intro st h; unfold partialExit at h; cases h
  | cons bar rest ih =>
    intro st h
    rw [partialExit_cons] at h
    split at h
    · rename_i y hy
      have := partialStep_exit s e r t1 t2 st bar y hy
      rw [this] at h
      cases h
      exact ⟨bar, List.mem_cons_self _ _, rfl⟩
    · obtain ⟨b, hb, hx⟩ := ih _ h
      exact ⟨b, List.mem_cons_of_mem _ hb, hx⟩

/-- The exit bar of a simulated trade lies after the entry bar. -/
lemma simulateExit_exit (candles : List Bar) (mode : Mode) (s : Bool) (e : Entry) (x : Int)
    (h : (simulateExit candles mode s e).exitTime = some x) :
    ∃ k, e.entryIdx < k ∧ k < candles.length ∧ x = (nth candles k).time := by
  unfold simulateExit at h
  dsimp only at h
  have key : ∃ b ∈ candles.drop (e.entryIdx + 1), x = b.time := by
    by_cases hp : isPartialMode mode = true
    · rw [if_pos hp] at h
      exact partialExit_exit _ _ _ _ _ _ _ _ h
    · rw [if_neg hp] at h
      exact simpleExit_exit _ _ _ _ _ _ h
  obtain ⟨b, hb, hx⟩ := key
  obtain ⟨k, h1, h2, h3⟩ := mem_drop_succ candles e.entryIdx b hb
  exact ⟨k, h1, h2, by rw [hx, h3]⟩

/-! ## The claims on the strategy -/

/-- C16.  For every bar series, mode and option set, `runLiquidityStrategy`
returns, and no two trades that it returns refer to the same order-block
zone: their `savedOB.id` values are pairwise distinct, and hence so are their
trade ids, each of which is built from the mode, the type of the line and the
id of the order block. -/
theorem one_trade_per_order_block (candles : List Bar) (mode : Mode) (options : Options) :
    ∃ r, runLiquidityStrategy candles mode options = .ok r ∧
      (r.trades.map fun t => t.savedOB.id).Nodup ∧ (r.trades.map fun t => t.id).Nodup ∧
      ∀ t ∈ r.trades, t.id = ⟨mode, t.savedLine.type, t.savedOB.id⟩ := by
  obtain ⟨r, zones, hr, h1, h2, -⟩ := run_spec candles mode options
  have hid : ∀ t ∈ r.trades, t.id = ⟨mode, t.savedLine.type, t.savedOB.id⟩ := by
    intro t ht
    obtain ⟨line, breakIdx, ob, e, -, -, -, -, -, -, -, fvg, -, -, -, -, hm⟩ := h2 t ht
    rw [hm]
    rfl
  refine ⟨r, hr, h1, ?_, hid⟩
  have hmap : (r.trades.map fun t => t.savedOB.id) =
      (r.trades.map fun t => t.id).map fun i => i.obId := by
    rw [List.map_map]
    apply List.map_congr_left
    intro t ht
    rw [Function.comp_apply, hid t ht]
  rw [hmap] at h1
  exact List.Nodup.of_map _ h1

/-- On `trapSeries` two broken lines touch the order block of bar 23 (the
lines from bar 23 to bar 60 and from bar 23 to bar 40), and one trade is
returned for it, from the first of them. -/
theorem trapSeries_one_trade :
    (brokenLinesOf trapSeries defaultOptions).map
        (fun l => (l.touchIndices, l.breakIndex)) =
      [([23, 60], some 70), ([23, 40], some 47)] ∧
    (tradesOf trapSeries .standard defaultOptions).map
        (fun t => (t.savedOB.id, t.savedLine.touchIndices, t.entryTime)) =
      [(⟨.obL, 23⟩, [23, 60], 4320)] :=
  trapSeries_facts.2.1

end Liquidity

namespace Liquidity

/-! ## Causal order of the returned trades -/

lemma mitigatedBefore_false (z : Zone) (bt : Int) (h : mitigatedBefore z bt = false) :
    ∀ tm, z.endTime = some tm → tm = 0 ∨ bt ≤ tm := by
  intro tm htm
  unfold mitigatedBefore at h
  rw [htm] at h
  simp only [Bool.and_eq_false_iff, decide_eq_false_iff_not, ne_eq, not_not, not_lt] at h
  exact h

lemma trapSeries_times :
    ∀ i j, i < j → j < trapSeries.length →
      (nth trapSeries i).time < (nth trapSeries j).time := by
  have h : ∀ k, k < 100 → (nth trapSeries k).time = 60 * (k : Int) := by decide!
  have hl : trapSeries.length = 100 := by decide
  intro i j hij hj
  rw [hl] at hj
  rw [h i (by omega), h j hj]
  omega

end Liquidity

namespace Liquidity

/-! ## The single-target exit against the lifecycle of `smc.js` -/

lemma simpleExit_outcome (s : Bool) (sl tp rr : ℚ) (bars : List Bar) :
    (simpleExit s sl tp rr bars).outcome = .OPEN ∨ (simpleExit s sl tp rr bars).outcome = .WIN ∨
      (simpleExit s sl tp rr bars).outcome = .LOSS := by
  induction bars with
  | nil => exact Or.inl rfl
  | cons bar rest ih =>
    rw [simpleExit_cons]
    split
    · exact Or.inr (Or.inr rfl)
    · split
      · exact Or.inr (Or.inl rfl)
      · exact ih

lemma openStep_short (T0 : Trade) (bar : Bar) (rr : ℚ) (hty : T0.type = .SHORT) :
    openStep T0 bar rr =
      if hitStop true bar T0.sl then
        ({ T0 with status := .LOSS, exitTime := some bar.time, pnl := -1, pnlPercent := -1 },
          true)
      else if hitTarget true bar T0.tp then
        ({ T0 with status := .WIN, exitTime := some bar.time, pnl := rr, pnlPercent := rr }, true)
      else (T0, false) := by
  unfold openStep hitStop hitTarget
  rw [hty]
  simp only [if_true, decide_eq_true_eq]

lemma openStep_long (T0 : Trade) (bar : Bar) (rr : ℚ) (hty : T0.type = .LONG) :
    openStep T0 bar rr =
      if hitStop false bar T0.sl then
        ({ T0 with status := .LOSS, exitTime := some bar.time, pnl := -1, pnlPercent := -1 },
          true)
      else if hitTarget false bar T0.tp then
        ({ T0 with status := .WIN, exitTime := some bar.time, pnl := rr, pnlPercent := rr }, true)
      else (T0, false) := by
  unfold openStep hitStop hitTarget
  rw [hty]
  simp only [Bool.false_eq_true, if_false, decide_eq_true_eq]

lemma openStep_eq (s : Bool) (T0 : Trade) (bar : Bar) (rr : ℚ)
    (hty : T0.type = if s then .SHORT else .LONG) :
    openStep T0 bar rr =
      if hitStop s bar T0.sl then
        ({ T0 with status := .LOSS, exitTime := some bar.time, pnl := -1, pnlPercent := -1 },
          true)
      else if hitTarget s bar T0.tp then
        ({ T0 with status := .WIN, exitTime := some bar.time, pnl := rr, pnlPercent := rr }, true)
      else (T0, false) := by
  cases s
  · exact openStep_long T0 bar rr (by simpa using hty)
  · exact openStep_short T0 bar rr (by simpa using hty)

/-- The scan of the lifecycle from an `OPEN` trade and the single-target exit
loop of the strategy, bar by bar: same status and exit time, same profit when
the trade is closed; when it stays open the lifecycle returns the trade
unchanged and the strategy the profit 0. -/
lemma lifecycleLoop_simpleExit (rr : ℚ) (s : Bool) (bars : List Bar) (T0 : Trade)
    (hst : T0.status = .OPEN) (hty : T0.type = if s then .SHORT else .LONG) :
    (lifecycleLoop rr T0 bars).status = (simpleExit s T0.sl T0.tp rr bars).outcome ∧
    ((simpleExit s T0.sl T0.tp rr bars).outcome = .OPEN →
      lifecycleLoop rr T0 bars = T0 ∧ (simpleExit s T0.sl T0.tp rr bars).pnlR = 0 ∧
      (simpleExit s T0.sl T0.tp rr bars).exitTime = none) ∧
    ((simpleExit s T0.sl T0.tp rr bars).outcome ≠ .OPEN →
      (lifecycleLoop rr T0 bars).exitTime = (simpleExit s T0.sl T0.tp rr bars).exitTime ∧
      (lifecycleLoop rr T0 bars).pnl = (simpleExit s T0.sl T0.tp rr bars).pnlR ∧
      (lifecycleLoop rr T0 bars).pnlPercent = (simpleExit s T0.sl T0.tp rr bars).pnlR) := by
  induction bars with
  | nil =>
    rw [lifecycleLoop_nil]
    exact ⟨hst, fun _ => ⟨rfl, rfl, rfl⟩, fun h => absurd rfl h⟩
  | cons bar rest ih =>
    have hstep : lifecycleStep T0 bar rr = openStep T0 bar rr := by
      unfold lifecycleStep
      rw [hst]
      simp only [reduceCtorEq, if_false, if_true]
    rw [lifecycleLoop_cons, hstep, openStep_eq s T0 bar rr hty, simpleExit_cons]
    by_cases h1 : hitStop s bar T0.sl = true
    · rw [if_pos h1, if_pos h1, if_pos rfl]
      exact ⟨rfl, (fun h => by cases h), (fun _ => ⟨rfl, rfl, rfl⟩)⟩
    · rw [if_neg h1, if_neg h1]
      by_cases h2 : hitTarget s bar T0.tp = true
      · rw [if_pos h2, if_pos h2, if_pos rfl]
        exact ⟨rfl, (fun h => by cases h), (fun _ => ⟨rfl, rfl, rfl⟩)⟩
      · rw [if_neg h2, if_neg h2, if_neg (by simp)]
        exact ih

lemma simulateExit_simple (candles : List Bar) (mode : Mode) (s : Bool) (e : Entry)
    (hm : isPartialMode mode = false) :
    simulateExit candles mode s e =
      simpleExit s e.slPrice (tpForDisplay mode s e) (rrMultiplier mode)
        (candles.drop (e.entryIdx + 1)) := by
  unfold simulateExit tpForDisplay
  rw [hm]
  simp only [Bool.false_eq_true, if_false]

/-- C18, counterexample.  On `trapSeries` in mode `standard` the returned
trade (entry 1022 at bar 72) is still `OPEN` at the end of the series with
`pnl = 0`, whereas `processTradeLifecycle`, run from bar 72 over the same
trade taken as `OPEN`, marks it to the last close 1061: `pnl = 91/85`. -/
theorem open_trade_pnl_counterexample :
    (tradesOf trapSeries .standard defaultOptions).map
        (fun t => (t.entryTime, t.entry, t.sl)) = [((nth trapSeries 72).time, 1022, 6899 / 7)] ∧
    (tradesOf trapSeries .standard defaultOptions).map
        (fun t => (t.status, t.exitTime, t.pnl)) = [(.OPEN, none, 0)] ∧
    (tradesOf trapSeries .standard defaultOptions).map
        (fun t => (processTradeLifecycle (asOpenTrade t) 72 trapSeries 2).toOption.map
          fun T => (T.status, T.exitTime, T.pnl)) = [some (.OPEN, none, 91 / 85)] :=
  trapSeries_facts.2.2.1

/-- C18, amended.  For the single-target modes (`standard`, `agro`, `atr`,
`atr_agro`), every returned trade has the status and the exit time that
`processTradeLifecycle` gives the same trade taken as `OPEN` at the entry bar
(same entry, stop and take-profit `entry ± rr * risk`, risk-reward `rr` of the
mode) over the bars after the entry bar, and the same `pnl` when the trade is
closed (`WIN` or `LOSS`); a trade still `OPEN` at the end of the series keeps
`pnl = 0`, where `processTradeLifecycle` gives the unrealized R-multiple
against the last close. -/
theorem single_target_exit_matches_lifecycle (candles : List Bar) (mode : Mode)
    (options : Options) (hm : isPartialMode mode = false) :
    ∃ r, runLiquidityStrategy candles mode options = .ok r ∧
      ∀ t ∈ r.trades, ∃ entryIdx T,
        (entryIdx < candles.length ∧ t.entryTime = (nth candles entryIdx).time ∧
          t.tp = targetPrice (decide (t.type = .SHORT)) t.entry |t.entry - t.sl|
            (rrMultiplier mode)) ∧
        processTradeLifecycle (asOpenTrade t) entryIdx candles (rrMultiplier mode) = .ok T ∧
        T.status = t.status ∧ T.exitTime = t.exitTime ∧
        (t.status ≠ .OPEN → T.pnl = t.pnl) ∧
        (t.status = .OPEN → t.pnl = 0 ∧
          ∃ last, candles.getLast? = some last ∧
            T.pnl = rMultiple (asOpenTrade t) last.close) := by
  obtain ⟨r, zones, hr, -, h2, -⟩ := run_spec candles mode options
  refine ⟨r, hr, fun t ht => ?_⟩
  obtain ⟨line, breakIdx, ob, e, -, -, -, -, -, -, -, fvg, -, he, -, -, hmk⟩ := h2 t ht
  have hc : (ctxOf candles mode options zones).candles = candles := rfl
  have hmo : (ctxOf candles mode options zones).mode = mode := rfl
  rw [hc, hmo] at he hmk
  obtain ⟨-, e2, -⟩ := findEntry_spec _ _ _ _ _ _ he
  rw [simulateExit_simple candles mode _ e hm] at hmk
  generalize hs : decide (line.type = .DOWN) = s at hmk he
  obtain ⟨-, -, -, -, -, f6, -, f8, f9, f10, -, f12, f13, f14, f15, f16⟩ :=
    makeTrade_fields candles mode line s (nth candles breakIdx).time ob fvg e
      (entrySignalsOf (ctxOf candles mode options zones) s e)
      (simpleExit s e.slPrice (tpForDisplay mode s e) (rrMultiplier mode)
        (candles.drop (e.entryIdx + 1)))
  rw [← hmk] at f6 f8 f9 f10 f12 f13 f14 f15 f16
  have hT0 : (asOpenTrade t).status = .OPEN := rfl
  have hty : (asOpenTrade t).type = if s then .SHORT else .LONG := f15
  have hsl : (asOpenTrade t).sl = e.slPrice := f13
  have htp : (asOpenTrade t).tp = tpForDisplay mode s e := f14
  obtain ⟨l1, l2, l3⟩ := lifecycleLoop_simpleExit (rrMultiplier mode) s
    (candles.drop (e.entryIdx + 1)) (asOpenTrade t) hT0 hty
  rw [hsl, htp] at l1 l2 l3
  rw [← f9] at l1 l2 l3
  rw [← f8, ← f10] at l2 l3
  have hstat : t.status = t.outcome := by
    rw [f16, ← f9]
    have hne : t.outcome ≠ .BE := by
      rw [f9]
      rcases simpleExit_outcome s e.slPrice (tpForDisplay mode s e) (rrMultiplier mode)
        (candles.drop (e.entryIdx + 1)) with h | h | h <;> rw [h] <;> decide
    rw [if_neg hne]
  have hdec : decide (t.type = .SHORT) = s := by
    rw [f15]
    cases s <;> rfl
  have htp2 : t.tp = targetPrice (decide (t.type = .SHORT)) t.entry |t.entry - t.sl|
      (rrMultiplier mode) := by
    rw [hdec, f14, f12, f13]
    unfold tpForDisplay
    rw [hm]
    simp only [Bool.false_eq_true, if_false]
  have hlast : ∃ last, candles.getLast? = some last := by
    cases hcl : candles with
    | nil => rw [hcl] at e2; simp at e2
    | cons a l => exact ⟨_, List.getLast?_eq_getLast (a :: l) (by simp)⟩
  obtain ⟨last, hlast⟩ := hlast
  by_cases ho : t.outcome = .OPEN
  · obtain ⟨hL, hp, hx⟩ := l2 ho
    refine ⟨e.entryIdx, { asOpenTrade t with
        pnl := rMultiple (asOpenTrade t) last.close,
        pnlPercent := rMultiple (asOpenTrade t) last.close }, ⟨e2, f6, htp2⟩, ?_, ?_, ?_, ?_, ?_⟩
    · unfold processTradeLifecycle
      dsimp only
      rw [hL, if_pos hT0, hlast]
    · rw [hstat, ho]
      rfl
    · rw [hx]
      rfl
    · intro hne
      exact absurd (hstat.trans ho) hne
    · intro _
      exact ⟨hp, last, hlast, rfl⟩
  · obtain ⟨hx, hp, -⟩ := l3 ho
    refine ⟨e.entryIdx, lifecycleLoop (rrMultiplier mode) (asOpenTrade t)
      (candles.drop (e.entryIdx + 1)), ⟨e2, f6, htp2⟩, ?_, ?_, hx, (fun _ => hp), ?_⟩
    · exact processTradeLifecycle_closed _ _ _ _ (by rw [l1]; exact ho)
    · rw [l1, hstat]
    · intro h
      exact absurd (hstat ▸ h) ho

theorem single_target_exit_matches_lifecycle_witness :
    isPartialMode .standard = false ∧
    ∃ r, runLiquidityStrategy breakEvenSeries .standard defaultOptions = .ok r ∧
      r.trades ≠ [] ∧
      ∀ t ∈ r.trades, ∃ entryIdx T,
        (entryIdx < breakEvenSeries.length ∧ t.entryTime = (nth breakEvenSeries entryIdx).time ∧
          t.tp = targetPrice (decide (t.type = .SHORT)) t.entry |t.entry - t.sl|
            (rrMultiplier .standard)) ∧
        processTradeLifecycle (asOpenTrade t) entryIdx breakEvenSeries (rrMultiplier .standard) =
          .ok T ∧
        T.status = t.status ∧ T.exitTime = t.exitTime ∧
        (t.status ≠ .OPEN → T.pnl = t.pnl) ∧
        (t.status = .OPEN → t.pnl = 0 ∧
          ∃ last, breakEvenSeries.getLast? = some last ∧
            T.pnl = rMultiple (asOpenTrade t) last.close) := by
  obtain ⟨r, hr, h⟩ :=
    single_target_exit_matches_lifecycle breakEvenSeries .standard defaultOptions rfl
  have hne := breakEvenSeries_facts.1
  rw [tradesOf_eq _ _ _ r hr] at hne
  exact ⟨rfl, r, hr, hne, h⟩

end Liquidity

namespace Liquidity

/-! ## The break-even exit of the partial modes -/

lemma beStep_facts (s : Bool) (e r : ℚ) (st : PartialState) (bar : Bar) :
    (beStep s e r st bar).tp1Hit = st.tp1Hit ∧
    ((beStep s e r st bar).movedToBE = true →
      st.movedToBE = true ∨ reachedOneR s e r bar = true) ∧
    ((st.movedToBE = true → st.currentSL = e) →
      (beStep s e r st bar).movedToBE = true → (beStep s e r st bar).currentSL = e) := by
  unfold beStep
  by_cases h : (!st.movedToBE && reachedOneR s e r bar) = true
  · rw [if_pos h]
    rw [Bool.and_eq_true] at h
    exact ⟨rfl, fun _ => Or.inr h.2, fun _ _ => rfl⟩
  · rw [if_neg h]
    exact ⟨rfl, fun h1 => Or.inl h1, fun h1 h2 => h1 h2⟩

lemma tp1Step_facts (s : Bool) (e r t1 : ℚ) (st : PartialState) (bar : Bar) :
    (st.tp1Hit = true → (tp1Step s e r t1 st bar).tp1Hit = true) ∧
    (st.tp1Hit = false → (tp1Step s e r t1 st bar).tp1Hit = false →
      hitTarget s bar (targetPrice s e r t1) = false ∧ tp1Step s e r t1 st bar = st) := by
  unfold tp1Step
  by_cases h : (!st.tp1Hit && hitTarget s bar (targetPrice s e r t1)) = true
  · rw [if_pos h]
    exact ⟨fun _ => rfl, fun _ h2 => by cases h2⟩
  · rw [if_neg h]
    refine ⟨fun h1 => h1, fun h1 _ => ⟨?_, rfl⟩⟩
    rw [h1] at h
    simpa using h

/-- Once the first target has been reached the loop does not end in the
break-even branch. -/
lemma partialExit_tp1 (s : Bool) (e r t1 t2 : ℚ) (bars : List Bar) :
    ∀ st, st.tp1Hit = true → (partialExit s e r t1 t2 st bars).outcome ≠ .BE := by
  induction bars with
  | nil => intro st _; unfold partialExit; decide
  | cons bar rest ih =>
    intro st hst
    have h2 : (tp1Step s e r t1 (beStep s e r st bar) bar).tp1Hit = true :=
      (tp1Step_facts s e r t1 _ bar).1 ((beStep_facts s e r st bar).1.trans hst)
    rw [partialExit_cons]
    rcases partialStep_cases s e r t1 t2 st bar with ⟨-, -, h⟩ | ⟨-, -, h⟩ | ⟨-, -, h⟩
    · rw [h]
      intro hx
      cases hx
    · rw [h]
      dsimp only
      rw [if_pos h2]
      intro hx
      cases hx
    · rw [h]
      dsimp only
      exact ih _ h2

/-- The loop ends in the break-even branch only at a bar that reaches the
entry price (the stop after the move to break-even), after a bar that reached
1R, and with no bar up to it reaching the first target; the profit is then
0. -/
lemma partialExit_BE (s : Bool) (e r t1 t2 : ℚ) (bars : List Bar) :
    ∀ st, st.tp1Hit = false → (st.movedToBE = true → st.currentSL = e) →
      (partialExit s e r t1 t2 st bars).outcome = .BE →
      (partialExit s e r t1 t2 st bars).pnlR = 0 ∧
      ∃ pre bar post, bars = pre ++ bar :: post ∧
        (partialExit s e r t1 t2 st bars).exitTime = some bar.time ∧
        hitStop s bar e = true ∧
        (st.movedToBE = true ∨ ∃ b ∈ pre ++ [bar], reachedOneR s e r b = true) ∧
        ∀ b ∈ pre ++ [bar], hitTarget s b (targetPrice s e r t1) = false := by
  induction bars with
  | nil => intro st _ _ h; unfold partialExit at h; cases h
  | cons bar rest ih =>
    intro st hst hinv h
    obtain ⟨b1, b2, b3⟩ := beStep_facts s e r st bar
    obtain ⟨-, c2⟩ := tp1Step_facts s e r t1 (beStep s e r st bar) bar
    rw [partialExit_cons] at h ⊢
    rcases partialStep_cases s e r t1 t2 st bar with ⟨-, -, hc⟩ | ⟨-, hsl, hc⟩ | ⟨-, -, hc⟩
    · rw [hc] at h
      cases h
    · rw [hc] at h ⊢
      dsimp only at h ⊢
      by_cases htp : (tp1Step s e r t1 (beStep s e r st bar) bar).tp1Hit = true
      · rw [if_pos htp] at h
        cases h
      · rw [if_neg htp] at h ⊢
        rw [Bool.not_eq_true] at htp
        obtain ⟨d1, d2⟩ := c2 (b1.trans hst) htp
        by_cases hbe : (tp1Step s e r t1 (beStep s e r st bar) bar).movedToBE = true
        · rw [if_pos hbe]
          rw [d2] at hbe
          rw [b3 hinv hbe] at hsl
          refine ⟨rfl, [], bar, rest, rfl, rfl, hsl, ?_, ?_⟩
          · rcases b2 hbe with h1 | h1
            · exact Or.inl h1
            · exact Or.inr ⟨bar, List.mem_singleton_self _, h1⟩
          · intro b hb
            rw [List.nil_append, List.mem_singleton] at hb
            rw [hb]
            exact d1
        · rw [if_neg hbe] at h
          cases h
    · rw [hc] at h ⊢
      dsimp only at h ⊢
      by_cases htp : (tp1Step s e r t1 (beStep s e r st bar) bar).tp1Hit = true
      · exact absurd h (partialExit_tp1 s e r t1 t2 rest _ htp)
      · rw [Bool.not_eq_true] at htp
        obtain ⟨d1, d2⟩ := c2 (b1.trans hst) htp
        rw [d2] at h ⊢
        obtain ⟨i1, pre, bar1, post, i2, i3, i4, i5, i6⟩ :=
          ih (beStep s e r st bar) (b1.trans hst) (b3 hinv) h
        refine ⟨i1, bar :: pre, bar1, post, by rw [i2]; rfl, i3, i4, ?_, ?_⟩
        · rcases i5 with h1 | ⟨b, hb, h1⟩
          · rcases b2 h1 with h2 | h2
            · exact Or.inl h2
            · exact Or.inr ⟨bar, List.mem_cons_self _ _, h2⟩
          · exact Or.inr ⟨b, List.mem_cons_of_mem _ hb, h1⟩
        · intro b hb
          rcases List.mem_cons.1 hb with rfl | hb
          · exact d1
          · exact i6 b hb

/-- C17, counterexample.  On `breakEvenSeries` in mode `atr_partial_1` the
trade entered at bar 73 is stopped at bar 74, which reaches 1R above the entry
(so the stop moves to break-even), falls back to the entry and does not reach
the first target: the loop ends with `outcome = 'BE'` and `pnl = 0`, and the
returned record has `status = 'WIN'`, not `'BE'`. -/
theorem break_even_status_counterexample :
    ∃ t ∈ tradesOf breakEvenSeries .atr_partial_1 defaultOptions,
      (t.entryTime = (nth breakEvenSeries 73).time ∧
        t.exitTime = some (nth breakEvenSeries 74).time) ∧
      (reachedOneR false t.entry |t.entry - t.sl| (nth breakEvenSeries 74) = true ∧
        hitStop false (nth breakEvenSeries 74) t.entry = true ∧
        hitTarget false (nth breakEvenSeries 74)
          (targetPrice false t.entry |t.entry - t.sl| 3) = false) ∧
      t.outcome = .BE ∧ t.pnl = 0 ∧ t.status = .WIN := by
  obtain ⟨t, ht, h1, h2, h3, -⟩ := breakEvenSeries_facts.2.2.1
  exact ⟨t, ht, h1, h2, h3⟩

/-- No trade returned by `runLiquidityStrategy` has status `BE`.  A trade whose
exit loop ends in the break-even branch (`outcome = 'BE'`) belongs to a
partial-exit mode and is returned with `status = 'WIN'` and `pnl = 0`; its exit
bar reaches the entry price (the stop after the move to break-even), some bar
from the entry up to it has reached 1R, and no bar up to it has reached the
first target. -/
lemma break_even_exit_reported_as_win (candles : List Bar) (mode : Mode) (options : Options) :
    ∃ r, runLiquidityStrategy candles mode options = .ok r ∧
      ∀ t ∈ r.trades, t.status ≠ .BE ∧
        (t.outcome = .BE →
          isPartialMode mode = true ∧ t.status = .WIN ∧ t.pnl = 0 ∧ t.pnlPercent = 0 ∧
          ∃ entryIdx pre bar post,
            t.entryTime = (nth candles entryIdx).time ∧
            candles.drop (entryIdx + 1) = pre ++ bar :: post ∧
            t.exitTime = some bar.time ∧
            hitStop (decide (t.type = .SHORT)) bar t.entry = true ∧
            (∃ b ∈ pre ++ [bar],
              reachedOneR (decide (t.type = .SHORT)) t.entry |t.entry - t.sl| b = true) ∧
            ∀ b ∈ pre ++ [bar],
              hitTarget (decide (t.type = .SHORT)) b
                (targetPrice (decide (t.type = .SHORT)) t.entry |t.entry - t.sl|
                  (tp1RR mode)) = false) := by
  obtain ⟨r, zones, hr, -, h2, -⟩ := run_spec candles mode options
  refine ⟨r, hr, fun t ht => ?_⟩
  obtain ⟨line, breakIdx, ob, e, -, -, -, -, -, -, -, fvg, -, -, -, -, hmk⟩ := h2 t ht
  have hc : (ctxOf candles mode options zones).candles = candles := rfl
  have hmo : (ctxOf candles mode options zones).mode = mode := rfl
  rw [hc, hmo] at hmk
  generalize decide (line.type = .DOWN) = s at hmk
  obtain ⟨-, -, -, -, -, f6, -, f8, f9, f10, f11, f12, f13, -, f15, f16⟩ :=
    makeTrade_fields candles mode line s (nth candles breakIdx).time ob fvg e
      (entrySignalsOf (ctxOf candles mode options zones) s e) (simulateExit candles mode s e)
  rw [← hmk] at f6 f8 f9 f10 f11 f12 f13 f15 f16
  have hdec : decide (t.type = .SHORT) = s := by
    rw [f15]
    cases s <;> rfl
  rw [← f9] at f16
  refine ⟨?_, fun hbe => ?_⟩
  · rw [f16]
    by_cases hb : t.outcome = .BE
    · rw [if_pos hb]; decide
    · rw [if_neg hb]; exact hb
  · have hpm : isPartialMode mode = true := by
      by_contra hn
      rw [Bool.not_eq_true] at hn
      rw [f9, simulateExit_simple candles mode s e hn] at hbe
      rcases simpleExit_outcome s e.slPrice (tpForDisplay mode s e) (rrMultiplier mode)
        (candles.drop (e.entryIdx + 1)) with h | h | h <;> rw [h] at hbe <;> cases hbe
    have hsim : simulateExit candles mode s e =
        partialExit s e.entryPrice |e.entryPrice - e.slPrice| (tp1RR mode) (tp2RR mode)
          { currentSL := e.slPrice, tp1Hit := false, movedToBE := false, partialPnL := 0 }
          (candles.drop (e.entryIdx + 1)) := by
      unfold simulateExit
      dsimp only
      rw [if_pos hpm]
    rw [hsim] at f8 f9 f10 f11
    rw [f9] at hbe
    obtain ⟨p1, pre, bar, post, p2, p3, p4, p5, p6⟩ :=
      partialExit_BE s e.entryPrice |e.entryPrice - e.slPrice| (tp1RR mode) (tp2RR mode)
        (candles.drop (e.entryIdx + 1))
        { currentSL := e.slPrice, tp1Hit := false, movedToBE := false, partialPnL := 0 }
        rfl (fun h => by cases h) hbe
    rw [hdec, f12, f13]
    refine ⟨hpm, by rw [f16, if_pos (f9.trans hbe)], by rw [f10, p1], by rw [f11, p1],
      e.entryIdx, pre, bar, post, f6, p2, by rw [f8, p3], p4, ?_, p6⟩
    rcases p5 with h | h
    · cases h
    · exact h

end Liquidity

/-! ## The streaming update -/

lemma pairwise_dropLast {α : Type} (R : α → α → Prop) (l : List α) (h : l.Pairwise R) :
    l.dropLast.Pairwise R :=
  h.sublist (List.dropLast_sublist l)

lemma pushCandle_eq (historyTarget : Nat) (candles : List Bar) (candle : Bar) :
    pushCandle historyTarget candles candle =
      if candles.length + 1 > historyTarget + 1000 then (candles ++ [candle]).drop 1
      else candles ++ [candle] := by
  unfold pushCandle
  rw [List.length_append, List.length_singleton]

/-- C31.  The streaming bar-update step preserves the invariant of the bar
series: if the stored bars have strictly increasing times, so does the
result.  An update older than the last stored bar leaves the series
unchanged, an update with the time of the last bar replaces only the last bar,
and a newer one (or the first one) is appended, the oldest bar being dropped
once the length exceeds `historyTarget + 1000`. -/
theorem update_preserves_increasing_times (historyTarget : Nat) (candles : List Bar)
    (candle : Bar) (hinc : candles.Pairwise (fun a b => a.time < b.time)) :
    (updateCandles historyTarget candles candle).Pairwise (fun a b => a.time < b.time) ∧
    (∀ last, candles.getLast? = some last → candle.time < last.time →
      updateCandles historyTarget candles candle = candles) ∧
    (∀ last, candles.getLast? = some last → candle.time = last.time →
      updateCandles historyTarget candles candle = candles.dropLast ++ [candle]) ∧
    ((∀ last, candles.getLast? = some last → last.time < candle.time) →
      updateCandles historyTarget candles candle =
        if candles.length + 1 > historyTarget + 1000 then (candles ++ [candle]).drop 1
        else candles ++ [candle]) := by
  have happ : (∀ b ∈ candles, b.time < candle.time) →
      (candles ++ [candle]).Pairwise (fun a b => a.time < b.time) := by
    intro hb
    rw [List.pairwise_append]
    exact ⟨hinc, List.pairwise_singleton _ _, fun a ha b hb1 => by
      rw [List.mem_singleton] at hb1
      rw [hb1]
      exact hb a ha⟩
  have hpush : (∀ b ∈ candles, b.time < candle.time) →
      (pushCandle historyTarget candles candle).Pairwise (fun a b => a.time < b.time) := by
    intro hb
    unfold pushCandle
    split
    · exact (happ hb).sublist (List.drop_sublist _ _)
    · exact happ hb
  have hlast : ∀ last, candles.getLast? = some last →
      candles = candles.dropLast ++ [last] := by
    intro last hl
    obtain ⟨ys, hys⟩ := List.getLast?_eq_some_iff.1 hl
    rw [hys, List.dropLast_concat]
  have hbelow : ∀ last, candles.getLast? = some last → ∀ b ∈ candles.dropLast,
      b.time < last.time := by
    intro last hl b hb
    have h1 := hlast last hl
    rw [h1, List.pairwise_append] at hinc
    exact hinc.2.2 b hb last (List.mem_singleton_self _)
  refine ⟨?_, ?_, ?_, ?_⟩
  · unfold updateCandles
    split
    · rename_i last hl
      split
      · exact hinc
      · split
        · rename_i heq
          rw [List.pairwise_append]
          refine ⟨pairwise_dropLast _ _ hinc, List.pairwise_singleton _ _, fun a ha b hb1 => ?_⟩
          rw [List.mem_singleton] at hb1
          rw [hb1, heq]
          exact hbelow last hl a ha
        · rename_i h1 h2
          apply hpush
          intro b hb
          have hlt : last.time < candle.time := by omega
          rw [hlast last hl, List.mem_append, List.mem_singleton] at hb
          rcases hb with hb | hb
          · exact lt_trans (hbelow last hl b hb) hlt
          · rw [hb]; exact hlt
    · rename_i hn
      rw [List.getLast?_eq_none_iff] at hn
      apply hpush
      intro b hb
      rw [hn] at hb
      cases hb
  · intro last hl hlt
    unfold updateCandles
    rw [hl]
    dsimp only
    rw [if_pos hlt]
  · intro last hl heq
    unfold updateCandles
    rw [hl]
    dsimp only
    rw [if_neg (by omega), if_pos heq]
  · intro hnew
    rw [← pushCandle_eq]
    unfold updateCandles
    split
    · rename_i last hl
      have := hnew last hl
      rw [if_neg (by omega), if_neg (by omega)]
    · rfl

theorem update_preserves_increasing_times_witness :
    (updateCandles 30000 (flatBars 100 0 3) ⟨120, 101, 102, 100, 101, 5⟩).Pairwise
        (fun a b => a.time < b.time) ∧
    updateCandles 30000 (flatBars 100 0 3) ⟨120, 101, 102, 100, 101, 5⟩ =
      (flatBars 100 0 3).dropLast ++ [⟨120, 101, 102, 100, 101, 5⟩] :=
  ⟨(update_preserves_increasing_times 30000 (flatBars 100 0 3) ⟨120, 101, 102, 100, 101, 5⟩
      (by decide)).1,
   (update_preserves_increasing_times 30000 (flatBars 100 0 3) ⟨120, 101, 102, 100, 101, 5⟩
      (by decide)).2.2.1 ⟨120, 100, 100, 100, 100, 0⟩ (by decide) (by decide)⟩

/-! ## Terminal trades under extension of the series -/

/-- C34.  Terminal trade status is immutable under extension of the series:
if `processTradeLifecycle` over a bar series `S` ends a trade as `WIN`, `LOSS`
or `CANCELLED`, then running it from the same origin over any series that has
`S` as a prefix returns the same trade (same status, `entryTime`, `exitTime`
and `pnl`). -/
theorem terminal_trade_immutable (trade T : Trade) (idx : Nat) (S S1 : List Bar) (rr : ℚ)
    (hpre : S <+: S1) (hS : processTradeLifecycle trade idx S rr = .ok T)
    (hterm : T.status = .WIN ∨ T.status = .LOSS ∨ T.status = .CANCELLED) :
    processTradeLifecycle trade idx S1 rr = .ok T := by
  obtain ⟨ext, rfl⟩ := hpre
  have hno : T.status ≠ .OPEN ∧ T.status ≠ .PENDING := by
    rcases hterm with h | h | h <;> rw [h] <;> exact ⟨by decide, by decide⟩
  have hloop : lifecycleLoop rr trade (S.drop (idx + 1)) = T := by
    unfold processTradeLifecycle at hS
    dsimp only at hS
    split at hS
    · rename_i hopen
      split at hS
      · cases hS
      · cases hS
        exact absurd hopen hno.1
    · cases hS
      rfl
  have hext : lifecycleLoop rr trade ((S ++ ext).drop (idx + 1)) = T := by
    rw [List.drop_append_eq_append_drop, lifecycleLoop_append, hloop]
    exact lifecycleLoop_settled rr _ T hno.2 hno.1
  rw [processTradeLifecycle_closed rr trade idx (S ++ ext) (by rw [hext]; exact hno.1), hext]

theorem terminal_trade_immutable_witness :
    processTradeLifecycle (newTrade 0 .LONG 100 95 0 2) 0
        ([⟨0, 100, 100, 100, 100, 0⟩, ⟨60, 100, 101, 99, 100, 0⟩,
          ⟨120, 100, 111, 100, 110, 0⟩] ++ [⟨180, 100, 100, 90, 90, 0⟩]) 2 =
      .ok { newTrade 0 .LONG 100 95 0 2 with
            status := .WIN, entryTime := some 60, exitTime := some 120, pnl := 2,
            pnlPercent := 2 } :=
  terminal_trade_immutable (newTrade 0 .LONG 100 95 0 2) _ 0
    [⟨0, 100, 100, 100, 100, 0⟩, ⟨60, 100, 101, 99, 100, 0⟩, ⟨120, 100, 111, 100, 110, 0⟩]
    _ 2 (List.prefix_append _ _) (by decide!) (Or.inl rfl)

namespace Liquidity

/-! ## The optimizer -/

lemma optimizerLoop_spec (candles : List Bar) (options : Options) (keys : List Mode) :
    ∃ rs, optimizerLoop candles options keys = .ok rs ∧
      rs.map (fun r => r.key) = keys ∧
      ∀ r ∈ rs, r = optimizerResult r.key
        (tradesOf candles r.key { options with collectOnly := true }) := by
  induction keys with
  | nil => exact ⟨[], rfl, rfl, fun r hr => by cases hr⟩
  | cons key rest ih =>
    obtain ⟨rs, h1, h2, h3⟩ := ih
    obtain ⟨res, -, hres, -⟩ := run_spec candles key { options with collectOnly := true }
    refine ⟨optimizerResult key res.trades :: rs, ?_, ?_, ?_⟩
    · unfold optimizerLoop
      rw [hres, h1]
    · rw [List.map_cons, h2]
      rfl
    · intro r hr
      rcases List.mem_cons.1 hr with rfl | hr
      · have : (optimizerResult key res.trades).key = key := rfl
        rw [this, tradesOf_eq _ _ _ res hres]
      · exact h3 r hr

/-- The optimizer never fails: it returns no result for the empty series and
otherwise one result per mode, in the order of `configs`, computed from the
trades of that mode. -/
lemma runOptimizer_spec (candles : List Bar) (options : Options) :
    ∃ rs, runOptimizer candles options = .ok rs ∧
      (candles = [] → rs = []) ∧
      (candles ≠ [] → rs.map (fun r => r.key) = optimizerModes ∧
        ∀ r ∈ rs, r = optimizerResult r.key
          (tradesOf candles r.key { options with collectOnly := true })) := by
  unfold runOptimizer
  by_cases h : candles.length = 0
  · rw [if_pos h]
    exact ⟨[], rfl, fun _ => rfl, fun hne => absurd (List.eq_nil_of_length_eq_zero h) hne⟩
  · rw [if_neg h]
    obtain ⟨rs, h1, h2, h3⟩ := optimizerLoop_spec candles options optimizerModes
    exact ⟨rs, h1, fun he => absurd (by rw [he]; rfl) h, fun _ => ⟨h2, h3⟩⟩

/-- C21, failing input.  On `breakEvenSeries` the results of `runOptimizer`
come in the order of the modes, with total R -1, -1, 2, 0, 0, 0: the result of
mode `atr` (2 R) stands after two results with -1 R, so the list is not in
descending order of total R. -/
theorem optimizer_results_not_sorted :
    (runOptimizer breakEvenSeries defaultOptions).toOption.map
        (fun rs => rs.map fun r => (r.key, r.totalPnL)) =
      some [(.standard, -1), (.agro, -1), (.atr, 2), (.atr_agro, 0), (.atr_partial_1, 0),
        (.atr_partial_2, 0)] := by
  obtain ⟨rs, hrs, -, h⟩ := runOptimizer_spec breakEvenSeries defaultOptions
  obtain ⟨hkeys, hres⟩ := h (by decide)
  have hmap : rs.map (fun r => (r.key, r.totalPnL)) =
      (rs.map fun r => r.key).map (fun m =>
        (m, (tradesOf breakEvenSeries m defaultOptions).foldl (fun s t => s + t.pnl) 0)) := by
    rw [List.map_map]
    apply List.map_congr_left
    intro r hr
    have h1 := hres r hr
    rw [tradesOf_collectOnly] at h1
    show (r.key, r.totalPnL) = (r.key, _)
    congr 1
    conv_lhs => rw [h1]
    rfl
  have hvals := breakEvenSeries_facts.2.2.2
  rw [hrs]
  show some (rs.map fun r => (r.key, r.totalPnL)) = some _
  rw [hmap, hkeys]
  simp only [optimizerModes, List.map_cons, List.map_nil, List.cons.injEq, and_true] at hvals ⊢
  obtain ⟨v1, v2, v3, v4, v5, v6⟩ := hvals
  rw [v1, v2, v3, v4, v5, v6]

/-- C22, counterexample.  For the empty series `runOptimizer` returns the
empty list, not one result per mode. -/
theorem optimizer_empty_series_counterexample :
    runOptimizer [] defaultOptions = .ok [] := rfl

lemma optimizerResult_nil (key : Mode) :
    optimizerResult key [] =
      { key := key, trades := [], total := 0, wins := 0, losses := 0, winRate := 0,
        totalPnL := 0, profitFactor := 0 } := by
  unfold optimizerResult optGrossProfit optGrossLoss
  simp

/-- C22, amended.  For every non-empty bar series on which no mode produces a
trade, `runOptimizer` does not fail and returns one result for each of the six
modes `standard`, `agro`, `atr`, `atr_agro`, `atr_partial_1`, `atr_partial_2`,
in this order, each with no trades, `totalPnL = 0`, `winRate = 0` and
`profitFactor = 0`.  (For the empty series it returns the empty list.) -/
theorem optimizer_without_trades (candles : List Bar) (options : Options) (hne : candles ≠ [])
    (hno : ∀ key ∈ optimizerModes,
      tradesOf candles key { options with collectOnly := true } = []) :
    ∃ rs, runOptimizer candles options = .ok rs ∧
      rs.map (fun r => r.key) = optimizerModes ∧
      ∀ r ∈ rs, r.trades = [] ∧ r.total = 0 ∧ r.wins = 0 ∧ r.losses = 0 ∧
        r.totalPnL = 0 ∧ r.winRate = 0 ∧ r.profitFactor = 0 := by
  obtain ⟨rs, h1, -, h3⟩ := runOptimizer_spec candles options
  obtain ⟨h4, h5⟩ := h3 hne
  refine ⟨rs, h1, h4, fun r hr => ?_⟩
  have hk : r.key ∈ optimizerModes := by
    rw [← h4]
    exact List.mem_map_of_mem _ hr
  have := h5 r hr
  rw [hno r.key hk, optimizerResult_nil] at this
  rw [this]
  exact ⟨rfl, rfl, rfl, rfl, rfl, rfl, rfl⟩

theorem optimizer_without_trades_witness :
    ∃ rs, runOptimizer (flatBars 100 0 10) defaultOptions = .ok rs ∧
      rs.map (fun r => r.key) = optimizerModes ∧
      ∀ r ∈ rs, r.trades = [] ∧ r.total = 0 ∧ r.wins = 0 ∧ r.losses = 0 ∧
        r.totalPnL = 0 ∧ r.winRate = 0 ∧ r.profitFactor = 0 :=
  optimizer_without_trades (flatBars 100 0 10) defaultOptions (by decide) (by decide!)

end Liquidity

namespace PnL

/-! ## Lemmas on `calculatePnLMetrics` -/

lemma ite_gt_eq_max (a b : ℚ) : (if a > b then a else b) = max b a := by
  rw [max_def]
  split_ifs <;> first | rfl | linarith

lemma pushPoint_getLast (curve : List EquityPoint) (time : Option Int) (value : ℚ) :
    (pushPoint curve time value).getLast? = some { time := time, value := value } := by
  unfold pushPoint
  split
  · rename_i lastPoint hl
    split
    · rename_i heq
      rw [List.getLast?_append, List.getLast?_singleton, ← heq]
      rfl
    · rw [List.getLast?_append, List.getLast?_singleton]
      rfl
  · rw [List.getLast?_append, List.getLast?_singleton]
    rfl

lemma closedStep_fields (config : PnLConfig) (st : ClosedState) (t : PnLTrade) :
    (closedStep config st t).realizedPnL = st.realizedPnL + pnlValOf config t ∧
    (closedStep config st t).currentEquity = st.currentEquity + pnlValOf config t ∧
    (closedStep config st t).equityCurve =
      pushPoint st.equityCurve t.exitTime (st.currentEquity + pnlValOf config t) ∧
    (closedStep config st t).maxPeak = max st.maxPeak (st.currentEquity + pnlValOf config t) ∧
    (closedStep config st t).maxDrawdown = max st.maxDrawdown
      ((max st.maxPeak (st.currentEquity + pnlValOf config t) -
        (st.currentEquity + pnlValOf config t)) /
        max st.maxPeak (st.currentEquity + pnlValOf config t)) := by
  have hmax := ite_gt_eq_max (st.currentEquity + pnlValOf config t) st.maxPeak
  refine ⟨rfl, rfl, rfl, hmax, ?_⟩
  show (if _ > st.maxDrawdown then _ else st.maxDrawdown) = _
  rw [hmax]
  exact ite_gt_eq_max _ _

/-- The sums of the loop over the closed trades. -/
lemma closed_foldl_sums (config : PnLConfig) (l : List PnLTrade) :
    ∀ st : ClosedState,
      (l.foldl (closedStep config) st).realizedPnL =
        st.realizedPnL + (l.map (pnlValOf config)).sum ∧
      (l.foldl (closedStep config) st).currentEquity =
        st.currentEquity + (l.map (pnlValOf config)).sum := by
  induction l with
  | nil => intro st; simp
  | cons t rest ih =>
    intro st
    rw [List.foldl_cons]
    obtain ⟨h1, h2⟩ := ih (closedStep config st t)
    rw [h1, h2, (closedStep_fields config st t).1, (closedStep_fields config st t).2.1,
      List.map_cons, List.sum_cons]
    constructor <;> ring

/-- The last point of the equity curve carries the current equity. -/
lemma closed_foldl_last (config : PnLConfig) (l : List PnLTrade) :
    ∀ st : ClosedState,
      (∀ p, st.equityCurve.getLast? = some p → p.value = st.currentEquity) →
      ∀ p, (l.foldl (closedStep config) st).equityCurve.getLast? = some p →
        p.value = (l.foldl (closedStep config) st).currentEquity := by
  induction l with
  | nil => intro st h; exact h
  | cons t rest ih =>
    intro st _
    rw [List.foldl_cons]
    apply ih
    intro p hp
    rw [(closedStep_fields config st t).2.2.1, pushPoint_getLast] at hp
    cases hp
    exact (closedStep_fields config st t).2.1.symm

lemma closedInit_last (candles : List Bar) (config : PnLConfig) :
    ∀ p, (closedInit candles config).equityCurve.getLast? = some p →
      p.value = (closedInit candles config).currentEquity := by
  intro p hp
  unfold closedInit at hp ⊢
  dsimp only at hp ⊢
  split at hp
  · cases hp; rfl
  · cases hp

lemma result_fields (mathSqrt : ℚ → ℚ) (trades : List PnLTrade) (candles : List Bar)
    (config : PnLConfig) :
    (calculatePnLMetrics mathSqrt trades candles config).equityCurve =
      (closedFinal trades candles config).equityCurve ∧
    (calculatePnLMetrics mathSqrt trades candles config).metrics.realizedPnL =
      (closedFinal trades candles config).realizedPnL ∧
    (calculatePnLMetrics mathSqrt trades candles config).metrics.totalTrades =
      (closedTrades trades).length ∧
    (calculatePnLMetrics mathSqrt trades candles config).metrics.maxDrawdown =
      (closedFinal trades candles config).maxDrawdown * 100 ∧
    (calculatePnLMetrics mathSqrt trades candles config).metrics.unrealizedPnL =
      (openFinal trades candles config).unrealizedPnL ∧
    (calculatePnLMetrics mathSqrt trades candles config).metrics.currentEquity =
      (closedFinal trades candles config).currentEquity +
        (openFinal trades candles config).unrealizedPnL :=
  ⟨rfl, rfl, rfl, rfl, rfl, rfl⟩

lemma closedFinal_sums (trades : List PnLTrade) (candles : List Bar) (config : PnLConfig) :
    (closedFinal trades candles config).realizedPnL =
      ((closedTrades trades).map (pnlValOf config)).sum ∧
    (closedFinal trades candles config).currentEquity =
      initialBalanceOf config + ((closedTrades trades).map (pnlValOf config)).sum := by
  obtain ⟨h1, h2⟩ := closed_foldl_sums config (closedTrades trades) (closedInit candles config)
  unfold closedFinal
  rw [h1, h2]
  exact ⟨zero_add _, rfl⟩

lemma closedTrades_perm (trades : List PnLTrade) :
    (closedTrades trades).Perm (trades.filter isClosed) :=
  List.perm_insertionSort _ _

/-! ## The claims on the account metrics -/

/-- C25.  With fees disabled, `calculatePnLMetrics` reports `realizedPnL`
equal to the sum over the closed trades of `pnl` (in R) times `riskPerTrade`,
where `riskPerTrade` is 1 % of the initial balance. -/
theorem realized_without_fees (mathSqrt : ℚ → ℚ) (trades : List PnLTrade)
    (candles : List Bar) (config : PnLConfig) (hfee : config.includeFees = false) :
    (calculatePnLMetrics mathSqrt trades candles config).metrics.realizedPnL =
      ((trades.filter isClosed).map fun t => t.pnl * riskPerTrade config).sum ∧
    riskPerTrade config = initialBalanceOf config / 100 := by
  obtain ⟨-, r2, -⟩ := result_fields mathSqrt trades candles config
  rw [r2, (closedFinal_sums trades candles config).1]
  have hval : pnlValOf config = fun t => t.pnl * riskPerTrade config := by
    funext t
    unfold pnlValOf
    rw [hfee]
    rfl
  rw [hval]
  refine ⟨((closedTrades_perm trades).map _).sum_eq, ?_⟩
  unfold riskPerTrade
  norm_num
  ring

theorem realized_without_fees_witness :
    (calculatePnLMetrics id
        [{ status := .LOSS, entryTime := some 60, exitTime := some 120, pnl := -1,
           pnlPercent := -1, entry := 100, sl := 95, tp := 110 }] []
        { initialBalance := some 10000, feeMaker := none, feeTaker := none,
          includeFees := false }).metrics.realizedPnL = -100 := by
  rw [(realized_without_fees id _ [] _ rfl).1]
  decide!

end PnL

namespace PnL

/-! ## The equity curve -/

lemma pushPoint_of_ne (curve : List EquityPoint) (p : EquityPoint) (time : Option Int)
    (value : ℚ) (hl : curve.getLast? = some p) (hne : p.time ≠ time) :
    pushPoint curve time value = curve ++ [{ time := time, value := value }] := by
  unfold pushPoint
  rw [hl]
  exact if_neg hne

/-- The times of the curve after a point is written. -/
lemma pushPoint_times (curve : List EquityPoint) (time : Option Int) (value : ℚ) :
    (pushPoint curve time value).map (fun p => p.time) =
      if (curve.map fun p => p.time).getLast? = some time then curve.map fun p => p.time
      else (curve.map fun p => p.time) ++ [time] := by
  unfold pushPoint
  rw [List.getLast?_map]
  cases hl : curve.getLast? with
  | none => simp
  | some lastPoint =>
    have hc := List.dropLast_append_getLast? lastPoint hl
    by_cases heq : lastPoint.time = time
    · simp only [heq, Option.map_some', if_true]
      conv_rhs => rw [← hc]
      simp [heq]
    · have : ¬ (some lastPoint.time = some time) := fun h => heq (Option.some.inj h)
      simp only [Option.map_some', if_neg heq, if_neg this]
      simp

lemma closedTrades_sorted (trades : List PnLTrade) :
    (closedTrades trades).Sorted (fun a b => exitKey a ≤ exitKey b) := by
  have : IsTotal PnLTrade (fun a b => exitKey a ≤ exitKey b) := ⟨fun a b => le_total _ _⟩
  have : IsTrans PnLTrade (fun a b => exitKey a ≤ exitKey b) :=
    ⟨fun a b c h1 h2 => le_trans h1 h2⟩
  exact List.sorted_insertionSort _ _

lemma mem_closedTrades (trades : List PnLTrade) (t : PnLTrade) :
    t ∈ closedTrades trades ↔ t ∈ trades ∧ isClosed t = true := by
  rw [(closedTrades_perm trades).mem_iff, List.mem_filter]

/-- C24, counterexample.  Two winning trades that exit at the same time 120
give a curve of two points (the initial point and one point for both trades),
not three. -/
theorem one_point_per_trade_counterexample :
    (calculatePnLMetrics id [sampleTrade .WIN 120 2, sampleTrade .WIN 120 2]
        (flatBars 100 0 5) defaultPnLConfig).equityCurve =
      [{ time := some 0, value := 10000 }, { time := some 120, value := 10400 }] ∧
    (calculatePnLMetrics id [sampleTrade .WIN 120 2, sampleTrade .WIN 120 2]
        (flatBars 100 0 5) defaultPnLConfig).metrics.totalTrades = 2 := by
  decide!

/-! ## Strictly increasing times -/

lemma times_step (ts : List (Option Int)) (x : Int)
    (hp : ts.Pairwise timeBefore) (hb : ∀ a ∈ ts, ∃ y, a = some y ∧ y ≤ x) :
    (if ts.getLast? = some (some x) then ts else ts ++ [some x]).Pairwise timeBefore := by
  by_cases heq : ts.getLast? = some (some x)
  · rw [if_pos heq]
    exact hp
  · rw [if_neg heq]
    rw [List.pairwise_append]
    refine ⟨hp, List.pairwise_singleton _ _, ?_⟩
    intro a ha b hb1
    rw [List.mem_singleton] at hb1
    subst hb1
    rcases List.eq_nil_or_concat ts with hnil | ⟨init, last, hc⟩
    · rw [hnil] at ha
      cases ha
    · rw [List.concat_eq_append] at hc
      subst hc
      rw [List.getLast?_concat] at heq
      obtain ⟨yl, hyl, hylx⟩ := hb last (by simp)
      have hlt : yl < x := by
        rcases lt_or_eq_of_le hylx with h | h
        · exact h
        · exact absurd (by rw [hyl, h]) heq
      rw [List.mem_append, List.mem_singleton] at ha
      rcases ha with ha | ha
      · rw [List.pairwise_append] at hp
        obtain ⟨y1, y2, h1, h2, h3⟩ := hp.2.2 a ha last (by simp)
        rw [hyl] at h2
        cases h2
        exact ⟨y1, x, h1, rfl, lt_trans h3 hlt⟩
      · rw [ha]
        exact ⟨yl, x, hyl, rfl, hlt⟩

lemma times_step_mem (ts : List (Option Int)) (x : Int) (a : Option Int)
    (ha : a ∈ (if ts.getLast? = some (some x) then ts else ts ++ [some x])) :
    a ∈ ts ∨ a = some x := by
  split at ha
  · exact Or.inl ha
  · rw [List.mem_append, List.mem_singleton] at ha
    exact ha

lemma closed_foldl_increasing (config : PnLConfig) (l : List PnLTrade) :
    ∀ st : ClosedState,
      l.Sorted (fun a b => exitKey a ≤ exitKey b) →
      (∀ t ∈ l, ∃ x, t.exitTime = some x) →
      (st.equityCurve.map fun p => p.time).Pairwise timeBefore →
      (∀ a ∈ st.equityCurve.map fun p => p.time, ∃ y, a = some y ∧ ∀ t ∈ l, y ≤ exitKey t) →
      ((l.foldl (closedStep config) st).equityCurve.map fun p => p.time).Pairwise
        timeBefore := by
  induction l with
  | nil => intro st _ _ hp _; exact hp
  | cons t rest ih =>
    intro st hs hx hp hb
    rw [List.foldl_cons]
    obtain ⟨x, hxt⟩ := hx t (List.mem_cons_self _ _)
    have hkey : exitKey t = x := by
      unfold exitKey
      rw [hxt]
      rfl
    have hs1 := List.sorted_cons.mp hs
    have htimes : ((closedStep config st t).equityCurve.map fun p => p.time) =
        if (st.equityCurve.map fun p => p.time).getLast? = some (some x) then
          st.equityCurve.map fun p => p.time
        else (st.equityCurve.map fun p => p.time) ++ [some x] := by
      rw [(closedStep_fields config st t).2.2.1, pushPoint_times, hxt]
    apply ih (closedStep config st t) hs1.2 (fun t1 h1 => hx t1 (List.mem_cons_of_mem _ h1))
    · rw [htimes]
      apply times_step _ _ hp
      intro a ha
      obtain ⟨y, hy, hle⟩ := hb a ha
      exact ⟨y, hy, hkey ▸ hle t (List.mem_cons_self _ _)⟩
    · intro a ha
      rw [htimes] at ha
      rcases times_step_mem _ _ _ ha with ha | ha
      · obtain ⟨y, hy, hle⟩ := hb a ha
        exact ⟨y, hy, fun t1 h1 => hle t1 (List.mem_cons_of_mem _ h1)⟩
      · exact ⟨x, ha, fun t1 h1 => hkey ▸ hs1.1 t1 h1⟩

/-- C30.  When every `WIN` or `LOSS` trade has an `exitTime` not earlier than
the first bar's time, the times of the equity curve returned by
`calculatePnLMetrics` are strictly increasing. -/
theorem equity_curve_times_increase (mathSqrt : ℚ → ℚ) (trades : List PnLTrade)
    (candles : List Bar) (config : PnLConfig)
    (hexit : ∀ t ∈ trades, isClosed t = true →
      ∃ x, t.exitTime = some x ∧ (candles ≠ [] → (nth candles 0).time ≤ x)) :
    ((calculatePnLMetrics mathSqrt trades candles config).equityCurve.map
      fun p => p.time).Pairwise timeBefore := by
  rw [(result_fields mathSqrt trades candles config).1]
  unfold closedFinal
  apply closed_foldl_increasing config _ _ (closedTrades_sorted trades)
  · intro t ht
    obtain ⟨h1, h2⟩ := (mem_closedTrades trades t).mp ht
    obtain ⟨x, hx, -⟩ := hexit t h1 h2
    exact ⟨x, hx⟩
  · unfold closedInit
    dsimp only
    split
    · exact List.pairwise_singleton _ _
    · exact List.Pairwise.nil
  · intro a ha
    unfold closedInit at ha
    dsimp only at ha
    split at ha
    · rename_i hlen
      rw [List.map_singleton, List.mem_singleton] at ha
      refine ⟨_, ha, fun t ht => ?_⟩
      obtain ⟨h1, h2⟩ := (mem_closedTrades trades t).mp ht
      obtain ⟨x, hx, hle⟩ := hexit t h1 h2
      have : exitKey t = x := by
        unfold exitKey
        rw [hx]
        rfl
      rw [this]
      exact hle (List.length_pos.mp hlen)
    · cases ha

theorem equity_curve_times_increase_witness :
    ((calculatePnLMetrics id
        [sampleTrade .WIN 120 2, sampleTrade .LOSS 180 (-1), sampleTrade .WIN 120 2]
        (flatBars 100 0 5) defaultPnLConfig).equityCurve.map fun p => p.time).Pairwise
      timeBefore :=
  equity_curve_times_increase id
    [sampleTrade .WIN 120 2, sampleTrade .LOSS 180 (-1), sampleTrade .WIN 120 2]
    (flatBars 100 0 5) defaultPnLConfig (by
      intro t ht _
      simp only [List.mem_cons, List.mem_singleton, List.not_mem_nil, or_false] at ht
      rcases ht with rfl | rfl | rfl
      · exact ⟨120, rfl, fun _ => by decide⟩
      · exact ⟨180, rfl, fun _ => by decide⟩
      · exact ⟨120, rfl, fun _ => by decide⟩)

end PnL

namespace PnL

/-! ## Which trades count as closed -/

lemma pushPoint_time_mem (curve : List EquityPoint) (time : Option Int) (value : ℚ) :
    (∃ p ∈ pushPoint curve time value, p.time = time) ∧
    ∀ a, (∃ p ∈ curve, p.time = a) → ∃ p ∈ pushPoint curve time value, p.time = a := by
  have key : ∀ a, (∃ p ∈ pushPoint curve time value, p.time = a) ↔
      a ∈ (pushPoint curve time value).map fun p => p.time := by
    intro a
    rw [List.mem_map]
  have key2 : ∀ a, (∃ p ∈ curve, p.time = a) ↔ a ∈ curve.map fun p => p.time := by
    intro a
    rw [List.mem_map]
  constructor
  · rw [key, pushPoint_times]
    split
    · rename_i h
      exact List.mem_of_getLast?_eq_some h
    · simp
  · intro a ha
    rw [key2] at ha
    rw [key, pushPoint_times]
    split
    · exact ha
    · exact List.mem_append_left _ ha

lemma closed_foldl_time_mem (config : PnLConfig) (l : List PnLTrade) :
    ∀ st : ClosedState,
      (∀ a, (∃ p ∈ st.equityCurve, p.time = a) →
        ∃ p ∈ (l.foldl (closedStep config) st).equityCurve, p.time = a) ∧
      ∀ t ∈ l, ∃ p ∈ (l.foldl (closedStep config) st).equityCurve, p.time = t.exitTime := by
  induction l with
  | nil => intro st; exact ⟨fun a h => h, fun t ht => by cases ht⟩
  | cons t rest ih =>
    intro st
    rw [List.foldl_cons]
    obtain ⟨i1, i2⟩ := ih (closedStep config st t)
    have hc := (closedStep_fields config st t).2.2.1
    obtain ⟨p1, p2⟩ := pushPoint_time_mem st.equityCurve t.exitTime
      (st.currentEquity + pnlValOf config t)
    rw [← hc] at p1 p2
    refine ⟨fun a h => i1 a (p2 a h), fun t1 ht1 => ?_⟩
    rcases List.mem_cons.mp ht1 with h | h
    · rw [h]
      exact i1 _ p1
    · exact i2 t1 h

lemma closedTrades_without_BE (trades : List PnLTrade) :
    closedTrades (trades.filter fun t => decide (t.status ≠ .BE)) = closedTrades trades := by
  unfold closedTrades
  rw [List.filter_filter]
  congr 1
  apply List.filter_congr
  intro t _
  unfold isClosed
  cases t.status <;> rfl

lemma open_foldl_without_BE (candles : List Bar) (config : PnLConfig) (l : List PnLTrade) :
    ∀ st : OpenState,
      (l.filter fun t => decide (t.status ≠ .BE)).foldl (openStep candles config) st =
        l.foldl (openStep candles config) st := by
  induction l with
  | nil => intro st; rfl
  | cons t rest ih =>
    intro st
    by_cases h : t.status = .BE
    · have hskip : openStep candles config st t = st := by
        unfold openStep
        rw [if_neg]
        rw [h]
        decide
      rw [List.filter_cons_of_neg (by simp [h]), List.foldl_cons, hskip]
      exact ih st
    · rw [List.filter_cons_of_pos (by simp [h]), List.foldl_cons, List.foldl_cons]
      exact ih _

/-- C26, counterexample.  A trade with status `BE` and a profit of 0.5 R is
not counted in `totalTrades`, adds nothing to `realizedPnL`, and adds no point
to the equity curve. -/
theorem break_even_not_closed_counterexample :
    (calculatePnLMetrics id [sampleTrade .BE 120 (1 / 2)] (flatBars 100 0 5)
        defaultPnLConfig).metrics.totalTrades = 0 ∧
    (calculatePnLMetrics id [sampleTrade .BE 120 (1 / 2)] (flatBars 100 0 5)
        defaultPnLConfig).metrics.realizedPnL = 0 ∧
    (calculatePnLMetrics id [sampleTrade .BE 120 (1 / 2)] (flatBars 100 0 5)
        defaultPnLConfig).equityCurve = [{ time := some 0, value := 10000 }] := by
  decide!

/-- C26, amended.  `calculatePnLMetrics` treats every trade with status `WIN`
or `LOSS` as closed: `totalTrades` is the number of such trades, `realizedPnL`
is the sum of their fee-adjusted profits, and the equity curve has a point at
the exit time of each of them.  Trades with status `BE` are ignored: removing
them from the input leaves the whole result unchanged. -/
theorem closed_trades_are_wins_and_losses (mathSqrt : ℚ → ℚ) (trades : List PnLTrade)
    (candles : List Bar) (config : PnLConfig) :
    (calculatePnLMetrics mathSqrt trades candles config).metrics.totalTrades =
      (trades.filter fun t => decide (t.status = .WIN) || decide (t.status = .LOSS)).length ∧
    (calculatePnLMetrics mathSqrt trades candles config).metrics.realizedPnL =
      ((trades.filter fun t => decide (t.status = .WIN) || decide (t.status = .LOSS)).map
        (pnlValOf config)).sum ∧
    (∀ t ∈ trades, t.status = .WIN ∨ t.status = .LOSS →
      ∃ p ∈ (calculatePnLMetrics mathSqrt trades candles config).equityCurve,
        p.time = t.exitTime) ∧
    calculatePnLMetrics mathSqrt (trades.filter fun t => decide (t.status ≠ .BE)) candles
        config = calculatePnLMetrics mathSqrt trades candles config := by
  obtain ⟨r1, r2, r3, -⟩ := result_fields mathSqrt trades candles config
  refine ⟨?_, ?_, ?_, ?_⟩
  · rw [r3]
    exact (closedTrades_perm trades).length_eq
  · rw [r2, (closedFinal_sums trades candles config).1]
    exact ((closedTrades_perm trades).map _).sum_eq
  · intro t ht hs
    rw [r1]
    unfold closedFinal
    apply (closed_foldl_time_mem config (closedTrades trades) (closedInit candles config)).2
    rw [mem_closedTrades]
    refine ⟨ht, ?_⟩
    unfold isClosed
    rcases hs with h | h <;> simp [h]
  · unfold calculatePnLMetrics closedFinal openFinal
    rw [closedTrades_without_BE, open_foldl_without_BE]

/-! ## Drawdown -/

lemma closed_foldl_drawdown (config : PnLConfig) (l : List PnLTrade) :
    ∀ st : ClosedState,
      (l.foldl (closedStep config) st).maxDrawdown =
        (drawdowns config st.currentEquity st.maxPeak l).foldl max st.maxDrawdown := by
  induction l with
  | nil => intro st; rfl
  | cons t rest ih =>
    intro st
    obtain ⟨-, f2, -, f4, f5⟩ := closedStep_fields config st t
    rw [List.foldl_cons, ih, f2, f4, f5]
    rfl

lemma foldl_max_ge (l : List ℚ) : ∀ m : ℚ, m ≤ l.foldl max m ∧ ∀ d ∈ l, d ≤ l.foldl max m := by
  induction l with
  | nil => intro m; exact ⟨le_refl _, fun d hd => by cases hd⟩
  | cons a rest ih =>
    intro m
    rw [List.foldl_cons]
    obtain ⟨h1, h2⟩ := ih (max m a)
    refine ⟨le_trans (le_max_left _ _) h1, fun d hd => ?_⟩
    rcases List.mem_cons.mp hd with h | h
    · rw [h]
      exact le_trans (le_max_right _ _) h1
    · exact h2 d h

lemma foldl_max_mem (l : List ℚ) : ∀ m : ℚ, l.foldl max m = m ∨ l.foldl max m ∈ l := by
  induction l with
  | nil => intro m; exact Or.inl rfl
  | cons a rest ih =>
    intro m
    rw [List.foldl_cons]
    rcases ih (max m a) with h | h
    · rw [h]
      rcases max_choice m a with h1 | h1
      · exact Or.inl h1
      · exact Or.inr (by rw [h1]; exact List.mem_cons_self _ _)
    · exact Or.inr (List.mem_cons_of_mem _ h)

lemma drawdowns_nonneg (config : PnLConfig) (l : List PnLTrade) :
    ∀ equity peak : ℚ, 0 < peak → ∀ d ∈ drawdowns config equity peak l, 0 ≤ d := by
  induction l with
  | nil => intro _ _ _ d hd; cases hd
  | cons t rest ih =>
    intro equity peak hpos d hd
    have hpos1 : 0 < max peak (equity + pnlValOf config t) := lt_max_of_lt_left hpos
    unfold drawdowns at hd
    rcases List.mem_cons.mp hd with h | h
    · rw [h]
      exact div_nonneg (sub_nonneg.mpr (le_max_right _ _)) (le_of_lt hpos1)
    · exact ih _ _ hpos1 d h

lemma drawdowns_length (config : PnLConfig) (l : List PnLTrade) :
    ∀ equity peak : ℚ, (drawdowns config equity peak l).length = l.length := by
  induction l with
  | nil => intro _ _; rfl
  | cons t rest ih =>
    intro equity peak
    simp only [drawdowns, List.length_cons, ih]

/-- C27.  For a positive initial balance, `maxDrawdown` is 100 times the
largest of the drawdowns `(P_k - E_k) / P_k` over the `WIN` and `LOSS` trades
in ascending order of exit time, where `E_k` is the equity after the k-th trade
and `P_k` the running peak starting from the initial balance; every drawdown is
at least 0, so `maxDrawdown` is never negative, and it is 0 when there are no
such trades. -/
theorem max_drawdown_is_largest_drawdown (mathSqrt : ℚ → ℚ) (trades : List PnLTrade)
    (candles : List Bar) (config : PnLConfig) (hpos : 0 < initialBalanceOf config) :
    (∀ d ∈ drawdowns config (initialBalanceOf config) (initialBalanceOf config)
        (closedTrades trades),
      0 ≤ d ∧ 100 * d ≤
        (calculatePnLMetrics mathSqrt trades candles config).metrics.maxDrawdown) ∧
    (closedTrades trades ≠ [] →
      ∃ d ∈ drawdowns config (initialBalanceOf config) (initialBalanceOf config)
          (closedTrades trades),
        (calculatePnLMetrics mathSqrt trades candles config).metrics.maxDrawdown = 100 * d) ∧
    (closedTrades trades = [] →
      (calculatePnLMetrics mathSqrt trades candles config).metrics.maxDrawdown = 0) ∧
    0 ≤ (calculatePnLMetrics mathSqrt trades candles config).metrics.maxDrawdown := by
  have hdd : (calculatePnLMetrics mathSqrt trades candles config).metrics.maxDrawdown =
      (drawdowns config (initialBalanceOf config) (initialBalanceOf config)
        (closedTrades trades)).foldl max 0 * 100 := by
    rw [(result_fields mathSqrt trades candles config).2.2.2.1]
    unfold closedFinal
    rw [closed_foldl_drawdown]
    rfl
  have hnn := drawdowns_nonneg config (closedTrades trades) (initialBalanceOf config)
    (initialBalanceOf config) hpos
  obtain ⟨g1, g2⟩ := foldl_max_ge (drawdowns config (initialBalanceOf config)
    (initialBalanceOf config) (closedTrades trades)) 0
  rw [hdd]
  refine ⟨fun d hd => ⟨hnn d hd, by linarith [g2 d hd]⟩, fun hne => ?_, fun he => ?_,
    by linarith⟩
  · rcases foldl_max_mem (drawdowns config (initialBalanceOf config)
      (initialBalanceOf config) (closedTrades trades)) 0 with h | h
    · have hlen := drawdowns_length config (closedTrades trades) (initialBalanceOf config)
        (initialBalanceOf config)
      have hne1 : drawdowns config (initialBalanceOf config) (initialBalanceOf config)
          (closedTrades trades) ≠ [] := by
        intro hnil
        rw [hnil] at hlen
        exact hne (List.eq_nil_of_length_eq_zero hlen.symm)
      obtain ⟨d, hd⟩ := List.exists_mem_of_ne_nil _ hne1
      have hd0 : d = 0 := le_antisymm (by rw [← h]; exact g2 d hd) (hnn d hd)
      exact ⟨d, hd, by rw [h, hd0]; ring⟩
    · exact ⟨_, h, by ring⟩
  · rw [he]
    simp [drawdowns]

theorem max_drawdown_is_largest_drawdown_witness :
    0 ≤ (calculatePnLMetrics id [sampleTrade .WIN 120 2, sampleTrade .LOSS 180 (-1)]
      (flatBars 100 0 5) defaultPnLConfig).metrics.maxDrawdown :=
  (max_drawdown_is_largest_drawdown id [sampleTrade .WIN 120 2, sampleTrade .LOSS 180 (-1)]
    (flatBars 100 0 5) defaultPnLConfig (by decide!)).2.2.2

/-! ## Ratios -/

lemma closedStep_counts (config : PnLConfig) (st : ClosedState) (t : PnLTrade)
    (h1 : 0 ≤ st.grossProfit) (h2 : 0 ≤ st.grossLoss) :
    (closedStep config st t).wins + (closedStep config st t).losses =
      st.wins + st.losses + 1 ∧
    0 ≤ (closedStep config st t).grossProfit ∧ 0 ≤ (closedStep config st t).grossLoss := by
  unfold closedStep
  dsimp only
  by_cases h : pnlValOf config t > 0
  · simp only [if_pos h]
    exact ⟨by omega, by linarith, h2⟩
  · simp only [if_neg h]
    exact ⟨by omega, h1, by linarith [abs_nonneg (pnlValOf config t)]⟩

lemma closed_foldl_counts (config : PnLConfig) (l : List PnLTrade) :
    ∀ st : ClosedState, 0 ≤ st.grossProfit → 0 ≤ st.grossLoss →
      (l.foldl (closedStep config) st).wins + (l.foldl (closedStep config) st).losses =
        st.wins + st.losses + l.length ∧
      0 ≤ (l.foldl (closedStep config) st).grossProfit ∧
      0 ≤ (l.foldl (closedStep config) st).grossLoss := by
  induction l with
  | nil => intro st h1 h2; exact ⟨rfl, h1, h2⟩
  | cons t rest ih =>
    intro st h1 h2
    rw [List.foldl_cons]
    obtain ⟨hw, hp, hl⟩ := closedStep_counts config st t h1 h2
    obtain ⟨i1, i2, i3⟩ := ih (closedStep config st t) hp hl
    refine ⟨?_, i2, i3⟩
    rw [i1, hw, List.length_cons]
    omega

lemma foldl_add_nonneg {α : Type} (f : α → ℚ) (hf : ∀ a, 0 ≤ f a) (l : List α) :
    ∀ s : ℚ, 0 ≤ s → 0 ≤ l.foldl (fun s t => s + f t) s := by
  induction l with
  | nil => intro s hs; exact hs
  | cons a rest ih =>
    intro s hs
    rw [List.foldl_cons]
    exact ih _ (add_nonneg hs (hf a))

lemma rate_bounds (wins total : Nat) (h : wins ≤ total) :
    0 ≤ (if total > 0 then (wins : ℚ) / (total : ℚ) * 100 else 0) ∧
    (if total > 0 then (wins : ℚ) / (total : ℚ) * 100 else 0) ≤ 100 := by
  split_ifs with hpos
  · have h1 : (0 : ℚ) < (total : ℚ) := by exact_mod_cast hpos
    have h2 : (wins : ℚ) ≤ (total : ℚ) := by exact_mod_cast h
    have h3 : (0 : ℚ) ≤ (wins : ℚ) := by positivity
    constructor
    · positivity
    · have : (wins : ℚ) / (total : ℚ) ≤ 1 := (div_le_one h1).mpr h2
      linarith
  · exact ⟨le_refl _, by norm_num⟩

end PnL

namespace Liquidity

lemma optimizerResult_winRate (key : Mode) (trades : List StrategyTrade) :
    (optimizerResult key trades).winRate =
      if (trades.filter fun t => decide (t.status = .WIN)).length +
          (trades.filter fun t => decide (t.status = .LOSS)).length > 0 then
        ((trades.filter fun t => decide (t.status = .WIN)).length : ℚ) /
          (((trades.filter fun t => decide (t.status = .WIN)).length +
            (trades.filter fun t => decide (t.status = .LOSS)).length : Nat) : ℚ) * 100
      else 0 := rfl

lemma optimizerResult_counts (key : Mode) (trades : List StrategyTrade) :
    (optimizerResult key trades).wins + (optimizerResult key trades).losses =
      (trades.filter fun t => decide (t.status = .WIN)).length +
        (trades.filter fun t => decide (t.status = .LOSS)).length := rfl

lemma optimizer_ratios (key : Mode) (trades : List StrategyTrade) :
    ((optimizerResult key trades).profitFactor =
        if optGrossLoss trades > 0 then optGrossProfit trades / optGrossLoss trades
        else if optGrossProfit trades > 0 then 999 else 0) ∧
    0 ≤ optGrossLoss trades ∧
    ((optimizerResult key trades).wins + (optimizerResult key trades).losses = 0 →
      (optimizerResult key trades).winRate = 0) ∧
    0 ≤ (optimizerResult key trades).winRate ∧ (optimizerResult key trades).winRate ≤ 100 := by
  have horate := PnL.rate_bounds
    (trades.filter fun t => decide (t.status = .WIN)).length
    ((trades.filter fun t => decide (t.status = .WIN)).length +
      (trades.filter fun t => decide (t.status = .LOSS)).length) (Nat.le_add_right _ _)
  rw [← optimizerResult_winRate key] at horate
  refine ⟨rfl, ?_, ?_, horate.1, horate.2⟩
  · unfold optGrossLoss
    exact PnL.foldl_add_nonneg (fun t : StrategyTrade => |t.pnl|) (fun t => abs_nonneg _)
      (trades.filter fun t => decide (t.pnl < 0)) 0 (le_refl _)
  · intro h0
    rw [optimizerResult_winRate]
    rw [optimizerResult_counts] at h0
    rw [if_neg]
    exact fun hgt => absurd h0 (Nat.pos_iff_ne_zero.mp hgt)

end Liquidity

namespace PnL

lemma metrics_ratios (mathSqrt : ℚ → ℚ) (trades : List PnLTrade) (candles : List Bar)
    (config : PnLConfig) :
    ((calculatePnLMetrics mathSqrt trades candles config).metrics.profitFactor =
        if (closedFinal trades candles config).grossLoss > 0 then
          (closedFinal trades candles config).grossProfit /
            (closedFinal trades candles config).grossLoss
        else if (closedFinal trades candles config).grossProfit > 0 then 999 else 0) ∧
    0 ≤ (closedFinal trades candles config).grossLoss ∧
    0 ≤ (closedFinal trades candles config).grossProfit ∧
    (closedTrades trades = [] →
      (calculatePnLMetrics mathSqrt trades candles config).metrics.winRate = 0) ∧
    0 ≤ (calculatePnLMetrics mathSqrt trades candles config).metrics.winRate ∧
    (calculatePnLMetrics mathSqrt trades candles config).metrics.winRate ≤ 100 := by
  obtain ⟨c1, c2, c3⟩ := closed_foldl_counts config (closedTrades trades)
    (closedInit candles config) (le_refl _) (le_refl _)
  have h0 : (closedInit candles config).wins + (closedInit candles config).losses = 0 := rfl
  have hwins : (closedFinal trades candles config).wins ≤ (closedTrades trades).length := by
    unfold closedFinal
    omega
  have hrate := rate_bounds _ _ hwins
  have hwr : (calculatePnLMetrics mathSqrt trades candles config).metrics.winRate =
      if (closedTrades trades).length > 0 then
        ((closedFinal trades candles config).wins : ℚ) / ((closedTrades trades).length : ℚ) * 100
      else 0 := rfl
  rw [← hwr] at hrate
  refine ⟨rfl, c3, c2, ?_, hrate.1, hrate.2⟩
  intro he
  rw [hwr, he]
  rfl

end PnL

/-- C28.  In `calculatePnLMetrics` and in every result of `runOptimizer` the
profit factor is `grossProfit / grossLoss` when `grossLoss > 0`, 999 when
`grossLoss` is not positive and `grossProfit > 0`, and 0 otherwise, where
`grossLoss` is never negative; `winRate` is 0 when there is no winning or
losing trade and lies in [0, 100] in every case. -/
theorem ratios_never_divide_by_zero (mathSqrt : ℚ → ℚ) (trades : List PnL.PnLTrade)
    (candles : List Bar) (config : PnL.PnLConfig) (key : Liquidity.Mode)
    (strategyTrades : List Liquidity.StrategyTrade) :
    ((PnL.calculatePnLMetrics mathSqrt trades candles config).metrics.profitFactor =
        if (PnL.closedFinal trades candles config).grossLoss > 0 then
          (PnL.closedFinal trades candles config).grossProfit /
            (PnL.closedFinal trades candles config).grossLoss
        else if (PnL.closedFinal trades candles config).grossProfit > 0 then 999 else 0) ∧
    0 ≤ (PnL.closedFinal trades candles config).grossLoss ∧
    0 ≤ (PnL.closedFinal trades candles config).grossProfit ∧
    (PnL.closedTrades trades = [] →
      (PnL.calculatePnLMetrics mathSqrt trades candles config).metrics.winRate = 0) ∧
    0 ≤ (PnL.calculatePnLMetrics mathSqrt trades candles config).metrics.winRate ∧
    (PnL.calculatePnLMetrics mathSqrt trades candles config).metrics.winRate ≤ 100 ∧
    ((Liquidity.optimizerResult key strategyTrades).profitFactor =
        if Liquidity.optGrossLoss strategyTrades > 0 then
          Liquidity.optGrossProfit strategyTrades / Liquidity.optGrossLoss strategyTrades
        else if Liquidity.optGrossProfit strategyTrades > 0 then 999 else 0) ∧
    0 ≤ Liquidity.optGrossLoss strategyTrades ∧
    ((Liquidity.optimizerResult key strategyTrades).wins +
        (Liquidity.optimizerResult key strategyTrades).losses = 0 →
      (Liquidity.optimizerResult key strategyTrades).winRate = 0) ∧
    0 ≤ (Liquidity.optimizerResult key strategyTrades).winRate ∧
    (Liquidity.optimizerResult key strategyTrades).winRate ≤ 100 := by
  obtain ⟨a1, a2, a3, a4, a5, a6⟩ := PnL.metrics_ratios mathSqrt trades candles config
  obtain ⟨b1, b2, b3, b4, b5⟩ := Liquidity.optimizer_ratios key strategyTrades
  exact ⟨a1, a2, a3, a4, a5, a6, b1, b2, b3, b4, b5⟩

namespace PnL

/-! ## Open trades -/

lemma durationStep_unrealized (candles : List Bar) (st : OpenState) (t : PnLTrade) :
    (durationStep candles st t).unrealizedPnL = st.unrealizedPnL := by
  unfold durationStep
  split <;> rfl

lemma openStep_unrealized (candles : List Bar) (config : PnLConfig) (st : OpenState)
    (t : PnLTrade) :
    (openStep candles config st t).unrealizedPnL =
      if t.status = .OPEN then st.unrealizedPnL + t.pnlPercent * riskPerTrade config
      else st.unrealizedPnL := by
  unfold openStep
  by_cases ho : t.status = .OPEN
  · simp only [if_pos (Or.inr (Or.inr ho)), if_pos ho]
    rw [durationStep_unrealized]
  · by_cases h : t.status = .WIN ∨ t.status = .LOSS ∨ t.status = .OPEN
    · simp only [if_pos h, if_neg ho]
      exact durationStep_unrealized candles st t
    · simp only [if_neg h, if_neg ho]

lemma open_foldl_sums (candles : List Bar) (config : PnLConfig) (l : List PnLTrade) :
    ∀ st : OpenState,
      (l.foldl (openStep candles config) st).unrealizedPnL =
        st.unrealizedPnL +
          ((l.filter fun t => decide (t.status = .OPEN)).map
            fun t => t.pnlPercent * riskPerTrade config).sum := by
  induction l with
  | nil => intro st; simp
  | cons t rest ih =>
    intro st
    rw [List.foldl_cons, ih]
    rw [openStep_unrealized]
    by_cases ho : t.status = .OPEN
    · rw [if_pos ho, List.filter_cons_of_pos (by simp [ho]), List.map_cons, List.sum_cons]
      ring
    · rw [if_neg ho, List.filter_cons_of_neg (by simp [ho])]

lemma closedTrades_add_open (pre extra post : List PnLTrade)
    (hopen : ∀ t ∈ extra, t.status = .OPEN) :
    closedTrades (pre ++ extra ++ post) = closedTrades (pre ++ post) := by
  unfold closedTrades
  have : extra.filter isClosed = [] := by
    rw [List.filter_eq_nil_iff]
    intro t ht
    unfold isClosed
    rw [hopen t ht]
    decide
  rw [List.filter_append, List.filter_append, this, List.append_nil, ← List.filter_append]

/-- Adding trades with status `OPEN` anywhere in the input of
`calculatePnLMetrics` leaves the equity curve, `realizedPnL`, `totalTrades`,
`winRate`, `profitFactor`, `maxDrawdown`, `sharpe` and `sortino` unchanged;
`unrealizedPnL` and `metrics.currentEquity` grow by the sum of `pnlPercent *
riskPerTrade` over the added trades. -/
lemma open_trades_frame (mathSqrt : ℚ → ℚ) (pre extra post : List PnLTrade)
    (candles : List Bar) (config : PnLConfig) (hopen : ∀ t ∈ extra, t.status = .OPEN) :
    (calculatePnLMetrics mathSqrt (pre ++ extra ++ post) candles config).equityCurve =
      (calculatePnLMetrics mathSqrt (pre ++ post) candles config).equityCurve ∧
    (calculatePnLMetrics mathSqrt (pre ++ extra ++ post) candles config).metrics.realizedPnL =
      (calculatePnLMetrics mathSqrt (pre ++ post) candles config).metrics.realizedPnL ∧
    (calculatePnLMetrics mathSqrt (pre ++ extra ++ post) candles config).metrics.totalTrades =
      (calculatePnLMetrics mathSqrt (pre ++ post) candles config).metrics.totalTrades ∧
    (calculatePnLMetrics mathSqrt (pre ++ extra ++ post) candles config).metrics.winRate =
      (calculatePnLMetrics mathSqrt (pre ++ post) candles config).metrics.winRate ∧
    (calculatePnLMetrics mathSqrt (pre ++ extra ++ post) candles config).metrics.profitFactor =
      (calculatePnLMetrics mathSqrt (pre ++ post) candles config).metrics.profitFactor ∧
    (calculatePnLMetrics mathSqrt (pre ++ extra ++ post) candles config).metrics.maxDrawdown =
      (calculatePnLMetrics mathSqrt (pre ++ post) candles config).metrics.maxDrawdown ∧
    (calculatePnLMetrics mathSqrt (pre ++ extra ++ post) candles config).metrics.sharpe =
      (calculatePnLMetrics mathSqrt (pre ++ post) candles config).metrics.sharpe ∧
    (calculatePnLMetrics mathSqrt (pre ++ extra ++ post) candles config).metrics.sortino =
      (calculatePnLMetrics mathSqrt (pre ++ post) candles config).metrics.sortino ∧
    (calculatePnLMetrics mathSqrt (pre ++ extra ++ post) candles config).metrics.unrealizedPnL =
      (calculatePnLMetrics mathSqrt (pre ++ post) candles config).metrics.unrealizedPnL +
        (extra.map fun t => t.pnlPercent * riskPerTrade config).sum ∧
    (calculatePnLMetrics mathSqrt (pre ++ extra ++ post) candles config).metrics.currentEquity =
      (calculatePnLMetrics mathSqrt (pre ++ post) candles config).metrics.currentEquity +
        (extra.map fun t => t.pnlPercent * riskPerTrade config).sum := by
  have hc := closedTrades_add_open pre extra post hopen
  have hextra : (extra.filter fun t => decide (t.status = .OPEN)) = extra := by
    rw [List.filter_eq_self]
    intro t ht
    rw [hopen t ht]
    rfl
  have hu : (openFinal (pre ++ extra ++ post) candles config).unrealizedPnL =
      (openFinal (pre ++ post) candles config).unrealizedPnL +
        (extra.map fun t => t.pnlPercent * riskPerTrade config).sum := by
    unfold openFinal
    rw [open_foldl_sums, open_foldl_sums]
    simp only [List.filter_append, List.map_append, List.sum_append, hextra]
    ring
  have hcf : closedFinal (pre ++ extra ++ post) candles config =
      closedFinal (pre ++ post) candles config := by
    unfold closedFinal
    rw [hc]
  refine ⟨?_, ?_, ?_, ?_, ?_, ?_, ?_, ?_, ?_, ?_⟩
  · show (closedFinal _ _ _).equityCurve = (closedFinal _ _ _).equityCurve
    rw [hcf]
  · show (closedFinal _ _ _).realizedPnL = (closedFinal _ _ _).realizedPnL
    rw [hcf]
  · show (closedTrades _).length = (closedTrades _).length
    rw [hc]
  · unfold calculatePnLMetrics
    dsimp only
    rw [hcf, hc]
  · unfold calculatePnLMetrics
    dsimp only
    rw [hcf]
  · unfold calculatePnLMetrics
    dsimp only
    rw [hcf]
  · unfold calculatePnLMetrics
    dsimp only
    rw [hcf]
  · unfold calculatePnLMetrics
    dsimp only
    rw [hcf]
  · exact hu
  · show (closedFinal _ _ _).currentEquity + (openFinal _ _ _).unrealizedPnL =
      (closedFinal _ _ _).currentEquity + (openFinal _ _ _).unrealizedPnL + _
    rw [hcf, hu]
    ring

/-! ## Fees -/

/-- C35, failing input.  With fees enabled and both percentages supplied as
0, a winning trade of 2 R (entry 100, stop 95, target 110, balance 10000) is
charged the default 0.1 % on both sides: the realized profit is 195.8, while
the result with fees disabled is 200. -/
theorem zero_fee_replaced_by_default :
    (calculatePnLMetrics id [sampleTrade .WIN 120 2] (flatBars 100 0 5)
        zeroFeeConfig).metrics.realizedPnL = 1958 / 10 ∧
    (calculatePnLMetrics id [sampleTrade .WIN 120 2] (flatBars 100 0 5)
        { zeroFeeConfig with includeFees := false }).metrics.realizedPnL = 200 := by
  decide!

/-- For percentages other than 0 the fee block charges exactly
`units * entry * feeTaker / 100 + units * exit * (feeMaker / 100 if WIN else
feeTaker / 100)`, with `units = riskPerTrade / |entry - sl|` and `exit` the
target of a winning trade and the stop otherwise (for prices other than 0). -/
lemma fees_with_supplied_percentages (config : PnLConfig) (t : PnLTrade) (maker taker : ℚ)
    (hm : config.feeMaker = some maker) (ht : config.feeTaker = some taker)
    (hm0 : maker ≠ 0) (ht0 : taker ≠ 0) (hfees : config.includeFees = true)
    (hdist : |t.entry - t.sl| > 0) (htp : t.tp ≠ 0) (hsl : t.sl ≠ 0) :
    pnlValOf config t = t.pnl * riskPerTrade config -
      (riskPerTrade config / |t.entry - t.sl| * t.entry * (taker / 100) +
        riskPerTrade config / |t.entry - t.sl| * (if t.status = .WIN then t.tp else t.sl) *
          (if t.status = .WIN then maker / 100 else taker / 100)) := by
  have h1 : makerFeePct config = maker / 100 := by
    unfold makerFeePct orElse
    rw [hm]
    simp [hm0]
  have h2 : takerFeePct config = taker / 100 := by
    unfold takerFeePct orElse
    rw [ht]
    simp [ht0]
  unfold pnlValOf
  rw [hfees, if_pos rfl, if_pos hdist]
  unfold feesOf exitPrice
  dsimp only
  rw [h1, h2]
  by_cases hw : t.status = .WIN
  · rw [if_pos hw, if_pos ⟨hw, htp⟩, if_pos hw, if_pos hw]
  · rw [if_neg hw, if_neg (fun h => hw h.1), if_pos hsl, if_neg hw, if_neg hw]

end PnL

/-! ## The Hurst exponent -/

lemma calculateHurst_eq (mathLog mathSqrt : ℚ → ℚ) (candles : List Bar)
    (hlen : 200 ≤ candles.length) :
    (calculateHurst mathLog mathSqrt candles).hurst =
      if (if rawHurst mathLog mathSqrt candles > 1 then 0.99
          else rawHurst mathLog mathSqrt candles) < 0 then 0.01
      else (if rawHurst mathLog mathSqrt candles > 1 then 0.99
          else rawHurst mathLog mathSqrt candles) := by
  unfold calculateHurst
  rw [if_neg (by omega)]
  rfl

/-- C32, counterexample.  For the 200 bars with closes 100, 100, 200, 100,
200, ... the rescaled range is about 1.0025 (`R` is the logarithm of 2 and `S`
is `sqrt(198/199)` times that), so the raw estimate is about 0.0005: it is not
negative, hence not clamped, and the returned `hurst` is below 0.01. -/
theorem hurst_below_lower_bound_counterexample :
    0 < (calculateHurst sampleLog sampleSqrt zigzagSeries).hurst ∧
    (calculateHurst sampleLog sampleSqrt zigzagSeries).hurst < 1 / 1000 ∧
    (calculateHurst sampleLog sampleSqrt zigzagSeries).hurst =
      rawHurst sampleLog sampleSqrt zigzagSeries := by
  decide!

/-- C32, amended.  For every series of at least 200 bars the returned `hurst`
is the raw estimate `log(R/S) / log(199)` when that lies in [0, 1], 0.99 when
the raw estimate exceeds 1, and 0.01 when it is negative; so it lies in the
closed interval [0, 1], and raw estimates in [0, 0.01) and (0.99, 1] are
returned as they are. -/
theorem hurst_clamped_outside_unit_interval (mathLog mathSqrt : ℚ → ℚ) (candles : List Bar)
    (hlen : 200 ≤ candles.length) :
    (calculateHurst mathLog mathSqrt candles).hurst =
      (if rawHurst mathLog mathSqrt candles > 1 then 0.99
       else if rawHurst mathLog mathSqrt candles < 0 then 0.01
       else rawHurst mathLog mathSqrt candles) ∧
    0 ≤ (calculateHurst mathLog mathSqrt candles).hurst ∧
    (calculateHurst mathLog mathSqrt candles).hurst ≤ 1 := by
  rw [calculateHurst_eq mathLog mathSqrt candles hlen]
  by_cases h1 : rawHurst mathLog mathSqrt candles > 1
  · simp only [if_pos h1]
    norm_num
  · simp only [if_neg h1]
    by_cases h0 : rawHurst mathLog mathSqrt candles < 0
    · simp only [if_pos h0]
      norm_num
    · simp only [if_neg h0]
      exact ⟨trivial, le_of_not_lt h0, le_of_not_lt h1⟩

theorem hurst_clamped_outside_unit_interval_witness :
    0 ≤ (calculateHurst sampleLog sampleSqrt zigzagSeries).hurst ∧
    (calculateHurst sampleLog sampleSqrt zigzagSeries).hurst ≤ 1 :=
  (hurst_clamped_outside_unit_interval sampleLog sampleSqrt zigzagSeries
    (by simp only [zigzagSeries, List.length_map, List.length_range, le_refl])).2

/-! ## The regression channel -/

lemma foldl_add_eq_sum (f : Nat → ℚ) (l : List Nat) :
    ∀ s : ℚ, l.foldl (fun (s : ℚ) (i : Nat) => s + f i) s = s + (l.map f).sum := by
  induction l with
  | nil => intro s; simp
  | cons a rest ih =>
    intro s
    rw [List.foldl_cons, ih, List.map_cons, List.sum_cons]
    ring

lemma range_sum_eq (f : Nat → ℚ) (n : Nat) :
    ((List.range n).map f).sum = ∑ i in Finset.range n, f i := by
  induction n with
  | zero => simp
  | succ k ih =>
    rw [List.range_succ, List.map_append, List.sum_append, ih, Finset.sum_range_succ]
    simp

lemma foldl_range (f : Nat → ℚ) (n : Nat) :
    (List.range n).foldl (fun (s : ℚ) (i : Nat) => s + f i) 0 = ∑ i in Finset.range n, f i := by
  rw [foldl_add_eq_sum, range_sum_eq, zero_add]

lemma sum_index (n : Nat) : ∑ i in Finset.range n, (i : ℚ) = (n : ℚ) * ((n : ℚ) - 1) / 2 := by
  induction n with
  | zero => simp
  | succ k ih =>
    rw [Finset.sum_range_succ, ih]
    push_cast
    ring

lemma sum_index_sq (n : Nat) :
    ∑ i in Finset.range n, (i : ℚ) * (i : ℚ) =
      ((n : ℚ) - 1) * (n : ℚ) * (2 * (n : ℚ) - 1) / 6 := by
  induction n with
  | zero => simp
  | succ k ih =>
    rw [Finset.sum_range_succ, ih]
    push_cast
    ring

lemma regression_denominator_pos (n : Nat) (hn : 2 ≤ n) :
    0 < (n : ℚ) * (∑ i in Finset.range n, (i : ℚ) * (i : ℚ)) -
      (∑ i in Finset.range n, (i : ℚ)) * (∑ i in Finset.range n, (i : ℚ)) := by
  rw [sum_index, sum_index_sq]
  have h2 : (2 : ℚ) ≤ (n : ℚ) := by exact_mod_cast hn
  have : (n : ℚ) * (((n : ℚ) - 1) * (n : ℚ) * (2 * (n : ℚ) - 1) / 6) -
      (n : ℚ) * ((n : ℚ) - 1) / 2 * ((n : ℚ) * ((n : ℚ) - 1) / 2) =
      (n : ℚ) * (n : ℚ) * ((n : ℚ) - 1) * ((n : ℚ) + 1) / 12 := by ring
  rw [this]
  have h3 : (0 : ℚ) < (n : ℚ) := by linarith
  have h4 : (0 : ℚ) < (n : ℚ) - 1 := by linarith
  positivity

/-- Least squares: the line with the slope and intercept of the normal
equations has the smallest sum of squared errors. -/
lemma least_squares (y : Nat → ℚ) (n : Nat) (hn : 2 ≤ n) (m b m1 b1 : ℚ)
    (hm : m = ((n : ℚ) * (∑ i in Finset.range n, (i : ℚ) * y i) -
        (∑ i in Finset.range n, (i : ℚ)) * (∑ i in Finset.range n, y i)) /
      ((n : ℚ) * (∑ i in Finset.range n, (i : ℚ) * (i : ℚ)) -
        (∑ i in Finset.range n, (i : ℚ)) * (∑ i in Finset.range n, (i : ℚ))))
    (hb : b = ((∑ i in Finset.range n, y i) - m * (∑ i in Finset.range n, (i : ℚ))) / (n : ℚ)) :
    ∑ i in Finset.range n, (y i - (m * (i : ℚ) + b)) ^ 2 ≤
      ∑ i in Finset.range n, (y i - (m1 * (i : ℚ) + b1)) ^ 2 := by
  have hD := regression_denominator_pos n hn
  have hn0 : (0 : ℚ) < (n : ℚ) := by
    have : (2 : ℚ) ≤ (n : ℚ) := by exact_mod_cast hn
    linarith
  set Sx := ∑ i in Finset.range n, (i : ℚ) with hSx
  set Sy := ∑ i in Finset.range n, y i with hSy
  set Sxy := ∑ i in Finset.range n, (i : ℚ) * y i with hSxy
  set Sxx := ∑ i in Finset.range n, (i : ℚ) * (i : ℚ) with hSxx
  have hmD : m * ((n : ℚ) * Sxx - Sx * Sx) = (n : ℚ) * Sxy - Sx * Sy := by
    rw [hm]
    exact div_mul_cancel₀ _ (ne_of_gt hD)
  have hbn : b * (n : ℚ) = Sy - m * Sx := by
    rw [hb]
    exact div_mul_cancel₀ _ (ne_of_gt hn0)
  have he0 : ∑ i in Finset.range n, (y i - (m * (i : ℚ) + b)) = 0 := by
    have : ∑ i in Finset.range n, (y i - (m * (i : ℚ) + b)) = Sy - m * Sx - b * (n : ℚ) := by
      rw [Finset.sum_sub_distrib, Finset.sum_add_distrib, ← Finset.mul_sum, Finset.sum_const,
        Finset.card_range, nsmul_eq_mul]
      ring
    rw [this, hbn]
    ring
  have he1 : ∑ i in Finset.range n, (i : ℚ) * (y i - (m * (i : ℚ) + b)) = 0 := by
    have : ∑ i in Finset.range n, (i : ℚ) * (y i - (m * (i : ℚ) + b)) =
        Sxy - m * Sxx - b * Sx := by
      have hterm : ∀ i ∈ Finset.range n, (i : ℚ) * (y i - (m * (i : ℚ) + b)) =
          (i : ℚ) * y i - (m * ((i : ℚ) * (i : ℚ)) + b * (i : ℚ)) := fun i _ => by ring
      rw [Finset.sum_congr rfl hterm, Finset.sum_sub_distrib, Finset.sum_add_distrib,
        ← Finset.mul_sum, ← Finset.mul_sum]
      ring
    rw [this]
    have h1 : (n : ℚ) * (Sxy - m * Sxx - b * Sx) = 0 := by
      have : (n : ℚ) * (Sxy - m * Sxx - b * Sx) =
          ((n : ℚ) * Sxy - Sx * Sy) - m * ((n : ℚ) * Sxx - Sx * Sx) -
            (b * (n : ℚ) - (Sy - m * Sx)) * Sx := by ring
      rw [this, hmD, hbn]
      ring
    rcases mul_eq_zero.mp h1 with h | h
    · exact absurd h (ne_of_gt hn0)
    · exact h
  have hsplit : ∀ i ∈ Finset.range n, (y i - (m1 * (i : ℚ) + b1)) ^ 2 =
      (y i - (m * (i : ℚ) + b)) ^ 2 +
        (2 * (m - m1) * ((i : ℚ) * (y i - (m * (i : ℚ) + b))) +
          2 * (b - b1) * (y i - (m * (i : ℚ) + b))) +
        ((m - m1) * (i : ℚ) + (b - b1)) ^ 2 := fun i _ => by ring
  rw [Finset.sum_congr rfl hsplit, Finset.sum_add_distrib, Finset.sum_add_distrib,
    Finset.sum_add_distrib, ← Finset.mul_sum, ← Finset.mul_sum, he0, he1]
  have hsq : 0 ≤ ∑ i in Finset.range n, ((m - m1) * (i : ℚ) + (b - b1)) ^ 2 :=
    Finset.sum_nonneg fun i _ => sq_nonneg _
  linarith

lemma squaredError_eq (closes : List ℚ) (m b : ℚ) :
    squaredError closes m b =
      ∑ i in Finset.range closes.length, (closes.getD i 0 - (m * (i : ℚ) + b)) ^ 2 := by
  unfold squaredError
  exact range_sum_eq _ _

lemma nth_close (slice : List Bar) (i : Nat) :
    (nth slice i).close = (slice.map fun x => x.close).getD i 0 := by
  unfold nth
  rw [List.getD_eq_getElem?_getD, List.getD_eq_getElem?_getD, List.getElem?_map]
  cases slice[i]? <;> rfl

/-- C33.  For a period `n >= 2` and at least `n` bars, `calculateRegLin`
returns a channel whose midline is the least-squares fit of the last `n` closes
against `x = 0..n-1`: no slope `m1` and intercept `b1` give a smaller sum of
squared errors than `slope` and `mid1`; and `mid2 = mid1 + slope * (n - 1 +
20)`. -/
theorem midline_is_least_squares (mathSqrt : ℚ → ℚ) (candles : List Bar)
    (config : RegLinConfig) (hn : 2 ≤ periodOf config)
    (hlen : periodOf config ≤ candles.length) :
    ∃ r, calculateRegLin mathSqrt candles config = some r ∧
      (∀ m1 b1 : ℚ,
        squaredError (lastCloses candles (periodOf config)) r.slope r.mid1 ≤
          squaredError (lastCloses candles (periodOf config)) m1 b1) ∧
      r.mid2 = r.mid1 + r.slope * ((periodOf config : ℚ) - 1 + 20) := by
  have hsl : (candles.drop (candles.length - periodOf config)).length = periodOf config := by
    rw [List.length_drop]
    omega
  have hcl : (lastCloses candles (periodOf config)).length = periodOf config := by
    unfold lastCloses
    rw [List.length_map, hsl]
  unfold calculateRegLin
  dsimp only
  rw [if_neg (by omega)]
  refine ⟨_, rfl, ?_, ?_⟩
  · intro m1 b1
    rw [squaredError_eq, squaredError_eq, hcl]
    dsimp only
    apply least_squares (fun i => (lastCloses candles (periodOf config)).getD i 0)
      (periodOf config) hn
    · rw [hsl, foldl_range, foldl_range, foldl_range, foldl_range]
      simp only [nth_close]
      rfl
    · rw [hsl, foldl_range, foldl_range, foldl_range, foldl_range]
      simp only [nth_close]
      rfl
  · dsimp only
    rw [hsl]

theorem midline_is_least_squares_witness :
    ∃ r, calculateRegLin id threeBars ⟨some 3, none, none⟩ = some r ∧
      (∀ m1 b1 : ℚ,
        squaredError (lastCloses threeBars (periodOf ⟨some 3, none, none⟩)) r.slope r.mid1 ≤
          squaredError (lastCloses threeBars (periodOf ⟨some 3, none, none⟩)) m1 b1) ∧
      r.mid2 = r.mid1 + r.slope * ((periodOf ⟨some 3, none, none⟩ : ℚ) - 1 + 20) :=
  midline_is_least_squares id threeBars ⟨some 3, none, none⟩ (by decide) (by decide)

namespace Liquidity

/-! ## Outcomes of the exit simulation -/

lemma simpleExit_result (s : Bool) (sl tp rr : ℚ) (bars : List Bar) :
    simpleExit s sl tp rr bars = { outcome := .OPEN, exitTime := none, pnlR := 0 } ∨
    (∃ b ∈ bars, simpleExit s sl tp rr bars =
      { outcome := .LOSS, exitTime := some b.time, pnlR := -1 }) ∨
    (∃ b ∈ bars, simpleExit s sl tp rr bars =
      { outcome := .WIN, exitTime := some b.time, pnlR := rr }) := by
  induction bars with
  | nil => exact Or.inl rfl
  | cons bar rest ih =>
    rw [simpleExit_cons]
    by_cases h1 : hitStop s bar sl = true
    · rw [if_pos h1]
      exact Or.inr (Or.inl ⟨bar, List.mem_cons_self _ _, rfl⟩)
    · rw [if_neg h1]
      by_cases h2 : hitTarget s bar tp = true
      · rw [if_pos h2]
        exact Or.inr (Or.inr ⟨bar, List.mem_cons_self _ _, rfl⟩)
      · rw [if_neg h2]
        rcases ih with h | ⟨b, hb, h⟩ | ⟨b, hb, h⟩
        · exact Or.inl h
        · exact Or.inr (Or.inl ⟨b, List.mem_cons_of_mem _ hb, h⟩)
        · exact Or.inr (Or.inr ⟨b, List.mem_cons_of_mem _ hb, h⟩)

lemma beStep_booked (s : Bool) (e r : ℚ) (st : PartialState) (bar : Bar) :
    (beStep s e r st bar).tp1Hit = st.tp1Hit ∧
    (beStep s e r st bar).partialPnL = st.partialPnL := by
  unfold beStep
  by_cases h : (!st.movedToBE && reachedOneR s e r bar) = true
  · rw [if_pos h]
    exact ⟨rfl, rfl⟩
  · rw [if_neg h]
    exact ⟨rfl, rfl⟩

lemma tp1Step_booked (s : Bool) (e r t1 : ℚ) (st : PartialState) (bar : Bar)
    (h : BookedOk t1 st) : BookedOk t1 (tp1Step s e r t1 st bar) := by
  unfold tp1Step
  split
  · rename_i hc
    rw [Bool.and_eq_true, Bool.not_eq_true'] at hc
    refine ⟨fun hf => (by cases hf), fun _ => ?_⟩
    show st.partialPnL + 0.5 * t1 = 0.5 * t1
    rw [h.1 hc.1, zero_add]
  · exact h

lemma partialStep_booked (s : Bool) (e r t1 t2 : ℚ) (st : PartialState) (bar : Bar)
    (h : BookedOk t1 st) : BookedOk t1 (tp1Step s e r t1 (beStep s e r st bar) bar) := by
  apply tp1Step_booked
  obtain ⟨h1, h2⟩ := beStep_booked s e r st bar
  unfold BookedOk
  rw [h1, h2]
  exact h

/-- The possible results of the partial-exit loop. -/
lemma partialExit_result (s : Bool) (e r t1 t2 : ℚ) (bars : List Bar) :
    ∀ st, BookedOk t1 st →
      partialExit s e r t1 t2 st bars = { outcome := .OPEN, exitTime := none, pnlR := 0 } ∨
      ∃ b ∈ bars, (partialExit s e r t1 t2 st bars).exitTime = some b.time ∧
        (((partialExit s e r t1 t2 st bars).outcome = .LOSS ∧
            (partialExit s e r t1 t2 st bars).pnlR = -1) ∨
          ((partialExit s e r t1 t2 st bars).outcome = .BE ∧
            (partialExit s e r t1 t2 st bars).pnlR = 0) ∨
          ((partialExit s e r t1 t2 st bars).outcome = .WIN ∧
            ((partialExit s e r t1 t2 st bars).pnlR = 0.5 * t1 ∨
              (partialExit s e r t1 t2 st bars).pnlR = 0.5 * t1 + 0.5 * t2))) := by
  induction bars with
  | nil => intro st _; exact Or.inl rfl
  | cons bar rest ih =>
    intro st hst
    have hb := partialStep_booked s e r t1 t2 st bar hst
    rw [partialExit_cons]
    rcases partialStep_cases s e r t1 t2 st bar with ⟨c1, -, c3⟩ | ⟨-, -, c3⟩ | ⟨-, -, c3⟩
    · rw [c3]
      refine Or.inr ⟨bar, List.mem_cons_self _ _, rfl, Or.inr (Or.inr ⟨rfl, Or.inr ?_⟩)⟩
      show _ + 0.5 * t2 = _
      rw [hb.2 c1]
    · rw [c3]
      refine Or.inr ⟨bar, List.mem_cons_self _ _, ?_, ?_⟩
      · dsimp only
        split
        · rfl
        · split <;> rfl
      · dsimp only
        by_cases h1 : (tp1Step s e r t1 (beStep s e r st bar) bar).tp1Hit = true
        · rw [if_pos h1]
          exact Or.inr (Or.inr ⟨rfl, Or.inl (hb.2 h1)⟩)
        · rw [if_neg h1]
          by_cases h2 : (tp1Step s e r t1 (beStep s e r st bar) bar).movedToBE = true
          · rw [if_pos h2]
            exact Or.inr (Or.inl ⟨rfl, rfl⟩)
          · rw [if_neg h2]
            exact Or.inl ⟨rfl, rfl⟩
    · rw [c3]
      dsimp only
      rcases ih _ hb with h | ⟨b, hbm, h⟩
      · exact Or.inl h
      · exact Or.inr ⟨b, List.mem_cons_of_mem _ hbm, h⟩

/-- The result of the exit simulation: still open without exit time and
profit, or closed with a profit from the outcome set of the mode. -/
lemma simulateExit_result (candles : List Bar) (mode : Mode) (s : Bool) (e : Entry) :
    ((simulateExit candles mode s e).exitTime = none ∧
      (simulateExit candles mode s e).outcome = .OPEN ∧
      (simulateExit candles mode s e).pnlR = 0) ∨
    ((∃ x, (simulateExit candles mode s e).exitTime = some x) ∧
      (simulateExit candles mode s e).pnlR ∈ pnlOutcomes mode ∧
      ((simulateExit candles mode s e).pnlR = -1 ↔
        (simulateExit candles mode s e).outcome = .LOSS) ∧
      (simulateExit candles mode s e).outcome ≠ .OPEN) := by
  unfold simulateExit
  dsimp only
  by_cases hm : isPartialMode mode = true
  · rw [if_pos hm]
    have hinit : BookedOk (tp1RR mode)
        { currentSL := e.slPrice, tp1Hit := false, movedToBE := false, partialPnL := 0 } :=
      ⟨fun _ => rfl, fun h => by cases h⟩
    have ht : (tp1RR mode = 3 ∧ tp2RR mode = 5 ∧ pnlOutcomes mode = [-1, 0, 1.5, 4]) ∨
        (tp1RR mode = 2 ∧ tp2RR mode = 4 ∧ pnlOutcomes mode = [-1, 0, 1, 3]) := by
      cases mode
      · exact absurd hm (by decide)
      · exact absurd hm (by decide)
      · exact absurd hm (by decide)
      · exact absurd hm (by decide)
      · exact Or.inl ⟨rfl, rfl, rfl⟩
      · exact Or.inr ⟨rfl, rfl, rfl⟩
    rcases partialExit_result s e.entryPrice |e.entryPrice - e.slPrice| (tp1RR mode)
      (tp2RR mode) (candles.drop (e.entryIdx + 1)) _ hinit with h | ⟨b, -, hx, h⟩
    · rw [h]
      exact Or.inl ⟨rfl, rfl, rfl⟩
    · refine Or.inr ⟨⟨_, hx⟩, ?_⟩
      rcases ht with ⟨a1, a2, a3⟩ | ⟨a1, a2, a3⟩
      · rw [a3]
        rw [a1, a2] at h ⊢
        rcases h with ⟨ho, hp⟩ | ⟨ho, hp⟩ | ⟨ho, hp | hp⟩ <;> rw [ho, hp] <;>
          refine ⟨by norm_num, ⟨fun h1 => ?_, fun h1 => ?_⟩, by decide⟩ <;>
          first | rfl | (cases h1) | (norm_num at h1)
      · rw [a3]
        rw [a1, a2] at h ⊢
        rcases h with ⟨ho, hp⟩ | ⟨ho, hp⟩ | ⟨ho, hp | hp⟩ <;> rw [ho, hp] <;>
          refine ⟨by norm_num, ⟨fun h1 => ?_, fun h1 => ?_⟩, by decide⟩ <;>
          first | rfl | (cases h1) | (norm_num at h1)
  · rw [if_neg hm]
    have ht : pnlOutcomes mode = [-1, rrMultiplier mode] ∧ rrMultiplier mode ≠ -1 := by
      cases mode
      · exact ⟨rfl, by decide⟩
      · exact ⟨rfl, by decide⟩
      · exact ⟨rfl, by decide⟩
      · exact ⟨rfl, by decide⟩
      · exact absurd rfl hm
      · exact absurd rfl hm
    rcases simpleExit_result s e.slPrice
      (targetPrice s e.entryPrice |e.entryPrice - e.slPrice| (rrMultiplier mode))
      (rrMultiplier mode) (candles.drop (e.entryIdx + 1)) with h | ⟨b, -, h⟩ | ⟨b, -, h⟩
    · rw [h]
      exact Or.inl ⟨rfl, rfl, rfl⟩
    · rw [h, ht.1]
      exact Or.inr ⟨⟨_, rfl⟩, by simp, by simp, by simp⟩
    · rw [h, ht.1]
      refine Or.inr ⟨⟨_, rfl⟩, by simp, ?_, by simp⟩
      dsimp only
      constructor
      · intro h1
        exact absurd h1 ht.2
      · intro h1
        cases h1

/-- C37.  Every trade returned by `runLiquidityStrategy` that has an
`exitTime` has its `pnl` in the outcome set of the mode: -1 or 2 for `standard`
and `atr`, -1 or 3 for `agro` and `atr_agro`, one of -1, 0, 1.5, 4 for
`atr_partial_1` and one of -1, 0, 1, 3 for `atr_partial_2`; `pnl = -1` exactly
when the outcome is `LOSS`; and every trade without `exitTime` has status
`OPEN` and `pnl = 0`. -/
theorem closed_pnl_in_outcome_set (candles : List Bar) (mode : Mode) (options : Options) :
    ∃ r, runLiquidityStrategy candles mode options = .ok r ∧
      ∀ t ∈ r.trades,
        (∀ x, t.exitTime = some x → t.pnl ∈ pnlOutcomes mode) ∧
        (t.pnl = -1 ↔ t.outcome = .LOSS) ∧
        (t.outcome = .LOSS ↔ t.status = .LOSS) ∧
        (t.exitTime = none → t.status = .OPEN ∧ t.outcome = .OPEN ∧ t.pnl = 0) := by
  obtain ⟨r, zones, hr, -, h2, -⟩ := run_spec candles mode options
  refine ⟨r, hr, fun t ht => ?_⟩
  obtain ⟨line, breakIdx, ob, e, -, -, -, -, -, -, -, fvg, -, -, -, -, hm⟩ := h2 t ht
  have hc : (ctxOf candles mode options zones).candles = candles := rfl
  have hmode : (ctxOf candles mode options zones).mode = mode := rfl
  rw [hc, hmode] at hm
  obtain ⟨-, -, -, -, -, -, -, f8, f9, f10, -, -, -, -, -, f16⟩ := makeTrade_fields candles
    mode line (decide (line.type = .DOWN)) (nth candles breakIdx).time ob fvg e
    (entrySignalsOf (ctxOf candles mode options zones) (decide (line.type = .DOWN)) e)
    (simulateExit candles mode (decide (line.type = .DOWN)) e)
  rw [← hm] at f8 f9 f10 f16
  rw [f8, f9, f10, f16]
  rcases simulateExit_result candles mode (decide (line.type = .DOWN)) e with
    ⟨h1, h3, h4⟩ | ⟨⟨x, h1⟩, h3, h4, h5⟩
  · rw [h1, h3, h4]
    refine ⟨fun x hx => (by cases hx), ?_, ?_, fun _ => ⟨rfl, rfl, rfl⟩⟩
    · constructor
      · intro h
        norm_num at h
      · intro h
        cases h
    · constructor
      · intro h
        cases h
      · intro h
        rw [if_neg (by decide)] at h
        cases h
  · refine ⟨fun _ _ => h3, h4, ?_, fun hn => ?_⟩
    · by_cases hbe : (simulateExit candles mode (decide (line.type = .DOWN)) e).outcome = .BE
      · rw [if_pos hbe, hbe]
        constructor <;> intro h <;> cases h
      · rw [if_neg hbe]
    · rw [h1] at hn
      cases hn

theorem closed_pnl_in_outcome_set_witness :
    ∃ r, runLiquidityStrategy breakEvenSeries .atr defaultOptions = .ok r ∧
      ∃ t ∈ r.trades, t.exitTime ≠ none ∧ t.pnl ∈ pnlOutcomes .atr := by
  obtain ⟨r, hr, h⟩ := closed_pnl_in_outcome_set breakEvenSeries .atr defaultOptions
  have hne := breakEvenSeries_facts.2.1
  rw [tradesOf_eq _ _ _ r hr] at hne
  obtain ⟨t, ht⟩ := List.exists_mem_of_ne_nil _ hne
  rw [List.mem_filter, decide_eq_true_eq] at ht
  obtain ⟨x, hx⟩ := Option.ne_none_iff_exists'.mp ht.2
  exact ⟨r, hr, t, ht.1, ht.2, (h t ht.1).1 x hx⟩

end Liquidity

namespace Liquidity

/-! ## Levels of the trades -/

lemma atr14_nonneg (candles : List Bar) (i : Nat) : 0 ≤ atr14 candles i := by
  unfold atr14
  have := foldl_add_ge (fun j => trueRange candles (i - j))
    (fun j => trueRange_nonneg candles (i - j)) (List.range 14) 0
  exact div_nonneg this (by norm_num)

lemma atrOr_nonneg (candles : List Bar) (i : Nat) (hi : i < candles.length)
    (hwf : ∀ b ∈ candles, b.low ≤ b.high) : 0 ≤ atrOr candles i := by
  unfold atrOr
  split
  · have := hwf _ (nth_mem candles i hi)
    linarith
  · unfold atrValues
    split
    · exact atr14_nonneg candles i
    · exact le_refl _

/-- The stop of an accepted entry is not on the profit side of the entry
price. -/
lemma findEntry_side (candles : List Bar) (mode : Mode) (s : Bool) (ob : Zone) (breakIdx : Nat)
    (e : Entry) (hwf : ∀ b ∈ candles, b.low ≤ b.high)
    (h : findEntry candles mode s ob breakIdx = some e) :
    (s = true → e.entryPrice ≤ e.slPrice) ∧ (s = false → e.slPrice ≤ e.entryPrice) := by
  obtain ⟨-, hlen, -⟩ := findEntry_spec candles mode s ob breakIdx e h
  have hatr := atrOr_nonneg candles e.entryIdx hlen hwf
  unfold findEntry at h
  dsimp only at h
  by_cases hm : isATRMode mode = true
  · rw [if_pos hm] at h
    split at h
    · cases h
    · rename_i k hk
      cases h
      dsimp only at hatr ⊢
      constructor
      · intro hs
        subst hs
        simp only [if_true]
        linarith
      · intro hs
        subst hs
        simp only [Bool.false_eq_true, if_false]
        linarith
  · rw [if_neg hm] at h
    split at h
    · cases h
    · rename_i k hk
      by_cases hv : (!(if s = true then decide ((nth candles k).close ≤ max ob.top ob.bottom)
          else decide ((nth candles k).close ≥ min ob.top ob.bottom))) = true
      · rw [if_pos hv] at h
        cases h
      · rw [if_neg hv] at h
        cases h
        dsimp only at hatr ⊢
        rw [Bool.not_eq_true, Bool.not_eq_false'] at hv
        constructor
        · intro hs
          subst hs
          simp only [if_true] at hv ⊢
          have := of_decide_eq_true hv
          linarith [le_max_left ob.top ob.bottom]
        · intro hs
          subst hs
          simp only [Bool.false_eq_true, if_false] at hv ⊢
          have := of_decide_eq_true hv
          linarith

lemma targetMultiple_eq (mode : Mode) :
    (if isPartialMode mode then tp2RR mode else rrMultiplier mode) = targetMultiple mode ∧
    0 < targetMultiple mode := by
  cases mode <;> exact ⟨rfl, by decide⟩

/-- In exact arithmetic: for bars with `low <= high`, each trade returned by
`runLiquidityStrategy` has strictly positive risk and correctly ordered levels,
with `|tp - entry| = k * |entry - sl|` where `k` is the risk-reward of the mode
or, in the partial modes, the second target multiple; a LONG comes from a
broken UP line and a SHORT from a broken DOWN line. -/
lemma trade_levels_ordered (candles : List Bar) (mode : Mode) (options : Options)
    (hwf : ∀ b ∈ candles, b.low ≤ b.high) :
    ∃ r, runLiquidityStrategy candles mode options = .ok r ∧
      ∀ t ∈ r.trades,
        0 < |t.entry - t.sl| ∧
        (t.type = .LONG ∨ t.type = .SHORT) ∧
        (t.type = .LONG → t.sl < t.entry ∧ t.entry < t.tp ∧ t.savedLine.type = .UP) ∧
        (t.type = .SHORT → t.tp < t.entry ∧ t.entry < t.sl ∧ t.savedLine.type = .DOWN) ∧
        |t.tp - t.entry| = targetMultiple mode * |t.entry - t.sl| ∧
        t.savedLine.status = .BROKEN := by
  obtain ⟨r, zones, hr, -, h2, -⟩ := run_spec candles mode options
  refine ⟨r, hr, fun t ht => ?_⟩
  obtain ⟨line, breakIdx, ob, e, hs, -, -, -, -, -, -, fvg, -, he, -, hrisk, hm⟩ := h2 t ht
  have hc : (ctxOf candles mode options zones).candles = candles := rfl
  have hmode : (ctxOf candles mode options zones).mode = mode := rfl
  rw [hc, hmode] at he hm
  obtain ⟨-, f2, -, -, -, -, -, -, -, -, -, f12, f13, f14, f15, -⟩ := makeTrade_fields candles
    mode line (decide (line.type = .DOWN)) (nth candles breakIdx).time ob fvg e
    (entrySignalsOf (ctxOf candles mode options zones) (decide (line.type = .DOWN)) e)
    (simulateExit candles mode (decide (line.type = .DOWN)) e)
  rw [← hm] at f2 f12 f13 f14 f15
  obtain ⟨s1, s2⟩ := findEntry_side candles mode _ ob breakIdx e hwf he
  obtain ⟨k1, k2⟩ := targetMultiple_eq mode
  have htp : t.tp = targetPrice (decide (line.type = .DOWN)) e.entryPrice
      |e.entryPrice - e.slPrice| (targetMultiple mode) := by
    rw [f14, ← k1]
    rfl
  rw [f12, f13, f2, htp, f15]
  have hk : 0 < targetMultiple mode * |e.entryPrice - e.slPrice| := mul_pos k2 hrisk
  have hne : e.entryPrice ≠ e.slPrice := fun h => by
    rw [h, sub_self, abs_zero] at hrisk
    exact lt_irrefl _ hrisk
  by_cases hd : line.type = .DOWN
  · have hle := s1 (decide_eq_true hd)
    have hlt : e.entryPrice < e.slPrice := lt_of_le_of_ne hle hne
    rw [decide_eq_true hd]
    unfold targetPrice
    rw [if_pos rfl, if_pos rfl]
    refine ⟨hrisk, Or.inr rfl, fun h => (by cases h), fun _ => ⟨by linarith, hlt, hd⟩, ?_, hs⟩
    rw [show e.entryPrice - targetMultiple mode * |e.entryPrice - e.slPrice| - e.entryPrice =
      -(targetMultiple mode * |e.entryPrice - e.slPrice|) by ring, abs_neg, abs_of_pos hk]
  · have hle := s2 (decide_eq_false hd)
    have hlt : e.slPrice < e.entryPrice := lt_of_le_of_ne hle (Ne.symm hne)
    have hup : line.type = .UP := by
      cases hty : line.type
      · exact absurd hty hd
      · rfl
    rw [decide_eq_false hd]
    unfold targetPrice
    rw [if_neg (by decide), if_neg (by decide)]
    refine ⟨hrisk, Or.inl rfl, fun _ => ⟨hlt, by linarith, hup⟩, fun h => (by cases h), ?_, hs⟩
    rw [show e.entryPrice + targetMultiple mode * |e.entryPrice - e.slPrice| - e.entryPrice =
      targetMultiple mode * |e.entryPrice - e.slPrice| by ring, abs_of_pos hk]

lemma trapSeries_low_le_high : ∀ b ∈ trapSeries, b.low ≤ b.high := by decide!

end Liquidity

namespace Liquidity

/-! ## The same-bar tie-break of the two exit paths -/

lemma simpleExit_append (s : Bool) (sl tp rr : ℚ) (pre rest : List Bar)
    (hpre : ∀ b ∈ pre, hitStop s b sl = false ∧ hitTarget s b tp = false) :
    simpleExit s sl tp rr (pre ++ rest) = simpleExit s sl tp rr rest := by
  induction pre with
  | nil => rfl
  | cons b pre1 ih =>
    obtain ⟨h1, h2⟩ := hpre b (List.mem_cons_self _ _)
    rw [List.cons_append, simpleExit_cons, h1, h2]
    exact ih fun b1 hb1 => hpre b1 (List.mem_cons_of_mem _ hb1)

/-- The loop invariant of the partial exit: the booked profit, and the stop at
the entry price once it was moved. -/
lemma partialStep_inv (s : Bool) (e r t1 t2 : ℚ) (st : PartialState) (bar : Bar)
    (hb : BookedOk t1 st) (hbe : st.movedToBE = true → st.currentSL = e) :
    BookedOk t1 (tp1Step s e r t1 (beStep s e r st bar) bar) ∧
    ((tp1Step s e r t1 (beStep s e r st bar) bar).movedToBE = true →
      (tp1Step s e r t1 (beStep s e r st bar) bar).currentSL = e) := by
  refine ⟨partialStep_booked s e r t1 t2 st bar hb, ?_⟩
  have h3 := (beStep_facts s e r st bar).2.2 hbe
  unfold tp1Step
  split
  · intro _
    rfl
  · exact h3

lemma partialStateAfter_spec (s : Bool) (e r t1 t2 : ℚ) (pre : List Bar) :
    ∀ st st1, partialStateAfter s e r t1 t2 st pre = some st1 →
      BookedOk t1 st → (st.movedToBE = true → st.currentSL = e) →
      (BookedOk t1 st1 ∧ (st1.movedToBE = true → st1.currentSL = e)) ∧
      ∀ rest, partialExit s e r t1 t2 st (pre ++ rest) = partialExit s e r t1 t2 st1 rest := by
  induction pre with
  | nil =>
    intro st st1 h hb hbe
    unfold partialStateAfter at h
    cases h
    exact ⟨⟨hb, hbe⟩, fun rest => rfl⟩
  | cons bar pre1 ih =>
    intro st st1 h hb hbe
    rw [partialStateAfter.eq_def] at h
    dsimp only at h
    rcases partialStep_cases s e r t1 t2 st bar with ⟨-, -, c3⟩ | ⟨-, -, c3⟩ | ⟨-, -, c3⟩
    · have : ∃ a x, partialStep s e r t1 t2 st bar = (a, some x) :=
        ⟨(partialStep s e r t1 t2 st bar).1, _, Prod.ext rfl c3⟩
      obtain ⟨a, x, hax⟩ := this
      rw [hax] at h
      cases h
    · have : ∃ a x, partialStep s e r t1 t2 st bar = (a, some x) :=
        ⟨(partialStep s e r t1 t2 st bar).1, _, Prod.ext rfl c3⟩
      obtain ⟨a, x, hax⟩ := this
      rw [hax] at h
      cases h
    · rw [c3] at h
      dsimp only at h
      obtain ⟨i1, i2⟩ := partialStep_inv s e r t1 t2 st bar hb hbe
      obtain ⟨j1, j2⟩ := ih _ st1 h i1 i2
      refine ⟨j1, fun rest => ?_⟩
      rw [List.cons_append, partialExit_cons, c3]
      exact j2 rest

lemma hitStop_entry (s : Bool) (bar : Bar) (entry sl : ℚ)
    (hside : if s then entry < sl else sl < entry) (hstop : hitStop s bar sl = true) :
    hitStop s bar entry = true := by
  unfold hitStop at hstop ⊢
  cases s
  · simp only [Bool.false_eq_true, if_false, decide_eq_true_eq] at hside hstop ⊢
    linarith
  · simp only [if_true, decide_eq_true_eq] at hside hstop ⊢
    linarith

lemma reachedOneR_of_target (s : Bool) (bar : Bar) (entry risk t1 : ℚ) (hrisk : 0 < risk)
    (ht1 : 1 ≤ t1) (hit : hitTarget s bar (targetPrice s entry risk t1) = true) :
    reachedOneR s entry risk bar = true := by
  unfold hitTarget targetPrice at hit
  unfold reachedOneR
  have hmul : risk ≤ t1 * risk := by nlinarith
  cases s
  · simp only [Bool.false_eq_true, if_false, decide_eq_true_eq] at hit ⊢
    rw [ge_iff_le, le_div_iff₀ hrisk]
    linarith
  · simp only [if_true, decide_eq_true_eq] at hit ⊢
    rw [ge_iff_le, le_div_iff₀ hrisk]
    linarith

/-- The iteration of the partial-exit loop at a bar that touches the first
target, not hit before, and the stop. -/
lemma partialStep_tie (s : Bool) (entry sl risk t1 t2 : ℚ) (st : PartialState) (bar : Bar)
    (hb : BookedOk t1 st) (hbe : st.movedToBE = true → st.currentSL = entry)
    (hside : if s then entry < sl else sl < entry) (hrisk : 0 < risk) (ht1 : 1 ≤ t1)
    (hno : st.tp1Hit = false) (hstop : hitStop s bar sl = true)
    (hit : hitTarget s bar (targetPrice s entry risk t1) = true) :
    (partialStep s entry risk t1 t2 st bar).2 = some
      { outcome := .WIN, exitTime := some bar.time,
        pnlR := if hitTarget s bar (targetPrice s entry risk t2) then 0.5 * t1 + 0.5 * t2
          else 0.5 * t1 } := by
  have hr := reachedOneR_of_target s bar entry risk t1 hrisk ht1 hit
  have hsl1 : (beStep s entry risk st bar).currentSL = entry := by
    by_cases hm : st.movedToBE = true
    · have hsame : beStep s entry risk st bar = st := by
        unfold beStep
        rw [hm]
        rfl
      rw [hsame]
      exact hbe hm
    · unfold beStep
      rw [Bool.not_eq_true] at hm
      rw [hm, hr]
      rfl
  obtain ⟨b1, b2⟩ := beStep_booked s entry risk st bar
  have htp : (tp1Step s entry risk t1 (beStep s entry risk st bar) bar).tp1Hit = true ∧
      (tp1Step s entry risk t1 (beStep s entry risk st bar) bar).partialPnL = 0.5 * t1 := by
    unfold tp1Step
    rw [b1, hno, hit]
    refine ⟨rfl, ?_⟩
    show (beStep s entry risk st bar).partialPnL + 0.5 * t1 = 0.5 * t1
    rw [b2, hb.1 hno, zero_add]
  rcases partialStep_cases s entry risk t1 t2 st bar with ⟨-, c2, c3⟩ | ⟨c1, -, c3⟩ | ⟨-, c2, -⟩
  · rw [c3, c2, htp.2]
    rfl
  · rw [c3]
    rw [htp.1, Bool.true_and] at c1
    rw [c1, htp.1, htp.2]
    rfl
  · rw [hsl1, hitStop_entry s bar entry sl hside hstop] at c2
    cases c2

/-- C36.  The same-bar tie-break of the two exit paths.  Let `bar` be a bar
after the entry bar that touches the stop, the trade being still open when the
loop reaches it.  In the single-target modes the trade is closed at `bar` as
`LOSS` with `pnl = -1`, whether or not `bar` touches the take-profit.  In the
partial modes, when the first target was not hit before and `bar` touches it,
the trade is closed at `bar` as `WIN` with `pnl = 0.5 * tp1RR`, or `0.5 *
tp1RR + 0.5 * tp2RR` when `bar` also touches the second target. -/
theorem same_bar_tie_break (candles : List Bar) (mode : Mode) (s : Bool) (e : Entry)
    (pre : List Bar) (bar : Bar) (post : List Bar)
    (hsplit : candles.drop (e.entryIdx + 1) = pre ++ bar :: post)
    (hside : if s then e.entryPrice < e.slPrice else e.slPrice < e.entryPrice)
    (hstop : hitStop s bar e.slPrice = true) :
    (isPartialMode mode = false →
      (∀ b ∈ pre, hitStop s b e.slPrice = false ∧
        hitTarget s b (targetPrice s e.entryPrice |e.entryPrice - e.slPrice|
          (rrMultiplier mode)) = false) →
      simulateExit candles mode s e =
        { outcome := .LOSS, exitTime := some bar.time, pnlR := -1 }) ∧
    (isPartialMode mode = true →
      ∀ st, partialStateAfter s e.entryPrice |e.entryPrice - e.slPrice| (tp1RR mode)
          (tp2RR mode)
          { currentSL := e.slPrice, tp1Hit := false, movedToBE := false, partialPnL := 0 }
          pre = some st →
        st.tp1Hit = false →
        hitTarget s bar (targetPrice s e.entryPrice |e.entryPrice - e.slPrice|
          (tp1RR mode)) = true →
        simulateExit candles mode s e =
          { outcome := .WIN, exitTime := some bar.time,
            pnlR := if hitTarget s bar (targetPrice s e.entryPrice
                |e.entryPrice - e.slPrice| (tp2RR mode)) then
                0.5 * tp1RR mode + 0.5 * tp2RR mode
              else 0.5 * tp1RR mode }) := by
  have hrisk : 0 < |e.entryPrice - e.slPrice| := by
    apply abs_pos.mpr
    cases s
    · simp only [Bool.false_eq_true, if_false] at hside
      linarith
    · simp only [if_true] at hside
      linarith
  constructor
  · intro hm hpre
    unfold simulateExit
    dsimp only
    rw [hm, hsplit, if_neg (by decide), simpleExit_append _ _ _ _ _ _ hpre, simpleExit_cons,
      if_pos hstop]
  · intro hm st hst hno hit
    have ht1 : 1 ≤ tp1RR mode := by
      cases mode
      · exact absurd hm (by decide)
      · exact absurd hm (by decide)
      · exact absurd hm (by decide)
      · exact absurd hm (by decide)
      · decide
      · decide
    have hinit : BookedOk (tp1RR mode)
        { currentSL := e.slPrice, tp1Hit := false, movedToBE := false, partialPnL := 0 } :=
      ⟨fun _ => rfl, fun h => (by cases h)⟩
    obtain ⟨⟨i1, i2⟩, happ⟩ := partialStateAfter_spec s e.entryPrice
      |e.entryPrice - e.slPrice| (tp1RR mode) (tp2RR mode) pre _ st hst hinit
      (fun h => (by cases h))
    unfold simulateExit
    dsimp only
    rw [hm, hsplit, if_pos rfl, happ, partialExit_cons,
      partialStep_tie s e.entryPrice e.slPrice _ (tp1RR mode) (tp2RR mode) st bar i1 i2 hside
        hrisk ht1 hno hstop hit]

theorem same_bar_tie_break_witness :
    simulateExit tieBars .standard true tieEntry =
      { outcome := .LOSS, exitTime := some 120, pnlR := -1 } ∧
    simulateExit tieBars .atr_partial_1 true tieEntry =
      { outcome := .WIN, exitTime := some 120, pnlR := 0.5 * 3 } :=
  ⟨(same_bar_tie_break tieBars .standard true tieEntry [⟨60, 100, 101, 99, 100, 0⟩]
      ⟨120, 100, 106, 84, 95, 0⟩ [⟨180, 95, 96, 94, 95, 0⟩] rfl (by decide!) (by decide!)).1
      rfl (by decide!),
    ((same_bar_tie_break tieBars .atr_partial_1 true tieEntry [⟨60, 100, 101, 99, 100, 0⟩]
      ⟨120, 100, 106, 84, 95, 0⟩ [⟨180, 95, 96, 94, 95, 0⟩] rfl (by decide!) (by decide!)).2
      rfl { currentSL := 105, tp1Hit := false, movedToBE := false, partialPnL := 0 }
      (by decide!) rfl (by decide!)).trans (by decide!)⟩

end Liquidity

/-! ## Cancellation is unreachable for the trades of `analyzeSMC` -/

lemma lifecycleStep_not_cancelled (t : Trade) (bar : Bar) (rr : ℚ)
    (hl : t.type = .LONG → t.sl ≤ t.entry) (hs : t.type = .SHORT → t.entry ≤ t.sl)
    (hc : t.status ≠ .CANCELLED) : (lifecycleStep t bar rr).1.status ≠ .CANCELLED := by
  unfold lifecycleStep
  by_cases h1 : t.status = .PENDING
  · rw [if_pos h1]
    unfold pendingStep
    cases ht : t.type
    · have hle := hl ht
      dsimp only
      by_cases h2 : bar.low ≤ t.entry
      · rw [if_pos h2]
        simp
      · rw [if_neg h2, if_neg (fun h3 => h2 (le_trans h3 hle))]
        exact hc
    · have hle := hs ht
      dsimp only
      by_cases h2 : bar.high ≥ t.entry
      · rw [if_pos h2]
        simp
      · rw [if_neg h2, if_neg (fun h3 => h2 (le_trans hle h3))]
        exact hc
  · rw [if_neg h1]
    by_cases h2 : t.status = .OPEN
    · rw [if_pos h2]
      unfold openStep
      cases ht : t.type <;> dsimp only <;> split_ifs <;> simp [h2]
    · rw [if_neg h2]
      exact hc

lemma lifecycleLoop_not_cancelled (rr : ℚ) (l : List Bar) :
    ∀ t : Trade, (t.type = .LONG → t.sl ≤ t.entry) → (t.type = .SHORT → t.entry ≤ t.sl) →
      t.status ≠ .CANCELLED → (lifecycleLoop rr t l).status ≠ .CANCELLED := by
  induction l with
  | nil => intro t _ _ hc; exact hc
  | cons bar rest ih =>
    intro t hl hs hc
    have hstep := lifecycleStep_not_cancelled t bar rr hl hs hc
    obtain ⟨f1, f2, f3, -⟩ := lifecycleStep_fields t bar rr
    rw [lifecycleLoop_cons]
    split_ifs
    · exact hstep
    · apply ih _ _ _ hstep
      · rw [f1, f2, f3]
        exact hl
      · rw [f1, f2, f3]
        exact hs

/-- With the stop not on the profit side of the entry, `createTrade` returns a
trade, never `null`. -/
lemma createTrade_some (idx : Nat) (type : TradeType) (entry sl : ℚ) (time : Int)
    (candles : List Bar) (rr : ℚ) (hne : candles ≠ [])
    (hl : type = .LONG → sl ≤ entry) (hs : type = .SHORT → entry ≤ sl) :
    ∃ t, createTrade idx type entry sl time candles rr = .ok (some t) ∧
      t.status ≠ .CANCELLED ∧ t.type = type ∧ t.entry = entry ∧ t.sl = sl := by
  have hloop := lifecycleLoop_not_cancelled rr (candles.drop (idx + 1))
    (newTrade idx type entry sl time rr) hl hs (by unfold newTrade; simp)
  obtain ⟨g1, g2, g3, -⟩ := lifecycleLoop_fields rr (candles.drop (idx + 1))
    (newTrade idx type entry sl time rr)
  have n1 : (newTrade idx type entry sl time rr).type = type := rfl
  have n2 : (newTrade idx type entry sl time rr).entry = entry := rfl
  have n3 : (newTrade idx type entry sl time rr).sl = sl := rfl
  rw [n1] at g1
  rw [n2] at g2
  rw [n3] at g3
  unfold createTrade processTradeLifecycle
  dsimp only
  by_cases ho : (lifecycleLoop rr (newTrade idx type entry sl time rr)
      (candles.drop (idx + 1))).status = .OPEN
  · rw [if_pos ho]
    cases hlast : candles.getLast? with
    | none => exact absurd (List.getLast?_eq_none_iff.mp hlast) hne
    | some last =>
      dsimp only
      rw [if_pos (by rw [ho]; decide)]
      exact ⟨_, rfl, by rw [ho]; decide, g1, g2, g3⟩
  · rw [if_neg ho]
    dsimp only
    rw [if_pos hloop]
    exact ⟨_, rfl, hloop, g1, g2, g3⟩

lemma pushGap_trades (env : Env) (st : LoopState) (zone : Zone) (ob : Option (Nat × Zone))
    (t : Trade) (hkeep : env.keepTrades = false) :
    ∃ st1, pushGap env st zone ob (.ok (some t)) = .ok st1 ∧
      st1.zones = st.zones ++ gapZones (some zone) ob ∧
      st1.processedOBs = gapProcessed (some zone) ob st.processedOBs ∧
      st1.trades = st.trades ++ [{ t with savedFVG := some zone, savedOB := ob.map Prod.snd }] := by
  unfold pushGap gapZones gapProcessed
  rcases ob with _ | ⟨k, o⟩ <;> simp [hkeep]

lemma bullStep_trades (env : Env) (st : LoopState) (i : Nat) (hkeep : env.keepTrades = false)
    (hwf : ∀ b ∈ env.candles, b.low ≤ b.high) (h2 : 2 ≤ i) (hi : i < env.candles.length)
    (hlive : TradesLive st.trades) :
    ∃ st1, bullStep env st i = .ok st1 ∧
      st1.zones = st.zones ++
        gapZones (bullFVG env i) (associatedOB env st.processedOBs i true) ∧
      st1.processedOBs = bullProcessed env st.processedOBs i ∧
      st1.trades.map (fun t => t.savedFVG) =
        st.trades.map (fun t => t.savedFVG) ++ (bullFVG env i).toList.map some ∧
      TradesLive st1.trades ∧
      ((bullFVG env i).isSome = true →
        ∃ t, createTrade i .LONG (nth env.candles i).low
          (min (nth env.candles (i - 1)).low (nth env.candles (i - 2)).low)
          (nth env.candles i).time env.candles env.riskReward = .ok (some t)) := by
  have hne : env.candles ≠ [] := fun h => by
    rw [h] at hi
    exact absurd hi (Nat.not_lt_zero _)
  unfold bullStep bullProcessed
  cases h : bullFVG env i with
  | none =>
    refine ⟨st, rfl, by simp [gapZones], by simp [gapProcessed], by simp, hlive, ?_⟩
    intro hsome
    cases hsome
  | some zone =>
    have hgap := ((bullFVG_isSome_iff env i).mp (by rw [h]; rfl)).1
    have hw := hwf _ (nth_mem env.candles (i - 2) (by omega))
    have hside : min (nth env.candles (i - 1)).low (nth env.candles (i - 2)).low <
        (nth env.candles i).low :=
      lt_of_le_of_lt (min_le_right _ _) (lt_of_le_of_lt hw hgap)
    obtain ⟨t, ht, t1, t2, t3, t4⟩ := createTrade_some i .LONG (nth env.candles i).low
      (min (nth env.candles (i - 1)).low (nth env.candles (i - 2)).low)
      (nth env.candles i).time env.candles env.riskReward hne (fun _ => le_of_lt hside)
      (fun hx => by cases hx)
    dsimp only
    rw [ht]
    obtain ⟨st1, p1, p2, p3, p4⟩ := pushGap_trades env st zone
      (associatedOB env st.processedOBs i true) t hkeep
    refine ⟨st1, p1, p2, p3, ?_, ?_, fun _ => ⟨t, rfl⟩⟩
    · rw [p4, List.map_append]
      rfl
    · intro x hx
      rw [p4, List.mem_append, List.mem_singleton] at hx
      rcases hx with hx | hx
      · exact hlive x hx
      · rw [hx]
        refine ⟨t1, fun _ => ?_, fun hty => ?_⟩
        · show t.sl < t.entry
          rw [t3, t4]
          exact hside
        · have : t.type = .SHORT := hty
          rw [t2] at this
          cases this

lemma bearStep_trades (env : Env) (st : LoopState) (i : Nat) (hkeep : env.keepTrades = false)
    (hwf : ∀ b ∈ env.candles, b.low ≤ b.high) (h2 : 2 ≤ i) (hi : i < env.candles.length)
    (hlive : TradesLive st.trades) :
    ∃ st1, bearStep env st i = .ok st1 ∧
      st1.zones = st.zones ++
        gapZones (bearFVG env i) (associatedOB env st.processedOBs i false) ∧
      st1.processedOBs =
        gapProcessed (bearFVG env i) (associatedOB env st.processedOBs i false)
          st.processedOBs ∧
      st1.trades.map (fun t => t.savedFVG) =
        st.trades.map (fun t => t.savedFVG) ++ (bearFVG env i).toList.map some ∧
      TradesLive st1.trades ∧
      ((bearFVG env i).isSome = true →
        ∃ t, createTrade i .SHORT (nth env.candles i).high
          (max (nth env.candles (i - 1)).high (nth env.candles (i - 2)).high)
          (nth env.candles i).time env.candles env.riskReward = .ok (some t)) := by
  have hne : env.candles ≠ [] := fun h => by
    rw [h] at hi
    exact absurd hi (Nat.not_lt_zero _)
  unfold bearStep
  cases h : bearFVG env i with
  | none =>
    refine ⟨st, rfl, by simp [gapZones], by simp [gapProcessed], by simp, hlive, ?_⟩
    intro hsome
    cases hsome
  | some zone =>
    have hgap := ((bearFVG_isSome_iff env i).mp (by rw [h]; rfl)).1
    have hw := hwf _ (nth_mem env.candles (i - 2) (by omega))
    have hside : (nth env.candles i).high <
        max (nth env.candles (i - 1)).high (nth env.candles (i - 2)).high :=
      lt_of_lt_of_le (lt_of_lt_of_le hgap hw) (le_max_right _ _)
    obtain ⟨t, ht, t1, t2, t3, t4⟩ := createTrade_some i .SHORT (nth env.candles i).high
      (max (nth env.candles (i - 1)).high (nth env.candles (i - 2)).high)
      (nth env.candles i).time env.candles env.riskReward hne (fun hx => by cases hx)
      (fun _ => le_of_lt hside)
    dsimp only
    rw [ht]
    obtain ⟨st1, p1, p2, p3, p4⟩ := pushGap_trades env st zone
      (associatedOB env st.processedOBs i false) t hkeep
    refine ⟨st1, p1, p2, p3, ?_, ?_, fun _ => ⟨t, rfl⟩⟩
    · rw [p4, List.map_append]
      rfl
    · intro x hx
      rw [p4, List.mem_append, List.mem_singleton] at hx
      rcases hx with hx | hx
      · exact hlive x hx
      · rw [hx]
        refine ⟨t1, fun hty => ?_, fun _ => ?_⟩
        · have : t.type = .LONG := hty
          rw [t2] at this
          cases this
        · show t.entry < t.sl
          rw [t3, t4]
          exact hside

lemma loopZones_cons (env : Env) (p : List Nat) (i : Nat) (rest : List Nat) :
    loopZones env p (i :: rest) =
      stepZones env p i ++ loopZones env (stepProcessed env p i) rest := rfl

lemma smcLoop_trades (env : Env) (hkeep : env.keepTrades = false)
    (hwf : ∀ b ∈ env.candles, b.low ≤ b.high) (l : List Nat)
    (hl : ∀ i ∈ l, 2 ≤ i ∧ i < env.candles.length) :
    ∀ st : LoopState, TradesLive st.trades →
      ∃ st1, smcLoop env st l = .ok st1 ∧
        st1.zones = st.zones ++ loopZones env st.processedOBs l ∧
        st1.trades.map (fun t => t.savedFVG) =
          st.trades.map (fun t => t.savedFVG) ++ (loopFVGs env l).map some ∧
        TradesLive st1.trades := by
  induction l with
  | nil =>
    intro st hlive
    exact ⟨st, rfl, by simp [loopZones], by simp [loopFVGs], hlive⟩
  | cons i rest ih =>
    intro st hlive
    obtain ⟨hi2, hilen⟩ := hl i (List.mem_cons_self _ _)
    obtain ⟨s1, a1, a2, a3, a4, a5, -⟩ := bullStep_trades env st i hkeep hwf hi2 hilen hlive
    obtain ⟨s2, b1, b2, b3, b4, b5, -⟩ := bearStep_trades env s1 i hkeep hwf hi2 hilen a5
    obtain ⟨s3, c1, c2, c3, c4⟩ := ih (fun j hj => hl j (List.mem_cons_of_mem _ hj)) s2 b5
    refine ⟨s3, ?_, ?_, ?_, c4⟩
    · rw [smcLoop.eq_def]
      simp only
      unfold smcStep
      rw [a1]
      simp only
      rw [b1]
      exact c1
    · rw [c2, b2, b3, a2, a3, loopZones_cons]
      unfold stepZones stepProcessed
      simp only [List.append_assoc]
    · rw [c3, b4, a4]
      unfold loopFVGs
      simp only [List.flatMap_cons, List.map_append, List.append_assoc]

lemma gapZones_fvg (zone : Option Zone) (ob : Option (Nat × Zone))
    (hz : ∀ z, zone = some z → z.label = .FVG)
    (ho : ∀ k o, ob = some (k, o) → o.label = .OB) :
    (gapZones zone ob).filter (fun z => decide (z.label = .FVG)) = zone.toList := by
  unfold gapZones
  rcases zone with _ | z
  · rfl
  · have h1 := hz z rfl
    rcases ob with _ | ⟨k, o⟩
    · simp [h1]
    · have h2 := ho k o rfl
      simp [h1, h2]

lemma associatedOB_label (env : Env) (p : List Nat) (i : Nat) (b : Bool) :
    ∀ k o, associatedOB env p i b = some (k, o) → o.label = .OB := by
  intro k o h
  obtain ⟨-, -, h3⟩ := associatedOB_some env p i k b o h
  rw [h3]
  exact (obZone_fields env i k b).2.1

lemma loopZones_fvg (env : Env) (l : List Nat) :
    ∀ p, (loopZones env p l).filter (fun z => decide (z.label = .FVG)) = loopFVGs env l := by
  induction l with
  | nil => intro p; rfl
  | cons i rest ih =>
    intro p
    rw [loopZones_cons]
    unfold stepZones
    rw [List.filter_append, List.filter_append, ih,
      gapZones_fvg _ _ (fun z hz => (bullFVG_some env i z hz).2.1) (associatedOB_label _ _ _ _),
      gapZones_fvg _ _ (fun z hz => (bearFVG_some env i z hz).2.1) (associatedOB_label _ _ _ _)]
    unfold loopFVGs
    simp only [List.flatMap_cons, List.append_assoc]

/-- C40.  For at least 50 bars with `low <= high` and `keepTrades` false,
`analyzeSMC` returns exactly one trade per FVG zone: the `savedFVG` of the
trades are the FVG zones of the result, each once.  No returned trade is
`CANCELLED`; the stop of a LONG is strictly below its entry and the stop of a
SHORT strictly above; and at every accepted gap `createTrade` returns a trade,
never `null`. -/
theorem one_trade_per_gap_zone (candles : List Bar) (config : Config)
    (h50 : 50 ≤ candles.length) (hwf : ∀ b ∈ candles, b.low ≤ b.high)
    (hkeep : config.keepTrades = false) :
    ∃ r, analyzeSMC candles config = .ok r ∧
      (r.trades.map fun t => t.savedFVG).Perm
        ((r.zones.filter fun z => decide (z.label = .FVG)).map some) ∧
      r.trades.length = (r.zones.filter fun z => decide (z.label = .FVG)).length ∧
      (∀ t ∈ r.trades, t.status ≠ .CANCELLED ∧ (t.type = .LONG → t.sl < t.entry) ∧
        (t.type = .SHORT → t.entry < t.sl)) ∧
      (∀ i ∈ loopIndices (envOf candles config),
        ((bullFVG (envOf candles config) i).isSome = true →
          ∃ t, createTrade i .LONG (nth candles i).low
            (min (nth candles (i - 1)).low (nth candles (i - 2)).low)
            (nth candles i).time candles (riskRewardOf config) = .ok (some t)) ∧
        ((bearFVG (envOf candles config) i).isSome = true →
          ∃ t, createTrade i .SHORT (nth candles i).high
            (max (nth candles (i - 1)).high (nth candles (i - 2)).high)
            (nth candles i).time candles (riskRewardOf config) = .ok (some t))) := by
  have hidx : ∀ i ∈ loopIndices (envOf candles config),
      2 ≤ i ∧ i < (envOf candles config).candles.length := by
    intro i hi
    obtain ⟨h1, h2⟩ := (mem_loopIndices candles config i).mp hi
    have := startIndexOf_ge candles config
    exact ⟨by omega, h2⟩
  have hlive0 : TradesLive ([] : List Trade) := fun t ht => by cases ht
  obtain ⟨st, hst, hz, htr, hlive⟩ := smcLoop_trades (envOf candles config) hkeep hwf
    (loopIndices (envOf candles config)) hidx
    { zones := [], trades := [], processedOBs := [] } hlive0
  have hperm : (st.zones.insertionSort (fun a b => a.time ≤ b.time)).Perm st.zones :=
    List.perm_insertionSort _ _
  have hfz : ((st.zones.insertionSort (fun a b => a.time ≤ b.time)).filter
      fun z => decide (z.label = .FVG)).Perm
      (loopFVGs (envOf candles config) (loopIndices (envOf candles config))) := by
    have h1 : st.zones.filter (fun z => decide (z.label = .FVG)) =
        loopFVGs (envOf candles config) (loopIndices (envOf candles config)) := by
      rw [hz, List.nil_append, loopZones_fvg]
    rw [← h1]
    exact hperm.filter _
  have htr1 : st.trades.map (fun t => t.savedFVG) =
      (loopFVGs (envOf candles config) (loopIndices (envOf candles config))).map some := by
    rw [htr]
    rfl
  refine ⟨{ zones := st.zones.insertionSort (fun a b => a.time ≤ b.time),
            trades := st.trades }, ?_, ?_, ?_, hlive, ?_⟩
  · unfold analyzeSMC
    rw [if_neg (by omega), hst]
  · show (st.trades.map fun t => t.savedFVG).Perm _
    rw [htr1]
    exact (hfz.map some).symm
  · show st.trades.length = _
    rw [← List.length_map st.trades (fun t => t.savedFVG), htr1, List.length_map]
    exact hfz.length_eq.symm
  · intro i hi
    obtain ⟨hi2, hilen⟩ := hidx i hi
    obtain ⟨-, -, -, -, -, -, a6⟩ := bullStep_trades (envOf candles config)
      { zones := [], trades := [], processedOBs := [] } i hkeep hwf hi2 hilen hlive0
    obtain ⟨-, -, -, -, -, -, b6⟩ := bearStep_trades (envOf candles config)
      { zones := [], trades := [], processedOBs := [] } i hkeep hwf hi2 hilen hlive0
    exact ⟨a6, b6⟩

theorem one_trade_per_gap_zone_witness :
    ∃ r, analyzeSMC gapSeries defaultConfig = .ok r ∧
      r.trades.length = (r.zones.filter fun z => decide (z.label = .FVG)).length ∧
      r.trades ≠ [] := by
  obtain ⟨r, hr, -, h2, -⟩ := one_trade_per_gap_zone gapSeries defaultConfig (by decide)
    (by decide!) rfl
  refine ⟨r, hr, h2, ?_⟩
  have hne : (analyzeSMC gapSeries defaultConfig).toOption.map (fun x => x.trades.length) ≠
      some 0 := by decide!
  intro h0
  rw [hr] at hne
  apply hne
  show some r.trades.length = some 0
  rw [h0]
  rfl

/-! ## The three pivot strengths against the smallest one -/

lemma pushHighs_eq (candles : List Bar) :
    pushHighs candles = pushPivots candles (isPivotHigh candles) (fun b => b.high) := rfl

lemma pushLows_eq (candles : List Bar) :
    pushLows candles = pushPivots candles (isPivotLow candles) (fun b => b.low) := rfl

lemma calculateTrendLines_eq (candles : List Bar) (config : TrendConfig) :
    calculateTrendLines candles config =
      linesFromPivots candles config (pivotHighs candles config) (pivotLows candles config) :=
  rfl

lemma buildLine_withoutStrength (candles : List Bar) (config : TrendConfig) (type : LineType)
    (B A : Pivot) :
    buildLine candles config type (withoutStrength B) (withoutStrength A) =
      buildLine candles config type B A := rfl

/-- One pass over the indices `l`: what is kept, what is added, and that every
index passing the test is present afterwards. -/
lemma pass_spec (candles : List Bar) (test : Nat → Nat → Bool) (priceOf : Bar → ℚ) (k : Nat)
    (l : List Nat) :
    ∀ acc : List Pivot,
      let res := l.foldl (fun acc i =>
        if test k i && !(acc.any fun h => decide (h.index = i)) then
          acc ++ [pivotAt candles priceOf i k]
        else acc) acc
      (∀ p ∈ acc, p ∈ res) ∧
      (∀ p ∈ res, p ∈ acc ∨ ∃ i ∈ l, test k i = true ∧ p = pivotAt candles priceOf i k) ∧
      (∀ i ∈ l, test k i = true → ∃ p ∈ res, p.index = i) ∧
      ((acc.map fun p => p.index).Nodup → (res.map fun p => p.index).Nodup) := by
  induction l with
  | nil =>
    intro acc
    exact ⟨fun p hp => hp, fun p hp => Or.inl hp, fun i hi => (by cases hi), fun h => h⟩
  | cons i rest ih =>
    intro acc
    dsimp only
    rw [List.foldl_cons]
    by_cases hc : (test k i && !(acc.any fun h => decide (h.index = i))) = true
    · rw [if_pos hc]
      obtain ⟨i1, i2, i3, i4⟩ := ih (acc ++ [pivotAt candles priceOf i k])
      rw [Bool.and_eq_true, Bool.not_eq_true', List.any_eq_false] at hc
      refine ⟨fun p hp => i1 p (List.mem_append_left _ hp), fun p hp => ?_, fun j hj ht => ?_,
        fun hn => ?_⟩
      · rcases i2 p hp with h | ⟨j, hj, h1, h2⟩
        · rw [List.mem_append, List.mem_singleton] at h
          rcases h with h | h
          · exact Or.inl h
          · exact Or.inr ⟨i, List.mem_cons_self _ _, hc.1, h⟩
        · exact Or.inr ⟨j, List.mem_cons_of_mem _ hj, h1, h2⟩
      · rcases List.mem_cons.mp hj with h | h
        · exact ⟨pivotAt candles priceOf i k, i1 _ (by simp), by rw [h]; rfl⟩
        · exact i3 j h ht
      · apply i4
        rw [List.map_append, List.map_singleton]
        apply List.Nodup.append hn (List.nodup_singleton _)
        intro x hx hx2
        rw [List.mem_singleton] at hx2
        rw [List.mem_map] at hx
        obtain ⟨p, hp1, hp2⟩ := hx
        have := hc.2 p hp1
        simp only [decide_eq_true_eq] at this
        apply this
        rw [hp2, hx2]
        rfl
    · rw [if_neg hc]
      obtain ⟨i1, i2, i3, i4⟩ := ih acc
      refine ⟨i1, fun p hp => ?_, fun j hj ht => ?_, i4⟩
      · rcases i2 p hp with h | ⟨j, hj, h1, h2⟩
        · exact Or.inl h
        · exact Or.inr ⟨j, List.mem_cons_of_mem _ hj, h1, h2⟩
      · rcases List.mem_cons.mp hj with h | h
        · rw [h] at ht
          rw [ht, Bool.true_and, Bool.not_eq_true, Bool.not_eq_false', List.any_eq_true] at hc
          obtain ⟨p, hp1, hp2⟩ := hc
          simp only [decide_eq_true_eq] at hp2
          exact ⟨p, i1 p hp1, by rw [hp2, h]⟩
        · exact i3 j h ht

lemma pushPivots_spec (candles : List Bar) (test : Nat → Nat → Bool) (priceOf : Bar → ℚ)
    (acc : List Pivot) (k : Nat) :
    (∀ p ∈ acc, p ∈ pushPivots candles test priceOf acc k) ∧
    (∀ p ∈ pushPivots candles test priceOf acc k,
      p ∈ acc ∨ ∃ i, k ≤ i ∧ i + k < candles.length ∧ test k i = true ∧
        p = pivotAt candles priceOf i k) ∧
    (∀ i, k ≤ i → i + k < candles.length → test k i = true →
      ∃ p ∈ pushPivots candles test priceOf acc k, p.index = i) ∧
    ((acc.map fun p => p.index).Nodup →
      ((pushPivots candles test priceOf acc k).map fun p => p.index).Nodup) := by
  obtain ⟨h1, h2, h3, h4⟩ := pass_spec candles test priceOf k
    (List.range' k (candles.length - k - k)) acc
  refine ⟨h1, fun p hp => ?_, fun i hi1 hi2 ht => ?_, h4⟩
  · rcases h2 p hp with h | ⟨i, hi, ht, he⟩
    · exact Or.inl h
    · rw [List.mem_range'_1] at hi
      exact Or.inr ⟨i, hi.1, by omega, ht, he⟩
  · exact h3 i (by rw [List.mem_range'_1]; omega) ht

/-- All passes: the pivots found are the indices found at one of the
strengths, each once. -/
lemma passes_spec (candles : List Bar) (test : Nat → Nat → Bool) (priceOf : Bar → ℚ)
    (strengths : List Nat) :
    ∀ acc : List Pivot,
      (∀ p ∈ acc, p ∈ strengths.foldl (pushPivots candles test priceOf) acc) ∧
      (∀ p ∈ strengths.foldl (pushPivots candles test priceOf) acc,
        p ∈ acc ∨ ∃ k ∈ strengths, ∃ i, k ≤ i ∧ i + k < candles.length ∧ test k i = true ∧
          p = pivotAt candles priceOf i k) ∧
      (∀ i, foundAt candles test strengths i →
        ∃ p ∈ strengths.foldl (pushPivots candles test priceOf) acc, p.index = i) ∧
      ((acc.map fun p => p.index).Nodup →
        ((strengths.foldl (pushPivots candles test priceOf) acc).map fun p => p.index).Nodup) := by
  induction strengths with
  | nil =>
    intro acc
    refine ⟨fun p hp => hp, fun p hp => Or.inl hp, fun i hi => ?_, fun h => h⟩
    obtain ⟨k, hk, -⟩ := hi
    cases hk
  | cons k rest ih =>
    intro acc
    rw [List.foldl_cons]
    obtain ⟨a1, a2, a3, a4⟩ := pushPivots_spec candles test priceOf acc k
    obtain ⟨b1, b2, b3, b4⟩ := ih (pushPivots candles test priceOf acc k)
    refine ⟨fun p hp => b1 p (a1 p hp), fun p hp => ?_, fun i hi => ?_, fun hn => b4 (a4 hn)⟩
    · rcases b2 p hp with h | ⟨k1, hk1, i, h⟩
      · rcases a2 p h with h0 | ⟨i, h0⟩
        · exact Or.inl h0
        · exact Or.inr ⟨k, List.mem_cons_self _ _, i, h0⟩
      · exact Or.inr ⟨k1, List.mem_cons_of_mem _ hk1, i, h⟩
    · obtain ⟨k1, hk1, c1, c2, c3⟩ := hi
      rcases List.mem_cons.mp hk1 with h | h
      · rw [h] at c1 c2 c3
        obtain ⟨p, hp1, hp2⟩ := a3 i c1 c2 c3
        exact ⟨p, b1 p hp1, hp2⟩
      · exact b3 i ⟨k1, h, c1, c2, c3⟩

/-- The pivots of all passes, sorted and without the strength: strictly
increasing in the index, and exactly the records of the indices found. -/
lemma sorted_passes (candles : List Bar) (test : Nat → Nat → Bool) (priceOf : Bar → ℚ)
    (strengths : List Nat) :
    (((strengths.foldl (pushPivots candles test priceOf) []).insertionSort
        (fun a b => a.index ≤ b.index)).map withoutStrength).Pairwise
      (fun a b => a.index < b.index) ∧
    ∀ x, x ∈ ((strengths.foldl (pushPivots candles test priceOf) []).insertionSort
        (fun a b => a.index ≤ b.index)).map withoutStrength ↔
      ∃ i, foundAt candles test strengths i ∧ x = pivotAt candles priceOf i 0 := by
  obtain ⟨-, h2, h3, h4⟩ := passes_spec candles test priceOf strengths []
  have hperm := List.perm_insertionSort (fun a b : Pivot => a.index ≤ b.index)
    (strengths.foldl (pushPivots candles test priceOf) [])
  constructor
  · rw [List.pairwise_map]
    exact sorted_strict _ (((hperm.map _).nodup_iff).2 (h4 List.nodup_nil))
      (List.sorted_insertionSort _ _)
  · intro x
    rw [List.mem_map]
    constructor
    · rintro ⟨p, hp, rfl⟩
      rcases h2 p (hperm.mem_iff.1 hp) with h | ⟨k, hk, i, c1, c2, c3, c4⟩
      · cases h
      · exact ⟨i, ⟨k, hk, c1, c2, c3⟩, by rw [c4]; rfl⟩
    · rintro ⟨i, hi, rfl⟩
      obtain ⟨p, hp1, hp2⟩ := h3 i hi
      refine ⟨p, hperm.mem_iff.2 hp1, ?_⟩
      rcases h2 p hp1 with h | ⟨k, -, j, -, -, -, c4⟩
      · cases h
      · rw [c4] at hp2 ⊢
        have : j = i := hp2
        rw [this]
        rfl

lemma eq_of_strictly_sorted (l1 l2 : List Pivot)
    (h1 : l1.Pairwise (fun a b => a.index < b.index))
    (h2 : l2.Pairwise (fun a b => a.index < b.index)) (hmem : ∀ x, x ∈ l1 ↔ x ∈ l2) :
    l1 = l2 := by
  have hne : ∀ a b : Pivot, a.index < b.index → a ≠ b := fun a b h e => by
    rw [e] at h
    exact lt_irrefl _ h
  have n1 : l1.Nodup := h1.imp (hne _ _)
  have n2 : l2.Nodup := h2.imp (hne _ _)
  haveI : IsAntisymm Pivot (fun a b => a.index < b.index) :=
    ⟨fun a b hab hba => absurd hab (Nat.lt_asymm hba)⟩
  exact List.eq_of_perm_of_sorted ((List.perm_ext_iff_of_nodup n1 n2).mpr hmem) h1 h2

/-- With a test that a larger strength passes only where a smaller one does,
the passes over the strengths find what the smallest strength finds alone. -/
lemma passes_eq_smallest (candles : List Bar) (test : Nat → Nat → Bool) (priceOf : Bar → ℚ)
    (strengths : List Nat) (m : Nat) (hm : m ∈ strengths) (hmin : ∀ k ∈ strengths, m ≤ k)
    (hmono : ∀ k1 k2 i, k1 ≤ k2 → test k2 i = true → test k1 i = true) :
    ((strengths.foldl (pushPivots candles test priceOf) []).insertionSort
        (fun a b => a.index ≤ b.index)).map withoutStrength =
      ((pushPivots candles test priceOf [] m).insertionSort
        (fun a b => a.index ≤ b.index)).map withoutStrength := by
  obtain ⟨s1, s2⟩ := sorted_passes candles test priceOf strengths
  obtain ⟨t1, t2⟩ := sorted_passes candles test priceOf [m]
  apply eq_of_strictly_sorted _ _ s1 t1
  intro x
  rw [s2 x]
  rw [t2 x]
  constructor
  · rintro ⟨i, ⟨k, hk, c1, c2, c3⟩, hx⟩
    have hle := hmin k hk
    exact ⟨i, ⟨m, List.mem_singleton.mpr rfl, by omega, by omega, hmono m k i hle c3⟩, hx⟩
  · rintro ⟨i, ⟨k, hk, c1, c2, c3⟩, hx⟩
    rw [List.mem_singleton] at hk
    rw [hk] at c1 c2 c3
    exact ⟨i, ⟨m, hm, c1, c2, c3⟩, hx⟩

lemma isPivotHigh_mono (candles : List Bar) (k1 k2 i : Nat) (h : k1 ≤ k2)
    (h2 : isPivotHigh candles k2 i = true) : isPivotHigh candles k1 i = true := by
  rw [isPivotHigh_iff] at h2 ⊢
  exact fun j hj1 hj2 => h2 j hj1 (le_trans hj2 h)

lemma isPivotLow_mono (candles : List Bar) (k1 k2 i : Nat) (h : k1 ≤ k2)
    (h2 : isPivotLow candles k2 i = true) : isPivotLow candles k1 i = true := by
  rw [isPivotLow_iff] at h2 ⊢
  exact fun j hj1 hj2 => h2 j hj1 (le_trans hj2 h)

lemma smallestStrength_spec (config : TrendConfig) :
    smallestStrength config ∈ strengthsOf config ∧
    ∀ k ∈ strengthsOf config, smallestStrength config ≤ k := by
  unfold smallestStrength strengthsOf
  constructor
  · rcases min_choice (fractalStrengthOf config) (max 2 (fractalStrengthOf config - 2)) with
      h | h <;> rw [h] <;> simp
  · intro k hk
    simp only [List.mem_cons, List.mem_singleton, List.not_mem_nil, or_false] at hk
    rcases hk with rfl | rfl | rfl
    · exact min_le_left _ _
    · exact min_le_right _ _
    · exact le_trans (min_le_left _ _) (Nat.le_add_right _ _)

lemma pairsDesc_map (f : Pivot → Pivot) (l : List Pivot) :
    pairsDesc (l.map f) = (pairsDesc l).map fun pair => (f pair.1, f pair.2) := by
  induction l with
  | nil => rfl
  | cons a rest ih =>
    simp only [List.map_cons, pairsDesc, List.map_append, List.map_map, ih]
    rfl

lemma processCandidates_withoutStrength (candles : List Bar) (config : TrendConfig)
    (pivots : List Pivot) (type : LineType) :
    processCandidates candles config (pivots.map withoutStrength) type =
      processCandidates candles config pivots type := by
  unfold processCandidates
  rw [← List.map_reverse, pairsDesc_map, List.filterMap_map]
  rfl

lemma linesFromPivots_congr (candles : List Bar) (config : TrendConfig)
    (highs1 lows1 highs2 lows2 : List Pivot)
    (hh : highs1.map withoutStrength = highs2.map withoutStrength)
    (hl : lows1.map withoutStrength = lows2.map withoutStrength) :
    linesFromPivots candles config highs1 lows1 = linesFromPivots candles config highs2 lows2 := by
  unfold linesFromPivots
  rw [← processCandidates_withoutStrength candles config highs1,
    ← processCandidates_withoutStrength candles config lows1, hh, hl,
    processCandidates_withoutStrength, processCandidates_withoutStrength]

/-- C39.  The pivot detection of `calculateTrendLines` over the three
strengths `[s, max(2, s - 2), s + 3]` finds the pivots of the smallest strength
`m = min(s, max(2, s - 2))` alone: the sorted arrays `highs` and `lows` have
the same indices, and the same records up to the property `strength`, as those
of a single pass at strength `m`; and since no line reads `strength`, the
returned lines are those computed from the pivots of the single pass. -/
theorem three_strengths_equal_smallest (candles : List Bar) (config : TrendConfig) :
    (pivotHighs candles config).map (fun p => p.index) =
      (singleHighs candles (smallestStrength config)).map (fun p => p.index) ∧
    (pivotLows candles config).map (fun p => p.index) =
      (singleLows candles (smallestStrength config)).map (fun p => p.index) ∧
    (pivotHighs candles config).map withoutStrength =
      (singleHighs candles (smallestStrength config)).map withoutStrength ∧
    (pivotLows candles config).map withoutStrength =
      (singleLows candles (smallestStrength config)).map withoutStrength ∧
    calculateTrendLines candles config =
      linesFromPivots candles config (pivotHighs candles config) (pivotLows candles config) ∧
    calculateTrendLines candles config =
      linesFromPivots candles config (singleHighs candles (smallestStrength config))
        (singleLows candles (smallestStrength config)) := by
  obtain ⟨hm, hmin⟩ := smallestStrength_spec config
  have hh : (pivotHighs candles config).map withoutStrength =
      (singleHighs candles (smallestStrength config)).map withoutStrength := by
    unfold pivotHighs singleHighs
    rw [pushHighs_eq]
    exact passes_eq_smallest candles _ _ _ _ hm hmin (isPivotHigh_mono candles)
  have hl : (pivotLows candles config).map withoutStrength =
      (singleLows candles (smallestStrength config)).map withoutStrength := by
    unfold pivotLows singleLows
    rw [pushLows_eq]
    exact passes_eq_smallest candles _ _ _ _ hm hmin (isPivotLow_mono candles)
  have hidx : ∀ l : List Pivot, l.map (fun p => p.index) =
      (l.map withoutStrength).map (fun p => p.index) := by
    intro l
    rw [List.map_map]
    rfl
  refine ⟨?_, ?_, hh, hl, rfl, ?_⟩
  · rw [hidx, hh, ← hidx]
  · rw [hidx, hl, ← hidx]
  · rw [calculateTrendLines_eq]
    exact linesFromPivots_congr candles config _ _ _ _ hh hl

/-! ## The rounding error of `roundDouble` -/

lemma pow2_eq (e : Int) : pow2 e = (2 : ℚ) ^ e := by
  unfold pow2
  by_cases h : 0 ≤ e
  · rw [if_pos h]
    obtain ⟨n, rfl⟩ := Int.eq_ofNat_of_zero_le h
    rw [Int.toNat_ofNat, zpow_natCast]
    push_cast
    rfl
  · rw [if_neg h]
    have hneg : 0 ≤ -e := by omega
    obtain ⟨n, hn⟩ := Int.eq_ofNat_of_zero_le hneg
    have he : e = -(n : Int) := by omega
    rw [hn, Int.toNat_ofNat, he, zpow_neg, zpow_natCast]
    push_cast
    rw [one_div]

lemma two_zpow_pos (e : Int) : (0 : ℚ) < 2 ^ e := zpow_pos (by norm_num) e

lemma two_zpow_succ (e : Int) : (2 : ℚ) ^ (e + 1) = 2 ^ e * 2 :=
  zpow_add_one₀ (by norm_num) e

/-- The halving search finds the binary exponent of a value from 1 up. -/
lemma expUp_spec : ∀ (fuel : Nat) (a : ℚ), 1 ≤ a → a < 2 ^ fuel →
    (2 : ℚ) ^ (expUp fuel a) ≤ a ∧ a < 2 ^ (expUp fuel a + 1) := by
  intro fuel
  induction fuel with
  | zero =>
    intro a h1 h2
    rw [pow_zero] at h2
    exact absurd h1 (not_le.2 h2)
  | succ fuel ih =>
    intro a h1 h2
    unfold expUp
    by_cases h : a < 2
    · rw [if_pos h]
      refine ⟨by rw [zpow_zero]; exact h1, ?_⟩
      rw [zero_add, zpow_one]
      exact h
    · rw [if_neg h]
      have h3 : 1 ≤ a / 2 := by
        rw [le_div_iff₀ (by norm_num)]
        linarith [not_lt.1 h]
      have h4 : a / 2 < 2 ^ fuel := by
        rw [div_lt_iff₀ (by norm_num)]
        rw [pow_succ] at h2
        exact h2
      obtain ⟨i1, i2⟩ := ih (a / 2) h3 h4
      have s1 := two_zpow_succ (expUp fuel (a / 2))
      have s2 := two_zpow_succ (expUp fuel (a / 2) + 1)
      rw [le_div_iff₀ (by norm_num)] at i1
      rw [div_lt_iff₀ (by norm_num)] at i2
      constructor
      · rw [s1]
        exact i1
      · rw [s2]
        exact i2

/-- The doubling search finds the binary exponent of a value below 2. -/
lemma expDown_spec : ∀ (fuel : Nat) (a : ℚ), a < 2 → 1 / 2 ^ fuel ≤ a →
    (2 : ℚ) ^ (expDown fuel a) ≤ a ∧ a < 2 ^ (expDown fuel a + 1) := by
  intro fuel
  induction fuel with
  | zero =>
    intro a h1 h2
    rw [pow_zero, div_one] at h2
    unfold expDown
    refine ⟨by rw [zpow_zero]; exact h2, ?_⟩
    rw [zero_add, zpow_one]
    exact h1
  | succ fuel ih =>
    intro a h1 h2
    unfold expDown
    by_cases h : 1 ≤ a
    · rw [if_pos h]
      refine ⟨by rw [zpow_zero]; exact h, ?_⟩
      rw [zero_add, zpow_one]
      exact h1
    · rw [if_neg h]
      have h3 : a * 2 < 2 := by linarith [not_le.1 h]
      have h4 : 1 / 2 ^ fuel ≤ a * 2 := by
        rw [pow_succ] at h2
        have hp : (0 : ℚ) < 2 ^ fuel := pow_pos (by norm_num) fuel
        rw [div_le_iff₀ (by positivity)] at h2
        rw [div_le_iff₀ hp]
        linarith
      obtain ⟨i1, i2⟩ := ih (a * 2) h3 h4
      rw [sub_add_cancel]
      have hs : (2 : ℚ) ^ (expDown fuel (a * 2)) =
          2 ^ (expDown fuel (a * 2) - 1) * 2 := by
        rw [← two_zpow_succ, sub_add_cancel]
      constructor
      · rw [hs] at i1
        linarith
      · rw [two_zpow_succ] at i2
        linarith

/-- The binary exponent of a positive value within the range of the search. -/
lemma binaryExponent_spec (a : ℚ) (hlo : 1 / 2 ^ 1100 ≤ a) (hhi : a < 2 ^ 1100) :
    (2 : ℚ) ^ (binaryExponent a) ≤ a ∧ a < 2 ^ (binaryExponent a + 1) := by
  unfold binaryExponent
  by_cases h : 1 ≤ a
  · rw [if_pos h]
    exact expUp_spec 1100 a h hhi
  · rw [if_neg h]
    exact expDown_spec 1100 a (by linarith [not_le.1 h]) hlo

/-- Rounding to the nearest integer moves a value by at most one half. -/
lemma roundHalfEven_error (m : ℚ) : |(roundHalfEven m : ℚ) - m| ≤ 1 / 2 := by
  have h1 : (⌊m⌋ : ℚ) ≤ m := Int.floor_le m
  have h2 : m < (⌊m⌋ : ℚ) + 1 := Int.lt_floor_add_one m
  unfold roundHalfEven
  dsimp only
  by_cases ha : m - (⌊m⌋ : ℚ) < 1 / 2
  · rw [if_pos ha, abs_le]
    constructor <;> linarith
  · rw [if_neg ha]
    by_cases hb : m - (⌊m⌋ : ℚ) > 1 / 2
    · rw [if_pos hb, abs_le]
      push_cast
      constructor <;> linarith
    · rw [if_neg hb]
      have hc : m - (⌊m⌋ : ℚ) = 1 / 2 := le_antisymm (not_lt.1 hb) (not_lt.1 ha)
      by_cases hd : ⌊m⌋ % 2 = 0
      · rw [if_pos hd, abs_le]
        constructor <;> linarith
      · rw [if_neg hd, abs_le]
        push_cast
        constructor <;> linarith

/-- The relative error of `roundDouble` is at most `2^-53` on every value
within the range of the exponent search. -/
lemma roundDouble_error (x : ℚ) (hx : inRoundingRange x) :
    |roundDouble x - x| ≤ 1 / 2 ^ 53 * |x| := by
  obtain ⟨hlo, hhi⟩ := hx
  unfold roundDouble
  by_cases h0 : x = 0
  · rw [if_pos h0, h0]
    simp
  · rw [if_neg h0]
    have hlo1 : 1 / 2 ^ 1100 ≤ |x| := by
      rcases hlo with h | h
      · exact absurd h h0
      · exact h
    obtain ⟨e1, e2⟩ := binaryExponent_spec |x| hlo1 hhi
    dsimp only
    rw [pow2_eq]
    have hu : (0 : ℚ) < 2 ^ (binaryExponent |x| - 52) := two_zpow_pos _
    have hr := roundHalfEven_error (|x| / 2 ^ (binaryExponent |x| - 52))
    have hm : abs ((roundHalfEven (|x| / 2 ^ (binaryExponent |x| - 52)) : ℚ) *
        2 ^ (binaryExponent |x| - 52) - |x|) ≤ 1 / 2 * 2 ^ (binaryExponent |x| - 52) := by
      have heq : (roundHalfEven (|x| / 2 ^ (binaryExponent |x| - 52)) : ℚ) *
          2 ^ (binaryExponent |x| - 52) - |x| =
          ((roundHalfEven (|x| / 2 ^ (binaryExponent |x| - 52)) : ℚ) -
            |x| / 2 ^ (binaryExponent |x| - 52)) * 2 ^ (binaryExponent |x| - 52) := by
        field_simp
      rw [heq, abs_mul, abs_of_pos hu]
      exact mul_le_mul_of_nonneg_right hr (le_of_lt hu)
    have hulp : 1 / 2 * (2 : ℚ) ^ (binaryExponent |x| - 52) ≤ 1 / 2 ^ 53 * |x| := by
      have h53 : (2 : ℚ) ^ (binaryExponent |x| - 52) =
          2 ^ (binaryExponent |x|) * (1 / 2 ^ 52) := by
        rw [zpow_sub₀ (by norm_num), div_eq_mul_one_div]
        norm_num
      rw [h53]
      calc 1 / 2 * ((2 : ℚ) ^ (binaryExponent |x|) * (1 / 2 ^ 52))
          = 1 / 2 ^ 53 * 2 ^ (binaryExponent |x|) := by ring
        _ ≤ 1 / 2 ^ 53 * |x| := mul_le_mul_of_nonneg_left e1 (by positivity)
    by_cases hneg : x < 0
    · rw [if_pos hneg]
      have hx : |x| = -x := abs_of_neg hneg
      have : -((roundHalfEven (|x| / 2 ^ (binaryExponent |x| - 52)) : ℚ) *
          2 ^ (binaryExponent |x| - 52)) - x =
          -((roundHalfEven (|x| / 2 ^ (binaryExponent |x| - 52)) : ℚ) *
            2 ^ (binaryExponent |x| - 52) - |x|) := by
        rw [hx]
        ring
      rw [this, abs_neg]
      exact le_trans hm hulp
    · rw [if_neg hneg]
      have hx : |x| = x := abs_of_nonneg (not_lt.1 hneg)
      have : (roundHalfEven (|x| / 2 ^ (binaryExponent |x| - 52)) : ℚ) *
          2 ^ (binaryExponent |x| - 52) - x =
          (roundHalfEven (|x| / 2 ^ (binaryExponent |x| - 52)) : ℚ) *
            2 ^ (binaryExponent |x| - 52) - |x| := by
        rw [hx]
      rw [this]
      exact le_trans hm hulp

/-- The doubles nearest to some decimal literals, as exact fractions. -/
lemma roundDouble_values :
    roundDouble 0.1 = 3602879701896397 / 36028797018963968 ∧
    roundDouble 0.01 = 5764607523034235 / 576460752303423488 ∧
    roundDouble 195.8 = 3444550027496653 / 17592186044416 ∧
    roundDouble 10195.8 = 2802600163619635 / 274877906944 ∧
    roundDouble 65500.13 = 9002269319479951 / 137438953472 ∧
    roundDouble 65480.13 = 8999520540410511 / 137438953472 ∧
    roundDouble 65540.13 = 562985429851177 / 8589934592 ∧
    roundDouble 10000 = 10000 ∧ roundDouble (-1.5) = -1.5 ∧ roundDouble 0 = 0 := by
  decide!

namespace PnL

/-! ## The equity curve in double arithmetic -/

/-- With exact arithmetic the rounded step is the step of `calculatePnLMetrics`. -/
lemma closedStepRounded_id (config : PnLConfig) (st : ClosedState) (t : PnLTrade) :
    closedStepRounded id config st t = closedStep config st t := rfl

lemma closedFinalRounded_id (trades : List PnLTrade) (candles : List Bar) (config : PnLConfig) :
    closedFinalRounded id trades candles config = closedFinal trades candles config := by
  unfold closedFinalRounded closedFinal
  congr 1

lemma closedStepRounded_fields (fl : ℚ → ℚ) (config : PnLConfig) (st : ClosedState)
    (t : PnLTrade) :
    (closedStepRounded fl config st t).realizedPnL =
      fl (st.realizedPnL + pnlValRounded fl config t) ∧
    (closedStepRounded fl config st t).currentEquity =
      fl (st.currentEquity + pnlValRounded fl config t) ∧
    (closedStepRounded fl config st t).equityCurve =
      pushPoint st.equityCurve t.exitTime (fl (st.currentEquity + pnlValRounded fl config t)) :=
  ⟨rfl, rfl, rfl⟩

/-- The two accumulators of the loop are running sums of the same amounts,
each rounded after every addition. -/
lemma closedRounded_foldl_sums (fl : ℚ → ℚ) (config : PnLConfig) (l : List PnLTrade) :
    ∀ st : ClosedState,
      (l.foldl (closedStepRounded fl config) st).realizedPnL =
        roundedSum fl config st.realizedPnL l ∧
      (l.foldl (closedStepRounded fl config) st).currentEquity =
        roundedSum fl config st.currentEquity l := by
  induction l with
  | nil => intro st; exact ⟨rfl, rfl⟩
  | cons t rest ih =>
    intro st
    rw [List.foldl_cons]
    obtain ⟨h1, h2⟩ := ih (closedStepRounded fl config st t)
    rw [h1, h2]
    exact ⟨rfl, rfl⟩

/-- The last point of the equity curve carries the current equity. -/
lemma closedRounded_foldl_last (fl : ℚ → ℚ) (config : PnLConfig) (l : List PnLTrade) :
    ∀ st : ClosedState,
      (∀ p, st.equityCurve.getLast? = some p → p.value = st.currentEquity) →
      ∀ p, (l.foldl (closedStepRounded fl config) st).equityCurve.getLast? = some p →
        p.value = (l.foldl (closedStepRounded fl config) st).currentEquity := by
  induction l with
  | nil => intro st h; exact h
  | cons t rest ih =>
    intro st _
    rw [List.foldl_cons]
    apply ih
    intro p hp
    rw [(closedStepRounded_fields fl config st t).2.2, pushPoint_getLast] at hp
    cases hp
    rfl

/-- When no addition rounds, both running sums are the exact sums. -/
lemma roundedSum_exact (fl : ℚ → ℚ) (config : PnLConfig) (l : List PnLTrade) :
    ∀ realized equity : ℚ, additionsExact fl config realized equity l = true →
      roundedSum fl config realized l = realized + (l.map (pnlValRounded fl config)).sum ∧
      roundedSum fl config equity l = equity + (l.map (pnlValRounded fl config)).sum := by
  induction l with
  | nil =>
    intro realized equity _
    simp [roundedSum]
  | cons t rest ih =>
    intro realized equity h
    unfold additionsExact at h
    rw [Bool.and_eq_true, Bool.and_eq_true, decide_eq_true_eq, decide_eq_true_eq] at h
    obtain ⟨⟨h1, h2⟩, h3⟩ := h
    obtain ⟨i1, i2⟩ := ih _ _ h3
    unfold roundedSum at i1 i2 ⊢
    rw [List.foldl_cons, List.foldl_cons, h1, h2, i1, i2, List.map_cons, List.sum_cons]
    constructor <;> ring

/-- In exact arithmetic no addition rounds. -/
lemma additionsExact_id (config : PnLConfig) (l : List PnLTrade) :
    ∀ realized equity : ℚ, additionsExact id config realized equity l = true := by
  induction l with
  | nil => intro _ _; rfl
  | cons t rest ih =>
    intro realized equity
    unfold additionsExact
    rw [ih]
    simp

/-- While no trade exits at the time of the point before it, every trade
appends one point to the curve. -/
lemma closedRounded_foldl_curve (fl : ℚ → ℚ) (config : PnLConfig) (l : List PnLTrade) :
    ∀ (st : ClosedState) (p : EquityPoint), st.equityCurve.getLast? = some p →
      List.Chain (fun a b => a ≠ b) p.time (l.map fun t => t.exitTime) →
      (l.foldl (closedStepRounded fl config) st).equityCurve =
        st.equityCurve ++ equityPointsRounded fl config st.currentEquity l := by
  induction l with
  | nil => intro st p _ _; simp [equityPointsRounded]
  | cons t rest ih =>
    intro st p hl hch
    rw [List.map_cons, List.chain_cons] at hch
    rw [List.foldl_cons]
    obtain ⟨-, f2, f3⟩ := closedStepRounded_fields fl config st t
    have hcurve : (closedStepRounded fl config st t).equityCurve =
        st.equityCurve ++
          [{ time := t.exitTime, value := fl (st.currentEquity + pnlValRounded fl config t) }] := by
      rw [f3]
      exact pushPoint_of_ne _ p _ _ hl hch.1
    have hlast : (closedStepRounded fl config st t).equityCurve.getLast? =
        some { time := t.exitTime,
               value := fl (st.currentEquity + pnlValRounded fl config t) } := by
      rw [f3]
      exact pushPoint_getLast _ _ _
    rw [ih (closedStepRounded fl config st t) _ hlast hch.2, hcurve, f2, List.append_assoc]
    rfl

lemma equityPointsRounded_times (fl : ℚ → ℚ) (config : PnLConfig) (l : List PnLTrade) :
    ∀ e : ℚ, (equityPointsRounded fl config e l).map (fun p => p.time) =
      l.map fun t => t.exitTime := by
  induction l with
  | nil => intro e; rfl
  | cons t rest ih =>
    intro e
    simp only [equityPointsRounded, List.map_cons, ih]

/-- Each point's value is the rounded sum of the preceding point's value and
the trade's profit. -/
lemma equityPointsRounded_values (fl : ℚ → ℚ) (config : PnLConfig) (l : List PnLTrade) :
    ∀ p0 : EquityPoint,
      (equityPointsRounded fl config p0.value l).map (fun p => p.value) =
        List.zipWith (fun p t => fl (p.value + pnlValRounded fl config t))
          (p0 :: equityPointsRounded fl config p0.value l) l := by
  induction l with
  | nil => intro p0; rfl
  | cons t rest ih =>
    intro p0
    simp only [equityPointsRounded, List.zipWith_cons_cons, List.map_cons]
    rw [ih { time := t.exitTime, value := fl (p0.value + pnlValRounded fl config t) }]

/-- When no addition rounds, the steps of the curve are the profits. -/
lemma equityPointsRounded_deltas (fl : ℚ → ℚ) (config : PnLConfig) (l : List PnLTrade) :
    ∀ (realized : ℚ) (p0 : EquityPoint),
      additionsExact fl config realized p0.value l = true →
      List.zipWith (fun q p => q.value - p.value) (equityPointsRounded fl config p0.value l)
        (p0 :: equityPointsRounded fl config p0.value l) = l.map (pnlValRounded fl config) := by
  induction l with
  | nil => intro _ p0 _; rfl
  | cons t rest ih =>
    intro realized p0 h
    unfold additionsExact at h
    rw [Bool.and_eq_true, Bool.and_eq_true, decide_eq_true_eq, decide_eq_true_eq] at h
    obtain ⟨⟨-, h2⟩, h3⟩ := h
    simp only [equityPointsRounded, List.zipWith_cons_cons, List.map_cons]
    rw [h2]
    rw [ih (realized + pnlValRounded fl config t)
      { time := t.exitTime, value := p0.value + pnlValRounded fl config t } h3]
    congr 1
    ring

/-- C23, counterexample.  One winning trade of 2 R (entry 100, stop 95, target
110) with the default balance and fees: in double arithmetic the fee-adjusted
profit is the double 195.8, `realizedPnL` is `0 + 195.8` and the last equity
point is `10000 + 195.8` rounded to the double 10195.8, and 10195.8 minus
10000 is not the double 195.8, neither exactly nor after rounding the
difference (it is 195.79999999999927). -/
theorem final_equity_rounding_counterexample :
    ∃ p, (closedFinalRounded roundDouble [sampleTrade .WIN 120 2] (flatBars 100 0 5)
        defaultFeeConfig).equityCurve.getLast? = some p ∧
      p.value = roundDouble 10195.8 ∧
      (closedFinalRounded roundDouble [sampleTrade .WIN 120 2] (flatBars 100 0 5)
        defaultFeeConfig).realizedPnL = roundDouble 195.8 ∧
      p.value - initialBalanceOf defaultFeeConfig ≠
        (closedFinalRounded roundDouble [sampleTrade .WIN 120 2] (flatBars 100 0 5)
          defaultFeeConfig).realizedPnL ∧
      roundDouble (p.value - initialBalanceOf defaultFeeConfig) ≠
        (closedFinalRounded roundDouble [sampleTrade .WIN 120 2] (flatBars 100 0 5)
          defaultFeeConfig).realizedPnL :=
  ⟨⟨some 120, roundDouble 10195.8⟩, by decide!, rfl, by decide!, by decide!, by decide!⟩

/-- C23, amended.  For every rounding function `fl` (the identity: exact
arithmetic; `roundDouble`: JavaScript), whenever the equity curve is not
empty, the value of its last point is the running sum of the closed trades'
fee-adjusted profits started at `initialBalance`, and `realizedPnL` is the
running sum of the same profits started at 0, both rounded after every
addition.  When no addition rounds, the last value minus `initialBalance`
equals `realizedPnL`.  The curve and `metrics.realizedPnL` returned by the
exact model `calculatePnLMetrics` are those of `fl = id`. -/
theorem final_equity_and_realized_are_rounded_sums (fl : ℚ → ℚ) (trades : List PnLTrade)
    (candles : List Bar) (config : PnLConfig) (p : EquityPoint)
    (h : (closedFinalRounded fl trades candles config).equityCurve.getLast? = some p) :
    p.value = roundedSum fl config (initialBalanceOf config) (closedTrades trades) ∧
    (closedFinalRounded fl trades candles config).realizedPnL =
      roundedSum fl config 0 (closedTrades trades) ∧
    (additionsExact fl config 0 (initialBalanceOf config) (closedTrades trades) = true →
      p.value - initialBalanceOf config =
        (closedFinalRounded fl trades candles config).realizedPnL) ∧
    (∀ mathSqrt : ℚ → ℚ,
      (calculatePnLMetrics mathSqrt trades candles config).equityCurve =
        (closedFinalRounded id trades candles config).equityCurve ∧
      (calculatePnLMetrics mathSqrt trades candles config).metrics.realizedPnL =
        (closedFinalRounded id trades candles config).realizedPnL) := by
  have hl := closedRounded_foldl_last fl config (closedTrades trades) (closedInit candles config)
    (closedInit_last candles config) p h
  obtain ⟨s1, s2⟩ := closedRounded_foldl_sums fl config (closedTrades trades)
    (closedInit candles config)
  have hv : p.value = roundedSum fl config (initialBalanceOf config) (closedTrades trades) := by
    rw [hl, s2]
    rfl
  have hr : (closedFinalRounded fl trades candles config).realizedPnL =
      roundedSum fl config 0 (closedTrades trades) := by
    unfold closedFinalRounded
    rw [s1]
    rfl
  refine ⟨hv, hr, ?_, ?_⟩
  · intro hex
    obtain ⟨e1, e2⟩ := roundedSum_exact fl config (closedTrades trades) 0
      (initialBalanceOf config) hex
    rw [hv, hr, e1, e2]
    ring
  · intro mathSqrt
    rw [closedFinalRounded_id]
    exact ⟨rfl, rfl⟩

theorem final_equity_and_realized_are_rounded_sums_witness :
    (10100 : ℚ) - initialBalanceOf defaultPnLConfig =
      (closedFinalRounded roundDouble [sampleTrade .WIN 120 2, sampleTrade .LOSS 180 (-1)]
        (flatBars 100 0 5) defaultPnLConfig).realizedPnL :=
  (final_equity_and_realized_are_rounded_sums roundDouble
    [sampleTrade .WIN 120 2, sampleTrade .LOSS 180 (-1)]
    (flatBars 100 0 5) defaultPnLConfig ⟨some 180, 10100⟩ (by decide!)).2.2.1 (by decide!)

/-- C24, amended.  For a non-empty bar series and every rounding function
`fl`, when no `WIN` or `LOSS` trade exits at the time of the point before it
(the first bar's time for the first trade, the preceding trade's exit time for
the others, in ascending order of `exitTime`), the equity curve is the initial
point (first bar's time, `initialBalance`) followed by exactly one point per
`WIN` or `LOSS` trade in that order: the times of the points are the exit
times, and each point's value is the preceding point's value plus the trade's
fee-adjusted profit, rounded.  When no addition rounds, each point's value
minus the preceding point's value is the trade's fee-adjusted profit.  The
curve returned by the exact model `calculatePnLMetrics` is that of
`fl = id`. -/
theorem one_point_per_trade_rounded (fl : ℚ → ℚ) (trades : List PnLTrade)
    (candles : List Bar) (config : PnLConfig) (hne : candles ≠ [])
    (hdistinct : List.Chain (fun a b => a ≠ b) (some (nth candles 0).time)
      ((closedTrades trades).map fun t => t.exitTime)) :
    (closedFinalRounded fl trades candles config).equityCurve =
      { time := some (nth candles 0).time, value := initialBalanceOf config } ::
        equityPointsRounded fl config (initialBalanceOf config) (closedTrades trades) ∧
    (closedFinalRounded fl trades candles config).equityCurve.length =
      (closedTrades trades).length + 1 ∧
    (closedFinalRounded fl trades candles config).equityCurve.tail.map (fun p => p.time) =
      (closedTrades trades).map (fun t => t.exitTime) ∧
    (closedFinalRounded fl trades candles config).equityCurve.tail.map (fun p => p.value) =
      List.zipWith (fun p t => fl (p.value + pnlValRounded fl config t))
        (closedFinalRounded fl trades candles config).equityCurve (closedTrades trades) ∧
    (additionsExact fl config 0 (initialBalanceOf config) (closedTrades trades) = true →
      List.zipWith (fun q p => q.value - p.value)
          (closedFinalRounded fl trades candles config).equityCurve.tail
          (closedFinalRounded fl trades candles config).equityCurve =
        (closedTrades trades).map (pnlValRounded fl config)) ∧
    (closedTrades trades).Sorted (fun a b => exitKey a ≤ exitKey b) ∧
    (closedTrades trades).Perm (trades.filter isClosed) ∧
    (∀ mathSqrt : ℚ → ℚ,
      (calculatePnLMetrics mathSqrt trades candles config).equityCurve =
        (closedFinalRounded id trades candles config).equityCurve) := by
  have hlen : candles.length > 0 := List.length_pos.mpr hne
  have hinit : (closedInit candles config).equityCurve =
      [{ time := some (nth candles 0).time, value := initialBalanceOf config }] := by
    unfold closedInit
    exact if_pos hlen
  have hcurve : (closedFinalRounded fl trades candles config).equityCurve =
      { time := some (nth candles 0).time, value := initialBalanceOf config } ::
        equityPointsRounded fl config (initialBalanceOf config) (closedTrades trades) := by
    unfold closedFinalRounded
    rw [closedRounded_foldl_curve fl config (closedTrades trades) (closedInit candles config)
      { time := some (nth candles 0).time, value := initialBalanceOf config }
      (by rw [hinit]; rfl) hdistinct, hinit]
    rfl
  rw [hcurve]
  refine ⟨rfl, ?_, ?_, ?_, ?_, closedTrades_sorted trades, closedTrades_perm trades, ?_⟩
  · rw [List.length_cons, ← List.length_map (equityPointsRounded _ _ _ _) (fun p => p.time),
      equityPointsRounded_times, List.length_map]
  · rw [List.tail_cons, equityPointsRounded_times]
  · rw [List.tail_cons]
    exact equityPointsRounded_values fl config (closedTrades trades)
      { time := some (nth candles 0).time, value := initialBalanceOf config }
  · intro hex
    rw [List.tail_cons]
    exact equityPointsRounded_deltas fl config (closedTrades trades) 0
      { time := some (nth candles 0).time, value := initialBalanceOf config } hex
  · intro mathSqrt
    rw [closedFinalRounded_id]
    rfl

theorem one_point_per_trade_rounded_witness :
    (closedFinalRounded roundDouble [sampleTrade .LOSS 180 (-1), sampleTrade .WIN 120 2]
        (flatBars 100 0 5) defaultFeeConfig).equityCurve.length = 3 :=
  (one_point_per_trade_rounded roundDouble [sampleTrade .LOSS 180 (-1), sampleTrade .WIN 120 2]
    (flatBars 100 0 5) defaultFeeConfig (by decide)
    (List.Chain.cons (by decide) (List.Chain.cons (by decide) List.Chain.nil))).2.1

end PnL

namespace Liquidity

/-! ## The target price in double arithmetic -/

lemma targetPriceRounded_id (isShortTrap : Bool) (entryPrice slPrice k : ℚ) :
    targetPriceRounded id isShortTrap entryPrice slPrice k =
      targetPrice isShortTrap entryPrice |entryPrice - slPrice| k := rfl

/-- The distance of the rounded target from the entry differs from `k` times
the exact risk by at most `u * (|entry| + 7 * k * risk)` when each of the three
operations has relative error at most `u`. -/
lemma targetPriceRounded_error (fl : ℚ → ℚ) (u : ℚ) (s : Bool) (e sl k : ℚ)
    (hk : 0 ≤ k) (hu0 : 0 ≤ u) (hu1 : u ≤ 1) (h : RoundsWithin fl u s e sl k) :
    abs (|targetPriceRounded fl s e sl k - e| - k * |e - sl|) ≤
      u * (|e| + 7 * (k * |e - sl|)) := by
  obtain ⟨h1, h2, h3⟩ := h
  have hr : 0 ≤ |e - sl| := abs_nonneg _
  have hr1 : 0 ≤ |fl (e - sl)| := abs_nonneg _
  have hA : 0 ≤ k * |e - sl| := mul_nonneg hk hr
  have hA1 : 0 ≤ k * |fl (e - sl)| := mul_nonneg hk hr1
  have hd : abs (|fl (e - sl)| - |e - sl|) ≤ u * |e - sl| :=
    le_trans (abs_abs_sub_abs_le _ _) h1
  have hkd : abs (k * |fl (e - sl)| - k * |e - sl|) ≤ u * (k * |e - sl|) := by
    rw [← mul_sub, abs_mul, abs_of_nonneg hk]
    calc k * abs (|fl (e - sl)| - |e - sl|) ≤ k * (u * |e - sl|) :=
          mul_le_mul_of_nonneg_left hd hk
      _ = u * (k * |e - sl|) := by ring
  rw [abs_of_nonneg hA1] at h2
  have huA : u * (k * |e - sl|) ≤ k * |e - sl| := by
    calc u * (k * |e - sl|) ≤ 1 * (k * |e - sl|) := mul_le_mul_of_nonneg_right hu1 hA
      _ = k * |e - sl| := one_mul _
  have huA0 : 0 ≤ u * (k * |e - sl|) := mul_nonneg hu0 hA
  have hA1le : k * |fl (e - sl)| ≤ 2 * (k * |e - sl|) := by
    have := (abs_le.1 hkd).2
    linarith
  have huA1 : u * (k * |fl (e - sl)|) ≤ 2 * (u * (k * |e - sl|)) := by
    calc u * (k * |fl (e - sl)|) ≤ u * (2 * (k * |e - sl|)) :=
          mul_le_mul_of_nonneg_left hA1le hu0
      _ = 2 * (u * (k * |e - sl|)) := by ring
  have hp : abs (fl (k * |fl (e - sl)|)) ≤ 4 * (k * |e - sl|) := by
    have h21 := (abs_le.1 h2)
    rw [abs_le]
    constructor <;> linarith [h21.1, h21.2]
  have hup : u * abs (fl (k * |fl (e - sl)|)) ≤ 4 * (u * (k * |e - sl|)) := by
    calc u * abs (fl (k * |fl (e - sl)|)) ≤ u * (4 * (k * |e - sl|)) :=
          mul_le_mul_of_nonneg_left hp hu0
      _ = 4 * (u * (k * |e - sl|)) := by ring
  have h2a := abs_le.1 h2
  have hkda := abs_le.1 hkd
  cases s with
  | true =>
    simp only [if_true] at h3
    have hsum : abs (e - fl (k * |fl (e - sl)|)) ≤ |e| + abs (fl (k * |fl (e - sl)|)) := abs_sub _ _
    have hus : u * abs (e - fl (k * |fl (e - sl)|)) ≤
        u * |e| + 4 * (u * (k * |e - sl|)) := by
      calc u * abs (e - fl (k * |fl (e - sl)|))
          ≤ u * (|e| + abs (fl (k * |fl (e - sl)|))) := mul_le_mul_of_nonneg_left hsum hu0
        _ = u * |e| + u * abs (fl (k * |fl (e - sl)|)) := by ring
        _ ≤ u * |e| + 4 * (u * (k * |e - sl|)) := by linarith
    have h3a := abs_le.1 (le_trans h3 hus)
    have hmain : abs (targetPriceRounded fl true e sl k - e + k * |e - sl|) ≤
        u * (|e| + 7 * (k * |e - sl|)) := by
      show abs (fl (e - fl (k * |fl (e - sl)|)) - e + k * |e - sl|) ≤ _
      rw [abs_le]
      constructor <;> linarith [h3a.1, h3a.2, h2a.1, h2a.2, hkda.1, hkda.2]
    calc abs (|targetPriceRounded fl true e sl k - e| - k * |e - sl|)
        = abs (|-(targetPriceRounded fl true e sl k - e)| - abs (k * |e - sl|)) := by
          rw [abs_neg, abs_of_nonneg hA]
      _ ≤ abs (-(targetPriceRounded fl true e sl k - e) - k * |e - sl|) :=
          abs_abs_sub_abs_le _ _
      _ = abs (targetPriceRounded fl true e sl k - e + k * |e - sl|) := by
          rw [← abs_neg]
          congr 1
          ring
      _ ≤ _ := hmain
  | false =>
    simp only [Bool.false_eq_true, if_false] at h3
    have hsum : abs (e + fl (k * |fl (e - sl)|)) ≤ |e| + abs (fl (k * |fl (e - sl)|)) := abs_add _ _
    have hus : u * abs (e + fl (k * |fl (e - sl)|)) ≤
        u * |e| + 4 * (u * (k * |e - sl|)) := by
      calc u * abs (e + fl (k * |fl (e - sl)|))
          ≤ u * (|e| + abs (fl (k * |fl (e - sl)|))) := mul_le_mul_of_nonneg_left hsum hu0
        _ = u * |e| + u * abs (fl (k * |fl (e - sl)|)) := by ring
        _ ≤ u * |e| + 4 * (u * (k * |e - sl|)) := by linarith
    have h3a := abs_le.1 (le_trans h3 hus)
    have hmain : abs (targetPriceRounded fl false e sl k - e - k * |e - sl|) ≤
        u * (|e| + 7 * (k * |e - sl|)) := by
      show abs (fl (e + fl (k * |fl (e - sl)|)) - e - k * |e - sl|) ≤ _
      rw [abs_le]
      constructor <;> linarith [h3a.1, h3a.2, h2a.1, h2a.2, hkda.1, hkda.2]
    calc abs (|targetPriceRounded fl false e sl k - e| - k * |e - sl|)
        = abs (|targetPriceRounded fl false e sl k - e| - abs (k * |e - sl|)) := by
          rw [abs_of_nonneg hA]
      _ ≤ abs (targetPriceRounded fl false e sl k - e - k * |e - sl|) :=
          abs_abs_sub_abs_le _ _
      _ ≤ _ := hmain

/-- The three operations of `targetPriceRounded` in double arithmetic have
relative error at most `2^-53` when their exact results are within the range
of `roundDouble`. -/
lemma roundsWithin_roundDouble (s : Bool) (e sl k : ℚ)
    (h1 : inRoundingRange (e - sl))
    (h2 : inRoundingRange (k * |roundDouble (e - sl)|))
    (h3 : inRoundingRange (if s then e - roundDouble (k * |roundDouble (e - sl)|)
      else e + roundDouble (k * |roundDouble (e - sl)|))) :
    RoundsWithin roundDouble (1 / 2 ^ 53) s e sl k := by
  refine ⟨roundDouble_error _ h1, roundDouble_error _ h2, ?_⟩
  cases s
  · simp only [Bool.false_eq_true, if_false] at h3 ⊢
    exact roundDouble_error _ h3
  · simp only [if_true] at h3 ⊢
    exact roundDouble_error _ h3

/-- C38, counterexample.  A long with entry at the double nearest 65500.13 and
stop at the double nearest 65480.13 (risk exactly 20) and `k = 2`: the target
`entry + 2 * risk` lies above 65536, where doubles are twice as far apart as
at the entry, so the sum is rounded and the distance `tp - entry` is not `2 *
|entry - sl| = 40`, neither exactly nor after rounding the difference (in
JavaScript it is 40.000000000007276). -/
theorem target_distance_rounding_counterexample :
    roundDouble 65500.13 - roundDouble 65480.13 = 20 ∧
    targetPriceRounded roundDouble false (roundDouble 65500.13) (roundDouble 65480.13) 2 =
      roundDouble 65540.13 ∧
    |targetPriceRounded roundDouble false (roundDouble 65500.13) (roundDouble 65480.13) 2 -
        roundDouble 65500.13| ≠ 2 * |roundDouble 65500.13 - roundDouble 65480.13| ∧
    roundDouble (abs (targetPriceRounded roundDouble false (roundDouble 65500.13)
        (roundDouble 65480.13) 2 - roundDouble 65500.13)) ≠
      roundDouble (2 * abs (roundDouble (roundDouble 65500.13 - roundDouble 65480.13))) := by
  decide!

/-- C38, amended.  For bars with `low <= high`, each trade returned by
`runLiquidityStrategy` has strictly positive risk and correctly ordered levels
(`sl < entry < tp` for a LONG, `tp < entry < sl` for a SHORT); a LONG comes
from a broken UP line and a SHORT from a broken DOWN line.  The take-profit is
`entry + k * risk` (LONG) or `entry - k * risk` (SHORT) with `risk = |entry -
sl|` and `k` the risk-reward of the mode (2 or 3) or, in the partial modes, the
second target multiple (5 or 4), each operation rounded: for every rounding
function `fl` whose three operations have relative error at most `u`, the
distance `|tp - entry|` differs from `k * |entry - sl|` by at most `u *
(|entry| + 7 * k * |entry - sl|)`, hence not at all when no operation rounds
(`u = 0`); in double arithmetic (`fl = roundDouble`) the bound holds with `u =
2^-53` when the three exact results are within the range of `roundDouble`.
The `tp` of the exact model is that of `fl = id`. -/
theorem levels_ordered_target_rounded (candles : List Bar) (mode : Mode) (options : Options)
    (hwf : ∀ b ∈ candles, b.low ≤ b.high) :
    ∃ r, runLiquidityStrategy candles mode options = .ok r ∧
      ∀ t ∈ r.trades,
        0 < |t.entry - t.sl| ∧
        (t.type = .LONG ∨ t.type = .SHORT) ∧
        (t.type = .LONG → t.sl < t.entry ∧ t.entry < t.tp ∧ t.savedLine.type = .UP) ∧
        (t.type = .SHORT → t.tp < t.entry ∧ t.entry < t.sl ∧ t.savedLine.type = .DOWN) ∧
        t.savedLine.status = .BROKEN ∧
        t.tp = targetPriceRounded id (decide (t.type = .SHORT)) t.entry t.sl
          (targetMultiple mode) ∧
        (∀ (fl : ℚ → ℚ) (u : ℚ), 0 ≤ u → u ≤ 1 →
          RoundsWithin fl u (decide (t.type = .SHORT)) t.entry t.sl (targetMultiple mode) →
          abs (|targetPriceRounded fl (decide (t.type = .SHORT)) t.entry t.sl
              (targetMultiple mode) - t.entry| - targetMultiple mode * |t.entry - t.sl|) ≤
            u * (|t.entry| + 7 * (targetMultiple mode * |t.entry - t.sl|))) ∧
        (inRoundingRange (t.entry - t.sl) →
          inRoundingRange (targetMultiple mode * |roundDouble (t.entry - t.sl)|) →
          inRoundingRange (if decide (t.type = .SHORT) then
              t.entry - roundDouble (targetMultiple mode * |roundDouble (t.entry - t.sl)|)
            else t.entry + roundDouble (targetMultiple mode * |roundDouble (t.entry - t.sl)|)) →
          abs (|targetPriceRounded roundDouble (decide (t.type = .SHORT)) t.entry t.sl
              (targetMultiple mode) - t.entry| - targetMultiple mode * |t.entry - t.sl|) ≤
            1 / 2 ^ 53 * (|t.entry| + 7 * (targetMultiple mode * |t.entry - t.sl|))) := by
  obtain ⟨r, hr, h⟩ := trade_levels_ordered candles mode options hwf
  refine ⟨r, hr, fun t ht => ?_⟩
  obtain ⟨h1, h2, h3, h4, h5, h6⟩ := h t ht
  have hk := (targetMultiple_eq mode).2
  refine ⟨h1, h2, h3, h4, h6, ?_, fun fl u hu0 hu1 hw =>
    targetPriceRounded_error fl u _ t.entry t.sl (targetMultiple mode) (le_of_lt hk) hu0 hu1 hw,
    fun r1 r2 r3 => targetPriceRounded_error roundDouble (1 / 2 ^ 53) _ t.entry t.sl
      (targetMultiple mode) (le_of_lt hk) (by norm_num) (by norm_num)
      (roundsWithin_roundDouble _ t.entry t.sl (targetMultiple mode) r1 r2 r3)⟩
  rw [targetPriceRounded_id]
  unfold targetPrice
  rcases h2 with hl | hs
  · obtain ⟨-, hlt, -⟩ := h3 hl
    rw [hl, if_neg (by decide)]
    rw [abs_of_pos (by linarith)] at h5
    linarith
  · obtain ⟨hlt, -, -⟩ := h4 hs
    rw [hs, if_pos (by decide)]
    rw [abs_of_neg (by linarith)] at h5
    linarith

theorem levels_ordered_target_rounded_witness :
    ∃ r, runLiquidityStrategy trapSeries .standard defaultOptions = .ok r ∧
      ∃ t ∈ r.trades, 0 < |t.entry - t.sl| ∧
        abs (|targetPriceRounded roundDouble (decide (t.type = .SHORT)) t.entry t.sl
            (targetMultiple .standard) - t.entry| - targetMultiple .standard * |t.entry - t.sl|) ≤
          1 / 2 ^ 53 * (|t.entry| + 7 * (targetMultiple .standard * |t.entry - t.sl|)) := by
  obtain ⟨r, hr, h⟩ := levels_ordered_target_rounded trapSeries .standard defaultOptions
    trapSeries_low_le_high
  have hex := trapSeries_facts.2.2.2
  rw [tradesOf_eq _ _ _ r hr] at hex
  obtain ⟨t, ht, hw⟩ := hex
  exact ⟨r, hr, t, ht, (h t ht).1,
    (h t ht).2.2.2.2.2.2.1 roundDouble (1 / 2 ^ 53) (by norm_num) (by norm_num) hw⟩

end Liquidity

namespace PnL

/-! ## The duration statistics -/

/-- The duration accumulators after one iteration of `trades.forEach`. -/
lemma openStep_durations (candles : List Bar) (config : PnLConfig) (st : OpenState)
    (t : PnLTrade) :
    (countedForDuration t = false →
      (openStep candles config st t).durationCount = st.durationCount ∧
      (openStep candles config st t).totalDuration = st.totalDuration ∧
      (openStep candles config st t).maxDuration = st.maxDuration ∧
      (openStep candles config st t).firstTradeTime = st.firstTradeTime ∧
      (openStep candles config st t).lastTradeTime = st.lastTradeTime) ∧
    (countedForDuration t = true →
      (openStep candles config st t).durationCount = st.durationCount + 1 ∧
      (openStep candles config st t).totalDuration = st.totalDuration + durationOf candles t ∧
      (openStep candles config st t).maxDuration =
        (if durationOf candles t > st.maxDuration then durationOf candles t
          else st.maxDuration) ∧
      (openStep candles config st t).firstTradeTime =
        (if !(truthy st.firstTradeTime) ||
            decide (t.entryTime.getD 0 < st.firstTradeTime.getD 0) then
          some (t.entryTime.getD 0)
        else st.firstTradeTime) ∧
      (openStep candles config st t).lastTradeTime =
        (if !(truthy st.lastTradeTime) ||
            decide (tradeEnd candles t > st.lastTradeTime.getD 0) then
          some (tradeEnd candles t)
        else st.lastTradeTime)) := by
  unfold countedForDuration
  by_cases hs : t.status = .WIN ∨ t.status = .LOSS ∨ t.status = .OPEN
  · have hb : (decide (t.status = .WIN) || decide (t.status = .LOSS) ||
        decide (t.status = .OPEN)) = true := by
      rcases hs with h | h | h <;> simp [h]
    rw [hb, Bool.true_and]
    by_cases ht : truthy t.entryTime = true
    · refine ⟨fun h => absurd ht (by rw [h]; decide), fun _ => ?_⟩
      unfold openStep
      rw [if_pos hs]
      by_cases ho : t.status = .OPEN
      · simp only [if_pos ho]
        unfold durationStep
        simp only [if_pos ht]
        refine ⟨?_, ?_, ?_, ?_, ?_⟩ <;> first | rfl | trivial
      · simp only [if_neg ho]
        unfold durationStep
        simp only [if_pos ht]
        refine ⟨?_, ?_, ?_, ?_, ?_⟩ <;> first | rfl | trivial
    · refine ⟨fun _ => ?_, fun h => absurd h ht⟩
      unfold openStep
      rw [if_pos hs]
      by_cases ho : t.status = .OPEN
      · simp only [if_pos ho]
        unfold durationStep
        simp only [if_neg ht]
        refine ⟨?_, ?_, ?_, ?_, ?_⟩ <;> first | rfl | trivial
      · simp only [if_neg ho]
        unfold durationStep
        simp only [if_neg ht]
        refine ⟨?_, ?_, ?_, ?_, ?_⟩ <;> first | rfl | trivial
  · have hb : (decide (t.status = .WIN) || decide (t.status = .LOSS) ||
        decide (t.status = .OPEN)) = false := by
      rw [not_or, not_or] at hs
      simp [hs.1, hs.2.1, hs.2.2]
    rw [hb, Bool.false_and]
    refine ⟨fun _ => ?_, fun h => by cases h⟩
    unfold openStep
    rw [if_neg hs]
    exact ⟨rfl, rfl, rfl, rfl, rfl⟩

lemma counted_entryTime (t : PnLTrade) (h : countedForDuration t = true) :
    t.entryTime.getD 0 ≠ 0 ∧ t.entryTime = some (t.entryTime.getD 0) := by
  unfold countedForDuration at h
  rw [Bool.and_eq_true] at h
  have ht := h.2
  unfold truthy at ht
  cases he : t.entryTime with
  | none => rw [he] at ht; cases ht
  | some v =>
    rw [he] at ht
    exact ⟨of_decide_eq_true ht, rfl⟩

lemma counted_of_open (t : PnLTrade) (ho : t.status = .OPEN) (ht : truthy t.entryTime = true) :
    countedForDuration t = true := by
  unfold countedForDuration
  rw [ho, ht]
  rfl

/-- The number and the total of the durations are those of the trades that
pass through the duration block. -/
lemma open_foldl_count (candles : List Bar) (config : PnLConfig) (l : List PnLTrade) :
    ∀ st : OpenState,
      (l.foldl (openStep candles config) st).durationCount =
        st.durationCount + (l.filter countedForDuration).length ∧
      (l.foldl (openStep candles config) st).totalDuration =
        st.totalDuration + ((l.filter countedForDuration).map (durationOf candles)).sum := by
  induction l with
  | nil => intro st; simp
  | cons t rest ih =>
    intro st
    rw [List.foldl_cons]
    obtain ⟨h1, h2⟩ := ih (openStep candles config st t)
    rw [h1, h2]
    obtain ⟨d0, d1⟩ := openStep_durations candles config st t
    cases hc : countedForDuration t with
    | false =>
      obtain ⟨e1, e2, -⟩ := d0 hc
      rw [e1, e2, List.filter_cons_of_neg (by rw [hc]; decide)]
      exact ⟨rfl, rfl⟩
    | true =>
      obtain ⟨e1, e2, -⟩ := d1 hc
      rw [e1, e2, List.filter_cons_of_pos hc, List.length_cons, List.map_cons, List.sum_cons]
      constructor
      · omega
      · ring

/-- The largest duration: the result bounds the starting value and every
duration, and is one of them. -/
lemma open_foldl_max (candles : List Bar) (config : PnLConfig) (l : List PnLTrade) :
    ∀ st : OpenState,
      st.maxDuration ≤ (l.foldl (openStep candles config) st).maxDuration ∧
      (∀ t ∈ l, countedForDuration t = true →
        durationOf candles t ≤ (l.foldl (openStep candles config) st).maxDuration) ∧
      ((l.foldl (openStep candles config) st).maxDuration = st.maxDuration ∨
        ∃ t ∈ l, countedForDuration t = true ∧
          (l.foldl (openStep candles config) st).maxDuration = durationOf candles t) := by
  induction l with
  | nil =>
    intro st
    exact ⟨le_refl _, fun t ht => (by cases ht), Or.inl rfl⟩
  | cons t rest ih =>
    intro st
    rw [List.foldl_cons]
    obtain ⟨i1, i2, i3⟩ := ih (openStep candles config st t)
    obtain ⟨d0, d1⟩ := openStep_durations candles config st t
    cases hc : countedForDuration t with
    | false =>
      obtain ⟨-, -, e3, -⟩ := d0 hc
      rw [e3] at i1 i3
      refine ⟨i1, ?_, ?_⟩
      · intro t1 ht1 hc1
        rcases List.mem_cons.1 ht1 with h | h
        · rw [h, hc] at hc1
          cases hc1
        · exact i2 t1 h hc1
      · rcases i3 with h | ⟨t1, ht1, hc1, h⟩
        · exact Or.inl h
        · exact Or.inr ⟨t1, List.mem_cons_of_mem _ ht1, hc1, h⟩
    | true =>
      obtain ⟨-, -, e3, -⟩ := d1 hc
      rw [e3] at i1 i3
      by_cases hgt : durationOf candles t > st.maxDuration
      · rw [if_pos hgt] at i1 i3
        refine ⟨le_trans (le_of_lt hgt) i1, ?_, ?_⟩
        · intro t1 ht1 hc1
          rcases List.mem_cons.1 ht1 with h | h
          · rw [h]
            exact i1
          · exact i2 t1 h hc1
        · rcases i3 with h | ⟨t1, ht1, hc1, h⟩
          · exact Or.inr ⟨t, List.mem_cons_self _ _, hc, h⟩
          · exact Or.inr ⟨t1, List.mem_cons_of_mem _ ht1, hc1, h⟩
      · rw [if_neg hgt] at i1 i3
        refine ⟨i1, ?_, ?_⟩
        · intro t1 ht1 hc1
          rcases List.mem_cons.1 ht1 with h | h
          · rw [h]
            exact le_trans (not_lt.1 hgt) i1
          · exact i2 t1 h hc1
        · rcases i3 with h | ⟨t1, ht1, hc1, h⟩
          · exact Or.inl h
          · exact Or.inr ⟨t1, List.mem_cons_of_mem _ ht1, hc1, h⟩

/-- The earliest entry time: starting from an absent or non-zero value, the
result is not later than the starting value and than every entry time, and is
one of them. -/
lemma open_foldl_first (candles : List Bar) (config : PnLConfig) (l : List PnLTrade) :
    ∀ st : OpenState,
      (st.firstTradeTime = none ∨ ∃ f, f ≠ 0 ∧ st.firstTradeTime = some f) →
      (∀ f0, st.firstTradeTime = some f0 →
        ∃ f, (l.foldl (openStep candles config) st).firstTradeTime = some f ∧ f ≤ f0) ∧
      (∀ t ∈ l, countedForDuration t = true →
        ∃ f, (l.foldl (openStep candles config) st).firstTradeTime = some f ∧
          f ≤ t.entryTime.getD 0) ∧
      ((l.foldl (openStep candles config) st).firstTradeTime = st.firstTradeTime ∨
        ∃ t ∈ l, countedForDuration t = true ∧
          (l.foldl (openStep candles config) st).firstTradeTime = t.entryTime) := by
  induction l with
  | nil =>
    intro st _
    exact ⟨fun f0 h => ⟨f0, h, le_refl _⟩, fun t ht => (by cases ht), Or.inl rfl⟩
  | cons t rest ih =>
    intro st hst
    rw [List.foldl_cons]
    obtain ⟨d0, d1⟩ := openStep_durations candles config st t
    cases hc : countedForDuration t with
    | false =>
      obtain ⟨-, -, -, e4, -⟩ := d0 hc
      obtain ⟨i1, i2, i3⟩ := ih (openStep candles config st t) (by rw [e4]; exact hst)
      rw [e4] at i1 i3
      refine ⟨i1, ?_, ?_⟩
      · intro t1 ht1 hc1
        rcases List.mem_cons.1 ht1 with h | h
        · rw [h, hc] at hc1
          cases hc1
        · exact i2 t1 h hc1
      · rcases i3 with h | ⟨t1, ht1, hc1, h⟩
        · exact Or.inl h
        · exact Or.inr ⟨t1, List.mem_cons_of_mem _ ht1, hc1, h⟩
    | true =>
      obtain ⟨-, -, -, e4, -⟩ := d1 hc
      obtain ⟨hne, hsome⟩ := counted_entryTime t hc
      rcases hst with hnone | ⟨f, hf, hsf⟩
      · have e5 : (openStep candles config st t).firstTradeTime = some (t.entryTime.getD 0) := by
          rw [e4, hnone]
          rfl
        obtain ⟨i1, i2, i3⟩ := ih (openStep candles config st t) (Or.inr ⟨_, hne, e5⟩)
        refine ⟨fun f0 h => (by rw [hnone] at h; cases h), ?_, ?_⟩
        · intro t1 ht1 hc1
          rcases List.mem_cons.1 ht1 with h | h
          · rw [h]
            exact i1 _ e5
          · exact i2 t1 h hc1
        · rcases i3 with h | ⟨t1, ht1, hc1, h⟩
          · exact Or.inr ⟨t, List.mem_cons_self _ _, hc, by rw [h, e5, ← hsome]⟩
          · exact Or.inr ⟨t1, List.mem_cons_of_mem _ ht1, hc1, h⟩
      · have htr : truthy st.firstTradeTime = true := by
          rw [hsf]
          exact decide_eq_true hf
        by_cases hlt : t.entryTime.getD 0 < f
        · have e5 : (openStep candles config st t).firstTradeTime =
              some (t.entryTime.getD 0) := by
            rw [e4, htr, hsf]
            simp [hlt]
          obtain ⟨i1, i2, i3⟩ := ih (openStep candles config st t) (Or.inr ⟨_, hne, e5⟩)
          obtain ⟨g, hg, hgle⟩ := i1 _ e5
          refine ⟨?_, ?_, ?_⟩
          · intro f0 h
            rw [hsf] at h
            cases h
            exact ⟨g, hg, le_trans hgle (le_of_lt hlt)⟩
          · intro t1 ht1 hc1
            rcases List.mem_cons.1 ht1 with h | h
            · rw [h]
              exact ⟨g, hg, hgle⟩
            · exact i2 t1 h hc1
          · rcases i3 with h | ⟨t1, ht1, hc1, h⟩
            · exact Or.inr ⟨t, List.mem_cons_self _ _, hc, by rw [h, e5, ← hsome]⟩
            · exact Or.inr ⟨t1, List.mem_cons_of_mem _ ht1, hc1, h⟩
        · have e5 : (openStep candles config st t).firstTradeTime = some f := by
            rw [e4, htr, hsf]
            simp [hlt]
          obtain ⟨i1, i2, i3⟩ := ih (openStep candles config st t) (Or.inr ⟨_, hf, e5⟩)
          obtain ⟨g, hg, hgle⟩ := i1 _ e5
          refine ⟨?_, ?_, ?_⟩
          · intro f0 h
            rw [hsf] at h
            cases h
            exact ⟨g, hg, hgle⟩
          · intro t1 ht1 hc1
            rcases List.mem_cons.1 ht1 with h | h
            · rw [h]
              exact ⟨g, hg, le_trans hgle (not_lt.1 hlt)⟩
            · exact i2 t1 h hc1
          · rcases i3 with h | ⟨t1, ht1, hc1, h⟩
            · exact Or.inl (by rw [h, e5, hsf])
            · exact Or.inr ⟨t1, List.mem_cons_of_mem _ ht1, hc1, h⟩

/-- The latest end time: when no trade of the duration block ends at time 0,
the result, started from an absent or non-zero value, is not earlier than the
starting value and than every end time, and is one of them. -/
lemma open_foldl_last (candles : List Bar) (config : PnLConfig) (l : List PnLTrade) :
    ∀ st : OpenState,
      (∀ t ∈ l, countedForDuration t = true → tradeEnd candles t ≠ 0) →
      (st.lastTradeTime = none ∨ ∃ f, f ≠ 0 ∧ st.lastTradeTime = some f) →
      (∀ f0, st.lastTradeTime = some f0 →
        ∃ f, (l.foldl (openStep candles config) st).lastTradeTime = some f ∧ f0 ≤ f) ∧
      (∀ t ∈ l, countedForDuration t = true →
        ∃ f, (l.foldl (openStep candles config) st).lastTradeTime = some f ∧
          tradeEnd candles t ≤ f) ∧
      ((l.foldl (openStep candles config) st).lastTradeTime = st.lastTradeTime ∨
        ∃ t ∈ l, countedForDuration t = true ∧
          (l.foldl (openStep candles config) st).lastTradeTime = some (tradeEnd candles t)) := by
  induction l with
  | nil =>
    intro st _ _
    exact ⟨fun f0 h => ⟨f0, h, le_refl _⟩, fun t ht => (by cases ht), Or.inl rfl⟩
  | cons t rest ih =>
    intro st hnz hst
    rw [List.foldl_cons]
    have hnz1 : ∀ t1 ∈ rest, countedForDuration t1 = true → tradeEnd candles t1 ≠ 0 :=
      fun t1 h1 => hnz t1 (List.mem_cons_of_mem _ h1)
    obtain ⟨d0, d1⟩ := openStep_durations candles config st t
    cases hc : countedForDuration t with
    | false =>
      obtain ⟨-, -, -, -, e4⟩ := d0 hc
      obtain ⟨i1, i2, i3⟩ := ih (openStep candles config st t) hnz1 (by rw [e4]; exact hst)
      rw [e4] at i1 i3
      refine ⟨i1, ?_, ?_⟩
      · intro t1 ht1 hc1
        rcases List.mem_cons.1 ht1 with h | h
        · rw [h, hc] at hc1
          cases hc1
        · exact i2 t1 h hc1
      · rcases i3 with h | ⟨t1, ht1, hc1, h⟩
        · exact Or.inl h
        · exact Or.inr ⟨t1, List.mem_cons_of_mem _ ht1, hc1, h⟩
    | true =>
      obtain ⟨-, -, -, -, e4⟩ := d1 hc
      have hne : tradeEnd candles t ≠ 0 := hnz t (List.mem_cons_self _ _) hc
      rcases hst with hnone | ⟨f, hf, hsf⟩
      · have e5 : (openStep candles config st t).lastTradeTime = some (tradeEnd candles t) := by
          rw [e4, hnone]
          rfl
        obtain ⟨i1, i2, i3⟩ := ih (openStep candles config st t) hnz1 (Or.inr ⟨_, hne, e5⟩)
        refine ⟨fun f0 h => (by rw [hnone] at h; cases h), ?_, ?_⟩
        · intro t1 ht1 hc1
          rcases List.mem_cons.1 ht1 with h | h
          · rw [h]
            exact i1 _ e5
          · exact i2 t1 h hc1
        · rcases i3 with h | ⟨t1, ht1, hc1, h⟩
          · exact Or.inr ⟨t, List.mem_cons_self _ _, hc, by rw [h, e5]⟩
          · exact Or.inr ⟨t1, List.mem_cons_of_mem _ ht1, hc1, h⟩
      · have htr : truthy st.lastTradeTime = true := by
          rw [hsf]
          exact decide_eq_true hf
        by_cases hlt : tradeEnd candles t > f
        · have e5 : (openStep candles config st t).lastTradeTime =
              some (tradeEnd candles t) := by
            rw [e4, htr, hsf]
            simp [hlt]
          obtain ⟨i1, i2, i3⟩ := ih (openStep candles config st t) hnz1 (Or.inr ⟨_, hne, e5⟩)
          obtain ⟨g, hg, hgle⟩ := i1 _ e5
          refine ⟨?_, ?_, ?_⟩
          · intro f0 h
            rw [hsf] at h
            cases h
            exact ⟨g, hg, le_trans (le_of_lt hlt) hgle⟩
          · intro t1 ht1 hc1
            rcases List.mem_cons.1 ht1 with h | h
            · rw [h]
              exact ⟨g, hg, hgle⟩
            · exact i2 t1 h hc1
          · rcases i3 with h | ⟨t1, ht1, hc1, h⟩
            · exact Or.inr ⟨t, List.mem_cons_self _ _, hc, by rw [h, e5]⟩
            · exact Or.inr ⟨t1, List.mem_cons_of_mem _ ht1, hc1, h⟩
        · have e5 : (openStep candles config st t).lastTradeTime = some f := by
            rw [e4, htr, hsf]
            simp [hlt]
          obtain ⟨i1, i2, i3⟩ := ih (openStep candles config st t) hnz1 (Or.inr ⟨_, hf, e5⟩)
          obtain ⟨g, hg, hgle⟩ := i1 _ e5
          refine ⟨?_, ?_, ?_⟩
          · intro f0 h
            rw [hsf] at h
            cases h
            exact ⟨g, hg, hgle⟩
          · intro t1 ht1 hc1
            rcases List.mem_cons.1 ht1 with h | h
            · rw [h]
              exact ⟨g, hg, le_trans (not_lt.1 hlt) hgle⟩
            · exact i2 t1 h hc1
          · rcases i3 with h | ⟨t1, ht1, hc1, h⟩
            · exact Or.inl (by rw [h, e5, hsf])
            · exact Or.inr ⟨t1, List.mem_cons_of_mem _ ht1, hc1, h⟩

lemma mem_add_open (pre extra post : List PnLTrade) (t : PnLTrade) :
    t ∈ pre ++ extra ++ post ↔ t ∈ pre ++ post ∨ t ∈ extra := by
  simp only [List.mem_append]
  tauto

lemma openFinal_init_fields (l : List PnLTrade) (candles : List Bar) (config : PnLConfig) :
    openFinal l candles config = l.foldl (openStep candles config)
      { unrealizedPnL := 0, firstTradeTime := none, lastTradeTime := none, totalDuration := 0,
        maxDuration := 0, durationCount := 0 } := rfl

/-- C29.  Adding trades with status `OPEN` anywhere in the input of
`calculatePnLMetrics` leaves the equity curve, `realizedPnL`, `totalTrades`,
`winRate`, `profitFactor`, `maxDrawdown`, `sharpe` and `sortino` unchanged;
`unrealizedPnL` and `metrics.currentEquity` grow by the sum of `pnlPercent *
riskPerTrade` over the added trades.  The added trades with an `entryTime`
take part in the duration statistics: each adds 1 to the number and `tradeEnd
- entryTime` to the total of the durations whose quotient is `avgDuration`;
`maxDuration` is the larger of its value without them and the largest of their
durations; `firstTradeTime` is the earlier of its value without them and the
earliest of their entry times; and, when no counted trade ends at time 0,
`lastTradeTime` is the later of its value without them and the latest of their
end times. -/
theorem open_trades_add_unrealized_and_durations (mathSqrt : ℚ → ℚ)
    (pre extra post : List PnLTrade) (candles : List Bar) (config : PnLConfig)
    (hopen : ∀ t ∈ extra, t.status = .OPEN) :
    (calculatePnLMetrics mathSqrt (pre ++ extra ++ post) candles config).equityCurve =
      (calculatePnLMetrics mathSqrt (pre ++ post) candles config).equityCurve ∧
    (calculatePnLMetrics mathSqrt (pre ++ extra ++ post) candles config).metrics.realizedPnL =
      (calculatePnLMetrics mathSqrt (pre ++ post) candles config).metrics.realizedPnL ∧
    (calculatePnLMetrics mathSqrt (pre ++ extra ++ post) candles config).metrics.totalTrades =
      (calculatePnLMetrics mathSqrt (pre ++ post) candles config).metrics.totalTrades ∧
    (calculatePnLMetrics mathSqrt (pre ++ extra ++ post) candles config).metrics.winRate =
      (calculatePnLMetrics mathSqrt (pre ++ post) candles config).metrics.winRate ∧
    (calculatePnLMetrics mathSqrt (pre ++ extra ++ post) candles config).metrics.profitFactor =
      (calculatePnLMetrics mathSqrt (pre ++ post) candles config).metrics.profitFactor ∧
    (calculatePnLMetrics mathSqrt (pre ++ extra ++ post) candles config).metrics.maxDrawdown =
      (calculatePnLMetrics mathSqrt (pre ++ post) candles config).metrics.maxDrawdown ∧
    (calculatePnLMetrics mathSqrt (pre ++ extra ++ post) candles config).metrics.sharpe =
      (calculatePnLMetrics mathSqrt (pre ++ post) candles config).metrics.sharpe ∧
    (calculatePnLMetrics mathSqrt (pre ++ extra ++ post) candles config).metrics.sortino =
      (calculatePnLMetrics mathSqrt (pre ++ post) candles config).metrics.sortino ∧
    (calculatePnLMetrics mathSqrt (pre ++ extra ++ post) candles config).metrics.unrealizedPnL =
      (calculatePnLMetrics mathSqrt (pre ++ post) candles config).metrics.unrealizedPnL +
        (extra.map fun t => t.pnlPercent * riskPerTrade config).sum ∧
    (calculatePnLMetrics mathSqrt (pre ++ extra ++ post) candles config).metrics.currentEquity =
      (calculatePnLMetrics mathSqrt (pre ++ post) candles config).metrics.currentEquity +
        (extra.map fun t => t.pnlPercent * riskPerTrade config).sum ∧
    (openFinal (pre ++ extra ++ post) candles config).durationCount =
      (openFinal (pre ++ post) candles config).durationCount +
        (extra.filter fun t => truthy t.entryTime).length ∧
    (openFinal (pre ++ extra ++ post) candles config).totalDuration =
      (openFinal (pre ++ post) candles config).totalDuration +
        ((extra.filter fun t => truthy t.entryTime).map (durationOf candles)).sum ∧
    (calculatePnLMetrics mathSqrt (pre ++ extra ++ post) candles config).metrics.avgDuration =
      (if (openFinal (pre ++ extra ++ post) candles config).durationCount > 0 then
        ((openFinal (pre ++ extra ++ post) candles config).totalDuration : ℚ) /
          ((openFinal (pre ++ extra ++ post) candles config).durationCount : ℚ)
      else 0) ∧
    ((calculatePnLMetrics mathSqrt (pre ++ post) candles config).metrics.maxDuration ≤
        (calculatePnLMetrics mathSqrt (pre ++ extra ++ post) candles config).metrics.maxDuration ∧
      (∀ t ∈ extra, truthy t.entryTime = true → durationOf candles t ≤
        (calculatePnLMetrics mathSqrt (pre ++ extra ++ post) candles config).metrics.maxDuration) ∧
      ((calculatePnLMetrics mathSqrt (pre ++ extra ++ post) candles config).metrics.maxDuration =
          (calculatePnLMetrics mathSqrt (pre ++ post) candles config).metrics.maxDuration ∨
        ∃ t ∈ extra, truthy t.entryTime = true ∧
          (calculatePnLMetrics mathSqrt (pre ++ extra ++ post) candles
            config).metrics.maxDuration = durationOf candles t)) ∧
    ((∀ f0, (calculatePnLMetrics mathSqrt (pre ++ post) candles config).metrics.firstTradeTime =
          some f0 →
        ∃ f, (calculatePnLMetrics mathSqrt (pre ++ extra ++ post) candles
          config).metrics.firstTradeTime = some f ∧ f ≤ f0) ∧
      (∀ t ∈ extra, truthy t.entryTime = true →
        ∃ f, (calculatePnLMetrics mathSqrt (pre ++ extra ++ post) candles
          config).metrics.firstTradeTime = some f ∧ f ≤ t.entryTime.getD 0) ∧
      ((calculatePnLMetrics mathSqrt (pre ++ extra ++ post) candles config).metrics.firstTradeTime =
          (calculatePnLMetrics mathSqrt (pre ++ post) candles config).metrics.firstTradeTime ∨
        ∃ t ∈ extra, truthy t.entryTime = true ∧
          (calculatePnLMetrics mathSqrt (pre ++ extra ++ post) candles
            config).metrics.firstTradeTime = t.entryTime)) ∧
    ((∀ t ∈ pre ++ extra ++ post, countedForDuration t = true → tradeEnd candles t ≠ 0) →
      (∀ f0, (calculatePnLMetrics mathSqrt (pre ++ post) candles config).metrics.lastTradeTime =
          some f0 →
        ∃ f, (calculatePnLMetrics mathSqrt (pre ++ extra ++ post) candles
          config).metrics.lastTradeTime = some f ∧ f0 ≤ f) ∧
      (∀ t ∈ extra, truthy t.entryTime = true →
        ∃ f, (calculatePnLMetrics mathSqrt (pre ++ extra ++ post) candles
          config).metrics.lastTradeTime = some f ∧ tradeEnd candles t ≤ f) ∧
      ((calculatePnLMetrics mathSqrt (pre ++ extra ++ post) candles config).metrics.lastTradeTime =
          (calculatePnLMetrics mathSqrt (pre ++ post) candles config).metrics.lastTradeTime ∨
        ∃ t ∈ extra, truthy t.entryTime = true ∧
          (calculatePnLMetrics mathSqrt (pre ++ extra ++ post) candles
            config).metrics.lastTradeTime = some (tradeEnd candles t))) := by
  obtain ⟨c1, c2, c3, c4, c5, c6, c7, c8, c9, c10⟩ :=
    open_trades_frame mathSqrt pre extra post candles config hopen
  have hfilter : extra.filter countedForDuration = extra.filter fun t => truthy t.entryTime := by
    apply List.filter_congr
    intro t ht
    unfold countedForDuration
    rw [hopen t ht]
    rfl
  have hcounted : (pre ++ extra ++ post).filter countedForDuration =
      pre.filter countedForDuration ++ (extra.filter fun t => truthy t.entryTime) ++
        post.filter countedForDuration := by
    rw [List.filter_append, List.filter_append, hfilter]
  have hmemA : ∀ t, t ∈ pre ++ post → t ∈ pre ++ extra ++ post :=
    fun t h => (mem_add_open pre extra post t).2 (Or.inl h)
  have hextraA : ∀ t, t ∈ extra → t ∈ pre ++ extra ++ post :=
    fun t h => (mem_add_open pre extra post t).2 (Or.inr h)
  have hext : ∀ t ∈ extra, truthy t.entryTime = true → countedForDuration t = true :=
    fun t ht h => counted_of_open t (hopen t ht) h
  have htr : ∀ t, countedForDuration t = true → truthy t.entryTime = true := by
    intro t h
    unfold countedForDuration at h
    rw [Bool.and_eq_true] at h
    exact h.2
  refine ⟨c1, c2, c3, c4, c5, c6, c7, c8, c9, c10, ?_, ?_, rfl, ?_, ?_, ?_⟩
  · rw [openFinal_init_fields, openFinal_init_fields,
      (open_foldl_count candles config (pre ++ extra ++ post) _).1,
      (open_foldl_count candles config (pre ++ post) _).1, hcounted, List.filter_append]
    simp only [List.length_append]
    omega
  · rw [openFinal_init_fields, openFinal_init_fields,
      (open_foldl_count candles config (pre ++ extra ++ post) _).2,
      (open_foldl_count candles config (pre ++ post) _).2, hcounted, List.filter_append]
    simp only [List.map_append, List.sum_append]
    ring
  · obtain ⟨a1, a2, a3⟩ := open_foldl_max candles config (pre ++ extra ++ post)
      { unrealizedPnL := 0, firstTradeTime := none, lastTradeTime := none, totalDuration := 0,
        maxDuration := 0, durationCount := 0 }
    obtain ⟨b1, b2, b3⟩ := open_foldl_max candles config (pre ++ post)
      { unrealizedPnL := 0, firstTradeTime := none, lastTradeTime := none, totalDuration := 0,
        maxDuration := 0, durationCount := 0 }
    show (openFinal (pre ++ post) candles config).maxDuration ≤
        (openFinal (pre ++ extra ++ post) candles config).maxDuration ∧
      (∀ t ∈ extra, truthy t.entryTime = true →
        durationOf candles t ≤ (openFinal (pre ++ extra ++ post) candles config).maxDuration) ∧
      ((openFinal (pre ++ extra ++ post) candles config).maxDuration =
          (openFinal (pre ++ post) candles config).maxDuration ∨
        ∃ t ∈ extra, truthy t.entryTime = true ∧
          (openFinal (pre ++ extra ++ post) candles config).maxDuration = durationOf candles t)
    rw [openFinal_init_fields, openFinal_init_fields]
    have hle : (List.foldl (openStep candles config)
          { unrealizedPnL := 0, firstTradeTime := none, lastTradeTime := none,
            totalDuration := 0, maxDuration := 0, durationCount := 0 } (pre ++ post)).maxDuration ≤
        (List.foldl (openStep candles config)
          { unrealizedPnL := 0, firstTradeTime := none, lastTradeTime := none,
            totalDuration := 0, maxDuration := 0, durationCount := 0 }
          (pre ++ extra ++ post)).maxDuration := by
      rcases b3 with h | ⟨t, ht, hc, h⟩
      · rw [h]
        exact a1
      · rw [h]
        exact a2 t (hmemA t ht) hc
    refine ⟨hle, fun t ht h => a2 t (hextraA t ht) (hext t ht h), ?_⟩
    rcases a3 with h | ⟨t, ht, hc, h⟩
    · left
      apply le_antisymm
      · rw [h]
        exact b1
      · exact hle
    · rcases (mem_add_open pre extra post t).1 ht with hB | hE
      · left
        apply le_antisymm
        · rw [h]
          exact b2 t hB hc
        · exact hle
      · exact Or.inr ⟨t, hE, htr t hc, h⟩
  · obtain ⟨-, a2, a3⟩ := open_foldl_first candles config (pre ++ extra ++ post)
      { unrealizedPnL := 0, firstTradeTime := none, lastTradeTime := none, totalDuration := 0,
        maxDuration := 0, durationCount := 0 } (Or.inl rfl)
    obtain ⟨-, b2, b3⟩ := open_foldl_first candles config (pre ++ post)
      { unrealizedPnL := 0, firstTradeTime := none, lastTradeTime := none, totalDuration := 0,
        maxDuration := 0, durationCount := 0 } (Or.inl rfl)
    show (∀ f0, (openFinal (pre ++ post) candles config).firstTradeTime = some f0 →
        ∃ f, (openFinal (pre ++ extra ++ post) candles config).firstTradeTime = some f ∧
          f ≤ f0) ∧
      (∀ t ∈ extra, truthy t.entryTime = true →
        ∃ f, (openFinal (pre ++ extra ++ post) candles config).firstTradeTime = some f ∧
          f ≤ t.entryTime.getD 0) ∧
      ((openFinal (pre ++ extra ++ post) candles config).firstTradeTime =
          (openFinal (pre ++ post) candles config).firstTradeTime ∨
        ∃ t ∈ extra, truthy t.entryTime = true ∧
          (openFinal (pre ++ extra ++ post) candles config).firstTradeTime = t.entryTime)
    rw [openFinal_init_fields, openFinal_init_fields]
    have hle : ∀ f0, (List.foldl (openStep candles config)
          { unrealizedPnL := 0, firstTradeTime := none, lastTradeTime := none,
            totalDuration := 0, maxDuration := 0, durationCount := 0 }
          (pre ++ post)).firstTradeTime = some f0 →
        ∃ f, (List.foldl (openStep candles config)
          { unrealizedPnL := 0, firstTradeTime := none, lastTradeTime := none,
            totalDuration := 0, maxDuration := 0, durationCount := 0 }
          (pre ++ extra ++ post)).firstTradeTime = some f ∧ f ≤ f0 := by
      intro f0 hf0
      rcases b3 with h | ⟨t, ht, hc, h⟩
      · rw [h] at hf0
        cases hf0
      · obtain ⟨f, hf, hfle⟩ := a2 t (hmemA t ht) hc
        rw [h, (counted_entryTime t hc).2] at hf0
        cases hf0
        exact ⟨f, hf, hfle⟩
    refine ⟨hle, fun t ht h => a2 t (hextraA t ht) (hext t ht h), ?_⟩
    rcases a3 with h | ⟨t, ht, hc, h⟩
    · left
      rcases b3 with hb | ⟨t, ht, hc, -⟩
      · rw [h, hb]
      · obtain ⟨f, hf, -⟩ := a2 t (hmemA t ht) hc
        rw [h] at hf
        cases hf
    · rcases (mem_add_open pre extra post t).1 ht with hB | hE
      · left
        obtain ⟨g, hg, hgle⟩ := b2 t hB hc
        obtain ⟨f, hf, hfle⟩ := hle g hg
        rw [h, (counted_entryTime t hc).2] at hf
        cases hf
        rw [h, hg, (counted_entryTime t hc).2]
        exact congrArg some (le_antisymm hfle hgle)
      · exact Or.inr ⟨t, hE, htr t hc, h⟩
  · intro hnz
    obtain ⟨-, a2, a3⟩ := open_foldl_last candles config (pre ++ extra ++ post)
      { unrealizedPnL := 0, firstTradeTime := none, lastTradeTime := none, totalDuration := 0,
        maxDuration := 0, durationCount := 0 } hnz (Or.inl rfl)
    obtain ⟨-, b2, b3⟩ := open_foldl_last candles config (pre ++ post)
      { unrealizedPnL := 0, firstTradeTime := none, lastTradeTime := none, totalDuration := 0,
        maxDuration := 0, durationCount := 0 } (fun t ht => hnz t (hmemA t ht)) (Or.inl rfl)
    show (∀ f0, (openFinal (pre ++ post) candles config).lastTradeTime = some f0 →
        ∃ f, (openFinal (pre ++ extra ++ post) candles config).lastTradeTime = some f ∧
          f0 ≤ f) ∧
      (∀ t ∈ extra, truthy t.entryTime = true →
        ∃ f, (openFinal (pre ++ extra ++ post) candles config).lastTradeTime = some f ∧
          tradeEnd candles t ≤ f) ∧
      ((openFinal (pre ++ extra ++ post) candles config).lastTradeTime =
          (openFinal (pre ++ post) candles config).lastTradeTime ∨
        ∃ t ∈ extra, truthy t.entryTime = true ∧
          (openFinal (pre ++ extra ++ post) candles config).lastTradeTime =
            some (tradeEnd candles t))
    rw [openFinal_init_fields, openFinal_init_fields]
    have hle : ∀ f0, (List.foldl (openStep candles config)
          { unrealizedPnL := 0, firstTradeTime := none, lastTradeTime := none,
            totalDuration := 0, maxDuration := 0, durationCount := 0 }
          (pre ++ post)).lastTradeTime = some f0 →
        ∃ f, (List.foldl (openStep candles config)
          { unrealizedPnL := 0, firstTradeTime := none, lastTradeTime := none,
            totalDuration := 0, maxDuration := 0, durationCount := 0 }
          (pre ++ extra ++ post)).lastTradeTime = some f ∧ f0 ≤ f := by
      intro f0 hf0
      rcases b3 with h | ⟨t, ht, hc, h⟩
      · rw [h] at hf0
        cases hf0
      · obtain ⟨f, hf, hfle⟩ := a2 t (hmemA t ht) hc
        rw [h] at hf0
        cases hf0
        exact ⟨f, hf, hfle⟩
    refine ⟨hle, fun t ht h => a2 t (hextraA t ht) (hext t ht h), ?_⟩
    rcases a3 with h | ⟨t, ht, hc, h⟩
    · left
      rcases b3 with hb | ⟨t, ht, hc, -⟩
      · rw [h, hb]
      · obtain ⟨f, hf, -⟩ := a2 t (hmemA t ht) hc
        rw [h] at hf
        cases hf
    · rcases (mem_add_open pre extra post t).1 ht with hB | hE
      · left
        obtain ⟨g, hg, hgle⟩ := b2 t hB hc
        obtain ⟨f, hf, hfle⟩ := hle g hg
        rw [h] at hf
        cases hf
        rw [h, hg]
        exact congrArg some (le_antisymm hgle hfle)
      · exact Or.inr ⟨t, hE, htr t hc, h⟩

theorem open_trades_add_unrealized_and_durations_witness :
    (openFinal ([sampleTrade .WIN 120 2] ++ [openTrade (1 / 2)] ++
        [sampleTrade .LOSS 180 (-1)]) (flatBars 100 0 5) defaultPnLConfig).totalDuration =
      (openFinal ([sampleTrade .WIN 120 2] ++ [sampleTrade .LOSS 180 (-1)])
        (flatBars 100 0 5) defaultPnLConfig).totalDuration +
        (([openTrade (1 / 2)].filter fun t => truthy t.entryTime).map
          (durationOf (flatBars 100 0 5))).sum ∧
    durationOf (flatBars 100 0 5) (openTrade (1 / 2)) = 180 ∧
    (calculatePnLMetrics id ([sampleTrade .WIN 120 2] ++ [openTrade (1 / 2)] ++
        [sampleTrade .LOSS 180 (-1)]) (flatBars 100 0 5) defaultPnLConfig).metrics.maxDuration =
      180 :=
  ⟨(open_trades_add_unrealized_and_durations id [sampleTrade .WIN 120 2] [openTrade (1 / 2)]
    [sampleTrade .LOSS 180 (-1)] (flatBars 100 0 5) defaultPnLConfig (by
      intro t ht
      rw [List.mem_singleton] at ht
      rw [ht]
      rfl)).2.2.2.2.2.2.2.2.2.2.2.1, by decide!, by decide!⟩

end PnL

/-! ## The entry test of a pending trade comes first -/

lemma openStep_opened (t : Trade) (bar : Bar) (rr : ℚ) :
    (openStep t bar rr).1.entryTime = t.entryTime ∧
    ((openStep t bar rr).1.status = t.status ∨ (openStep t bar rr).1.status = .WIN ∨
      (openStep t bar rr).1.status = .LOSS) := by
  unfold openStep
  split <;> split_ifs <;> simp

/-- Once a trade is `OPEN`, the scan keeps its `entryTime` and leaves it
`OPEN`, `WIN` or `LOSS`. -/
lemma lifecycleLoop_opened (rr : ℚ) (l : List Bar) :
    ∀ t : Trade, (t.status = .OPEN ∨ t.status = .WIN ∨ t.status = .LOSS) →
      (lifecycleLoop rr t l).entryTime = t.entryTime ∧
      ((lifecycleLoop rr t l).status = .OPEN ∨ (lifecycleLoop rr t l).status = .WIN ∨
        (lifecycleLoop rr t l).status = .LOSS) := by
  induction l with
  | nil => intro t h; exact ⟨rfl, h⟩
  | cons bar rest ih =>
    intro t h
    by_cases ho : t.status = .OPEN
    · have hstep : lifecycleStep t bar rr = openStep t bar rr := by
        unfold lifecycleStep
        rw [if_neg (by rw [ho]; decide), if_pos ho]
      obtain ⟨e1, e2⟩ := openStep_opened t bar rr
      have hst : (openStep t bar rr).1.status = .OPEN ∨ (openStep t bar rr).1.status = .WIN ∨
          (openStep t bar rr).1.status = .LOSS := by
        rcases e2 with h1 | h1 | h1
        · exact Or.inl (h1.trans ho)
        · exact Or.inr (Or.inl h1)
        · exact Or.inr (Or.inr h1)
      rw [lifecycleLoop_cons, hstep]
      split_ifs
      · exact ⟨e1, hst⟩
      · obtain ⟨i1, i2⟩ := ih _ hst
        exact ⟨i1.trans e1, i2⟩
    · have hp : t.status ≠ .PENDING := by
        rcases h with h1 | h1 | h1 <;> rw [h1] <;> decide
      rw [lifecycleLoop_settled rr _ t hp ho]
      exact ⟨rfl, h⟩

/-- The trade after bar `j` is the trade before bar `j` stepped over bar `j`. -/
lemma tradeBefore_succ (rr : ℚ) (trade : Trade) (idx j : Nat) (candles : List Bar) (bar : Bar)
    (hj : idx < j) (hbar : candles[j]? = some bar) :
    tradeBefore rr trade idx candles (j + 1) =
      lifecycleLoop rr (tradeBefore rr trade idx candles j) [bar] := by
  have hlen : j < candles.length := (List.getElem?_eq_some_iff.mp hbar).1
  have hsplit := drop_split candles idx j bar hj hbar
  have hl : ((candles.drop (idx + 1)).take (j - (idx + 1))).length = j - (idx + 1) := by
    rw [List.length_take, List.length_drop]; omega
  have htake : (candles.drop (idx + 1)).take (j + 1 - (idx + 1)) =
      (candles.drop (idx + 1)).take (j - (idx + 1)) ++ [bar] := by
    conv_lhs => rw [hsplit]
    rw [List.take_append_eq_append_take, hl]
    have h1 : j + 1 - (idx + 1) - (j - (idx + 1)) = 1 := by omega
    rw [h1]
    rw [List.take_of_length_le (by rw [hl]; omega)]
    simp
  unfold tradeBefore
  rw [htake, lifecycleLoop_append]

/-- A `PENDING` trade examined at a bar that reaches its entry becomes `OPEN`
with the time of the bar as `entryTime`, whether or not the bar reaches the
stop as well. -/
lemma pendingStep_entry (t : Trade) (bar : Bar) (h : reachesEntry t bar) :
    (pendingStep t bar).status = .OPEN ∧ (pendingStep t bar).entryTime = some bar.time := by
  unfold pendingStep
  unfold reachesEntry at h
  cases ht : t.type <;> simp only [ht] at h ⊢ <;> rw [if_pos h] <;> exact ⟨rfl, rfl⟩

/-- With the stop not on the profit side of the entry, a bar that reaches the
stop reaches the entry. -/
lemma reachesEntry_of_reachesStop (t : Trade) (bar : Bar)
    (hl : t.type = .LONG → t.sl ≤ t.entry) (hs : t.type = .SHORT → t.entry ≤ t.sl)
    (h : reachesStop t bar) : reachesEntry t bar := by
  unfold reachesStop at h
  unfold reachesEntry
  cases ht : t.type <;> simp only [ht] at h ⊢
  · exact le_trans h (hl ht)
  · exact le_trans (hs ht) h

/-- C3, amended.  Let no bar examined before bar `j` have reached the entry
price.  (1) If the trade is `PENDING` when bar `j` is examined and the bar
reaches the entry price, the trade is `OPEN` after the bar with the bar's time
as `entryTime`, whether or not the bar reaches the stop as well, and
`createTrade` returns the trade (then `OPEN`, `WIN` or `LOSS`).  (2) If bar `j`
reaches the stop price without reaching the entry price, the trade is
`CANCELLED` after the bar and `createTrade` returns no trade.  (3) For a trade
whose stop is not on the profit side of the entry (LONG: `sl <= entry`; SHORT:
`entry <= sl`) the trade is `PENDING` when bar `j` is examined, a bar that
reaches the stop reaches the entry, and `createTrade` does not return `null`:
such a trade is never cancelled. -/
theorem pending_entry_tested_before_stop (rr : ℚ) (idx j : Nat) (type : TradeType)
    (entry sl : ℚ) (time : Int) (candles : List Bar) (bar : Bar)
    (hj : idx < j) (hbar : candles[j]? = some bar)
    (hearlier : ∀ b ∈ (candles.drop (idx + 1)).take (j - (idx + 1)),
      ¬ reachesEntry (newTrade idx type entry sl time rr) b) :
    ((tradeBefore rr (newTrade idx type entry sl time rr) idx candles j).status = .PENDING →
      reachesEntry (newTrade idx type entry sl time rr) bar →
      (tradeBefore rr (newTrade idx type entry sl time rr) idx candles (j + 1)).status = .OPEN ∧
      (tradeBefore rr (newTrade idx type entry sl time rr) idx candles (j + 1)).entryTime =
        some bar.time ∧
      ∃ t, createTrade idx type entry sl time candles rr = .ok (some t) ∧
        t.entryTime = some bar.time ∧
        (t.status = .OPEN ∨ t.status = .WIN ∨ t.status = .LOSS)) ∧
    (reachesStop (newTrade idx type entry sl time rr) bar →
      ¬ reachesEntry (newTrade idx type entry sl time rr) bar →
      (tradeBefore rr (newTrade idx type entry sl time rr) idx candles (j + 1)).status =
        .CANCELLED ∧
      createTrade idx type entry sl time candles rr = .ok none) ∧
    ((type = .LONG → sl ≤ entry) → (type = .SHORT → entry ≤ sl) →
      (tradeBefore rr (newTrade idx type entry sl time rr) idx candles j).status = .PENDING ∧
      (reachesStop (newTrade idx type entry sl time rr) bar →
        reachesEntry (newTrade idx type entry sl time rr) bar) ∧
      createTrade idx type entry sl time candles rr ≠ .ok none) := by
  have hlen : j < candles.length := (List.getElem?_eq_some_iff.mp hbar).1
  have hne : candles ≠ [] := by
    intro h
    rw [h] at hlen
    exact Nat.not_lt_zero _ hlen
  have hf := lifecycleLoop_fields rr ((candles.drop (idx + 1)).take (j - (idx + 1)))
    (newTrade idx type entry sl time rr)
  refine ⟨?_, fun hstop hnoentry =>
    pending_stop_without_entry_cancels rr idx j type entry sl time candles bar hj hbar hearlier
      hstop hnoentry, ?_⟩
  · intro hp hentry
    have hentry1 : reachesEntry (tradeBefore rr (newTrade idx type entry sl time rr) idx
        candles j) bar := by
      unfold reachesEntry at hentry ⊢
      unfold tradeBefore
      rw [hf.1, hf.2.1]
      exact hentry
    obtain ⟨p1, p2⟩ := pendingStep_entry _ bar hentry1
    have hstep : lifecycleStep (tradeBefore rr (newTrade idx type entry sl time rr) idx
        candles j) bar rr =
        (pendingStep (tradeBefore rr (newTrade idx type entry sl time rr) idx candles j) bar,
          false) := by
      unfold lifecycleStep
      rw [if_pos hp]
    have hafter : ∀ post : List Bar,
        lifecycleLoop rr (tradeBefore rr (newTrade idx type entry sl time rr) idx candles j)
          (bar :: post) =
        lifecycleLoop rr
          (pendingStep (tradeBefore rr (newTrade idx type entry sl time rr) idx candles j) bar)
          post := by
      intro post
      rw [lifecycleLoop_cons, hstep]
      simp only [Bool.false_eq_true, if_false]
    have hnext : tradeBefore rr (newTrade idx type entry sl time rr) idx candles (j + 1) =
        pendingStep (tradeBefore rr (newTrade idx type entry sl time rr) idx candles j) bar := by
      rw [tradeBefore_succ rr _ idx j candles bar hj hbar, hafter []]
      rfl
    refine ⟨by rw [hnext]; exact p1, by rw [hnext]; exact p2, ?_⟩
    have hscan := scan_split rr (newTrade idx type entry sl time rr) idx j candles bar hj hbar
    rw [hafter] at hscan
    obtain ⟨o1, o2⟩ := lifecycleLoop_opened rr (candles.drop (j + 1)) _ (Or.inl p1)
    rw [← hscan] at o1 o2
    rw [p2] at o1
    unfold createTrade processTradeLifecycle
    dsimp only
    by_cases ho : (lifecycleLoop rr (newTrade idx type entry sl time rr)
        (candles.drop (idx + 1))).status = .OPEN
    · rw [if_pos ho]
      cases hlast : candles.getLast? with
      | none => exact absurd (List.getLast?_eq_none_iff.mp hlast) hne
      | some last =>
        dsimp only
        rw [if_pos (by rw [ho]; decide)]
        exact ⟨_, rfl, o1, Or.inl ho⟩
    · rw [if_neg ho]
      dsimp only
      have hnc : (lifecycleLoop rr (newTrade idx type entry sl time rr)
          (candles.drop (idx + 1))).status ≠ .CANCELLED := by
        rcases o2 with h | h | h <;> rw [h] <;> decide
      rw [if_pos hnc]
      exact ⟨_, rfl, o1, o2⟩
  · intro hl hs
    have hpc := lifecycleLoop_no_entry rr _ (newTrade idx type entry sl time rr) (Or.inl rfl)
      hearlier
    have hncan := lifecycleLoop_not_cancelled rr
      ((candles.drop (idx + 1)).take (j - (idx + 1))) (newTrade idx type entry sl time rr)
      hl hs (by unfold newTrade; simp)
    refine ⟨?_, reachesEntry_of_reachesStop _ bar hl hs, ?_⟩
    · rcases hpc with h | h
      · exact h
      · exact absurd h hncan
    · obtain ⟨t, ht, -⟩ := createTrade_some idx type entry sl time candles rr hne hl hs
      rw [ht]
      intro h
      cases h

/-- A witness for C3 (amended): a long with entry 100 and stop 95 meets a bar
with low 90, which reaches the stop and the entry. -/
theorem pending_entry_tested_before_stop_witness :
    (tradeBefore 2 (newTrade 0 .LONG 100 95 0 2) 0
      [⟨0, 101, 102, 101, 102, 1⟩, ⟨60, 101, 102, 90, 98, 1⟩] (1 + 1)).entryTime = some 60 ∧
    reachesStop (newTrade 0 .LONG 100 95 0 2) ⟨60, 101, 102, 90, 98, 1⟩ ∧
    createTrade 0 .LONG 100 95 0 [⟨0, 101, 102, 101, 102, 1⟩, ⟨60, 101, 102, 90, 98, 1⟩] 2 ≠
      .ok none :=
  ⟨((pending_entry_tested_before_stop 2 0 1 .LONG 100 95 0
      [⟨0, 101, 102, 101, 102, 1⟩, ⟨60, 101, 102, 90, 98, 1⟩] ⟨60, 101, 102, 90, 98, 1⟩
      (by decide) rfl (by simp)).1 (by decide!) (by decide!)).2.1,
   by decide!,
   ((pending_entry_tested_before_stop 2 0 1 .LONG 100 95 0
      [⟨0, 101, 102, 101, 102, 1⟩, ⟨60, 101, 102, 90, 98, 1⟩] ⟨60, 101, 102, 90, 98, 1⟩
      (by decide) rfl (by simp)).2.2 (fun _ => by norm_num) (fun h => by cases h)).2.2⟩

namespace Liquidity

/-! ## The break-even exit, from the bars to the record -/

/-- The iteration of the partial-exit loop at a bar that touches the entry
price when the stop has been moved to break-even (before the bar or by it) and
the first target has not been reached. -/
lemma partialStep_break_even (s : Bool) (e r t1 t2 : ℚ) (st : PartialState) (bar : Bar)
    (hbe : st.movedToBE = true → st.currentSL = e) (hno : st.tp1Hit = false)
    (hmoved : st.movedToBE = true ∨ reachedOneR s e r bar = true)
    (hnt : hitTarget s bar (targetPrice s e r t1) = false)
    (hstop : hitStop s bar e = true) :
    (partialStep s e r t1 t2 st bar).2 =
      some { outcome := .BE, exitTime := some bar.time, pnlR := 0 } := by
  have hst1 : (beStep s e r st bar).movedToBE = true ∧ (beStep s e r st bar).currentSL = e ∧
      (beStep s e r st bar).tp1Hit = false := by
    by_cases hm : st.movedToBE = true
    · have hsame : beStep s e r st bar = st := by
        unfold beStep
        rw [hm]
        rfl
      rw [hsame]
      exact ⟨hm, hbe hm, hno⟩
    · rw [Bool.not_eq_true] at hm
      have hr : reachedOneR s e r bar = true := by
        rcases hmoved with h | h
        · rw [hm] at h
          cases h
        · exact h
      unfold beStep
      rw [hm, hr]
      exact ⟨rfl, rfl, hno⟩
  obtain ⟨m1, m2, m3⟩ := hst1
  have hst2 : tp1Step s e r t1 (beStep s e r st bar) bar = beStep s e r st bar := by
    unfold tp1Step
    rw [m3, hnt]
    rfl
  rcases partialStep_cases s e r t1 t2 st bar with ⟨c1, -, -⟩ | ⟨-, -, c3⟩ | ⟨-, c2, -⟩
  · rw [hst2, m3] at c1
    cases c1
  · rw [c3, hst2, m3, m1]
    rfl
  · rw [m2, hstop] at c2
    cases c2

/-- The exit simulation of a partial mode ends in the break-even branch at a
bar that touches the entry price when the trade is still open on arrival, the
stop has been moved to break-even before the bar or by it, and the first
target has not been reached. -/
lemma simulateExit_break_even (candles : List Bar) (mode : Mode) (s : Bool) (e : Entry)
    (pre : List Bar) (bar : Bar) (post : List Bar) (st : PartialState)
    (hm : isPartialMode mode = true)
    (hsplit : candles.drop (e.entryIdx + 1) = pre ++ bar :: post)
    (hst : partialStateAfter s e.entryPrice |e.entryPrice - e.slPrice| (tp1RR mode)
      (tp2RR mode)
      { currentSL := e.slPrice, tp1Hit := false, movedToBE := false, partialPnL := 0 }
      pre = some st)
    (hno : st.tp1Hit = false)
    (hmoved : st.movedToBE = true ∨
      reachedOneR s e.entryPrice |e.entryPrice - e.slPrice| bar = true)
    (hnt : hitTarget s bar
      (targetPrice s e.entryPrice |e.entryPrice - e.slPrice| (tp1RR mode)) = false)
    (hstop : hitStop s bar e.entryPrice = true) :
    simulateExit candles mode s e =
      { outcome := .BE, exitTime := some bar.time, pnlR := 0 } := by
  have hinit : BookedOk (tp1RR mode)
      { currentSL := e.slPrice, tp1Hit := false, movedToBE := false, partialPnL := 0 } :=
    ⟨fun _ => rfl, fun h => (by cases h)⟩
  obtain ⟨⟨-, i2⟩, happ⟩ := partialStateAfter_spec s e.entryPrice
    |e.entryPrice - e.slPrice| (tp1RR mode) (tp2RR mode) pre _ st hst hinit
    (fun h => (by cases h))
  unfold simulateExit
  dsimp only
  rw [hm, hsplit, if_pos rfl, happ, partialExit_cons,
    partialStep_break_even s e.entryPrice _ (tp1RR mode) (tp2RR mode) st bar i2 hno hmoved
      hnt hstop]

/-- C17, amended.  For every trade returned by `runLiquidityStrategy`: its
status is never `BE`.  In the partial-exit modes, when the exit loop is still
running at a bar after the entry bar, the first target has not been reached up
to and including that bar, the stop has been moved to break-even (1R was
reached before the bar or is reached by it) and the bar touches the entry
price, the trade is returned with `outcome = 'BE'`, `status = 'WIN'`, `pnl =
0` and the bar's time as `exitTime`.  Conversely a trade with `outcome = 'BE'`
belongs to a partial mode, has `status = 'WIN'` and `pnl = 0`, its exit bar
touches the entry price, some bar up to it has reached 1R and none has reached
the first target. -/
theorem break_even_stop_returned_as_win (candles : List Bar) (mode : Mode)
    (options : Options) :
    ∃ r, runLiquidityStrategy candles mode options = .ok r ∧
      ∀ t ∈ r.trades, t.status ≠ .BE ∧
        (∃ entryIdx, entryIdx < candles.length ∧ t.entryTime = (nth candles entryIdx).time ∧
          ∀ pre bar post st, isPartialMode mode = true →
            candles.drop (entryIdx + 1) = pre ++ bar :: post →
            partialStateAfter (decide (t.type = .SHORT)) t.entry |t.entry - t.sl| (tp1RR mode)
              (tp2RR mode)
              { currentSL := t.sl, tp1Hit := false, movedToBE := false, partialPnL := 0 }
              pre = some st →
            st.tp1Hit = false →
            (st.movedToBE = true ∨
              reachedOneR (decide (t.type = .SHORT)) t.entry |t.entry - t.sl| bar = true) →
            hitTarget (decide (t.type = .SHORT)) bar
              (targetPrice (decide (t.type = .SHORT)) t.entry |t.entry - t.sl|
                (tp1RR mode)) = false →
            hitStop (decide (t.type = .SHORT)) bar t.entry = true →
            t.outcome = .BE ∧ t.status = .WIN ∧ t.pnl = 0 ∧ t.pnlPercent = 0 ∧
              t.exitTime = some bar.time) ∧
        (t.outcome = .BE →
          isPartialMode mode = true ∧ t.status = .WIN ∧ t.pnl = 0 ∧ t.pnlPercent = 0 ∧
          ∃ entryIdx pre bar post,
            t.entryTime = (nth candles entryIdx).time ∧
            candles.drop (entryIdx + 1) = pre ++ bar :: post ∧
            t.exitTime = some bar.time ∧
            hitStop (decide (t.type = .SHORT)) bar t.entry = true ∧
            (∃ b ∈ pre ++ [bar],
              reachedOneR (decide (t.type = .SHORT)) t.entry |t.entry - t.sl| b = true) ∧
            ∀ b ∈ pre ++ [bar],
              hitTarget (decide (t.type = .SHORT)) b
                (targetPrice (decide (t.type = .SHORT)) t.entry |t.entry - t.sl|
                  (tp1RR mode)) = false) := by
  obtain ⟨r, zones, hr, -, h2, -⟩ := run_spec candles mode options
  obtain ⟨r1, hr1, hold⟩ := break_even_exit_reported_as_win candles mode options
  have hrr : r1 = r := by
    rw [hr] at hr1
    cases hr1
    rfl
  subst hrr
  refine ⟨r1, hr, fun t ht => ⟨(hold t ht).1, ?_, (hold t ht).2⟩⟩
  obtain ⟨line, breakIdx, ob, e, -, -, -, -, -, -, -, fvg, -, he, -, -, hmk⟩ := h2 t ht
  have hc : (ctxOf candles mode options zones).candles = candles := rfl
  have hmo : (ctxOf candles mode options zones).mode = mode := rfl
  rw [hc, hmo] at hmk
  rw [hc] at he
  obtain ⟨-, e2, -⟩ := findEntry_spec _ _ _ _ _ _ he
  generalize decide (line.type = .DOWN) = s at hmk
  obtain ⟨-, -, -, -, -, f6, -, f8, f9, f10, f11, f12, f13, -, f15, f16⟩ :=
    makeTrade_fields candles mode line s (nth candles breakIdx).time ob fvg e
      (entrySignalsOf (ctxOf candles mode options zones) s e) (simulateExit candles mode s e)
  rw [← hmk] at f6 f8 f9 f10 f11 f12 f13 f15 f16
  have hdec : decide (t.type = .SHORT) = s := by
    rw [f15]
    cases s <;> rfl
  refine ⟨e.entryIdx, e2, f6, ?_⟩
  intro pre bar post st hm hsplit hst hno hmoved hnt hstop
  rw [hdec, f12, f13] at hst hmoved hnt
  rw [hdec, f12] at hstop
  have hsim := simulateExit_break_even candles mode s e pre bar post st hm hsplit hst hno hmoved
    hnt hstop
  rw [hsim] at f8 f9 f10 f11 f16
  exact ⟨f9, by rw [f16]; rfl, f10, f11, f8⟩

theorem break_even_stop_returned_as_win_witness :
    ∃ r, runLiquidityStrategy breakEvenSeries .atr_partial_1 defaultOptions = .ok r ∧
      ∃ t ∈ r.trades, t.outcome = .BE ∧ t.status = .WIN ∧ t.pnl = 0 ∧
        t.exitTime = some (nth breakEvenSeries 74).time := by
  obtain ⟨r, hr, h⟩ :=
    break_even_stop_returned_as_win breakEvenSeries .atr_partial_1 defaultOptions
  obtain ⟨t, ht0, ⟨x1, -⟩, ⟨x2, x4, x3⟩, -, hty⟩ := breakEvenSeries_facts.2.2.1
  have ht : t ∈ r.trades := by
    rw [← tradesOf_eq _ _ _ r hr]
    exact ht0
  have hidx : ∀ k, k < 100 →
      (nth breakEvenSeries k).time = (nth breakEvenSeries 73).time → k = 73 := by decide!
  have hlen : breakEvenSeries.length = 100 := by decide
  have hdrop : breakEvenSeries.drop (73 + 1) =
      [] ++ nth breakEvenSeries 74 :: breakEvenSeries.drop 75 := by decide!
  obtain ⟨-, ⟨entryIdx, i1, i2, hfw⟩, -⟩ := h t ht
  rw [hlen] at i1
  have h73 : entryIdx = 73 := hidx entryIdx i1 (by rw [← i2, x1])
  subst h73
  have hs : decide (t.type = .SHORT) = false := by
    rw [hty]
    rfl
  rw [hs] at hfw
  obtain ⟨o1, o2, o3, -, o5⟩ := hfw [] (nth breakEvenSeries 74) (breakEvenSeries.drop 75)
    { currentSL := t.sl, tp1Hit := false, movedToBE := false, partialPnL := 0 } rfl hdrop rfl
    rfl (Or.inr x2) x3 x4
  exact ⟨r, hr, t, ht, o1, o2, o3, o5⟩

end Liquidity

namespace Liquidity

/-! ## The tie-break of the pick within a group -/

/-- The choice of one iteration of the loop over the group. -/
lemma pickStep_cases (s : Bool) (b g : Zone) :
    ((if s then (if g.top > b.top then g else b) else (if g.bottom < b.bottom then g else b)) = g ∧
      ¬ atLeastAsFavorable s b g) ∨
    ((if s then (if g.top > b.top then g else b) else (if g.bottom < b.bottom then g else b)) = b ∧
      atLeastAsFavorable s b g) := by
  unfold atLeastAsFavorable
  cases s
  · simp only [Bool.false_eq_true, if_false]
    by_cases h : g.bottom < b.bottom
    · rw [if_pos h]
      exact Or.inl ⟨rfl, not_le.2 h⟩
    · rw [if_neg h]
      exact Or.inr ⟨rfl, not_lt.1 h⟩
  · simp only [if_true]
    by_cases h : g.top > b.top
    · rw [if_pos h]
      exact Or.inl ⟨rfl, not_le.2 h⟩
    · rw [if_neg h]
      exact Or.inr ⟨rfl, not_lt.1 h⟩

/-- A zone that is not at least as favorable as `b` is not at least as
favorable as a zone that is more favorable than `b`, either. -/
lemma not_atLeastAsFavorable_of (s : Bool) (y b g : Zone) (hy : atLeastAsFavorable s b y)
    (hg : ¬ atLeastAsFavorable s b g) : ¬ atLeastAsFavorable s y g := fun h =>
  hg (atLeastAsFavorable_trans s b y g hy h)

/-- The loop over a group keeps the first of the most favorable zones: the
zones visited before the pick are strictly less favorable, the zones visited
after it are not more favorable. -/
lemma pickBest_fold (s : Bool) (l : List Zone) :
    ∀ (pre : List Zone) (b : Zone) (post : List Zone),
      (∀ y ∈ pre, ¬ atLeastAsFavorable s y b) → (∀ y ∈ post, atLeastAsFavorable s b y) →
      ∃ pre1 post1, pre ++ b :: post ++ l = pre1 ++ pickBest s b l :: post1 ∧
        (∀ y ∈ pre1, ¬ atLeastAsFavorable s y (pickBest s b l)) ∧
        (∀ y ∈ post1, atLeastAsFavorable s (pickBest s b l) y) := by
  induction l with
  | nil =>
    intro pre b post h1 h2
    exact ⟨pre, post, by rw [List.append_nil]; rfl, h1, h2⟩
  | cons g rest ih =>
    intro pre b post h1 h2
    rw [pickBest_cons]
    rcases pickStep_cases s b g with ⟨he, hlt⟩ | ⟨he, hle⟩
    · rw [he]
      obtain ⟨pre1, post1, e1, e2, e3⟩ := ih (pre ++ b :: post) g [] (by
        intro y hy
        rcases List.mem_append.1 hy with h | h
        · intro hyg
          exact h1 y h (atLeastAsFavorable_trans s y g b hyg (by
            unfold atLeastAsFavorable at hlt ⊢
            cases s
            · simp only [Bool.false_eq_true, if_false] at hlt ⊢
              exact le_of_lt (not_le.1 hlt)
            · simp only [if_true] at hlt ⊢
              exact le_of_lt (not_le.1 hlt)))
        · rcases List.mem_cons.1 h with h | h
          · rw [h]
            exact hlt
          · exact not_atLeastAsFavorable_of s y b g (h2 y h) hlt) (fun y hy => by cases hy)
      refine ⟨pre1, post1, ?_, e2, e3⟩
      rw [← e1]
      simp only [List.append_assoc, List.cons_append, List.nil_append]
    · rw [he]
      obtain ⟨pre1, post1, e1, e2, e3⟩ := ih pre b (post ++ [g]) h1 (by
        intro y hy
        rcases List.mem_append.1 hy with h | h
        · exact h2 y h
        · rw [List.mem_singleton] at h
          rw [h]
          exact hle)
      refine ⟨pre1, post1, ?_, e2, e3⟩
      rw [← e1]
      simp only [List.append_assoc, List.cons_append, List.nil_append]

lemma pickBest_first_best (s : Bool) (first : Zone) (tail : List Zone) :
    ∃ pre post, first :: tail = pre ++ pickBest s first (first :: tail) :: post ∧
      (∀ y ∈ pre, ¬ atLeastAsFavorable s y (pickBest s first (first :: tail))) ∧
      (∀ y ∈ post, atLeastAsFavorable s (pickBest s first (first :: tail)) y) := by
  have hself : pickBest s first (first :: tail) = pickBest s first tail := by
    rw [pickBest_cons]
    rcases pickStep_cases s first first with ⟨-, h⟩ | ⟨h, -⟩
    · exact absurd (atLeastAsFavorable_refl s first) h
    · rw [h]
  rw [hself]
  obtain ⟨pre1, post1, e1, e2, e3⟩ := pickBest_fold s tail [] first []
    (fun y hy => by cases hy) (fun y hy => by cases hy)
  exact ⟨pre1, post1, e1, e2, e3⟩

/-- C19, amended.  `filterNearbyOBs` returns one zone per group, where the
groups cut the zones sorted by midpoint (stable) into consecutive runs: a
group is a first zone (the lowest midpoint not yet grouped) followed by the
zones whose midpoint is within 1 % of the midpoint of that first zone, and the
zone that follows a group is not within 1 % of the group's first zone.  The
zone returned for a group is the first of its most favorable zones (highest
top for a short trap, lowest bottom for a long trap): it is at least as
favorable as every zone of the group, and the zones before it in the group are
strictly less favorable.  Every returned zone is a zone of the input. -/
theorem nearby_filter_keeps_first_best (obs : List Zone) (isShortTrap : Bool) :
    ∃ groups : List (Zone × List Zone),
      (groups.flatMap fun g => g.1 :: g.2) = obs.insertionSort (fun a b => mid a ≤ mid b) ∧
      List.Forall₂
        (fun z g => (z ∈ g.1 :: g.2 ∧ ∀ y ∈ g.1 :: g.2, atLeastAsFavorable isShortTrap z y) ∧
          ∃ pre post, g.1 :: g.2 = pre ++ z :: post ∧
            (∀ y ∈ pre, ¬ atLeastAsFavorable isShortTrap y z) ∧
            (∀ y ∈ post, atLeastAsFavorable isShortTrap z y))
        (filterNearbyOBs obs isShortTrap 0.01) groups ∧
      (∀ g ∈ groups, ∀ y ∈ g.2, nearMid (mid g.1) 0.01 y = true) ∧
      groups.Chain' (fun g h => nearMid (mid g.1) 0.01 h.1 = false) ∧
      ∀ z ∈ filterNearbyOBs obs isShortTrap 0.01, z ∈ obs := by
  obtain ⟨groups, g1, g2, g3, g4, -⟩ := clusterLoop_spec isShortTrap 0.01 obs.length
    (obs.insertionSort (fun a b => mid a ≤ mid b))
    (by rw [List.length_insertionSort])
  rw [← filterNearbyOBs_eq] at g2
  have hmem : ∀ g : Zone × List Zone, pickBest isShortTrap g.1 (g.1 :: g.2) ∈ g.1 :: g.2 := by
    intro g
    rcases pickBest_mem_group isShortTrap (g.1 :: g.2) g.1 with h | h
    · rw [h]; exact List.mem_cons_self _ _
    · exact h
  refine ⟨groups, g1, ?_, g3, g4, ?_⟩
  · rw [g2]
    apply forall₂_map_self
    intro g _
    exact ⟨⟨hmem g, (pickBest_best isShortTrap (g.1 :: g.2) g.1).2⟩,
      pickBest_first_best isShortTrap g.1 g.2⟩
  · intro z hz
    rw [g2, List.mem_map] at hz
    obtain ⟨g, hg, rfl⟩ := hz
    have : pickBest isShortTrap g.1 (g.1 :: g.2) ∈
        obs.insertionSort (fun a b => mid a ≤ mid b) := by
      rw [← g1, List.mem_flatMap]
      exact ⟨g, hg, hmem g⟩
    exact (List.perm_insertionSort _ _).mem_iff.1 this

end Liquidity

namespace Liquidity

/-! ## The end time of a zone is the time of a bar -/

/-- A zone that follows the mitigation rule is `ACTIVE` with `endTime` null,
or `MITIGATED` with the time of a bar after the bar it was built at as
`endTime`. -/
lemma mitigated_endTime (candles : List Bar) (i : Nat) (z : Zone)
    (h : mitigatedAtFirstTouch candles i z) :
    (z.status = .ACTIVE ∧ z.endTime = none) ∨
    (z.status = .MITIGATED ∧
      ∃ j, i < j ∧ j < candles.length ∧ z.endTime = some (nth candles j).time) := by
  classical
  obtain ⟨h1, h2, h3⟩ := h
  by_cases hex : ∃ j, i < j ∧ j < candles.length ∧ touches candles j z
  · right
    refine ⟨h1.2 hex, Nat.find hex, (Nat.find_spec hex).1, (Nat.find_spec hex).2.1, ?_⟩
    apply h2 _ (Nat.find_spec hex).1 (Nat.find_spec hex).2.1 (Nat.find_spec hex).2.2
    intro j1 hj1 hlt htouch
    exact Nat.find_min hex hlt ⟨hj1, lt_trans hlt (Nat.find_spec hex).2.1, htouch⟩
  · exact Or.inl (h3 hex)

/-- Every zone returned by `analyzeSMC` is `ACTIVE` with `endTime` null, or
`MITIGATED` with the time of a bar other than the first as `endTime`. -/
lemma analyzeSMC_endTime (candles : List Bar) (config : Config) (r : SMCResult)
    (hr : analyzeSMC candles config = .ok r) :
    ∀ z ∈ r.zones, (z.status = .ACTIVE ∧ z.endTime = none) ∨
      (z.status = .MITIGATED ∧
        ∃ j, 0 < j ∧ j < candles.length ∧ z.endTime = some (nth candles j).time) := by
  obtain ⟨r1, hr1, h⟩ := analyzeSMC_total candles config
  rw [hr] at hr1
  cases hr1
  rcases h with ⟨-, hz, -⟩ | ⟨-, hz⟩
  · rw [hz]
    intro z hzm
    cases hzm
  · intro z hzm
    rw [hz] at hzm
    have hzl := (List.mem_insertionSort _).mp hzm
    obtain ⟨i, -, hb⟩ := builtFromGap_of_mem _ _ _ z hzl
    rcases mitigated_endTime candles i z (builtFromGap_spec (envOf candles config) i z hb) with
      h | ⟨h, j, hj, hlen, he⟩
    · exact Or.inl h
    · exact Or.inr ⟨h, j, by omega, hlen, he⟩

/-- The function `runLiquidityStrategy` always returns; every returned trade
has an origin among the zones of `analyzeSMC`, each of which is `ACTIVE` with
`endTime` null or `MITIGATED` with the time of a bar as `endTime`. -/
lemma run_spec_zones (candles : List Bar) (mode : Mode) (options : Options) :
    ∃ r zones, runLiquidityStrategy candles mode options = .ok r ∧
      (∀ t ∈ r.trades, Provenance (ctxOf candles mode options zones) t) ∧
      (∀ z ∈ zones, (z.status = .ACTIVE ∧ z.endTime = none) ∨
        (z.status = .MITIGATED ∧
          ∃ j, 0 < j ∧ j < candles.length ∧ z.endTime = some (nth candles j).time)) := by
  unfold runLiquidityStrategy
  by_cases h0 : candles.length = 0
  · rw [if_pos h0]
    exact ⟨_, [], rfl, (fun t ht => by cases ht), (fun z hz => by cases hz)⟩
  · rw [if_neg h0]
    obtain ⟨smc, hsmc, -⟩ := analyzeSMC_total candles { options.config with keepTrades := true }
    rw [hsmc]
    dsimp only
    have hinv : LoopInv (ctxOf candles mode options smc.zones)
        ((brokenLinesOf candles options).foldl
          (processLine (ctxOf candles mode options smc.zones))
          { strategyTrades := [], processedOBs := [] }) := by
      apply foldl_inv (LoopInv (ctxOf candles mode options smc.zones))
      · intro a line hline ha
        unfold brokenLinesOf at hline
        have := (List.mem_filter.1 hline).2
        exact processLine_inv _ a line (of_decide_eq_true this) ha
      · exact ⟨List.nodup_nil, (fun t ht => by cases ht), (fun t ht => by cases ht)⟩
    obtain ⟨-, -, i3⟩ := hinv
    have hperm := List.perm_insertionSort (fun a b : StrategyTrade => a.time ≥ b.time)
      ((brokenLinesOf candles options).foldl
        (processLine (ctxOf candles mode options smc.zones))
        { strategyTrades := [], processedOBs := [] }).strategyTrades
    refine ⟨_, smc.zones, rfl, ?_, analyzeSMC_endTime candles _ smc hsmc⟩
    intro t ht
    exact i3 t (hperm.mem_iff.1 ht)

/-- C20.  On a series with strictly increasing bar times that do not start
before time 0 (the times are Unix epoch seconds), every trade returned by
`runLiquidityStrategy` respects causal order: the order block's candle index
is before the line's break index, the entry bar is after the break bar and
fewer than 100 bars after it, `signalTime < entryTime`, the order block was not
mitigated before the break time (it is `ACTIVE` with `endTime` null, or
`MITIGATED` at the break bar or a later bar, so that a non-null `endTime` is
not earlier than `signalTime`), and a non-null `exitTime` is later than
`entryTime`. -/
theorem trades_respect_causal_order (candles : List Bar) (mode : Mode) (options : Options)
    (htime : ∀ i j, i < j → j < candles.length → (nth candles i).time < (nth candles j).time)
    (hstart : 0 ≤ (nth candles 0).time) :
    ∃ r, runLiquidityStrategy candles mode options = .ok r ∧
      ∀ t ∈ r.trades, ∃ breakIdx entryIdx,
        (t.savedLine.status = .BROKEN ∧ t.savedLine.breakIndex = some breakIdx ∧
          t.signalTime = (nth candles breakIdx).time ∧
          t.entryTime = (nth candles entryIdx).time) ∧
        (zoneIdx t.savedOB < breakIdx ∧ breakIdx < entryIdx ∧ entryIdx < breakIdx + 100 ∧
          entryIdx < candles.length) ∧
        t.signalTime < t.entryTime ∧
        (∀ tm, t.savedOB.endTime = some tm → t.signalTime ≤ tm) ∧
        ((t.savedOB.status = .ACTIVE ∧ t.savedOB.endTime = none) ∨
          (t.savedOB.status = .MITIGATED ∧
            ∃ j, breakIdx ≤ j ∧ j < candles.length ∧
              t.savedOB.endTime = some (nth candles j).time)) ∧
        (∀ x, t.exitTime = some x → t.entryTime < x) := by
  obtain ⟨r, zones, hr, h2, hz⟩ := run_spec_zones candles mode options
  refine ⟨r, hr, fun t ht => ?_⟩
  obtain ⟨line, breakIdx, ob, e, hs, hb, -, hblen, hob, hidx, hmit, fvg, -, he, -, -, hm⟩ :=
    h2 t ht
  have hc : (ctxOf candles mode options zones).candles = candles := rfl
  rw [hc] at hmit he hm hblen
  obtain ⟨e1, e2, e3⟩ := findEntry_spec _ _ _ _ _ _ he
  obtain ⟨f1, f2, -, -, f5, f6, -, f8, -⟩ := makeTrade_fields candles
    (ctxOf candles mode options zones).mode line (decide (line.type = .DOWN))
    (nth candles breakIdx).time ob fvg e
    (entrySignalsOf (ctxOf candles mode options zones) (decide (line.type = .DOWN)) e)
    (simulateExit candles (ctxOf candles mode options zones).mode (decide (line.type = .DOWN)) e)
  rw [← hm] at f1 f2 f5 f6 f8
  have hobz : ob ∈ zones := by
    by_cases hd : decide (line.type = .DOWN) = true
    · rw [if_pos hd] at hob
      exact (List.mem_filter.1 hob).1
    · rw [if_neg hd] at hob
      exact (List.mem_filter.1 hob).1
  have hend : ∀ tm, ob.endTime = some tm → (nth candles breakIdx).time ≤ tm := by
    intro tm htm
    rcases hz ob hobz with ⟨-, hnone⟩ | ⟨-, j, hj, hjl, hej⟩
    · rw [hnone] at htm
      cases htm
    · rcases mitigatedBefore_false ob _ hmit tm htm with h0 | hle
      · exfalso
        rw [hej] at htm
        cases htm
        have hpos := htime 0 j hj hjl
        omega
      · exact hle
  refine ⟨breakIdx, e.entryIdx, ⟨by rw [f2]; exact hs, by rw [f2]; exact hb, f5, f6⟩,
    ⟨by rw [f1]; exact hidx, e1, e3, e2⟩, ?_, ?_, ?_, ?_⟩
  · rw [f5, f6]
    exact htime _ _ e1 e2
  · rw [f1, f5]
    exact hend
  · rw [f1]
    rcases hz ob hobz with h | ⟨h, j, -, hjl, hej⟩
    · exact Or.inl h
    · refine Or.inr ⟨h, j, ?_, hjl, hej⟩
      by_contra hlt
      have hlt1 : j < breakIdx := not_le.1 hlt
      have := htime j breakIdx hlt1 hblen
      have := hend _ hej
      omega
  · intro x hx
    rw [f8] at hx
    obtain ⟨k, k1, k2, k3⟩ := simulateExit_exit _ _ _ _ _ hx
    rw [f6, k3]
    exact htime _ _ k1 k2

theorem trades_respect_causal_order_witness :
    ∃ r, runLiquidityStrategy trapSeries .standard defaultOptions = .ok r ∧
      ∃ t ∈ r.trades, ∃ breakIdx entryIdx,
        (t.savedLine.status = .BROKEN ∧ t.savedLine.breakIndex = some breakIdx ∧
          t.signalTime = (nth trapSeries breakIdx).time ∧
          t.entryTime = (nth trapSeries entryIdx).time) ∧
        (zoneIdx t.savedOB < breakIdx ∧ breakIdx < entryIdx ∧ entryIdx < breakIdx + 100 ∧
          entryIdx < trapSeries.length) ∧
        t.signalTime < t.entryTime ∧
        (∀ tm, t.savedOB.endTime = some tm → t.signalTime ≤ tm) ∧
        ((t.savedOB.status = .ACTIVE ∧ t.savedOB.endTime = none) ∨
          (t.savedOB.status = .MITIGATED ∧
            ∃ j, breakIdx ≤ j ∧ j < trapSeries.length ∧
              t.savedOB.endTime = some (nth trapSeries j).time)) ∧
        (∀ x, t.exitTime = some x → t.entryTime < x) := by
  obtain ⟨r, hr, h⟩ := trades_respect_causal_order trapSeries .standard defaultOptions
    trapSeries_times (by decide)
  obtain ⟨t, ht, -⟩ := trapSeries_facts.2.2.2
  rw [tradesOf_eq _ _ _ r hr] at ht
  exact ⟨r, hr, t, ht, h t ht⟩

end Liquidity

end BtcTerminal
